import Mathlib

/-!
# Inverted-index search engine: varbyte codec, block layout, merger and posting cursors

A shallow embedding of the index writer (`indexer/merger.cpp`, `src/bm25/merger.cpp`)
and of the posting-list cursors (`InvertedList` in `indexer/query.cpp`, `InvList` in
`src/bm25/query.cpp` and `src/bm25/hybrid_query.cpp`).

Conventions of the embedding.

* A C++ `int` holding a doc id, a frequency, a byte count or a block number is a `Nat`;
  the embedding agrees with the code as long as every value stays in `[0, 2^31)`, and
  the theorems carry that bound where the code depends on it.
* A byte (`unsigned char`) is a `Nat` below 256; a byte vector or a file is a `List Nat`.
* A read past the end of a buffer or of the file, or an index past the end of a vector
  (undefined behaviour in the code) is `none`.
* Loops are structural recursions on an explicit bound that the loop can never exceed.
-/

namespace WSE

/-! ## Constants -/

/-- Source: `const int BLOCK_SIZE = 128;` (all mergers and query programs). -/
def BLOCK_SIZE : Nat := 128

/-! ## Varbyte codec -/

/-- Source: the `while (num >= 128)` loop of `varbyte_encode` (`indexer/merger.cpp`) and of
`vb_encode` (`src/bm25/merger.cpp`). The first argument bounds the number of iterations;
each iteration shifts `num` right by 7, so `num` itself is a sufficient bound. -/
def varbyte_encode_loop : Nat → Nat → List Nat → List Nat
  | 0, num, output => output ++ [num &&& 0x7F]
  | fuel + 1, num, output =>
    if num ≥ 128 then
      varbyte_encode_loop fuel (num >>> 7) (output ++ [(num &&& 0x7F) ||| 0x80])
    else output ++ [num &&& 0x7F]

/-- Source: `void varbyte_encode(int num, vector<unsigned char>& output)`; the vector passed
by reference is the second argument and the result is the vector after the call. -/
def varbyte_encode (num : Nat) (output : List Nat) : List Nat :=
  varbyte_encode_loop num num output

/-- Source: `vb_encode` of `src/bm25/merger.cpp`, the same function under another name. -/
def vb_encode (n : Nat) (out : List Nat) : List Nat :=
  varbyte_encode_loop n n out

/-- Source: the `do { ... } while (byte & 0x80)` loop of `varbyte_decode` / `vb_decode`.
The first argument is the data from the current offset on; `none` when the loop runs past
the end of the data. -/
def varbyte_decode_loop : List Nat → Nat → Nat → Nat → Option (Nat × Nat)
  | [], _, _, _ => none
  | byte :: rest, num, shift, offset =>
    if byte &&& 0x80 ≠ 0 then
      varbyte_decode_loop rest (num ||| ((byte &&& 0x7F) <<< shift)) (shift + 7) (offset + 1)
    else some (num ||| ((byte &&& 0x7F) <<< shift), offset + 1)

/-- Source: `int varbyte_decode(const unsigned char* data, int& offset)`; returns the decoded
number and the offset after the call. -/
def varbyte_decode (data : List Nat) (offset : Nat) : Option (Nat × Nat) :=
  varbyte_decode_loop (data.drop offset) 0 0 offset

/-- Source: `vb_decode` of `src/bm25/query.cpp` and `hybrid_query.cpp`, the same function. -/
def vb_decode (d : List Nat) (o : Nat) : Option (Nat × Nat) :=
  varbyte_decode_loop (d.drop o) 0 0 o

/-- The base-128 digits of `n`, least significant first, with the single digit `0` for
`n = 0` (the reading of "little-endian base-128" in the varbyte description). -/
def base128 (n : Nat) : List Nat :=
  if n = 0 then [0] else Nat.digits 128 n

/-- The spec's `bit_length(n) or 1` rounded up to whole groups of seven bits. -/
def varbyteLen (n : Nat) : Nat :=
  (max (Nat.size n) 1 + 6) / 7

/-! ## Block writer (merger side) -/

/-- Source: `invFile.write(reinterpret_cast<const char*>(&n), sizeof(int))`: the four bytes
of an `int`, least significant first (the layout the persisted format prescribes). -/
def writeInt (n : Nat) : List Nat :=
  [n % 256, n / 256 % 256, n / 65536 % 256, n / 16777216 % 256]

/-- Source: the `for (size_t i = 1; ...) deltas.push_back(docIDs[i] - docIDs[i-1])` loop of
`write_block`; `prev` is `docIDs[i-1]`. The subtraction is the one of `Nat`, which is the
one of `int` on the non-decreasing lists the merger passes. -/
def deltasFrom (prev : Nat) : List Nat → List Nat
  | [] => []
  | d :: ds => (d - prev) :: deltasFrom d ds

/-- Source: the "Delta encode docIDs" part of `write_block`: `docIDs[0]` followed by the
differences of neighbours. `write_block` is only ever called on a non-empty vector (both
call sites test it); on the empty vector, where the code reads `docIDs[0]` out of bounds,
the embedding gives the empty list. -/
def deltaEncode : List Nat → List Nat
  | [] => []
  | d :: ds => d :: deltasFrom d ds

/-- Source: `for (int delta : deltas) varbyte_encode(delta, encodedDocIDs);` (and the same
loop over `freqs`), starting from an empty vector. -/
def encodeStream (values : List Nat) : List Nat :=
  values.foldl (fun output v => varbyte_encode v output) []

/-- The state `write_block` works on: the inverted file written so far and the three
metadata vectors it appends to. -/
structure BlockOut where
  invFile : List Nat
  lastDocIDs : List Nat
  docIDSizes : List Nat
  freqSizes : List Nat
deriving DecidableEq, Repr

/-- Source: `write_block` (`indexer/merger.cpp`) and `writeBlock` (`src/bm25/merger.cpp`),
which are the same function: delta-encode, varbyte-encode both streams, write
`u32 size, bytes, u32 size, bytes`, append the block's metadata. -/
def write_block (o : BlockOut) (docIDs freqs : List Nat) : BlockOut :=
  let encodedDocIDs := encodeStream (deltaEncode docIDs)
  let encodedFreqs := encodeStream freqs
  let docIDSize := encodedDocIDs.length
  let freqSize := encodedFreqs.length
  { invFile := o.invFile ++ writeInt docIDSize ++ encodedDocIDs
                 ++ writeInt freqSize ++ encodedFreqs,
    lastDocIDs := o.lastDocIDs ++ [docIDs.getLastD 0],
    docIDSizes := o.docIDSizes ++ [docIDSize],
    freqSizes := o.freqSizes ++ [freqSize] }

/-! ## Merger main loop -/

/-- Source: `struct TermEntry` (`struct Entry` in `src/bm25/merger.cpp`): one record of a
run together with the number of the run it came from. -/
structure TermEntry where
  term : String
  docID : Nat
  freq : Nat
  fileIndex : Nat
deriving DecidableEq, Repr

/-- One line of `lexicon.txt`: `term, start_offset, start_block, total_postings, df`. -/
structure LexLine where
  term : String
  startOffset : Nat
  startBlock : Nat
  totalPostings : Nat
  df : Nat
deriving DecidableEq, Repr

/-- The local variables of the merger's `main` that live across iterations of its
`while (!pq.empty())` loop, and the files it writes. -/
structure MergeState where
  out : BlockOut
  lexFile : List LexLine
  termsProcessed : Nat
  totalPostings : Nat
  termDF : String → Nat
  currentTerm : String
  termDocIDs : List Nat
  termFreqs : List Nat
  termStartOffset : Nat
  termStartBlock : Nat

/-- Source: the initial values of the merger's locals (`currentTerm = ""`,
`termStartOffset = 0`, `termStartBlock = 0`, empty vectors, empty files). -/
def MergeState.init : MergeState :=
  { out := { invFile := [], lastDocIDs := [], docIDSizes := [], freqSizes := [] },
    lexFile := [], termsProcessed := 0, totalPostings := 0, termDF := fun _ => 0,
    currentTerm := "", termDocIDs := [], termFreqs := [],
    termStartOffset := 0, termStartBlock := 0 }

/-- Source: the "New term - finish previous" branch of the merge loop: flush the partial
block, write the lexicon line, remember where the next term starts
(`invFile.tellp()` is the number of bytes written so far). -/
def finishTerm (st : MergeState) : MergeState :=
  let out := if st.termDocIDs ≠ [] then write_block st.out st.termDocIDs st.termFreqs
             else st.out
  { st with
    out := out,
    lexFile := st.lexFile ++ [{ term := st.currentTerm, startOffset := st.termStartOffset,
                                startBlock := st.termStartBlock,
                                totalPostings := st.totalPostings,
                                df := st.termDF st.currentTerm }],
    termDocIDs := [], termFreqs := [],
    termStartOffset := out.invFile.length,
    termStartBlock := out.lastDocIDs.length,
    termsProcessed := st.termsProcessed + 1 }

/-- Source: the body of `while (!pq.empty())` for the entry just popped; the reading of the
next record of the same run and the push are part of the heap, not of this state. -/
def mergeStep (st : MergeState) (entry : TermEntry) : MergeState :=
  let st1 := if st.currentTerm ≠ "" ∧ entry.term ≠ st.currentTerm then finishTerm st else st
  let st2 := if entry.term ≠ st1.currentTerm then
      { st1 with currentTerm := entry.term,
                 termDF := Function.update st1.termDF entry.term 0,
                 totalPostings := 0 }
    else st1
  let st3 := { st2 with
      termDocIDs := st2.termDocIDs ++ [entry.docID],
      termFreqs := st2.termFreqs ++ [entry.freq],
      termDF := Function.update st2.termDF st2.currentTerm (st2.termDF st2.currentTerm + 1),
      totalPostings := st2.totalPostings + 1 }
  if st3.termDocIDs.length = BLOCK_SIZE then
    { st3 with out := write_block st3.out st3.termDocIDs st3.termFreqs,
               termDocIDs := [], termFreqs := [] }
  else st3

/-- Source: the "Process last term" part after the loop. -/
def mergeFinish (st : MergeState) : MergeState :=
  if st.currentTerm ≠ "" then
    let out := if st.termDocIDs ≠ [] then write_block st.out st.termDocIDs st.termFreqs
               else st.out
    { st with
      out := out,
      lexFile := st.lexFile ++ [{ term := st.currentTerm, startOffset := st.termStartOffset,
                                  startBlock := st.termStartBlock,
                                  totalPostings := st.totalPostings,
                                  df := st.termDF st.currentTerm }],
      termsProcessed := st.termsProcessed + 1 }
  else st

/-- The merger's `main` on the sequence of entries its priority queue pops, in pop order. -/
def mergeEntries (popped : List TermEntry) : MergeState :=
  mergeFinish (popped.foldl mergeStep MergeState.init)

/-! ## The index as the query programs see it -/

/-- The value stored under a term in the `lexicon` map:
`(start offset, start block, number of postings, df)`. -/
structure LexEntry where
  startOffset : Nat
  startBlock : Nat
  numPostings : Nat
  df : Nat
deriving DecidableEq, Repr

/-- The globals of the query programs that the cursors read (`lexicon`, `lastDocIDs`,
`docIDSizes`, `freqSizes`) and the bytes of `index/inverted_index.bin`. The map is an
association list in which an earlier pair shadows a later one. -/
structure Index where
  invFile : List Nat
  lexicon : List (String × LexEntry)
  lastDocIDs : List Nat
  docIDSizes : List Nat
  freqSizes : List Nat
deriving DecidableEq, Repr

/-- Source: the lexicon and metadata part of `loadIndex`: `lexicon[term] = ...` for every
line in file order (a later line replaces an earlier one) and the three arrays of
`metadata.bin`. The text and binary serialisation of the two files is not modelled: the
lines and the arrays are taken as the merger holds them when it writes them. -/
def loadIndex (m : MergeState) : Index :=
  { invFile := m.out.invFile,
    lexicon := m.lexFile.foldl
      (fun lex l => (l.term, { startOffset := l.startOffset, startBlock := l.startBlock,
                               numPostings := l.totalPostings, df := l.df }) :: lex) [],
    lastDocIDs := m.out.lastDocIDs,
    docIDSizes := m.out.docIDSizes,
    freqSizes := m.out.freqSizes }

/-! ## Block reader (cursor side) -/

/-- Source: `invFile->read(reinterpret_cast<char*>(&n), sizeof(int))` after a seek to `pos`:
four bytes, least significant first; `none` when the file ends before. -/
def readInt (file : List Nat) (pos : Nat) : Option Nat :=
  match file.drop pos with
  | b0 :: b1 :: b2 :: b3 :: _ => some (b0 + 256 * b1 + 65536 * b2 + 16777216 * b3)
  | _ => none

/-- Source: `invFile->read(block.data(), n)`: the next `n` bytes from `pos`; `none` when the
file ends before. -/
def readBytes (file : List Nat) (pos n : Nat) : Option (List Nat) :=
  if pos + n ≤ file.length then some ((file.drop pos).take n) else none

/-- Source: the `for (int i = startBlock; i < blockIdx; i++) offset += sizeof(int) +
docIDSizes[i] + sizeof(int) + freqSizes[i];` loop of `decompressBlock`; the first argument
is the number of iterations left, `i` the loop variable. -/
def blockOffsetLoop (docIDSizes freqSizes : List Nat) : Nat → Nat → Nat → Option Nat
  | 0, _, offset => some offset
  | k + 1, i, offset =>
    match docIDSizes[i]?, freqSizes[i]? with
    | some d, some f => blockOffsetLoop docIDSizes freqSizes k (i + 1) (offset + (4 + d + 4 + f))
    | _, _ => none

/-- Source: the `while (offset_docID < docIDSize) currentDocIDs.push_back(varbyte_decode(...))`
loop of `decompressBlock`. Every call of `varbyte_decode` advances the offset, so `size`
iterations are a bound; the first argument counts them down. -/
def decodeStreamLoop : Nat → List Nat → Nat → Nat → List Nat → Option (List Nat)
  | 0, _, offset, size, acc => if offset < size then none else some acc
  | fuel + 1, data, offset, size, acc =>
    if offset < size then
      match varbyte_decode data offset with
      | none => none
      | some (v, offset') => decodeStreamLoop fuel data offset' size (acc ++ [v])
    else some acc

/-- The decode loop from offset 0 over a buffer of `size` bytes. -/
def decodeStream (data : List Nat) (size : Nat) : Option (List Nat) :=
  decodeStreamLoop size data 0 size []

/-- Source: `for (size_t i = 1; i < currentDocIDs.size(); i++) currentDocIDs[i] +=
currentDocIDs[i-1];`; `prev` is the already updated `currentDocIDs[i-1]`. -/
def prefixSumFrom (prev : Nat) : List Nat → List Nat
  | [] => []
  | d :: ds => (prev + d) :: prefixSumFrom (prev + d) ds

/-- The in-place prefix sum of `decompressBlock`, element 0 unchanged. -/
def prefixSum : List Nat → List Nat
  | [] => []
  | d :: ds => d :: prefixSumFrom d ds

/-- What `decompressBlock` reads and decodes at byte `offset` of the inverted file: the
two sizes it reads and the decoded doc ids and frequencies. -/
def readBlock (file : List Nat) (offset : Nat) : Option (Nat × Nat × List Nat × List Nat) :=
  match readInt file offset with
  | none => none
  | some docIDSize =>
    match readBytes file (offset + 4) docIDSize with
    | none => none
    | some docIDBlock =>
      match readInt file (offset + 4 + docIDSize) with
      | none => none
      | some freqSize =>
        match readBytes file (offset + 4 + docIDSize + 4) freqSize with
        | none => none
        | some freqBlock =>
          match decodeStream docIDBlock docIDSize, decodeStream freqBlock freqSize with
          | some ds, some fs => some (docIDSize, freqSize, prefixSum ds, fs)
          | _, _ => none

/-! ## `InvertedList` (indexer/query.cpp) -/

/-- Source: the data members of `class InvertedList` (the file pointer is the `Index`, the
term is only used by the constructor). -/
structure InvertedList where
  startOffset : Nat
  startBlock : Nat
  numPostings : Nat
  currentBlockIdx : Nat
  currentDocIDs : List Nat
  currentFreqs : List Nat
  positionInBlock : Nat
  finished : Bool
deriving DecidableEq, Repr

/-- Source: the expression `startBlock + (numPostings + BLOCK_SIZE - 1) / BLOCK_SIZE`, the
exclusive upper block bound of the term, written out four times in `InvertedList`. -/
def InvertedList.endBlock (l : InvertedList) : Nat :=
  l.startBlock + (l.numPostings + BLOCK_SIZE - 1) / BLOCK_SIZE

/-- Source: `InvertedList::decompressBlock(int blockIdx)`. -/
def InvertedList.decompressBlock (idx : Index) (l : InvertedList) (blockIdx : Nat) :
    Option InvertedList :=
  let l1 := { l with currentDocIDs := [], currentFreqs := [] }
  if blockIdx ≥ l.endBlock then some { l1 with finished := true }
  else
    match blockOffsetLoop idx.docIDSizes idx.freqSizes (blockIdx - l.startBlock) l.startBlock
        l.startOffset with
    | none => none
    | some offset =>
      match readBlock idx.invFile offset with
      | none => none
      | some (_, _, docs, freqs) =>
        some { l1 with currentDocIDs := docs, currentFreqs := freqs, positionInBlock := 0 }

/-- Source: the constructor `InvertedList(ifstream* file, const string& t)`. For a term that
is not in the lexicon the code leaves the numeric members uninitialised; they are 0 here. -/
def InvertedList.new (idx : Index) (t : String) : Option InvertedList :=
  match idx.lexicon.lookup t with
  | none => some { startOffset := 0, startBlock := 0, numPostings := 0, currentBlockIdx := 0,
                   currentDocIDs := [], currentFreqs := [], positionInBlock := 0,
                   finished := true }
  | some e =>
    InvertedList.decompressBlock idx
      { startOffset := e.startOffset, startBlock := e.startBlock, numPostings := e.numPostings,
        currentBlockIdx := e.startBlock, currentDocIDs := [], currentFreqs := [],
        positionInBlock := 0, finished := false } e.startBlock

/-- Source: the block-skipping `while` loop of `nextGEQ` without the reload:
`while (cur < end) { if (lastDocIDs[cur] >= target) break; cur++; }`. The first argument is
`end - cur`. Returns the block index after the loop and whether the loop left by `break`. -/
def skipBlocks (lastDocIDs : List Nat) (target : Nat) : Nat → Nat → Option (Nat × Bool)
  | 0, cur => some (cur, false)
  | k + 1, cur =>
    match lastDocIDs[cur]? with
    | none => none
    | some last => if last ≥ target then some (cur, true) else skipBlocks lastDocIDs target k (cur + 1)

/-- Source: the in-block scan of `nextGEQ`:
`while (pos < size) { if (docs[pos] >= target) return true; pos++; }`. The list is the
decoded block from `pos` on; the result is the position of the hit, `none` when the loop
runs to the end of the block. -/
def scanFrom (target : Nat) : List Nat → Nat → Option Nat
  | [], _ => none
  | d :: ds, pos => if d ≥ target then some pos else scanFrom target ds (pos + 1)

/-- Source: `bool InvertedList::nextGEQ(int targetDocID)`, returning the result and the
cursor after the call. The first argument bounds the depth of the recursion. -/
def InvertedList.nextGEQFuel : Nat → Index → InvertedList → Nat → Option (Bool × InvertedList)
  | 0, _, _, _ => none
  | fuel + 1, idx, l, target =>
    if l.finished then some (false, l)
    else
      match skipBlocks idx.lastDocIDs target (l.endBlock - l.currentBlockIdx)
          l.currentBlockIdx with
      | none => none
      | some (cur, found) =>
        let l1 := { l with currentBlockIdx := cur }
        let reload := found && (l1.currentDocIDs.isEmpty
                        || decide (l1.positionInBlock ≥ l1.currentDocIDs.length))
        match (if reload then InvertedList.decompressBlock idx l1 cur else some l1) with
        | none => none
        | some l2 =>
          if l2.finished then some (false, l2)
          else
            match scanFrom target (l2.currentDocIDs.drop l2.positionInBlock)
                l2.positionInBlock with
            | some pos => some (true, { l2 with positionInBlock := pos })
            | none =>
              let l3 := { l2 with
                positionInBlock := max l2.positionInBlock l2.currentDocIDs.length,
                currentBlockIdx := l2.currentBlockIdx + 1 }
              if l3.currentBlockIdx ≥ l3.endBlock then some (false, { l3 with finished := true })
              else
                match InvertedList.decompressBlock idx l3 l3.currentBlockIdx with
                | none => none
                | some l4 => InvertedList.nextGEQFuel fuel idx l4 target

/-- The method `nextGEQ`: every recursive call is made with a larger block index below the
term's block bound, so `end - cur + 1` levels always suffice. -/
def InvertedList.nextGEQ (idx : Index) (l : InvertedList) (target : Nat) :
    Option (Bool × InvertedList) :=
  InvertedList.nextGEQFuel (l.endBlock - l.currentBlockIdx + 1) idx l target

/-- Source: `bool InvertedList::hasNext()`. -/
def InvertedList.hasNext (l : InvertedList) : Bool :=
  !l.finished && decide (l.positionInBlock < l.currentDocIDs.length)

/-- Source: `int InvertedList::getDocID()`; the result is an `int`, -1 off a posting. -/
def InvertedList.getDocID (l : InvertedList) : Int :=
  if !l.hasNext then -1 else (l.currentDocIDs.getD l.positionInBlock 0 : Nat)

/-- Source: `int InvertedList::getFrequency()`. Past the end of `currentFreqs` (a block
with fewer frequencies than doc ids, where the code reads out of bounds) it gives 0. -/
def InvertedList.getFrequency (l : InvertedList) : Int :=
  if !l.hasNext then 0 else (l.currentFreqs.getD l.positionInBlock 0 : Nat)

/-- Source: `void InvertedList::next()`. -/
def InvertedList.next (idx : Index) (l : InvertedList) : Option InvertedList :=
  let l1 := { l with positionInBlock := l.positionInBlock + 1 }
  if l1.positionInBlock ≥ l1.currentDocIDs.length then
    let l2 := { l1 with currentBlockIdx := l1.currentBlockIdx + 1 }
    if l2.currentBlockIdx < l2.endBlock then InvertedList.decompressBlock idx l2 l2.currentBlockIdx
    else some { l2 with finished := true }
  else some l1

/-- Source: the posting loop of `processDisjunctiveQuery`,
`while (list.hasNext()) { docID = list.getDocID(); freq = list.getFrequency(); ...; list.next(); }`,
collecting the `(docID, freq)` pairs it visits. The first argument bounds the number of
iterations; `none` when the bound is used up before `hasNext()` turns false. -/
def InvertedList.collect : Nat → Index → InvertedList → Option (List (Int × Int))
  | 0, _, l => if l.hasNext then none else some []
  | fuel + 1, idx, l =>
    if l.hasNext then
      match InvertedList.next idx l with
      | none => none
      | some l1 =>
        match InvertedList.collect fuel idx l1 with
        | none => none
        | some rest => some ((l.getDocID, l.getFrequency) :: rest)
    else some []

/-- Source: `InvertedList list(invFile, term); list.nextGEQ(0); while (list.hasNext()) ...`
of `processDisjunctiveQuery`: the postings the loop visits for one term. -/
def InvertedList.iterate (fuel : Nat) (idx : Index) (t : String) : Option (List (Int × Int)) :=
  match InvertedList.new idx t with
  | none => none
  | some l =>
    match InvertedList.nextGEQ idx l 0 with
    | none => none
    | some (_, l1) => InvertedList.collect fuel idx l1

/-! ## `InvList` (src/bm25/query.cpp, src/bm25/hybrid_query.cpp) -/

/-- Source: the data members of `class InvList` (the `ifstream f` is the `Index`). -/
structure InvList where
  off : Nat
  sb : Nat
  np : Nat
  bi : Nat
  pi : Nat
  docs : List Nat
  freqs : List Nat
  done : Bool
deriving DecidableEq, Repr

/-- Source: the expression `sb + (np + BLOCK_SIZE - 1) / BLOCK_SIZE` of `InvList`. -/
def InvList.endBlock (l : InvList) : Nat :=
  l.sb + (l.np + BLOCK_SIZE - 1) / BLOCK_SIZE

/-- Source: `void InvList::load()`, which loads block `bi`. -/
def InvList.load (idx : Index) (l : InvList) : Option InvList :=
  let l1 := { l with docs := [], freqs := [] }
  if l.bi ≥ l.endBlock then some { l1 with done := true }
  else
    match blockOffsetLoop idx.docIDSizes idx.freqSizes (l.bi - l.sb) l.sb l.off with
    | none => none
    | some o =>
      match readBlock idx.invFile o with
      | none => none
      | some (_, _, docs, freqs) => some { l1 with docs := docs, freqs := freqs, pi := 0 }

/-- Source: the constructor `InvList(const string& t)`. For a term that is not in the
lexicon the code leaves the numeric members uninitialised; they are 0 here. -/
def InvList.new (idx : Index) (t : String) : Option InvList :=
  match idx.lexicon.lookup t with
  | none => some { off := 0, sb := 0, np := 0, bi := 0, pi := 0, docs := [], freqs := [],
                   done := true }
  | some e =>
    InvList.load idx { off := e.startOffset, sb := e.startBlock, np := e.numPostings,
                       bi := e.startBlock, pi := 0, docs := [], freqs := [], done := false }

/-- Source: `bool InvList::nextGEQ(int tgt)`, returning the result and the cursor after the
call. The first argument bounds the depth of the recursion. -/
def InvList.nextGEQFuel : Nat → Index → InvList → Nat → Option (Bool × InvList)
  | 0, _, _, _ => none
  | fuel + 1, idx, l, tgt =>
    if l.done then some (false, l)
    else
      match skipBlocks idx.lastDocIDs tgt (l.endBlock - l.bi) l.bi with
      | none => none
      | some (cur, found) =>
        let l1 := { l with bi := cur }
        let reload := found && (l1.docs.isEmpty || decide (l1.pi ≥ l1.docs.length))
        match (if reload then InvList.load idx l1 else some l1) with
        | none => none
        | some l2 =>
          if l2.done then some (false, l2)
          else
            match scanFrom tgt (l2.docs.drop l2.pi) l2.pi with
            | some pos => some (true, { l2 with pi := pos })
            | none =>
              match InvList.load idx { l2 with pi := max l2.pi l2.docs.length,
                                               bi := l2.bi + 1 } with
              | none => none
              | some l3 => InvList.nextGEQFuel fuel idx l3 tgt

/-- The method `nextGEQ`: a recursive call is made either on a cursor that `load` has marked
done, or with a larger block index below the term's bound, so `end - bi + 2` levels
always suffice. -/
def InvList.nextGEQ (idx : Index) (l : InvList) (tgt : Nat) : Option (Bool × InvList) :=
  InvList.nextGEQFuel (l.endBlock - l.bi + 2) idx l tgt

/-- Source: `bool has() { return !done && pi < (int)docs.size(); }`. -/
def InvList.has (l : InvList) : Bool :=
  !l.done && decide (l.pi < l.docs.length)

/-- Source: `int doc() { return docs[pi]; }`. -/
def InvList.doc (l : InvList) : Option Nat := l.docs[l.pi]?

/-- Source: `int freq() { return freqs[pi]; }`. -/
def InvList.freq (l : InvList) : Option Nat := l.freqs[l.pi]?

/-- Source: `void next() { pi++; }`. -/
def InvList.next (l : InvList) : InvList := { l with pi := l.pi + 1 }

/-- Source: the posting loop of `query` and `queryBM25`,
`while (l.has()) { int d = l.doc(), f = l.freq(); ...; l.next(); }`, collecting the `(d, f)`
pairs it visits. The first argument bounds the number of iterations; `none` when the bound
is used up before `has()` turns false. -/
def InvList.collect : Nat → InvList → Option (List (Nat × Nat))
  | 0, l => if l.has then none else some []
  | fuel + 1, l =>
    if l.has then
      match l.doc, l.freq, InvList.collect fuel l.next with
      | some d, some f, some rest => some ((d, f) :: rest)
      | _, _, _ => none
    else some []

/-- Source: `InvList l(t); l.nextGEQ(0); while (l.has()) ...` of `query` / `queryBM25`: the
postings the loop visits for one term. -/
def InvList.iterate (fuel : Nat) (idx : Index) (t : String) : Option (List (Nat × Nat)) :=
  match InvList.new idx t with
  | none => none
  | some l =>
    match InvList.nextGEQ idx l 0 with
    | none => none
    | some (_, l1) => InvList.collect fuel l1

/-! ## Notions used to state the properties -/

/-- The concatenation of the varbyte encodings of a list of numbers. -/
def encodeAll : List Nat → List Nat
  | [] => []
  | v :: vs => varbyte_encode v [] ++ encodeAll vs

/-- The bytes of one block in the inverted file, as the persisted layout prescribes:
`u32 doc_bytes, doc_bytes bytes, u32 freq_bytes, freq_bytes bytes`. -/
def blockBytes (docIDs freqs : List Nat) : List Nat :=
  writeInt (encodeAll (deltaEncode docIDs)).length ++ encodeAll (deltaEncode docIDs)
    ++ writeInt (encodeAll freqs).length ++ encodeAll freqs

/-- A posting is a `(doc_id, tf)` pair. -/
abbrev Posting := Nat × Nat

/-- The blocks of one term: postings are gathered into a pending block that is closed as
soon as it holds `BLOCK_SIZE` postings; what is pending at the end forms the last block. -/
def chunkAux : List Posting → List Posting → List (List Posting)
  | pending, [] => if pending = [] then [] else [pending]
  | pending, p :: ps =>
    if (pending ++ [p]).length = BLOCK_SIZE then (pending ++ [p]) :: chunkAux [] ps
    else chunkAux (pending ++ [p]) ps

/-- The blocks of a posting list. -/
def chunks (ps : List Posting) : List (List Posting) := chunkAux [] ps

/-- The bytes of consecutive blocks in the inverted file. -/
def chunksBytes : List (List Posting) → List Nat
  | [] => []
  | c :: cs => blockBytes (c.map Prod.fst) (c.map Prod.snd) ++ chunksBytes cs

/-- The `doc_bytes` of a block: the length of its varbyte-encoded delta stream. -/
def chunkDocBytes (c : List Posting) : Nat :=
  (encodeAll (deltaEncode (c.map Prod.fst))).length

/-- The `freq_bytes` of a block: the length of its varbyte-encoded frequency stream. -/
def chunkFreqBytes (c : List Posting) : Nat :=
  (encodeAll (c.map Prod.snd)).length

/-- The `last_doc_id` of a block. -/
def chunkLast (c : List Posting) : Nat :=
  (c.map Prod.fst).getLastD 0

/-- The physical layout of one term with lexicon entry `e` and blocks `cs` in an index: the
term's blocks are contiguous in the inverted file from `e.startOffset` and contiguous in the
three skip arrays from `e.startBlock`; `ceil(numPostings / BLOCK_SIZE)` is their number;
every block is non-empty, holds at most `BLOCK_SIZE` postings with `int` values, and the doc
ids increase strictly along the whole list. -/
structure TermLayout (idx : Index) (e : LexEntry) (cs : List (List Posting)) : Prop where
  file : ∃ pre post, idx.invFile = pre ++ (chunksBytes cs ++ post) ∧ pre.length = e.startOffset
  lasts : ∃ a b, idx.lastDocIDs = a ++ (cs.map chunkLast ++ b) ∧ a.length = e.startBlock
  dsizes : ∃ a b, idx.docIDSizes = a ++ (cs.map chunkDocBytes ++ b) ∧ a.length = e.startBlock
  fsizes : ∃ a b, idx.freqSizes = a ++ (cs.map chunkFreqBytes ++ b) ∧ a.length = e.startBlock
  count : (e.numPostings + BLOCK_SIZE - 1) / BLOCK_SIZE = cs.length
  blocks : ∀ c ∈ cs, c ≠ [] ∧ c.length ≤ BLOCK_SIZE ∧ ∀ p ∈ c, p.1 < 2 ^ 31 ∧ p.2 < 2 ^ 31
  sorted : (cs.flatten.map Prod.fst).Pairwise (· < ·)

/-- The `InvertedList` of a term with lexicon entry `e` that stands on posting `p` of the
decoded block `c`, which is block number `j` of the term. -/
def cursorAt (e : LexEntry) (j : Nat) (c : List Posting) (p : Nat) : InvertedList :=
  { startOffset := e.startOffset, startBlock := e.startBlock, numPostings := e.numPostings,
    currentBlockIdx := e.startBlock + j, currentDocIDs := c.map Prod.fst,
    currentFreqs := c.map Prod.snd, positionInBlock := p, finished := false }

/-- A posting as the query loop reads it through `getDocID()` and `getFrequency()`. -/
def Posting.toInt (p : Posting) : Int × Int := ((p.1 : Int), (p.2 : Int))

/-- The doc id under the cursor (`currentDocIDs[positionInBlock]`), which `getDocID()`
returns while `hasNext()` holds. -/
def InvertedList.curDoc (l : InvertedList) : Nat :=
  l.currentDocIDs.getD l.positionInBlock 0

/-! ## Notions used to describe what the merger writes -/

/-- `write_block` on a block of postings. -/
def writeChunk (o : BlockOut) (c : List Posting) : BlockOut :=
  write_block o (c.map Prod.fst) (c.map Prod.snd)

/-- The blocks of a term written one after the other. -/
def writeChunks (o : BlockOut) (cs : List (List Posting)) : BlockOut :=
  cs.foldl writeChunk o

/-- The merger's handling of one term's postings, seen from the output: each posting joins the
pending block, and a pending block of `BLOCK_SIZE` postings is written at once. -/
def feed : BlockOut → List Posting → List Posting → BlockOut × List Posting
  | o, pending, [] => (o, pending)
  | o, pending, p :: ps =>
    if (pending ++ [p]).length = BLOCK_SIZE then feed (writeChunk o (pending ++ [p])) [] ps
    else feed o (pending ++ [p]) ps

/-- The flush of the pending block when a term ends. -/
def flush (o : BlockOut) (pending : List Posting) : BlockOut :=
  if pending ≠ [] then writeChunk o pending else o

/-- A merger state in the middle of term `t`: `n` postings of the term read, the block
`pending` in flight. -/
def stateOf (o : BlockOut) (lex : List LexLine) (tp n : Nat) (df : String → Nat) (t : String)
    (pending : List Posting) (off blk : Nat) : MergeState :=
  { out := o, lexFile := lex, termsProcessed := tp, totalPostings := n, termDF := df,
    currentTerm := t, termDocIDs := pending.map Prod.fst, termFreqs := pending.map Prod.snd,
    termStartOffset := off, termStartBlock := blk }

/-- The entries of one term in pop order: `(doc, freq, run)` triples under the term. -/
def termEntries (t : String) (ps : List (Nat × Nat × Nat)) : List TermEntry :=
  ps.map (fun p => { term := t, docID := p.1, freq := p.2.1, fileIndex := p.2.2 })

/-- The postings of one term, without the run numbers. -/
def postingsOfTriples (ps : List (Nat × Nat × Nat)) : List Posting :=
  ps.map (fun p => (p.1, p.2.1))

/-- The popped sequence made of the groups of consecutive entries of each term. -/
def groupEntries : List (String × List (Nat × Nat × Nat)) → List TermEntry
  | [] => []
  | g :: gs => termEntries g.1 g.2 ++ groupEntries gs

/-- The inverted file and skip table after the blocks of all groups are written. -/
def writeGroups (o : BlockOut) : List (String × List (Nat × Nat × Nat)) → BlockOut
  | [] => o
  | g :: gs => writeGroups (writeChunks o (chunks (postingsOfTriples g.2))) gs

/-- The lexicon lines of the groups, the first one starting at byte `off` and block `blk`. -/
def lexLines : List (String × List (Nat × Nat × Nat)) → Nat → Nat → List LexLine
  | [], _, _ => []
  | g :: gs, off, blk =>
    { term := g.1, startOffset := off, startBlock := blk, totalPostings := g.2.length,
      df := g.2.length }
      :: lexLines gs (off + (chunksBytes (chunks (postingsOfTriples g.2))).length)
           (blk + (chunks (postingsOfTriples g.2)).length)

/-- All blocks of all groups, in the order they are written. -/
def allChunks (gs : List (String × List (Nat × Nat × Nat))) : List (List Posting) :=
  (gs.map (fun g => chunks (postingsOfTriples g.2))).flatten

/-- The groups a merger run is made of: every term occurs in one group only and is not the
empty string, every group has a posting, the doc ids of a group increase strictly, and doc
ids and frequencies are non-negative `int` values. -/
def ValidGroups (gs : List (String × List (Nat × Nat × Nat))) : Prop :=
  (gs.map Prod.fst).Nodup ∧
  ∀ g ∈ gs, g.1 ≠ "" ∧ g.2 ≠ [] ∧ ((postingsOfTriples g.2).map Prod.fst).Pairwise (· < ·)
    ∧ ∀ p ∈ g.2, p.1 < 2 ^ 31 ∧ p.2.1 < 2 ^ 31

/-- The empty inverted file and skip table the merger starts from. -/
def BlockOut.empty : BlockOut :=
  { invFile := [], lastDocIDs := [], docIDSizes := [], freqSizes := [] }

/-- The lexicon entry the merger writes for the term of a group. -/
def groupEntry (gs1 : List (String × List (Nat × Nat × Nat))) (ps : List (Nat × Nat × Nat)) :
    LexEntry :=
  { startOffset := (chunksBytes (allChunks gs1)).length, startBlock := (allChunks gs1).length,
    numPostings := ps.length, df := ps.length }

/-- The order of the merger's priority queue (`operator>` of `TermEntry`, used through
`greater<>`): by term, then by doc id. -/
def entryLt (a b : TermEntry) : Prop :=
  a.term < b.term ∨ (a.term = b.term ∧ a.docID < b.docID)

/-- The sequences the merger's priority queue pops when the runs are sorted and no
`(term, doc_id)` pair occurs twice: strictly ascending by `(term, doc_id)`, with terms as
the analyzer emits them (never empty) and non-negative `int` doc ids and frequencies. -/
def SortedEntries (popped : List TermEntry) : Prop :=
  popped.Pairwise entryLt ∧ ∀ e ∈ popped, e.term ≠ "" ∧ e.docID < 2 ^ 31 ∧ e.freq < 2 ^ 31

/-- The posting list of a term: the `(doc_id, tf)` pairs of its entries, in pop order. -/
def postingsOfTerm (popped : List TermEntry) (t : String) : List Posting :=
  (popped.filter (fun e => e.term = t)).map (fun e => (e.docID, e.freq))

/-- An entry as a `(doc, freq, run)` triple. -/
def TermEntry.triple (e : TermEntry) : Nat × Nat × Nat := (e.docID, e.freq, e.fileIndex)

/-- The states an `InvertedList` for term `t` can be in: the state the constructor leaves,
and every state a call of `nextGEQ` or of `next` leaves from such a state. -/
inductive Reachable (idx : Index) (t : String) : InvertedList → Prop
  | new (l : InvertedList) : InvertedList.new idx t = some l → Reachable idx t l
  | nextGEQ (l l' : InvertedList) (target : Nat) (b : Bool) :
      Reachable idx t l → InvertedList.nextGEQ idx l target = some (b, l') → Reachable idx t l'
  | next (l l' : InvertedList) :
      Reachable idx t l → InvertedList.next idx l = some l' → Reachable idx t l'

/-- Successive `nextGEQ` calls on one cursor, one per target: for every call its result
and what `getDocID()` gives after it. -/
def InvertedList.runTargets (idx : Index) : InvertedList → List Nat → Option (List (Bool × Int))
  | _, [] => some []
  | l, t :: ts =>
    match InvertedList.nextGEQ idx l t with
    | none => none
    | some (b, l') =>
      match InvertedList.runTargets idx l' ts with
      | none => none
      | some rest => some ((b, l'.getDocID) :: rest)

/-- A cursor is in order when it is finished or stands on a posting of a block of its term,
with that block decoded. -/
def InOrder (e : LexEntry) (cs : List (List Posting)) (l : InvertedList) : Prop :=
  l.finished = true ∨
    ∃ j blk p, cs[j]? = some blk ∧ p < blk.length ∧ l = cursorAt e j blk p

/-! ## A two-block term -/

/-- The pop sequence of a term `"t"` with the 129 postings `(0, 1), (1, 1), ..., (128, 1)`,
all from run 0: one more posting than a block holds. -/
def popped129 : List TermEntry :=
  (List.range 129).map (fun i => { term := "t", docID := i, freq := 1, fileIndex := 0 })

/-- The index the merger writes for `popped129`: block 0 holds the doc ids 0 to 127, block 1
the doc id 128. -/
def index129 : Index := loadIndex (mergeEntries popped129)

/-- A small pop sequence with two terms, `"a"` in documents 1 and 5, `"b"` in documents
2, 3 and 9. -/
def poppedSmall : List TermEntry :=
  [⟨"a", 1, 2, 0⟩, ⟨"a", 5, 1, 1⟩, ⟨"b", 2, 1, 0⟩, ⟨"b", 3, 4, 0⟩, ⟨"b", 9, 1, 1⟩]

/-- The cursor the constructor builds for the term `"b"` of the index of `poppedSmall`. -/
def cursorSmallB : InvertedList :=
  { startOffset := 12, startBlock := 1, numPostings := 3, currentBlockIdx := 1,
    currentDocIDs := [2, 3, 9], currentFreqs := [1, 4, 1], positionInBlock := 0,
    finished := false }

/-! ## Blocks per term, read off the merger's output -/

/-- The number of blocks of each term of the lexicon file, in file order: from the term's
start block up to the start block of the next term, and for the last term up to the end of
the skip table (`total` blocks). -/
def blocksPerTerm : List LexLine → Nat → List Nat
  | [], _ => []
  | [l], total => [total - l.startBlock]
  | l :: l' :: ls, total => (l'.startBlock - l.startBlock) :: blocksPerTerm (l' :: ls) total

/-! ## Score maps, ranking, reciprocal rank fusion (src/bm25/hybrid_query.cpp) -/

/-- Source: `const int ... RRF_K = 60`. -/
def RRF_K : Nat := 60

/-- Source: `const int ... TOP_K = 1000` (the literal `1000` in `query` of
`src/bm25/query.cpp`). -/
def TOP_K : Nat := 1000

/-- Source: `m[k] += s` on an `unordered_map<K, double>`: a key that is missing is inserted
with the value `0` first. The map is an association list with one pair per key, in order
of insertion; the order in which the C++ map is iterated is unspecified, and nothing proved
below depends on it. -/
def addScore {K S : Type} [DecidableEq K] [Add S] [Zero S] : List (K × S) → K → S → List (K × S)
  | [], k, s => [(k, 0 + s)]
  | (k', v) :: m, k, s => if k' = k then (k', v + s) :: m else (k', v) :: addScore m k s

/-- Source: `sort(r.begin(), r.end(), [](auto& a, auto& b) { return a.second > b.second; })`.
`std::sort` fixes the result only up to the order of equal scores; the embedding takes the
insertion sort, one of the admissible results. -/
def sortByScoreDesc {K S : Type} [LinearOrder S] (r : List (K × S)) : List (K × S) :=
  r.insertionSort (fun a b => a.2 ≥ b.2)

/-- Source: `sort(...)` followed by `if (r.size() > TOP_K) r.resize(TOP_K);`. -/
def rankTopK {K S : Type} [LinearOrder S] (r : List (K × S)) : List (K × S) :=
  (sortByScoreDesc r).take TOP_K

/-- Source: the summand `1.0 / (RRF_K + i + 1)` of `fuse` for the 0-based position `i`. -/
def rrfTerm {S : Type} [DivisionRing S] (i : Nat) : S :=
  1 / ((RRF_K + i + 1 : Nat) : S)

/-- Source: `docIdMap[id]` on the `unordered_map<int, string>`: the external id of a doc id,
the empty string for an id that is not in the page table. -/
def extOf (docIdMap : List (Nat × String)) (id : Nat) : String :=
  (docIdMap.lookup id).getD ""

/-- Source: `for (size_t i = 0; i < bm.size(); i++) sc[docIdMap[bm[i].first]] += 1.0 / (RRF_K + i + 1);`
from position `i` on. -/
def fuseBM {S : Type} [DivisionRing S] (docIdMap : List (Nat × String)) :
    List (Nat × S) → Nat → List (String × S) → List (String × S)
  | [], _, sc => sc
  | p :: bm, i, sc => fuseBM docIdMap bm (i + 1) (addScore sc (extOf docIdMap p.1) (rrfTerm i))

/-- Source: `for (size_t i = 0; i < dn.size(); i++) sc[passageIds[dn[i].first]] += 1.0 / (RRF_K + i + 1);`
from position `i` on; `none` when a row number is past the end of `passageIds`. -/
def fuseDense {S : Type} [DivisionRing S] (passageIds : List String) :
    List (Nat × S) → Nat → List (String × S) → Option (List (String × S))
  | [], _, sc => some sc
  | p :: dn, i, sc =>
    match passageIds[p.1]? with
    | none => none
    | some x => fuseDense passageIds dn (i + 1) (addScore sc x (rrfTerm i))

/-- Source: `fuse(bm, dn)` of `hybrid_query.cpp`, with the globals `docIdMap` and
`passageIds` as arguments. Scores are elements of a linearly ordered field (the real
numbers for the `double` arithmetic of the code). -/
def fuse {S : Type} [LinearOrderedField S] (docIdMap : List (Nat × String))
    (passageIds : List String) (bm dn : List (Nat × S)) : Option (List (String × S)) :=
  match fuseDense passageIds dn 0 (fuseBM docIdMap bm 0 []) with
  | none => none
  | some sc => some (rankTopK sc)

/-- The contribution of a ranking, given as the list of its external ids in rank order, to
the fused score of `x`: `1 / (RRF_K + r)` for the 1-based rank `r` of `x`, nothing when `x`
is not in the ranking. -/
def rrfOf {S : Type} [DivisionRing S] (ranking : List String) (x : String) : S :=
  if x ∈ ranking then 1 / ((RRF_K + (ranking.indexOf x + 1) : Nat) : S) else 0

/-- The value stored under a key of a score map, `0` for a missing key. -/
def scoreAt {K S : Type} [DecidableEq K] [Zero S] : List (K × S) → K → S
  | [], _ => 0
  | (k', v) :: m, k => if k' = k then v else scoreAt m k

/-- Positions `i, i+1, ...` of a ranking added to a score map: what both loops of `fuse` do
with the external ids of their ranking. -/
def accumRRF {S : Type} [DivisionRing S] : List String → Nat → List (String × S) → List (String × S)
  | [], _, sc => sc
  | x :: xs, i, sc => accumRRF xs (i + 1) (addScore sc x (rrfTerm i))

/-- The page table and passage-id list of the four documents `A`, `B`, `C`, `D` with the
doc ids and embedding rows 0, 1, 2, 3. -/
def docIdMapABCD : List (Nat × String) := [(0, "A"), (1, "B"), (2, "C"), (3, "D")]

/-- The passage ids of the embedding rows 0 to 3. -/
def passageIdsABCD : List String := ["A", "B", "C", "D"]

/-! ## BM25 and the term-at-a-time scorer `query` / `queryBM25` (src/bm25) -/

/-- Source: `const double K1 = 1.2`. -/
def K1 {S : Type} [DivisionRing S] : S := 12 / 10

/-- Source: `const double ... B = 0.75`. -/
def B {S : Type} [DivisionRing S] : S := 75 / 100

/-- The globals of the query programs that the scorers read: `docLengths`, the number of
documents (`totalDocs`, `totalDocuments`) and the average document length (`avgLen`,
`avgDocLength`). -/
structure ScoreEnv (S : Type) where
  docLengths : List (Nat × Nat)
  totalDocs : Nat
  avgLen : S

/-- Source: `double bm25(int tf, int dl, int df)` of `src/bm25/query.cpp` and
`hybrid_query.cpp`. Scores are elements of a field `S` (the real numbers for the `double`
arithmetic of the code) and the natural logarithm is the argument `log`. -/
def bm25 {S : Type} [Field S] (log : S → S) (env : ScoreEnv S) (tf dl df : Nat) : S :=
  log (((env.totalDocs : S) - (df : S) + 1 / 2) / ((df : S) + 1 / 2)) *
    (((tf : S) * (K1 + 1)) / ((tf : S) + K1 * (1 - B + B * ((dl : S) / env.avgLen))))

/-- Source: `docLengths[d]` on the `unordered_map<int, int>`: 0 for a missing key. -/
def docLengthOf {S : Type} (env : ScoreEnv S) (d : Nat) : Nat :=
  (env.docLengths.lookup d).getD 0

/-- Source: the body of the posting loop of `query` / `queryBM25` for one posting `(d, f)`:
`if (sc[d] == 0) touched.push_back(d); sc[d] += bm25(f, docLengths[d], df);` on the state
`(sc, touched)`; `none` when `d` is past the end of `sc`. -/
def queryPosting {S : Type} [Field S] [DecidableEq S] (log : S → S) (env : ScoreEnv S)
    (df : Nat) (st : List S × List Nat) (p : Nat × Nat) : Option (List S × List Nat) :=
  match st.1[p.1]? with
  | none => none
  | some v =>
    some (st.1.set p.1 (v + bm25 log env p.2 (docLengthOf env p.1) df),
          if v = 0 then st.2 ++ [p.1] else st.2)

/-- Source: the postings of one term run through `queryPosting`, in the order the loop
visits them. -/
def queryPostings {S : Type} [Field S] [DecidableEq S] (log : S → S) (env : ScoreEnv S)
    (df : Nat) : List (Nat × Nat) → List S × List Nat → Option (List S × List Nat)
  | [], st => some st
  | p :: ps, st =>
    match queryPosting log env df st p with
    | none => none
    | some st' => queryPostings log env df ps st'

/-- Source: the `for (auto& t : terms)` loop of `query` / `queryBM25`: a term that is not in
the lexicon is skipped, the others are scored posting by posting. `fuel` bounds each
posting loop. -/
def queryTerms {S : Type} [Field S] [DecidableEq S] (log : S → S) (fuel : Nat) (idx : Index)
    (env : ScoreEnv S) : List String → List S × List Nat → Option (List S × List Nat)
  | [], st => some st
  | t :: ts, st =>
    match idx.lexicon.lookup t with
    | none => queryTerms log fuel idx env ts st
    | some e =>
      match InvList.iterate fuel idx t with
      | none => none
      | some ps =>
        match queryPostings log env e.df ps st with
        | none => none
        | some st' => queryTerms log fuel idx env ts st'

/-- Source: `for (int d : touched) r.emplace_back(d, sc[d]);`. -/
def touchedScores {S : Type} (sc : List S) : List Nat → Option (List (Nat × S))
  | [] => some []
  | d :: ds =>
    match sc[d]?, touchedScores sc ds with
    | some v, some r => some ((d, v) :: r)
    | _, _ => none

/-- Source: `query` / `queryBM25` up to the sort: the scored documents `r` in the order of
`touched`, and the state after `touched.clear(); for (auto& p : r) sc[p.first] = 0;`. The
state `(sc, touched)` is the pair of `static thread_local` vectors. -/
def queryScored {S : Type} [Field S] [DecidableEq S] (log : S → S) (fuel : Nat) (idx : Index)
    (env : ScoreEnv S) (terms : List String) (st : List S × List Nat) :
    Option (List (Nat × S) × (List S × List Nat)) :=
  match queryTerms log fuel idx env terms st with
  | none => none
  | some (sc, touched) =>
    match touchedScores sc touched with
    | none => none
    | some r => some (r, (r.foldl (fun sc p => sc.set p.1 0) sc, []))

/-- Source: `vector<pair<int, double>> query(const vector<string>& terms)` of
`src/bm25/query.cpp`: the scored documents sorted by score, cut at 1000. -/
def query {S : Type} [LinearOrderedField S] (log : S → S) (fuel : Nat) (idx : Index)
    (env : ScoreEnv S) (terms : List String) (st : List S × List Nat) :
    Option (List (Nat × S) × (List S × List Nat)) :=
  match queryScored log fuel idx env terms st with
  | none => none
  | some (r, st') => some (rankTopK r, st')

/-- Source: `queryBM25` of `src/bm25/hybrid_query.cpp`, which is `query` with the constant
`TOP_K` for the literal 1000. -/
def queryBM25 {S : Type} [LinearOrderedField S] (log : S → S) (fuel : Nat) (idx : Index)
    (env : ScoreEnv S) (terms : List String) (st : List S × List Nat) :
    Option (List (Nat × S) × (List S × List Nat)) :=
  match queryScored log fuel idx env terms st with
  | none => none
  | some (r, st') => some (rankTopK r, st')

/-- The `InvList` of a term with lexicon entry `e` that stands on posting `p` of its
decoded first block `blk`. -/
def invListAt (e : LexEntry) (blk : List Posting) (p : Nat) : InvList :=
  { off := e.startOffset, sb := e.startBlock, np := e.numPostings, bi := e.startBlock,
    pi := p, docs := blk.map Prod.fst, freqs := blk.map Prod.snd, done := false }

/-- An `InvList` seen as an `InvertedList` with the same members. -/
def InvList.toInvertedList (l : InvList) : InvertedList :=
  { startOffset := l.off, startBlock := l.sb, numPostings := l.np, currentBlockIdx := l.bi,
    currentDocIDs := l.docs, currentFreqs := l.freqs, positionInBlock := l.pi,
    finished := l.done }

/-! ## A two-document index in which every term has `df = N / 2` -/

/-- The pop sequence of the corpus `A = "fox"`, `B = "dog"` (doc ids 0 and 1): one posting
per term. -/
def poppedFoxDog : List TermEntry := [⟨"dog", 1, 1, 0⟩, ⟨"fox", 0, 1, 0⟩]

/-- The index the merger writes for `poppedFoxDog`. -/
def indexFoxDog : Index := loadIndex (mergeEntries poppedFoxDog)

/-- The scoring globals of the two-document corpus: both documents have one token,
`totalDocs = 2`, `avgLen = 1`. -/
def envFoxDog {S : Type} [Field S] : ScoreEnv S :=
  { docLengths := [(0, 1), (1, 1)], totalDocs := 2, avgLen := 1 }

/-- The page table of the two-document corpus. -/
def docIdMapFoxDog : List (Nat × String) := [(0, "A"), (1, "B")]

/-- The passage ids of the two embedding rows. -/
def passageIdsFoxDog : List String := ["A", "B"]

/-! ## BM25 and the query plans of `indexer/query.cpp` -/

/-- Source: the conversion `(int)avgDocLength` of a `double` to `int`: truncation towards
zero. -/
def truncToInt {S : Type} [LinearOrderedField S] [FloorRing S] (x : S) : Int :=
  if 0 ≤ x then ⌊x⌋ else ⌈x⌉

/-- Source: `double calculateBM25(int tf, int docLength, int df, int N)` of
`indexer/query.cpp`, with the global `avgDocLength` as an argument. Scores are elements of a
field `S` (the real numbers for the `double` arithmetic of the code) and the natural
logarithm is the argument `log`. -/
def calculateBM25 {S : Type} [Field S] (log : S → S) (avgDocLength : S)
    (tf docLength : Int) (df N : Nat) : S :=
  let idf := log (((N : S) - (df : S) + 1 / 2) / ((df : S) + 1 / 2))
  let tfComponent := ((tf : S) * (K1 + 1)) / ((tf : S) + K1 * (1 - B + B * ((docLength : S) / avgDocLength)))
  idf * tfComponent

/-- Source: `docLengths.count(docID) ? docLengths[docID] : (int)avgDocLength` of both query
plans. The keys of the table are doc ids, so a negative `docID` is not among them. -/
def docLenOf {S : Type} [LinearOrderedField S] [FloorRing S] (env : ScoreEnv S) (docID : Int) :
    Int :=
  match (if 0 ≤ docID then env.docLengths.lookup docID.toNat else none) with
  | some len => (len : Int)
  | none => truncToInt env.avgLen

/-- Source: the body of the posting loop of `processDisjunctiveQuery` for the postings the
loop visits for one term with document frequency `df`:
`docScores[docID] += calculateBM25(freq, docLen, df, totalDocuments)`. -/
def disjAccumulate {S : Type} [LinearOrderedField S] [FloorRing S] (log : S → S)
    (env : ScoreEnv S) (df : Nat) (visited : List (Int × Int)) (docScores : List (Int × S)) :
    List (Int × S) :=
  visited.foldl (fun m p =>
    addScore m p.1 (calculateBM25 log env.avgLen p.2 (docLenOf env p.1) df env.totalDocs))
    docScores

/-- Source: the `for (const auto& term : queryTerms)` loop of `processDisjunctiveQuery`: a
term that is not in the lexicon is skipped; for the others a cursor is constructed and
walked from `nextGEQ(0)` to exhaustion. `fuel` bounds each posting loop. -/
def disjTerms {S : Type} [LinearOrderedField S] [FloorRing S] (log : S → S) (fuel : Nat)
    (idx : Index) (env : ScoreEnv S) : List String → List (Int × S) → Option (List (Int × S))
  | [], docScores => some docScores
  | t :: ts, docScores =>
    match idx.lexicon.lookup t with
    | none => disjTerms log fuel idx env ts docScores
    | some e =>
      match InvertedList.iterate fuel idx t with
      | none => none
      | some visited => disjTerms log fuel idx env ts (disjAccumulate log env e.df visited docScores)

/-- Source: `processDisjunctiveQuery(invFile, queryTerms)`: the accumulated scores, sorted by
score descending. -/
def processDisjunctiveQuery {S : Type} [LinearOrderedField S] [FloorRing S] (log : S → S)
    (fuel : Nat) (idx : Index) (env : ScoreEnv S) (queryTerms : List String) :
    Option (List (Int × S)) :=
  match disjTerms log fuel idx env queryTerms [] with
  | none => none
  | some docScores => some (sortByScoreDesc docScores)

/-- Source: `struct TermInfo { string term; int df; InvertedList* list; }` of
`processConjunctiveQuery`; the vectors `lists` and `dfs` are the `list` and `df` members of
the sorted `termInfos`. -/
structure TermInfo where
  term : String
  df : Nat
  list : InvertedList
deriving DecidableEq, Repr

/-- Source: the first loop of `processConjunctiveQuery`, which looks every term up and
constructs its cursor. The inner `none` is the early `return {}` at a term that is not in
the lexicon, the outer `none` a cursor construction that reads out of bounds. -/
def conjTermInfos (idx : Index) : List String → Option (Option (List TermInfo))
  | [] => some (some [])
  | t :: ts =>
    match idx.lexicon.lookup t with
    | none => some none
    | some e =>
      match InvertedList.new idx t with
      | none => none
      | some l =>
        match conjTermInfos idx ts with
        | none => none
        | some none => some none
        | some (some infos) => some (some ({ term := t, df := e.df, list := l } :: infos))

/-- Source: `sort(termInfos.begin(), termInfos.end(), [](a, b) { return a.df < b.df; })`;
as for `sortByScoreDesc`, the insertion sort is one of the admissible results. -/
def sortByDf (infos : List TermInfo) : List TermInfo :=
  infos.insertionSort (fun a b => a.df ≤ b.df)

/-- Source: the `for (size_t i = 1; i < lists.size(); i++)` loop of the conjunctive plan for
the pivot's `docID`: every other cursor is moved by `nextGEQ(docID)`; the loop breaks at the
first cursor that is exhausted or lands on another doc id. Returns `inAll`, the frequencies
pushed, and the cursors after the loop. -/
def conjOthers (idx : Index) (docID : Int) :
    List TermInfo → Option (Bool × List Int × List TermInfo)
  | [] => some (true, [], [])
  | info :: rest =>
    match InvertedList.nextGEQ idx info.list docID.toNat with
    | none => none
    | some (_, l') =>
      if !l'.hasNext || l'.getDocID ≠ docID then
        some (false, [], { info with list := l' } :: rest)
      else
        match conjOthers idx docID rest with
        | none => none
        | some (inAll, freqs, rest') =>
          some (inAll, l'.getFrequency :: freqs, { info with list := l' } :: rest')

/-- Source: the `while (lists[0]->hasNext())` loop of `processConjunctiveQuery`, collecting
for every iteration with `inAll` the pair of `docID` and the vector `freqs`. The first
argument bounds the number of iterations; `none` when the bound is used up before the pivot
is exhausted. -/
def conjLoop : Nat → Index → InvertedList → List TermInfo → Option (List (Int × List Int))
  | 0, _, pivot, _ => if pivot.hasNext then none else some []
  | fuel + 1, idx, pivot, others =>
    if pivot.hasNext then
      match conjOthers idx pivot.getDocID others with
      | none => none
      | some (inAll, freqs, others') =>
        match InvertedList.next idx pivot with
        | none => none
        | some pivot' =>
          match conjLoop fuel idx pivot' others' with
          | none => none
          | some hits =>
            some (if inAll then (pivot.getDocID, pivot.getFrequency :: freqs) :: hits
                  else hits)
    else some []

/-- Source: `processConjunctiveQuery` without the scoring: the early returns (inner `none`),
the sorted document frequencies `dfs`, and the `(docID, freqs)` pairs of the iterations in
which all cursors landed on the pivot's document. -/
def conjunctiveScan (fuel : Nat) (idx : Index) (queryTerms : List String) :
    Option (Option (List Nat × List (Int × List Int))) :=
  if queryTerms = [] then some none
  else
    match conjTermInfos idx queryTerms with
    | none => none
    | some none => some none
    | some (some termInfos) =>
      match sortByDf termInfos with
      | [] => none
      | pivot :: others =>
        match InvertedList.nextGEQ idx pivot.list 0 with
        | none => none
        | some (_, l) =>
          match conjLoop fuel idx l others with
          | none => none
          | some hits => some (some ((pivot :: others).map TermInfo.df, hits))

/-- Source: `double totalScore = 0.0; for (size_t i = 0; i < lists.size(); i++) totalScore +=
calculateBM25(freqs[i], docLen, dfs[i], totalDocuments);`. -/
def totalScore {S : Type} [LinearOrderedField S] [FloorRing S] (log : S → S) (env : ScoreEnv S)
    (docID : Int) (freqs : List Int) (dfs : List Nat) : S :=
  (List.zip freqs dfs).foldl (fun acc fd =>
    acc + calculateBM25 log env.avgLen fd.1 (docLenOf env docID) fd.2 env.totalDocs) 0

/-- Source: `m[k] = s` on an `unordered_map<K, double>`. -/
def setScore {K S : Type} [DecidableEq K] : List (K × S) → K → S → List (K × S)
  | [], k, s => [(k, s)]
  | (k', v) :: m, k, s => if k' = k then (k', s) :: m else (k', v) :: setScore m k s

/-- Source: `processConjunctiveQuery(invFile, queryTerms)`: the empty list at an early
return; otherwise `docScores[docID] = totalScore` for every document all cursors landed on,
and the scores sorted descending. -/
def processConjunctiveQuery {S : Type} [LinearOrderedField S] [FloorRing S] (log : S → S)
    (fuel : Nat) (idx : Index) (env : ScoreEnv S) (queryTerms : List String) :
    Option (List (Int × S)) :=
  match conjunctiveScan fuel idx queryTerms with
  | none => none
  | some none => some []
  | some (some (dfs, hits)) =>
    some (sortByScoreDesc
      (hits.foldl (fun m p => setScore m p.1 (totalScore log env p.1 p.2 dfs)) []))

/-! ## The four-document corpus -/

/-- The pop sequence of the corpus `A = the quick brown fox`, `B = quick brown dogs`,
`C = lazy fox jumps over`, `D = the lazy dog` (doc ids 0 to 3) under the basic analyzer:
one posting `(doc, 1)` per term and document, sorted by term and doc id. -/
def poppedABCD : List TermEntry :=
  [⟨"brown", 0, 1, 0⟩, ⟨"brown", 1, 1, 0⟩, ⟨"dog", 3, 1, 0⟩, ⟨"dogs", 1, 1, 0⟩,
   ⟨"fox", 0, 1, 0⟩, ⟨"fox", 2, 1, 0⟩, ⟨"jumps", 2, 1, 0⟩, ⟨"lazy", 2, 1, 0⟩,
   ⟨"lazy", 3, 1, 0⟩, ⟨"over", 2, 1, 0⟩, ⟨"quick", 0, 1, 0⟩, ⟨"quick", 1, 1, 0⟩,
   ⟨"the", 0, 1, 0⟩, ⟨"the", 3, 1, 0⟩]

/-- The scoring globals of the four-document corpus: lengths 4, 3, 4, 3, `N = 4`,
`avgdl = 3.5`. -/
def envABCD {S : Type} [Field S] : ScoreEnv S :=
  { docLengths := [(0, 4), (1, 3), (2, 4), (3, 3)], totalDocs := 4, avgLen := 7 / 2 }

/-- A rarer term `"a"` in document 128 and the two-block term `"b"` in the documents 0 to
128. -/
def poppedAB : List TermEntry :=
  ⟨"a", 128, 1, 0⟩ :: (List.range 129).map (fun i => { term := "b", docID := i, freq := 1, fileIndex := 0 })

/-- The index the merger writes for `poppedAB`. -/
def indexAB : Index := loadIndex (mergeEntries poppedAB)

/-- The term frequency `tf(t, d)` of the specification: the frequency of the posting of
document `d` in the posting list of `t`; `none` when `t` does not occur in `d`. -/
def tfOf (popped : List TermEntry) (t : String) (d : Nat) : Option Nat :=
  (postingsOfTerm popped t).lookup d

/-- The BM25 sum of the specification for the term list `q` and the document `d`: one
summand `calculateBM25(tf(t, d), |d|, df(t), N)` for every entry `t` of `q` that occurs in
`d`, with `df(t)` the length of the posting list of `t`, `|d|` the length the query program
has for `d`, and `N = totalDocuments`. -/
def bm25Sum {S : Type} [LinearOrderedField S] [FloorRing S] (log : S → S) (env : ScoreEnv S)
    (popped : List TermEntry) (q : List String) (d : Nat) : S :=
  (q.filterMap (fun t => (tfOf popped t d).map (fun tf : Nat =>
    calculateBM25 log env.avgLen (tf : Int) (docLenOf env (d : Int))
      (postingsOfTerm popped t).length env.totalDocs))).sum

/-- A `TermInfo` of the conjunctive plan on the index merged from `popped` is in order when
its term has a lexicon entry, its `df` is the length of the term's posting list, and its
cursor is in order for the term's blocks. -/
def InfoOK (popped : List TermEntry) (info : TermInfo) : Prop :=
  ∃ e, (loadIndex (mergeEntries popped)).lexicon.lookup info.term = some e
    ∧ info.df = (postingsOfTerm popped info.term).length
    ∧ TermLayout (loadIndex (mergeEntries popped)) e (chunks (postingsOfTerm popped info.term))
    ∧ InOrder e (chunks (postingsOfTerm popped info.term)) info.list

/-- A frequency `f` read from the cursor of term `t` is the frequency of the posting of
document `n` in the posting list of `t`. -/
def FreqOf (popped : List TermEntry) (n : Nat) (t : String) (f : Int) : Prop :=
  ∃ tf : Nat, f = (tf : Int) ∧ (n, tf) ∈ postingsOfTerm popped t

/-! ## The basic analyzer (`tokenize` of `indexer/indexer.cpp` and `indexer/query.cpp`) -/

/-- Source: `isalnum(c)` of `<cctype>` on a byte, in the "C" locale the programs run in (they
never call `setlocale`): true for the ASCII digits and letters only. For a byte above 127
(a negative `char` where `char` is signed) the C library's table lookup gives false. -/
def isalnum (c : Nat) : Bool :=
  (decide (48 ≤ c) && decide (c ≤ 57)) || (decide (65 ≤ c) && decide (c ≤ 90))
    || (decide (97 ≤ c) && decide (c ≤ 122))

/-- Source: `tolower(c)` in the "C" locale: `A`..`Z` go to `a`..`z`, every other byte is
unchanged. -/
def tolower (c : Nat) : Nat :=
  if 65 ≤ c ∧ c ≤ 90 then c + 32 else c

/-- Source: the `for (char c : s)` loop of `tokenize` with its locals `token` and `tokens`,
followed by the final `if (!token.empty()) tokens.push_back(token)`. -/
def tokenizeLoop : List Nat → String → List String → List String
  | [], token, tokens => if token ≠ "" then tokens ++ [token] else tokens
  | c :: s, token, tokens =>
    if isalnum c then tokenizeLoop s (token.push (Char.ofNat (tolower c))) tokens
    else if token ≠ "" then tokenizeLoop s "" (tokens ++ [token])
    else tokenizeLoop s token tokens

/-- Source: `vector<string> tokenize(const string& s)` of `indexer/indexer.cpp`; the copy in
`indexer/query.cpp` is the same text. The argument is the byte string. -/
def tokenize (s : List Nat) : List String :=
  tokenizeLoop s "" []

/-- The maximal runs of ASCII alphanumeric bytes of a byte string, in order of occurrence:
the pieces between the bytes that are not alphanumeric, without the empty pieces. -/
def alnumRuns (s : List Nat) : List (List Nat) :=
  (s.splitOnP (fun c => !isalnum c)).filter (fun r => r ≠ [])

/-- A run of bytes as a term: every byte lowercased. -/
def lowerToken (r : List Nat) : String :=
  String.mk (r.map (fun c => Char.ofNat (tolower c)))

/-! ## The builder (`main` of `indexer/indexer.cpp`) -/

/-- Source: `while (getline(file, line))`: the lines of the input file, split at the newline
byte; a last line without newline counts, an empty rest after the last newline does not.
The second argument is the line being read. -/
def fileLinesLoop : List Nat → List Nat → List (List Nat)
  | [], line => if line ≠ [] then [line] else []
  | c :: s, line => if c = 10 then line :: fileLinesLoop s [] else fileLinesLoop s (line ++ [c])

/-- The lines `getline(file, line)` yields for the bytes of a file. -/
def fileLines (file : List Nat) : List (List Nat) :=
  fileLinesLoop file []

/-- Source: `getline(ss, pid_str, '\t')` on a line: the bytes before the first tab and the
bytes after it; `none` when the line has no tab. The argument `pid` holds the bytes read
so far. -/
def splitTab : List Nat → List Nat → Option (List Nat × List Nat)
  | [], _ => none
  | c :: s, pid => if c = 9 then some (pid, s) else splitTab s (pid ++ [c])

/-- Source: `if (!getline(ss, pid_str, '\t')) continue; if (!getline(ss, passage)) continue;`
The first `getline` fails on an empty line; the second one fails when nothing follows the
first tab, which is also the case when the line has no tab. `none` is the `continue`. -/
def parseLine (line : List Nat) : Option (List Nat × List Nat) :=
  match splitTab line [] with
  | none => none
  | some (pid_str, passage) => if passage = [] then none else some (pid_str, passage)

/-- One record of a run file and one element of `postingBuffer`:
`tuple<string, int, int>` of term, doc id and frequency. -/
abbrev RunRecord := String × Nat × Nat

/-- Source: `operator<` of `std::string` on two lists of characters: the first differing
character decides by its code, a proper prefix is smaller. -/
def charsLt : List Char → List Char → Bool
  | _, [] => false
  | [], _ :: _ => true
  | a :: as, b :: bs => decide (a.toNat < b.toNat) || (decide (a.toNat = b.toNat) && charsLt as bs)

/-- Source: `operator<` of `std::string`. -/
def strLt (a b : String) : Bool :=
  charsLt a.data b.data

/-- Source: `operator<` of `tuple<string, int, int>`, the order `sort(postingBuffer.begin(),
postingBuffer.end())` uses: by term, then doc id, then frequency. -/
def recordLt (a b : RunRecord) : Bool :=
  strLt a.1 b.1 || (decide (a.1 = b.1) &&
    (decide (a.2.1 < b.2.1) || (decide (a.2.1 = b.2.1) && decide (a.2.2 < b.2.2))))

/-- Source: `sort(postingBuffer.begin(), postingBuffer.end())`. The records of a buffer are
pairwise different, so the sorted order is the same for every sorting algorithm; the
embedding takes the insertion sort. -/
def sortRecords (buf : List RunRecord) : List RunRecord :=
  buf.insertionSort (fun a b => recordLt b a = false)

/-- Source: `unordered_map<string, int> termFreq; for (const auto& t : tokens) termFreq[t]++;`
The map is an association list in order of first occurrence; the order in which the C++
map is iterated is unspecified, and the run a buffer is sorted into does not depend on
it. -/
def countTerms (tokens : List String) : List (String × Nat) :=
  tokens.foldl (fun termFreq t => addScore termFreq t 1) []

/-- Source: `for (const auto& pair : termFreq) postingBuffer.push_back({pair.first, docID,
pair.second});`: the postings one document adds to the buffer. -/
def docPostings (tokens : List String) (docID : Nat) : List RunRecord :=
  (countTerms tokens).map (fun pair => (pair.1, docID, pair.2))

/-- The locals of the builder's `main` that live across iterations of its line loop, and the
files it writes. `runs` are the run files written so far, `partial/run_0.bin` first, each as
the list of its records. -/
structure BuildState where
  docID : Nat
  runNumber : Nat
  pageTable : List (Nat × List Nat)
  docLengthFile : List (Nat × Nat)
  docStoreFile : List Nat
  docStoreIndexFile : List (Nat × Nat)
  postingBuffer : List RunRecord
  runs : List (List RunRecord)
deriving DecidableEq, Repr

/-- Source: the initial values of the builder's locals and its empty output files. -/
def BuildState.init : BuildState :=
  { docID := 0, runNumber := 0, pageTable := [], docLengthFile := [], docStoreFile := [],
    docStoreIndexFile := [], postingBuffer := [], runs := [] }

/-- Source: `const size_t MAX_BUFFER_SIZE = 10000000;`. -/
def MAX_BUFFER_SIZE : Nat := 10000000

/-- Source: `sort(postingBuffer...); write_file(postingBuffer, runNumber++);
postingBuffer.clear();`. -/
def spill (st : BuildState) : BuildState :=
  { st with runs := st.runs ++ [sortRecords st.postingBuffer],
            runNumber := st.runNumber + 1, postingBuffer := [] }

/-- Source: the body of `while (getline(file, line))` of the builder for one line, with the
buffer cap as an argument. `docStoreFile.tellp()` is the number of bytes written so far. -/
def ingestLine (maxBuffer : Nat) (st : BuildState) (line : List Nat) : BuildState :=
  match parseLine line with
  | none => st
  | some (pid_str, passage) =>
    let offset := st.docStoreFile.length
    let length := passage.length
    let st1 := { st with docStoreFile := st.docStoreFile ++ passage,
                         docStoreIndexFile := st.docStoreIndexFile ++ [(offset, length)] }
    let tokens := tokenize passage
    if tokens = [] then st1
    else
      let st2 := { st1 with
        pageTable := st1.pageTable ++ [(st1.docID, pid_str)],
        docLengthFile := st1.docLengthFile ++ [(st1.docID, tokens.length)],
        postingBuffer := st1.postingBuffer ++ docPostings tokens st1.docID,
        docID := st1.docID + 1 }
      if st2.postingBuffer.length ≥ maxBuffer then spill st2 else st2

/-- Source: the part of the builder's `main` after the line loop: the last run is spilled
when the buffer is not empty. `total_documents` in `indexer_meta.txt` is `docID` and
`total_runs` is `runNumber` of the result. -/
def buildFinish (st : BuildState) : BuildState :=
  if st.postingBuffer ≠ [] then spill st else st

/-- The builder's `main` on the bytes of the input file, for a given buffer cap. -/
def buildWith (maxBuffer : Nat) (file : List Nat) : BuildState :=
  buildFinish ((fileLines file).foldl (ingestLine maxBuffer) BuildState.init)

/-- The builder's `main` on the bytes of the input file. -/
def build (file : List Nat) : BuildState :=
  buildWith MAX_BUFFER_SIZE file

/-- Source: `bool getDocumentText(int docID, string& text)` of `indexer/query.cpp` on the
loaded `docStoreIndex` and the bytes of `documents.dat`: `none` is the return value false;
otherwise the text is `length` bytes long and holds what the file has from `offset` on
(`text.resize(length)` leaves zero bytes where the file ends early). -/
def getDocumentText (docStoreIndex : List (Nat × Nat)) (docStoreFile : List Nat) (docID : Int) :
    Option (List Nat) :=
  if docID < 0 ∨ docID ≥ (docStoreIndex.length : Int) then none
  else
    match docStoreIndex[docID.toNat]? with
    | none => none
    | some (offset, length) =>
      let bytes := (docStoreFile.drop offset).take length
      some (bytes ++ List.replicate (length - bytes.length) 0)

/-- The bytes of a text. -/
def bytesOf (s : String) : List Nat :=
  s.data.map Char.toNat

/-- The corpus of the four documents `A`, `B`, `C`, `D`, one line `id <tab> text` each. -/
def corpusABCD : List Nat :=
  bytesOf "A\tthe quick brown fox\nB\tquick brown dogs\nC\tlazy fox jumps over\nD\tthe lazy dog\n"

/-! ## The merger's priority queue and run files -/

/-- Source: `bool TermEntry::operator>(const TermEntry& other)` (`Entry::operator>` in
`src/bm25/merger.cpp`): by term, then by doc id. -/
def TermEntry.gt (a b : TermEntry) : Bool :=
  if a.term ≠ b.term then strLt b.term a.term else decide (a.docID > b.docID)

/-- The smallest of `m` and the entries of a list under `operator>`; of several smallest
entries the one that comes first. -/
def pqMin : TermEntry → List TermEntry → TermEntry
  | m, [] => m
  | m, e :: es => if m.gt e then pqMin e es else pqMin m es

/-- Source: `pq.top(); pq.pop();` on
`priority_queue<TermEntry, vector<TermEntry>, greater<TermEntry>>`: the queue is the list of
its entries, `top()` is a smallest entry under `operator>` (which one of several equal
entries the C++ queue gives is unspecified; the embedding takes the first), and `pop()`
removes it. `none` for the empty queue. -/
def pqPop : List TermEntry → Option (TermEntry × List TermEntry)
  | [] => none
  | e :: es => some (pqMin e es, (e :: es).erase (pqMin e es))

/-- Source: the initialisation loop `for (i = 0; i < numRuns; i++) if (read_next(runFiles[i],
...)) pq.push({..., i});` on the run files from run `i` on: the queue of first records and
what is left to read of every run. A run file is the list of its records. -/
def heapInit : List (List RunRecord) → Nat → List TermEntry × List (List RunRecord)
  | [], _ => ([], [])
  | [] :: runs, i => ((heapInit runs (i + 1)).1, [] :: (heapInit runs (i + 1)).2)
  | (r :: rest) :: runs, i =>
    ({ term := r.1, docID := r.2.1, freq := r.2.2, fileIndex := i } :: (heapInit runs (i + 1)).1,
      rest :: (heapInit runs (i + 1)).2)

/-- Source: the heap side of `while (!pq.empty())`: pop the smallest entry, read the next
record of the run it came from and push it. The result is the sequence of popped entries;
the first argument bounds the number of iterations. -/
def heapLoop : Nat → List TermEntry → List (List RunRecord) → List TermEntry
  | 0, _, _ => []
  | fuel + 1, pq, runFiles =>
    match pqPop pq with
    | none => []
    | some (entry, pq1) =>
      match runFiles[entry.fileIndex]? with
      | some (r :: rest) =>
        entry :: heapLoop fuel
          (pq1 ++ [{ term := r.1, docID := r.2.1, freq := r.2.2, fileIndex := entry.fileIndex }])
          (runFiles.set entry.fileIndex rest)
      | _ => entry :: heapLoop fuel pq1 runFiles

/-- The entries the merger pops for the given run files, in pop order; one iteration per
record is enough. -/
def popSequence (runs : List (List RunRecord)) : List TermEntry :=
  heapLoop (runs.map List.length).sum (heapInit runs 0).1 (heapInit runs 0).2

/-- The merger's `main` on the run files. -/
def mergeRuns (runs : List (List RunRecord)) : MergeState :=
  mergeEntries (popSequence runs)

/-- Source: the `doc_lengths.txt` part of `loadIndex` of `indexer/query.cpp`:
`docLengths[docID] = length; avgDocLength += length;` per line, then
`totalDocuments = docLengths.size(); if (totalDocuments > 0) avgDocLength /= totalDocuments;`. -/
def loadDocLengths {S : Type} [Field S] (docLenFile : List (Nat × Nat)) : ScoreEnv S :=
  let docLengths := docLenFile.foldl (fun m l => setScore m l.1 l.2) []
  let sum : S := docLenFile.foldl (fun acc l => acc + (l.2 : S)) 0
  { docLengths := docLengths, totalDocs := docLengths.length,
    avgLen := if docLengths.length > 0 then sum / (docLengths.length : S) else sum }

/-- The documents of a corpus: the `(external id, text)` pairs of the well-formed lines
whose analysis is not empty, in input order. -/
def indexedDocs (lines : List (List Nat)) : List (List Nat × List Nat) :=
  (lines.filterMap parseLine).filter (fun d => tokenize d.2 ≠ [])

/-- The order of the records of a run by `(term, doc_id)`: by term (byte-wise), then by doc
id. -/
def recordKeyLt (a b : RunRecord) : Prop :=
  strLt a.1 b.1 = true ∨ (a.1 = b.1 ∧ a.2.1 < b.2.1)

/-- A record as an element of the lexicographic order on term, doc id and frequency. -/
def recordLex (a : RunRecord) : String ×ₗ (Nat ×ₗ Nat) :=
  toLex (a.1, toLex (a.2.1, a.2.2))

/-- The records of `documents.idx` for texts appended to `documents.dat` one after the
other, the first one at byte `off`: `(offset, length)` per text. -/
def storeRecords : Nat → List (List Nat) → List (Nat × Nat)
  | _, [] => []
  | off, p :: ps => (off, p.length) :: storeRecords (off + p.length) ps

/-- The postings of the documents of a corpus: for the document with doc id `i` one posting
per distinct term of its analysis. -/
def corpusPostings (docs : List (List Nat × List Nat)) : List RunRecord :=
  (docs.enum.map (fun x => docPostings (tokenize x.2.2) x.1)).flatten

/-- What holds of the builder's state after it has read the lines `lines`. -/
structure BuildInv (lines : List (List Nat)) (st : BuildState) : Prop where
  docID : st.docID = (indexedDocs lines).length
  pageTable : st.pageTable = (indexedDocs lines).enum.map (fun x => (x.1, x.2.1))
  docLengthFile : st.docLengthFile
    = (indexedDocs lines).enum.map (fun x => (x.1, (tokenize x.2.2).length))
  docStoreFile : st.docStoreFile = ((lines.filterMap parseLine).map Prod.snd).flatten
  docStoreIndexFile : st.docStoreIndexFile
    = storeRecords 0 ((lines.filterMap parseLine).map Prod.snd)
  postings : (st.runs.flatten ++ st.postingBuffer).Perm (corpusPostings (indexedDocs lines))
  runs : ∀ run ∈ st.runs, run ≠ [] ∧ run.Pairwise recordKeyLt
  buffer : (st.postingBuffer.map (fun r => (r.1, r.2.1))).Nodup
    ∧ ∀ r ∈ st.postingBuffer, r.2.1 < st.docID
  runNumber : st.runNumber = st.runs.length

/-- A corpus of two lines: the text of the first one, `...`, has no token, the text of the
second one is `fox`. -/
def corpusSkew : List Nat :=
  bytesOf "p0\t...\np1\tfox\n"

/-! ## Block ranges of the lexicon lines -/

/-- The number of blocks of a term with `df` postings: `ceil(df / BLOCK_SIZE)`. -/
def numBlocks (df : Nat) : Nat := (df + BLOCK_SIZE - 1) / BLOCK_SIZE

/-- The bytes block `i` takes in the inverted file according to the skip table:
`8 + doc_bytes[i] + freq_bytes[i]`. -/
def blockSpan (o : BlockOut) (i : Nat) : Nat := 8 + o.docIDSizes.getD i 0 + o.freqSizes.getD i 0

/-- The sum of `8 + doc_bytes[i] + freq_bytes[i]` over the `n` blocks from block `first`. -/
def spanSum (o : BlockOut) (first n : Nat) : Nat := ((List.range' first n).map (blockSpan o)).sum

/-! ## The score array of `query` -/

/-- Every document with a non-zero entry in `sc` is in `touched`. -/
def TouchedCovers {S : Type} [Zero S] (st : List S × List Nat) : Prop :=
  ∀ (d : Nat) (v : S), st.1[d]? = some v → v ≠ 0 → d ∈ st.2

/-! ## Recursion of `nextGEQ` -/

/-- The block indices with which `InvertedList::nextGEQ` calls itself, outermost call first:
the control flow of `InvertedList.nextGEQFuel`, where every `return nextGEQ(targetDocID)`
records the `currentBlockIdx` it is made with. -/
def InvertedList.nextGEQCalls : Nat → Index → InvertedList → Nat → Option (List Nat)
  | 0, _, _, _ => none
  | fuel + 1, idx, l, target =>
    if l.finished then some []
    else
      match skipBlocks idx.lastDocIDs target (l.endBlock - l.currentBlockIdx)
          l.currentBlockIdx with
      | none => none
      | some (cur, found) =>
        let l1 := { l with currentBlockIdx := cur }
        let reload := found && (l1.currentDocIDs.isEmpty
                        || decide (l1.positionInBlock ≥ l1.currentDocIDs.length))
        match (if reload then InvertedList.decompressBlock idx l1 cur else some l1) with
        | none => none
        | some l2 =>
          if l2.finished then some []
          else
            match scanFrom target (l2.currentDocIDs.drop l2.positionInBlock)
                l2.positionInBlock with
            | some _ => some []
            | none =>
              let l3 := { l2 with
                positionInBlock := max l2.positionInBlock l2.currentDocIDs.length,
                currentBlockIdx := l2.currentBlockIdx + 1 }
              if l3.currentBlockIdx ≥ l3.endBlock then some []
              else
                match InvertedList.decompressBlock idx l3 l3.currentBlockIdx with
                | none => none
                | some l4 =>
                  match InvertedList.nextGEQCalls fuel idx l4 target with
                  | none => none
                  | some calls => some (l4.currentBlockIdx :: calls)

/-- The block indices `bi` with which `InvList::nextGEQ` calls itself, outermost call first:
the control flow of `InvList.nextGEQFuel`, where every `return nextGEQ(tgt)` records the
`bi` it is made with. -/
def InvList.nextGEQCalls : Nat → Index → InvList → Nat → Option (List Nat)
  | 0, _, _, _ => none
  | fuel + 1, idx, l, tgt =>
    if l.done then some []
    else
      match skipBlocks idx.lastDocIDs tgt (l.endBlock - l.bi) l.bi with
      | none => none
      | some (cur, found) =>
        let l1 := { l with bi := cur }
        let reload := found && (l1.docs.isEmpty || decide (l1.pi ≥ l1.docs.length))
        match (if reload then InvList.load idx l1 else some l1) with
        | none => none
        | some l2 =>
          if l2.done then some []
          else
            match scanFrom tgt (l2.docs.drop l2.pi) l2.pi with
            | some _ => some []
            | none =>
              match InvList.load idx { l2 with pi := max l2.pi l2.docs.length,
                                               bi := l2.bi + 1 } with
              | none => none
              | some l3 =>
                match InvList.nextGEQCalls fuel idx l3 tgt with
                | none => none
                | some calls => some (l3.bi :: calls)

/-- The states of an `InvertedList` of the term with lexicon entry `e`: the three members
the constructor copies from the entry are never written again, and the block index starts
at the term's first block. Decoded block, position and `finished` are arbitrary. -/
def InvertedList.IsCursorOf (e : LexEntry) (l : InvertedList) : Prop :=
  l.startOffset = e.startOffset ∧ l.startBlock = e.startBlock ∧ l.numPostings = e.numPostings
    ∧ e.startBlock ≤ l.currentBlockIdx

/-- The states of an `InvList` of the term with lexicon entry `e`. -/
def InvList.IsCursorOf (e : LexEntry) (l : InvList) : Prop :=
  l.off = e.startOffset ∧ l.sb = e.startBlock ∧ l.np = e.numPostings ∧ e.startBlock ≤ l.bi

/-! ## The merger's heap: notions used to state what it pops -/

/-- The `(term, doc_id)` key of an entry in the lexicographic order: terms byte-wise, then
doc ids. -/
def entryKey (e : TermEntry) : String ×ₗ Nat := toLex (e.term, e.docID)

/-- The `(term, doc_id)` key of a record of a run. -/
def recordKey (r : RunRecord) : String ×ₗ Nat := toLex (r.1, r.2.1)

/-- A record of run `i` as a queue entry. -/
def tagRecord (i : Nat) (r : RunRecord) : TermEntry :=
  { term := r.1, docID := r.2.1, freq := r.2.2, fileIndex := i }

/-- The union of the runs: every record of every run, tagged with the number of its run;
the first run has number `i`. -/
def tagRuns : List (List RunRecord) → Nat → List TermEntry
  | [], _ => []
  | run :: runs, i => run.map (tagRecord i) ++ tagRuns runs (i + 1)

/-- The state of the merge loop between two iterations: the keys of the entries in the queue
and of the records not yet read are distinct; what is left of every run is ascending; an
entry in the queue is below everything left of its run; and every run with a record left
has an entry in the queue. -/
structure HeapInv (pq : List TermEntry) (runFiles : List (List RunRecord)) : Prop where
  nodup : ((pq ++ tagRuns runFiles 0).map entryKey).Nodup
  sorted : ∀ (k : Nat) (run : List RunRecord), runFiles[k]? = some run →
    (run.map recordKey).Pairwise (· < ·)
  below : ∀ e ∈ pq, ∀ run : List RunRecord, runFiles[e.fileIndex]? = some run →
    ∀ r ∈ run, entryKey e < recordKey r
  covered : ∀ (k : Nat) (r : RunRecord) (rest : List RunRecord),
    runFiles[k]? = some (r :: rest) → ∃ e ∈ pq, e.fileIndex = k

/-! ## The enriched analyzer (`tokenize` of `src/bm25/indexer.cpp`, `query.cpp`, `hybrid_query.cpp`) -/

/-- Source: `const unordered_set<string> STOPWORDS` of `src/bm25/indexer.cpp`; the sets in
`src/bm25/query.cpp` and `src/bm25/hybrid_query.cpp` are the same text. -/
def STOPWORDS : List String :=
  ["a", "an", "the", "and", "or", "but", "in", "on", "at", "to", "for",
   "of", "with", "by", "from", "as", "is", "was", "are", "were", "been",
   "be", "have", "has", "had", "do", "does", "did", "will", "would", "could",
   "should", "may", "might", "must", "shall", "can", "need", "it", "its",
   "this", "that", "these", "those", "i", "you", "he", "she", "we", "they",
   "what", "which", "who", "whom", "when", "where", "why", "how", "all",
   "each", "every", "both", "few", "more", "most", "other", "some", "such",
   "no", "nor", "not", "only", "own", "same", "so", "than", "too", "very",
   "just", "also", "now"]

/-- Source: `w[i]` on a `std::string`, a word being the list of its bytes as characters. Every
access the stemmer makes is inside the word; `w[w.size()]` is the terminating zero. -/
def PorterStemmer.charAt (w : List Char) (i : Nat) : Char := w.getD i (Char.ofNat 0)

/-- Source: `bool isC(const string& w, int i)`, by recursion on `i`: the third disjunct
`i == 0` of the source is the first equation. -/
def PorterStemmer.isC (w : List Char) : Nat → Bool
  | 0 =>
    let c := PorterStemmer.charAt w 0
    c != 'a' && c != 'e' && c != 'i' && c != 'o' && c != 'u'
  | i + 1 =>
    let c := PorterStemmer.charAt w (i + 1)
    c != 'a' && c != 'e' && c != 'i' && c != 'o' && c != 'u' &&
      (c != 'y' || !PorterStemmer.isC w i)

/-- Source: the loops `while (i < n && p(i)) i++;` of `m`; the first argument bounds the
number of iterations, and `n` of them always suffice. -/
def PorterStemmer.skipWhile (p : Nat → Bool) (n : Nat) : Nat → Nat → Nat
  | 0, i => i
  | k + 1, i => if i < n && p i then PorterStemmer.skipWhile p n k (i + 1) else i

/-- Source: the outer loop `while (i < n) { ... }` of `m` with the locals `i` and `m`; the
first argument bounds the number of iterations. -/
def PorterStemmer.mLoop (w : List Char) : Nat → Nat → Nat → Nat
  | 0, _, m => m
  | fuel + 1, i, m =>
    if i < w.length then
      let i1 := PorterStemmer.skipWhile (fun j => !PorterStemmer.isC w j) w.length w.length i
      if i1 ≥ w.length then m
      else
        PorterStemmer.mLoop w fuel
          (PorterStemmer.skipWhile (fun j => PorterStemmer.isC w j) w.length w.length i1) (m + 1)
    else m

/-- Source: `int m(const string& w)`, the number of vowel-consonant sequences of `w`. -/
def PorterStemmer.m (w : List Char) : Nat :=
  PorterStemmer.mLoop w w.length
    (PorterStemmer.skipWhile (fun j => PorterStemmer.isC w j) w.length w.length 0) 0

/-- Source: `bool hasV(const string& w)`. -/
def PorterStemmer.hasV (w : List Char) : Bool :=
  (List.range w.length).any (fun i => !PorterStemmer.isC w i)

/-- Source: `bool dblC(const string& w)`. -/
def PorterStemmer.dblC (w : List Char) : Bool :=
  decide (w.length ≥ 2)
    && (PorterStemmer.charAt w (w.length - 1) == PorterStemmer.charAt w (w.length - 2))
    && PorterStemmer.isC w (w.length - 1)

/-- Source: `bool cvc(const string& w)`. -/
def PorterStemmer.cvc (w : List Char) : Bool :=
  decide (w.length ≥ 3) && PorterStemmer.isC w (w.length - 1)
    && !PorterStemmer.isC w (w.length - 2) && PorterStemmer.isC w (w.length - 3)
    && PorterStemmer.charAt w (w.length - 1) != 'w'
    && PorterStemmer.charAt w (w.length - 1) != 'x'
    && PorterStemmer.charAt w (w.length - 1) != 'y'

/-- Source: `bool ends(const string& w, const string& s)`. -/
def PorterStemmer.ends (w : List Char) (s : String) : Bool :=
  decide (s.data.length ≤ w.length) && (w.drop (w.length - s.data.length) == s.data)

/-- Source: `string rep(const string& w, const string& s, const string& r)`; it is only
called when `w` ends with `s`. -/
def PorterStemmer.rep (w : List Char) (s r : String) : List Char :=
  w.take (w.length - s.data.length) ++ r.data

/-- Source: `s.back()`; every call is made on a non-empty string. -/
def PorterStemmer.back (s : List Char) : Char := s.getLastD (Char.ofNat 0)

/-- Source: step 1a of `stem`. -/
def PorterStemmer.step1a (s : List Char) : List Char :=
  if PorterStemmer.ends s "sses" then PorterStemmer.rep s "sses" "ss"
  else if PorterStemmer.ends s "ies" then PorterStemmer.rep s "ies" "i"
  else if !PorterStemmer.ends s "ss" && PorterStemmer.ends s "s" then s.take (s.length - 1)
  else s

/-- Source: the first part of step 1b of `stem`: the new `s` and the flag `f`. -/
def PorterStemmer.step1b (s : List Char) : List Char × Bool :=
  if PorterStemmer.ends s "eed" then
    if PorterStemmer.m (s.take (s.length - 3)) > 0 then (PorterStemmer.rep s "eed" "ee", false)
    else (s, false)
  else if PorterStemmer.ends s "ed" then
    let t := s.take (s.length - 2)
    if PorterStemmer.hasV t then (t, true) else (s, false)
  else if PorterStemmer.ends s "ing" then
    let t := s.take (s.length - 3)
    if PorterStemmer.hasV t then (t, true) else (s, false)
  else (s, false)

/-- Source: the `if (f) { ... }` part of step 1b of `stem`. -/
def PorterStemmer.step1bTidy (s : List Char) : List Char :=
  if PorterStemmer.ends s "at" || PorterStemmer.ends s "bl" || PorterStemmer.ends s "iz" then
    s ++ "e".data
  else if PorterStemmer.dblC s && PorterStemmer.back s != 'l' && PorterStemmer.back s != 's'
      && PorterStemmer.back s != 'z' then
    s.take (s.length - 1)
  else if PorterStemmer.m s == 1 && PorterStemmer.cvc s then s ++ "e".data
  else s

/-- Source: step 1c of `stem`. -/
def PorterStemmer.step1c (s : List Char) : List Char :=
  if PorterStemmer.ends s "y" && PorterStemmer.hasV (s.take (s.length - 1)) then
    PorterStemmer.rep s "y" "i"
  else s

/-- Source: the table `s2` of step 2 of `stem`. -/
def PorterStemmer.s2 : List (String × String) :=
  [("ational", "ate"), ("tional", "tion"), ("enci", "ence"),
   ("anci", "ance"), ("izer", "ize"), ("abli", "able"),
   ("alli", "al"), ("entli", "ent"), ("eli", "e"), ("ousli", "ous"),
   ("ization", "ize"), ("ation", "ate"), ("ator", "ate"),
   ("alism", "al"), ("iveness", "ive"), ("fulness", "ful"),
   ("ousness", "ous"), ("aliti", "al"), ("iviti", "ive"), ("biliti", "ble")]

/-- Source: the table `s3` of step 3 of `stem`. -/
def PorterStemmer.s3 : List (String × String) :=
  [("icate", "ic"), ("ative", ""), ("alize", "al"),
   ("iciti", "ic"), ("ical", "ic"), ("ful", ""), ("ness", "")]

/-- Source: the table `s4` of step 4 of `stem`. -/
def PorterStemmer.s4 : List String :=
  ["al", "ance", "ence", "er", "ic", "able", "ible", "ant",
   "ement", "ment", "ent", "ion", "ou", "ism", "ate", "iti",
   "ous", "ive", "ize"]

/-- Source: the loops of steps 2 and 3 of `stem`,
`for (auto& p : table) if (ends(s, p[0])) { t = ...; if (m(t) > 0) s = t + p[1]; break; }`,
on the rest of the table: the first suffix of the table that `s` ends with decides. -/
def PorterStemmer.stepTable (s : List Char) : List (String × String) → List Char
  | [] => s
  | p :: rest =>
    if PorterStemmer.ends s p.1 then
      let t := s.take (s.length - p.1.data.length)
      if PorterStemmer.m t > 0 then t ++ p.2.data else s
    else PorterStemmer.stepTable s rest

/-- Source: the loop of step 4 of `stem` on the rest of the table `s4`. -/
def PorterStemmer.step4 (s : List Char) : List String → List Char
  | [] => s
  | x :: rest =>
    if PorterStemmer.ends s x then
      let t := s.take (s.length - x.data.length)
      if PorterStemmer.m t > 1 then
        if x = "ion" then
          if !t.isEmpty && (PorterStemmer.back t == 's' || PorterStemmer.back t == 't') then t
          else s
        else t
      else s
    else PorterStemmer.step4 s rest

/-- Source: the first statement of step 5 of `stem`. -/
def PorterStemmer.step5a (s : List Char) : List Char :=
  if PorterStemmer.ends s "e" then
    let t := s.take (s.length - 1)
    let mm := PorterStemmer.m t
    if mm > 1 || (mm == 1 && !PorterStemmer.cvc t) then t else s
  else s

/-- Source: the second statement of step 5 of `stem`. -/
def PorterStemmer.step5b (s : List Char) : List Char :=
  if decide (PorterStemmer.m s > 1) && PorterStemmer.dblC s && PorterStemmer.back s == 'l' then
    s.take (s.length - 1)
  else s

/-- Source: `string PorterStemmer::stem(const string& w)` on the characters of the word. -/
def PorterStemmer.stemChars (w : List Char) : List Char :=
  if w.length ≤ 2 then w
  else
    let s := PorterStemmer.step1a w
    let sf := PorterStemmer.step1b s
    let s := if sf.2 then PorterStemmer.step1bTidy sf.1 else sf.1
    let s := PorterStemmer.step1c s
    let s := PorterStemmer.stepTable s PorterStemmer.s2
    let s := PorterStemmer.stepTable s PorterStemmer.s3
    let s := PorterStemmer.step4 s PorterStemmer.s4
    let s := PorterStemmer.step5a s
    PorterStemmer.step5b s

/-- Source: `string PorterStemmer::stem(const string& w)` of `src/bm25/indexer.cpp`; the
classes in `src/bm25/query.cpp` and `src/bm25/hybrid_query.cpp` are the same text. -/
def PorterStemmer.stem (w : String) : String := String.mk (PorterStemmer.stemChars w.data)

/-- Source: the test `w.size() > 1 && !STOPWORDS.count(w)` of the enriched `tokenize`. -/
def keepWord (w : String) : Bool := decide (w.length > 1) && !decide (w ∈ STOPWORDS)

/-- Source: the `for (char c : s)` loop of `tokenize` of `src/bm25/indexer.cpp` with its
locals `w` and `t`, followed by the final
`if (!w.empty() && w.size() > 1 && !STOPWORDS.count(w)) t.push_back(stemmer.stem(w))`. -/
def enrichedLoop : List Nat → String → List String → List String
  | [], w, t => if w ≠ "" ∧ keepWord w = true then t ++ [PorterStemmer.stem w] else t
  | c :: s, w, t =>
    if isalnum c then enrichedLoop s (w.push (Char.ofNat (tolower c))) t
    else if w ≠ "" then
      if keepWord w then enrichedLoop s "" (t ++ [PorterStemmer.stem w])
      else enrichedLoop s "" t
    else enrichedLoop s w t

/-- Source: `vector<string> tokenize(const string& s)` of `src/bm25/indexer.cpp` (lines
169-184), the enriched analyzer. The argument is the byte string. -/
def enrichedTokenize (s : List Nat) : List String :=
  enrichedLoop s "" []

/-- Source: the loop of `tokenize` of `src/bm25/query.cpp` (lines 198-213), with the
`STOPWORDS` and the `stemmer` of that file, which are the same text as in the indexer. -/
def queryTokenizeLoop : List Nat → String → List String → List String
  | [], w, t => if w ≠ "" ∧ keepWord w = true then t ++ [PorterStemmer.stem w] else t
  | c :: s, w, t =>
    if isalnum c then queryTokenizeLoop s (w.push (Char.ofNat (tolower c))) t
    else if w ≠ "" then
      if keepWord w then queryTokenizeLoop s "" (t ++ [PorterStemmer.stem w])
      else queryTokenizeLoop s "" t
    else queryTokenizeLoop s w t

/-- Source: `vector<string> tokenize(const string& s)` of `src/bm25/query.cpp`. -/
def queryTokenize (s : List Nat) : List String :=
  queryTokenizeLoop s "" []

/-- Source: the loop of `tokenize` of `src/bm25/hybrid_query.cpp` (lines 197-212), with the
`STOPWORDS` and the `stemmer` of that file, which are the same text as in the indexer. -/
def hybridTokenizeLoop : List Nat → String → List String → List String
  | [], w, t => if w ≠ "" ∧ keepWord w = true then t ++ [PorterStemmer.stem w] else t
  | c :: s, w, t =>
    if isalnum c then hybridTokenizeLoop s (w.push (Char.ofNat (tolower c))) t
    else if w ≠ "" then
      if keepWord w then hybridTokenizeLoop s "" (t ++ [PorterStemmer.stem w])
      else hybridTokenizeLoop s "" t
    else hybridTokenizeLoop s w t

/-- Source: `vector<string> tokenize(const string& s)` of `src/bm25/hybrid_query.cpp`. -/
def hybridTokenize (s : List Nat) : List String :=
  hybridTokenizeLoop s "" []

/-! ## Snippets (`generateSnippet` of `indexer/query.cpp`) -/

/-- Source: `isspace(c)` of `<cctype>` on a byte, in the "C" locale: space, tab, newline,
vertical tab, form feed and carriage return; false for a byte above 127. -/
def isspace (c : Nat) : Bool :=
  decide (c = 32) || (decide (9 ≤ c) && decide (c ≤ 13))

/-- Source: `::iswpunct` applied to a byte, in the "C" locale: the printable ASCII characters
that are neither alphanumeric nor the space; false for a byte above 127. -/
def iswpunct (c : Nat) : Bool :=
  (decide (33 ≤ c) && decide (c ≤ 47)) || (decide (58 ≤ c) && decide (c ≤ 64))
    || (decide (91 ≤ c) && decide (c ≤ 96)) || (decide (123 ≤ c) && decide (c ≤ 126))

/-- Source: `const int SNIPPET_WORDS = 30`. -/
def SNIPPET_WORDS : Nat := 30

/-- Source: the `for (char c : text)` loop of `generateSnippet` with its locals `word` and
`docWords`, followed by the final `if (!word.empty()) docWords.push_back(word)`. -/
def splitWordsLoop : List Nat → List Nat → List (List Nat) → List (List Nat)
  | [], word, docWords => if word ≠ [] then docWords ++ [word] else docWords
  | c :: text, word, docWords =>
    if isspace c then
      if word ≠ [] then splitWordsLoop text [] (docWords ++ [word])
      else splitWordsLoop text word docWords
    else splitWordsLoop text (word ++ [c]) docWords

/-- The vector `docWords` of `generateSnippet`: the whitespace-separated words of the text. -/
def splitWords (text : List Nat) : List (List Nat) :=
  splitWordsLoop text [] []

/-- Source: the two statements `transform(..., ::tolower)` and
`lowerWord.erase(remove_if(..., ::iswpunct), lowerWord.end())` of `generateSnippet`, which
make `lowerWord` from a document word: every byte lowercased, then every punctuation byte
removed. -/
def lowerWord (w : List Nat) : List Nat :=
  (w.map tolower).filter (fun c => !iswpunct c)

/-- Source: the body of the `for (int j ...)` loop of `generateSnippet` on the word
`docWords[i+j]`: `if (qTerms.count(lowerWord)) foundTerms.insert(lowerWord);`. The set
`foundTerms` is the list of its elements, each once. -/
def foundStep (qTerms : List (List Nat)) (foundTerms : List (List Nat)) (w : List Nat) :
    List (List Nat) :=
  if lowerWord w ∈ qTerms then
    if lowerWord w ∈ foundTerms then foundTerms else foundTerms ++ [lowerWord w]
  else foundTerms

/-- Source: `foundTerms.size()` after the `for (int j ...)` loop over the window that starts
at word `i`. The loop over the window is a fold over the words `docWords[i]`, ...,
`docWords[i + SNIPPET_WORDS - 1]`, which exist for every `i` the outer loop visits. -/
def windowScore (qTerms : List (List Nat)) (docWords : List (List Nat)) (i : Nat) : Nat :=
  (((docWords.drop i).take SNIPPET_WORDS).foldl (foundStep qTerms) []).length

/-- Source: the loop `for (int i = 0; i <= (int)docWords.size() - SNIPPET_WORDS; ++i)` of
`generateSnippet` with its locals `bestWindowStart` and `maxScore`; the first argument is
the number of iterations left, the second the loop variable. -/
def windowLoop (qTerms : List (List Nat)) (docWords : List (List Nat)) :
    Nat → Nat → Nat → Int → Nat × Int
  | 0, _, bestWindowStart, maxScore => (bestWindowStart, maxScore)
  | k + 1, i, bestWindowStart, maxScore =>
    if (windowScore qTerms docWords i : Int) > maxScore then
      windowLoop qTerms docWords k (i + 1) i (windowScore qTerms docWords i)
    else windowLoop qTerms docWords k (i + 1) bestWindowStart maxScore

/-- Source: `bestWindowStart` of `generateSnippet` when the output begins: the result of the
window loop started with `bestWindowStart = 0` and `maxScore = -1`, which runs for
`i = 0, ..., docWords.size() - SNIPPET_WORDS` (not at all for fewer than `SNIPPET_WORDS`
words), followed by `if (maxScore == 0) bestWindowStart = 0;`. -/
def snippetStart (qTerms : List (List Nat)) (docWords : List (List Nat)) : Nat :=
  let r := windowLoop qTerms docWords (docWords.length + 1 - SNIPPET_WORDS) 0 0 (-1)
  if r.2 = 0 then 0 else r.1

/-- Source: the body of the output loop of `generateSnippet` for the word `docWords[i]`: a
word whose `lowerWord` is a query term is written between `ESC[1;31m` and `ESC[0m` for the
command line and between two apostrophes otherwise; every word is followed by a space. -/
def renderWord (qTerms : List (List Nat)) (forCli : Bool) (w : List Nat) : List Nat :=
  if lowerWord w ∈ qTerms then
    if forCli then [27, 91, 49, 59, 51, 49, 109] ++ w ++ [27, 91, 48, 109, 32]
    else [39] ++ w ++ [39, 32]
  else w ++ [32]

/-- Source: `string generateSnippet(const string& text, const vector<string>& queryTerms,
bool forCli)`. Strings are byte strings; the set `qTerms` is the list `queryTerms`, of which
only membership is used. -/
def generateSnippet (text : List Nat) (queryTerms : List (List Nat)) (forCli : Bool) :
    List Nat :=
  let docWords := splitWords text
  if docWords = [] then []
  else
    let bestWindowStart := snippetStart queryTerms docWords
    let stop := min docWords.length (bestWindowStart + SNIPPET_WORDS)
    (if bestWindowStart > 0 then [46, 46, 46, 32] else [])
      ++ (((docWords.take stop).drop bestWindowStart).map (renderWord queryTerms forCli)).flatten
      ++ (if stop < docWords.length then [46, 46, 46] else [])

/-- The number of distinct query terms that appear in a window of words: the distinct
`lowerWord` values of the window that are query terms. -/
def distinctTerms (qTerms : List (List Nat)) (window : List (List Nat)) : Nat :=
  ((window.map lowerWord).filter (fun lw => decide (lw ∈ qTerms))).dedup.length

/-- A word as the specification normalises it: lowercased, with the punctuation at its
beginning and at its end stripped. -/
def stripSurrounding (w : List Nat) : List Nat :=
  (((w.map tolower).dropWhile iswpunct).reverse.dropWhile iswpunct).reverse

/-- A text of 33 words with the word `fox` at position 30: the 30-word windows that start at
the words 1, 2 and 3 hold it, the window that starts at word 0 does not. -/
def snippetText : List Nat :=
  bytesOf "a b c d e f g h i j k l m n o p q r s t u v w x y z a b c d fox e f"

/-- An `InvList` of the term with lexicon entry `e` is in range when it is done or its block
index is at most the term's block bound `start_block + ceil(total_postings / 128)`. -/
def InvList.InRange (e : LexEntry) (l : InvList) : Prop :=
  l.done = true ∨ l.bi ≤ e.startBlock + numBlocks e.numPostings

/-- The states an `InvList` for term `t` can be in: the state the constructor leaves, and
every state a call of `nextGEQ` or of `next` leaves from such a state. -/
inductive InvList.Reachable (idx : Index) (t : String) : InvList → Prop
  | new (l : InvList) : InvList.new idx t = some l → InvList.Reachable idx t l
  | nextGEQ (l l' : InvList) (target : Nat) (b : Bool) :
      InvList.Reachable idx t l → InvList.nextGEQ idx l target = some (b, l') →
      InvList.Reachable idx t l'
  | next (l : InvList) : InvList.Reachable idx t l → InvList.Reachable idx t (InvList.next l)

/-! ## Varbyte: lemmas -/

theorem byte_and_7F (x : Nat) : x &&& 0x7F = x % 128 :=
  Nat.and_pow_two_sub_one_eq_mod x 7

theorem byte_shr_7 (x : Nat) : x >>> 7 = x / 128 :=
  Nat.shiftRight_eq_div_pow x 7

theorem low_or_80 : ∀ x < 128, x ||| 0x80 = x + 128 := by decide

theorem low_and_80 : ∀ x < 128, x &&& 0x80 = 0 := by decide

theorem high_and_80 : ∀ x < 128, (x + 128) &&& 0x80 = 128 := by decide

theorem high_and_7F : ∀ x < 128, (x + 128) &&& 0x7F = x := by decide

theorem or_shiftLeft_eq_add (num x shift : Nat) (h : num < 2 ^ shift) :
    num ||| (x <<< shift) = num + x * 2 ^ shift := by
  rw [Nat.or_comm, Nat.shiftLeft_eq, Nat.mul_comm x, ← Nat.mul_add_lt_is_or h x, Nat.add_comm]

theorem varbyte_encode_loop_fuel (f1 : Nat) :
    ∀ (f2 n : Nat) (out : List Nat), n ≤ f1 → n ≤ f2 →
      varbyte_encode_loop f1 n out = varbyte_encode_loop f2 n out := by
  induction f1 with
  | zero =>
    intro f2 n out h1 _
    have hn : n = 0 := by omega
    subst hn
    cases f2 <;> simp [varbyte_encode_loop]
  | succ f1 ih =>
    intro f2 n out h1 h2
    by_cases hn : n ≥ 128
    · obtain ⟨f2, rfl⟩ : ∃ k, f2 = k + 1 := ⟨f2 - 1, by omega⟩
      simp only [varbyte_encode_loop, hn, if_true]
      have hd : n >>> 7 < n := by
        rw [byte_shr_7]; omega
      exact ih f2 _ _ (by omega) (by omega)
    · cases f2 <;> simp [varbyte_encode_loop, hn]

theorem varbyte_encode_lt (n : Nat) (out : List Nat) (h : n < 128) :
    varbyte_encode n out = out ++ [n] := by
  have h7 : n &&& 0x7F = n := by rw [byte_and_7F]; omega
  unfold varbyte_encode
  cases n with
  | zero => simp [varbyte_encode_loop]
  | succ k =>
    have : ¬ (k + 1 ≥ 128) := by omega
    simp only [varbyte_encode_loop, this, if_false, h7]

theorem varbyte_encode_ge (n : Nat) (out : List Nat) (h : 128 ≤ n) :
    varbyte_encode n out = varbyte_encode (n / 128) (out ++ [n % 128 + 128]) := by
  unfold varbyte_encode
  obtain ⟨k, rfl⟩ : ∃ k, n = k + 1 := ⟨n - 1, by omega⟩
  have hge : k + 1 ≥ 128 := h
  simp only [varbyte_encode_loop, hge, if_true]
  rw [byte_and_7F, byte_shr_7, low_or_80 _ (Nat.mod_lt _ (by norm_num))]
  exact varbyte_encode_loop_fuel k _ _ _ (by omega) (le_refl _)

theorem varbyte_encode_append (n : Nat) : ∀ out : List Nat,
    varbyte_encode n out = out ++ varbyte_encode n [] := by
  induction n using Nat.strong_induction_on with
  | _ n ih =>
    intro out
    by_cases h : n < 128
    · simp [varbyte_encode_lt n _ h]
    · have hge : 128 ≤ n := by omega
      rw [varbyte_encode_ge n out hge, varbyte_encode_ge n [] hge,
        ih (n / 128) (by omega) (out ++ [n % 128 + 128]),
        ih (n / 128) (by omega) ([] ++ [n % 128 + 128])]
      simp

theorem varbyte_encode_nil_ge (n : Nat) (h : 128 ≤ n) :
    varbyte_encode n [] = (n % 128 + 128) :: varbyte_encode (n / 128) [] := by
  rw [varbyte_encode_ge n [] h, varbyte_encode_append]
  simp

theorem varbyte_encode_nil_lt (n : Nat) (h : n < 128) : varbyte_encode n [] = [n] := by
  simp [varbyte_encode_lt n _ h]

theorem varbyte_encode_ne_nil (n : Nat) : varbyte_encode n [] ≠ [] := by
  by_cases h : n < 128
  · simp [varbyte_encode_nil_lt n h]
  · simp [varbyte_encode_nil_ge n (by omega)]

/-- Decoding what `varbyte_encode` wrote, from any accumulator state of the decoder loop and
with any bytes following. -/
theorem varbyte_decode_loop_encode (n : Nat) :
    ∀ (rest : List Nat) (num shift off : Nat), num < 2 ^ shift →
      varbyte_decode_loop (varbyte_encode n [] ++ rest) num shift off
        = some (num + n * 2 ^ shift, off + (varbyte_encode n []).length) := by
  induction n using Nat.strong_induction_on with
  | _ n ih =>
    intro rest num shift off hnum
    by_cases h : n < 128
    · rw [varbyte_encode_nil_lt n h]
      have h7 : n &&& 0x7F = n := by rw [byte_and_7F]; omega
      simp only [List.singleton_append, varbyte_decode_loop, low_and_80 n h, ne_eq,
        not_true_eq_false, if_false, h7, or_shiftLeft_eq_add num n shift hnum, List.length_singleton]
    · have hge : 128 ≤ n := by omega
      have hm : n % 128 < 128 := Nat.mod_lt _ (by norm_num)
      rw [varbyte_encode_nil_ge n hge]
      simp only [List.cons_append, varbyte_decode_loop, high_and_80 _ hm, high_and_7F _ hm,
        ne_eq, List.length_cons]
      rw [if_pos (by decide), or_shiftLeft_eq_add num _ shift hnum]
      have hlt : num + n % 128 * 2 ^ shift < 2 ^ (shift + 7) := by
        have hp : 0 < 2 ^ shift := Nat.pow_pos (by norm_num)
        have : n % 128 * 2 ^ shift ≤ 127 * 2 ^ shift := Nat.mul_le_mul_right _ (by omega)
        rw [pow_add]
        omega
      rw [List.append_eq, ih (n / 128) (by omega) rest _ (shift + 7) (off + 1) hlt]
      have hn : n = n / 128 * 128 + n % 128 := by omega
      have e : num + n % 128 * 2 ^ shift + n / 128 * 2 ^ (shift + 7) = num + n * 2 ^ shift := by
        rw [pow_add]
        conv_rhs => rw [hn]
        ring
      rw [e]
      congr 2
      omega

theorem size_div_128 (n : Nat) (h : 128 ≤ n) : Nat.size n = Nat.size (n / 128) + 7 := by
  have key : ∀ k, Nat.size n ≤ k + 7 ↔ Nat.size (n / 128) ≤ k := by
    intro k
    rw [Nat.size_le, Nat.size_le, pow_add, Nat.div_lt_iff_lt_mul (by norm_num)]
    norm_num
  have h8 : 7 < Nat.size n := Nat.lt_size.mpr (by norm_num; exact h)
  have h1 := (key (Nat.size (n / 128))).mpr (le_refl _)
  have h2 := (key (Nat.size n - 7)).mp (by omega)
  omega

theorem varbyte_encode_length (n : Nat) :
    (varbyte_encode n []).length = varbyteLen n := by
  induction n using Nat.strong_induction_on with
  | _ n ih =>
    by_cases h : n < 128
    · rw [varbyte_encode_nil_lt n h]
      have : Nat.size n ≤ 7 := Nat.size_le.mpr (by norm_num; exact h)
      simp only [List.length_singleton, varbyteLen]
      omega
    · have hge : 128 ≤ n := by omega
      rw [varbyte_encode_nil_ge n hge, List.length_cons, ih (n / 128) (by omega)]
      have hs := size_div_128 n hge
      have hq : 0 < Nat.size (n / 128) := Nat.lt_size.mpr (by norm_num; omega)
      simp only [varbyteLen]
      omega

theorem varbyte_encode_length_le (n : Nat) (h : n < 2 ^ 31) :
    (varbyte_encode n []).length ≤ 5 := by
  rw [varbyte_encode_length]
  have : Nat.size n ≤ 31 := Nat.size_le.mpr h
  simp only [varbyteLen]
  omega

theorem varbyte_encode_base128 (n : Nat) :
    varbyte_encode n [] =
      (base128 n).dropLast.map (fun d => d ||| 0x80) ++ [(base128 n).getLastD 0] := by
  induction n using Nat.strong_induction_on with
  | _ n ih =>
    by_cases h : n < 128
    · rw [varbyte_encode_nil_lt n h]
      by_cases h0 : n = 0
      · subst h0; simp [base128]
      · have hd : Nat.digits 128 n = [n] := Nat.digits_of_lt 128 n h0 h
        simp [base128, h0, hd]
    · have hge : 128 ≤ n := by omega
      have hq : n / 128 ≠ 0 := by omega
      have hn0 : n ≠ 0 := by omega
      have hd : Nat.digits 128 n = n % 128 :: Nat.digits 128 (n / 128) :=
        Nat.digits_def' (by norm_num) (by omega)
      have hne : Nat.digits 128 (n / 128) ≠ [] := by
        intro he
        exact hq (Nat.digits_eq_nil_iff_eq_zero.mp he)
      rw [varbyte_encode_nil_ge n hge, ih (n / 128) (by omega)]
      obtain ⟨a, l, hal⟩ := List.exists_cons_of_ne_nil hne
      simp only [base128, hq, hn0, if_false, hd, hal, List.dropLast_cons₂, List.map_cons,
        List.cons_append, List.getLastD_cons]
      rw [low_or_80 _ (Nat.mod_lt _ (by norm_num))]


/-! ## Streams and blocks: lemmas -/

theorem foldl_varbyte_encode (vals : List Nat) : ∀ acc : List Nat,
    vals.foldl (fun output v => varbyte_encode v output) acc = acc ++ encodeAll vals := by
  induction vals with
  | nil => intro acc; simp [encodeAll]
  | cons v vs ih =>
    intro acc
    rw [List.foldl_cons, ih, varbyte_encode_append v acc]
    simp [encodeAll]

theorem encodeStream_eq (vals : List Nat) : encodeStream vals = encodeAll vals := by
  simp [encodeStream, foldl_varbyte_encode]

theorem encodeAll_length_le (vals : List Nat) (h : ∀ v ∈ vals, v < 2 ^ 31) :
    (encodeAll vals).length ≤ 5 * vals.length := by
  induction vals with
  | nil => simp [encodeAll]
  | cons v vs ih =>
    have h1 := varbyte_encode_length_le v (h v (List.mem_cons_self _ _))
    have h2 := ih (fun x hx => h x (List.mem_cons_of_mem _ hx))
    simp only [encodeAll, List.length_append, List.length_cons]
    omega

theorem varbyte_decode_encode_at (pre rest : List Nat) (v : Nat) :
    varbyte_decode (pre ++ (varbyte_encode v [] ++ rest)) pre.length
      = some (v, pre.length + (varbyte_encode v []).length) := by
  unfold varbyte_decode
  rw [List.drop_left, varbyte_decode_loop_encode v rest 0 0 pre.length (by norm_num)]
  simp

theorem decodeStreamLoop_encodeAll (vals : List Nat) :
    ∀ (pre acc : List Nat) (fuel : Nat), (encodeAll vals).length ≤ fuel →
      decodeStreamLoop fuel (pre ++ encodeAll vals) pre.length
        (pre.length + (encodeAll vals).length) acc = some (acc ++ vals) := by
  induction vals with
  | nil =>
    intro pre acc fuel _
    cases fuel <;> simp [decodeStreamLoop, encodeAll]
  | cons v vs ih =>
    intro pre acc fuel hfuel
    have hne : 0 < (varbyte_encode v []).length :=
      List.length_pos.mpr (varbyte_encode_ne_nil v)
    simp only [encodeAll, List.length_append] at hfuel ⊢
    obtain ⟨fuel, rfl⟩ : ∃ k, fuel = k + 1 := ⟨fuel - 1, by omega⟩
    have hlt : pre.length < pre.length + ((varbyte_encode v []).length + (encodeAll vs).length) := by
      omega
    simp only [decodeStreamLoop, hlt, if_true, varbyte_decode_encode_at]
    have := ih (pre ++ varbyte_encode v []) (acc ++ [v]) fuel (by omega)
    simp only [List.length_append, List.append_assoc] at this
    rw [Nat.add_assoc] at this
    rw [this]
    simp

theorem decodeStream_encodeAll (vals : List Nat) :
    decodeStream (encodeAll vals) (encodeAll vals).length = some vals := by
  have := decodeStreamLoop_encodeAll vals [] [] (encodeAll vals).length (le_refl _)
  simpa [decodeStream] using this

theorem prefixSumFrom_deltasFrom (ds : List Nat) : ∀ prev : Nat,
    List.Chain (· ≤ ·) prev ds → prefixSumFrom prev (deltasFrom prev ds) = ds := by
  induction ds with
  | nil => intro prev _; rfl
  | cons d ds ih =>
    intro prev h
    rw [List.chain_cons] at h
    have e : prev + (d - prev) = d := by omega
    simp only [deltasFrom, prefixSumFrom, e, ih d h.2]

theorem prefixSum_deltaEncode_of_chain (docIDs : List Nat) (h : List.Chain' (· ≤ ·) docIDs) :
    prefixSum (deltaEncode docIDs) = docIDs := by
  cases docIDs with
  | nil => rfl
  | cons d ds =>
    simp only [deltaEncode, prefixSum]
    rw [prefixSumFrom_deltasFrom ds d h]

theorem chain_le_of_pairwise_lt (docIDs : List Nat) (h : docIDs.Pairwise (· < ·)) :
    List.Chain' (· ≤ ·) docIDs :=
  List.Pairwise.chain' (h.imp (fun hab => Nat.le_of_lt hab))

theorem deltasFrom_lt (ds : List Nat) : ∀ prev : Nat, (∀ d ∈ ds, d < 2 ^ 31) →
    ∀ x ∈ deltasFrom prev ds, x < 2 ^ 31 := by
  induction ds with
  | nil => intro prev _ x hx; simp [deltasFrom] at hx
  | cons d ds ih =>
    intro prev h x hx
    simp only [deltasFrom, List.mem_cons] at hx
    rcases hx with rfl | hx
    · have := h d (List.mem_cons_self _ _); omega
    · exact ih d (fun y hy => h y (List.mem_cons_of_mem _ hy)) x hx

theorem deltaEncode_lt (docIDs : List Nat) (h : ∀ d ∈ docIDs, d < 2 ^ 31) :
    ∀ x ∈ deltaEncode docIDs, x < 2 ^ 31 := by
  cases docIDs with
  | nil => intro x hx; simp [deltaEncode] at hx
  | cons d ds =>
    intro x hx
    simp only [deltaEncode, List.mem_cons] at hx
    rcases hx with rfl | hx
    · exact h _ (List.mem_cons_self _ _)
    · exact deltasFrom_lt ds d (fun y hy => h y (List.mem_cons_of_mem _ hy)) x hx

theorem deltasFrom_length (ds : List Nat) : ∀ prev, (deltasFrom prev ds).length = ds.length := by
  induction ds with
  | nil => intro _; rfl
  | cons d ds ih => intro prev; simp [deltasFrom, ih]

theorem deltaEncode_length (docIDs : List Nat) : (deltaEncode docIDs).length = docIDs.length := by
  cases docIDs with
  | nil => rfl
  | cons d ds => simp [deltaEncode, deltasFrom_length]

theorem readInt_writeInt (pre rest : List Nat) (n : Nat) (h : n < 2 ^ 32) :
    readInt (pre ++ (writeInt n ++ rest)) pre.length = some n := by
  unfold readInt
  rw [List.drop_left]
  simp only [writeInt, List.cons_append, List.nil_append]
  congr 1
  omega

theorem readBytes_append (pre bs rest : List Nat) :
    readBytes (pre ++ (bs ++ rest)) pre.length bs.length = some bs := by
  unfold readBytes
  rw [List.drop_left, List.take_left]
  simp

theorem writeInt_length (n : Nat) : (writeInt n).length = 4 := rfl

theorem blockBytes_length (docIDs freqs : List Nat) :
    (blockBytes docIDs freqs).length
      = 4 + (encodeAll (deltaEncode docIDs)).length + 4 + (encodeAll freqs).length := by
  simp [blockBytes, writeInt_length]
  omega

/-- Reading a block back from any file that holds the block's bytes at `pre.length`. -/
theorem readBlock_blockBytes (pre post docIDs freqs : List Nat)
    (hsorted : List.Chain' (· ≤ ·) docIDs)
    (hd : (encodeAll (deltaEncode docIDs)).length < 2 ^ 32)
    (hf : (encodeAll freqs).length < 2 ^ 32) :
    readBlock (pre ++ (blockBytes docIDs freqs ++ post)) pre.length
      = some ((encodeAll (deltaEncode docIDs)).length, (encodeAll freqs).length,
              docIDs, freqs) := by
  set ED := encodeAll (deltaEncode docIDs) with hED
  set EF := encodeAll freqs with hEF
  have e1 : pre ++ (blockBytes docIDs freqs ++ post)
      = pre ++ (writeInt ED.length ++ (ED ++ (writeInt EF.length ++ (EF ++ post)))) := by
    simp [blockBytes, ← hED, ← hEF]
  have e2 : pre ++ (blockBytes docIDs freqs ++ post)
      = (pre ++ writeInt ED.length) ++ (ED ++ (writeInt EF.length ++ (EF ++ post))) := by
    simp [blockBytes, ← hED, ← hEF]
  have e3 : pre ++ (blockBytes docIDs freqs ++ post)
      = (pre ++ writeInt ED.length ++ ED) ++ (writeInt EF.length ++ (EF ++ post)) := by
    simp [blockBytes, ← hED, ← hEF]
  have e4 : pre ++ (blockBytes docIDs freqs ++ post)
      = (pre ++ writeInt ED.length ++ ED ++ writeInt EF.length) ++ (EF ++ post) := by
    simp [blockBytes, ← hED, ← hEF]
  have r1 : readInt (pre ++ (blockBytes docIDs freqs ++ post)) pre.length = some ED.length := by
    rw [e1]; exact readInt_writeInt _ _ _ hd
  have r2 : readBytes (pre ++ (blockBytes docIDs freqs ++ post)) (pre.length + 4) ED.length
      = some ED := by
    rw [e2]
    have := readBytes_append (pre ++ writeInt ED.length) ED (writeInt EF.length ++ (EF ++ post))
    simpa [writeInt_length] using this
  have r3 : readInt (pre ++ (blockBytes docIDs freqs ++ post)) (pre.length + 4 + ED.length)
      = some EF.length := by
    rw [e3]
    have := readInt_writeInt (pre ++ writeInt ED.length ++ ED) (EF ++ post) EF.length hf
    simpa [writeInt_length, Nat.add_assoc] using this
  have r4 : readBytes (pre ++ (blockBytes docIDs freqs ++ post)) (pre.length + 4 + ED.length + 4)
      EF.length = some EF := by
    rw [e4]
    have := readBytes_append (pre ++ writeInt ED.length ++ ED ++ writeInt EF.length) EF post
    simpa [writeInt_length, Nat.add_assoc] using this
  unfold readBlock
  simp only [r1, r2, r3, r4, hED, hEF, decodeStream_encodeAll,
    prefixSum_deltaEncode_of_chain docIDs hsorted]

theorem write_block_eq (o : BlockOut) (docIDs freqs : List Nat) :
    write_block o docIDs freqs =
      { invFile := o.invFile ++ blockBytes docIDs freqs,
        lastDocIDs := o.lastDocIDs ++ [docIDs.getLastD 0],
        docIDSizes := o.docIDSizes ++ [(encodeAll (deltaEncode docIDs)).length],
        freqSizes := o.freqSizes ++ [(encodeAll freqs).length] } := by
  simp [write_block, blockBytes, encodeStream_eq]


/-! ## Claims on the varbyte codec and on single blocks -/

/-- C4. For every `n` with `0 <= n < 2^31`, `varbyte_decode` applied at offset 0 to the
bytes that `varbyte_encode(n)` produces returns `n` and advances the offset to exactly the
number of bytes encoded; these are at most 5 bytes, so the decoder's shift stays below 32
and its `int` accumulator never overflows. -/
theorem C4_varbyte_roundtrip (n : Nat) (h : n < 2 ^ 31) :
    varbyte_decode (varbyte_encode n []) 0 = some (n, (varbyte_encode n []).length)
      ∧ (varbyte_encode n []).length ≤ 5 := by
  refine ⟨?_, varbyte_encode_length_le n h⟩
  have := varbyte_decode_encode_at [] [] n
  simpa using this

theorem C4_varbyte_roundtrip_witness :
    varbyte_decode (varbyte_encode 300 []) 0 = some (300, (varbyte_encode 300 []).length)
      ∧ (varbyte_encode 300 []).length ≤ 5 :=
  C4_varbyte_roundtrip 300 (by norm_num)

/-- C5. Block round trip: for a non-empty list of at most 128 strictly increasing doc ids
and an equally long list of frequencies (all of them `int` values, below `2^31`), reading
the bytes `write_block` appended to the inverted file the way `decompressBlock` does (u32
size, varbyte-decode until the size is consumed, prefix sum over the doc stream) gives back
the doc-id list and the frequency list, and the two u32 sizes read are the `doc_bytes` and
`freq_bytes` entries `write_block` appended to the skip table for this block, whose last
doc id entry is the last doc id of the list. -/
theorem C5_block_roundtrip (o : BlockOut) (docIDs freqs : List Nat)
    (hne : docIDs ≠ []) (hlen : docIDs.length ≤ BLOCK_SIZE)
    (hsorted : docIDs.Pairwise (· < ·)) (hfl : freqs.length = docIDs.length)
    (hd : ∀ d ∈ docIDs, d < 2 ^ 31) (hf : ∀ f ∈ freqs, f < 2 ^ 31) :
    ∃ docBytes freqBytes,
      readBlock (write_block o docIDs freqs).invFile o.invFile.length
        = some (docBytes, freqBytes, docIDs, freqs)
      ∧ (write_block o docIDs freqs).docIDSizes = o.docIDSizes ++ [docBytes]
      ∧ (write_block o docIDs freqs).freqSizes = o.freqSizes ++ [freqBytes]
      ∧ (write_block o docIDs freqs).lastDocIDs = o.lastDocIDs ++ [docIDs.getLast hne] := by
  have h1 := encodeAll_length_le (deltaEncode docIDs) (deltaEncode_lt docIDs hd)
  have h2 := encodeAll_length_le freqs hf
  rw [deltaEncode_length] at h1
  have hb : docIDs.length ≤ 128 := hlen
  refine ⟨(encodeAll (deltaEncode docIDs)).length, (encodeAll freqs).length, ?_, ?_, ?_, ?_⟩
  · rw [write_block_eq]
    have := readBlock_blockBytes o.invFile [] docIDs freqs
      (chain_le_of_pairwise_lt docIDs hsorted) (by omega) (by omega)
    simpa using this
  · rw [write_block_eq]
  · rw [write_block_eq]
  · rw [write_block_eq]
    simp only [List.append_cancel_left_eq, List.cons.injEq, and_true]
    rw [List.getLastD_eq_getLast?, List.getLast?_eq_getLast _ hne]
    rfl

theorem C5_block_roundtrip_witness :
    ∃ docBytes freqBytes,
      readBlock (write_block ⟨[7, 7], [1], [2], [3]⟩ [3, 200, 1000] [1, 2, 300]).invFile
          (BlockOut.invFile ⟨[7, 7], [1], [2], [3]⟩).length
        = some (docBytes, freqBytes, [3, 200, 1000], [1, 2, 300])
      ∧ (write_block ⟨[7, 7], [1], [2], [3]⟩ [3, 200, 1000] [1, 2, 300]).docIDSizes
          = BlockOut.docIDSizes ⟨[7, 7], [1], [2], [3]⟩ ++ [docBytes]
      ∧ (write_block ⟨[7, 7], [1], [2], [3]⟩ [3, 200, 1000] [1, 2, 300]).freqSizes
          = BlockOut.freqSizes ⟨[7, 7], [1], [2], [3]⟩ ++ [freqBytes]
      ∧ (write_block ⟨[7, 7], [1], [2], [3]⟩ [3, 200, 1000] [1, 2, 300]).lastDocIDs
          = BlockOut.lastDocIDs ⟨[7, 7], [1], [2], [3]⟩
              ++ [[3, 200, 1000].getLast (by decide)] :=
  C5_block_roundtrip ⟨[7, 7], [1], [2], [3]⟩ [3, 200, 1000] [1, 2, 300]
    (by decide) (by decide) (by decide) (by decide) (by decide) (by decide)

/-- C6. For every strictly increasing list of doc ids, the delta list
`[d_0, d_1 - d_0, ...]` that `write_block` computes, followed by the in-place prefix sum of
`decompressBlock`, is the original list. -/
theorem C6_delta_roundtrip (docIDs : List Nat) (hsorted : docIDs.Pairwise (· < ·)) :
    prefixSum (deltaEncode docIDs) = docIDs :=
  prefixSum_deltaEncode_of_chain docIDs (chain_le_of_pairwise_lt docIDs hsorted)

theorem C6_delta_roundtrip_witness :
    prefixSum (deltaEncode [0, 5, 6, 1000]) = [0, 5, 6, 1000] :=
  C6_delta_roundtrip [0, 5, 6, 1000] (by decide)

/-- C7. `varbyte_encode(n)` (and `vb_encode(n)`) appends to the output the base-128 digits
of `n`, least significant first, every byte except the last with the high bit `0x80` set
and the last one a bare digit below 128 (high bit clear); the encodings of 0, 127, 128,
16383 and 16384 are `[0x00]`, `[0x7F]`, `[0x80,0x01]`, `[0xFF,0x7F]`, `[0x80,0x80,0x01]`. -/
theorem C7_varbyte_encode_digits :
    (∀ (n : Nat) (out : List Nat),
      varbyte_encode n out
          = out ++ ((base128 n).dropLast.map (fun d => d ||| 0x80) ++ [(base128 n).getLastD 0])
        ∧ vb_encode n out = varbyte_encode n out
        ∧ (∀ d ∈ base128 n, d < 128)
        ∧ (∀ b ∈ (base128 n).dropLast.map (fun d => d ||| 0x80), b &&& 0x80 = 0x80 ∧ b < 256)
        ∧ (base128 n).getLastD 0 &&& 0x80 = 0)
    ∧ varbyte_encode 0 [] = [0x00]
    ∧ varbyte_encode 127 [] = [0x7F]
    ∧ varbyte_encode 128 [] = [0x80, 0x01]
    ∧ varbyte_encode 16383 [] = [0xFF, 0x7F]
    ∧ varbyte_encode 16384 [] = [0x80, 0x80, 0x01] := by
  refine ⟨fun n out => ?_, by decide, by decide, by decide, by decide, by decide⟩
  have hdig : ∀ d ∈ base128 n, d < 128 := by
    intro d hd
    unfold base128 at hd
    split at hd
    · simp at hd; omega
    · exact Nat.digits_lt_base (by norm_num) hd
  refine ⟨?_, rfl, hdig, ?_, ?_⟩
  · rw [varbyte_encode_append, varbyte_encode_base128]
  · intro b hb
    rw [List.mem_map] at hb
    obtain ⟨d, hd, rfl⟩ := hb
    have hd' := hdig d (List.mem_of_mem_dropLast hd)
    rw [low_or_80 d hd', high_and_80 d hd']
    omega
  · have hne : base128 n ≠ [] := by
      unfold base128
      split
      · simp
      · rename_i h0
        intro he
        exact h0 (Nat.digits_eq_nil_iff_eq_zero.mp he)
    rw [List.getLastD_eq_getLast?, List.getLast?_eq_getLast _ hne]
    exact low_and_80 _ (hdig _ (List.getLast_mem hne))

/-- C8. For every `n` with `0 <= n < 2^31`, the number of bytes `varbyte_encode(n)` appends
is `ceil(max(bit_length(n), 1) / 7)`, where `bit_length` is `Nat.size` (an `int` thus takes
at most 5 bytes). -/
theorem C8_varbyte_length (n : Nat) (h : n < 2 ^ 31) (out : List Nat) :
    (varbyte_encode n out).length = out.length + (max (Nat.size n) 1 + 6) / 7
      ∧ (max (Nat.size n) 1 + 6) / 7 ≤ 5 := by
  have hlen := varbyte_encode_length_le n h
  rw [varbyte_encode_length] at hlen
  rw [varbyte_encode_append, List.length_append, varbyte_encode_length]
  exact ⟨rfl, hlen⟩

theorem C8_varbyte_length_witness :
    (varbyte_encode 16384 [9, 9]).length = [9, 9].length + (max (Nat.size 16384) 1 + 6) / 7
      ∧ (max (Nat.size 16384) 1 + 6) / 7 ≤ 5 :=
  C8_varbyte_length 16384 (by norm_num) [9, 9]


/-! ## The cursor on a term laid out in the index -/

theorem chunksBytes_append (cs1 cs2 : List (List Posting)) :
    chunksBytes (cs1 ++ cs2) = chunksBytes cs1 ++ chunksBytes cs2 := by
  induction cs1 with
  | nil => rfl
  | cons c cs ih => simp [chunksBytes, ih]

theorem blockOffsetLoop_chunks (cs1 : List (List Posting)) :
    ∀ (a a' b b' : List Nat) (offset : Nat), a.length = a'.length →
      blockOffsetLoop (a ++ (cs1.map chunkDocBytes ++ b)) (a' ++ (cs1.map chunkFreqBytes ++ b'))
        cs1.length a.length offset = some (offset + (chunksBytes cs1).length) := by
  induction cs1 with
  | nil => intro a a' b b' offset _; simp [blockOffsetLoop, chunksBytes]
  | cons c cs ih =>
    intro a a' b b' offset hlen
    have g1 : (a ++ ((c :: cs).map chunkDocBytes ++ b))[a.length]? = some (chunkDocBytes c) := by
      rw [List.getElem?_append_right (le_refl _)]; simp
    have g2 : (a' ++ ((c :: cs).map chunkFreqBytes ++ b'))[a.length]? = some (chunkFreqBytes c) := by
      rw [hlen, List.getElem?_append_right (le_refl _)]; simp
    simp only [List.length_cons, blockOffsetLoop, g1, g2]
    have e1 : a ++ ((c :: cs).map chunkDocBytes ++ b)
        = (a ++ [chunkDocBytes c]) ++ (cs.map chunkDocBytes ++ b) := by simp
    have e2 : a' ++ ((c :: cs).map chunkFreqBytes ++ b')
        = (a' ++ [chunkFreqBytes c]) ++ (cs.map chunkFreqBytes ++ b') := by simp
    have e3 : a.length + 1 = (a ++ [chunkDocBytes c]).length := by simp
    rw [e1, e2, e3, ih (a ++ [chunkDocBytes c]) (a' ++ [chunkFreqBytes c]) b b' _ (by simp [hlen])]
    simp only [chunksBytes, List.length_append, blockBytes_length, chunkDocBytes, chunkFreqBytes]
    congr 1
    omega

theorem chain_le_of_pairwise_lt_flatten (cs1 cs2 : List (List Posting)) (c : List Posting)
    (h : ((cs1 ++ c :: cs2).flatten.map Prod.fst).Pairwise (· < ·)) :
    (c.map Prod.fst).Pairwise (· < ·) := by
  simp only [List.flatten_append, List.flatten_cons, List.map_append] at h
  exact (List.pairwise_append.mp (List.pairwise_append.mp h).2.1).1

/-- In a laid-out term, `decompressBlock` on block number `cs1.length` of the term decodes
exactly that block. -/
theorem decompressBlock_layout (idx : Index) (e : LexEntry) (cs1 cs2 : List (List Posting))
    (c : List Posting) (hl : TermLayout idx e (cs1 ++ c :: cs2)) (l : InvertedList)
    (h1 : l.startOffset = e.startOffset) (h2 : l.startBlock = e.startBlock)
    (h3 : l.numPostings = e.numPostings) :
    InvertedList.decompressBlock idx l (e.startBlock + cs1.length)
      = some { l with currentDocIDs := c.map Prod.fst, currentFreqs := c.map Prod.snd,
                      positionInBlock := 0 } := by
  obtain ⟨pre, post, hfile, hpre⟩ := hl.file
  obtain ⟨a, b, hd, ha⟩ := hl.dsizes
  obtain ⟨a', b', hf, ha'⟩ := hl.fsizes
  have hcount := hl.count
  have hend : l.endBlock = e.startBlock + (cs1.length + (cs2.length + 1)) := by
    simp only [InvertedList.endBlock, h2, h3, hcount, List.length_append, List.length_cons]
  have hnot : ¬ (e.startBlock + cs1.length ≥ l.endBlock) := by rw [hend]; omega
  have hoff : blockOffsetLoop idx.docIDSizes idx.freqSizes (e.startBlock + cs1.length - l.startBlock)
      l.startBlock l.startOffset = some (e.startOffset + (chunksBytes cs1).length) := by
    have e1 : e.startBlock + cs1.length - l.startBlock = cs1.length := by rw [h2]; omega
    rw [e1, hd, hf, h2, h1, ← ha]
    have := blockOffsetLoop_chunks cs1 a a' ((c :: cs2).map chunkDocBytes ++ b)
      ((c :: cs2).map chunkFreqBytes ++ b') e.startOffset (by rw [ha, ha'])
    simpa [List.map_append] using this
  have hc := hl.blocks c (by simp)
  have hread : readBlock idx.invFile (e.startOffset + (chunksBytes cs1).length)
      = some (chunkDocBytes c, chunkFreqBytes c, c.map Prod.fst, c.map Prod.snd) := by
    have hb1 := encodeAll_length_le (deltaEncode (c.map Prod.fst))
      (deltaEncode_lt _ (by
        intro d hd
        rw [List.mem_map] at hd
        obtain ⟨p, hp, rfl⟩ := hd
        exact (hc.2.2 p hp).1))
    have hb2 := encodeAll_length_le (c.map Prod.snd) (by
        intro d hd
        rw [List.mem_map] at hd
        obtain ⟨p, hp, rfl⟩ := hd
        exact (hc.2.2 p hp).2)
    rw [deltaEncode_length] at hb1
    simp only [List.length_map] at hb1 hb2
    have hcl : c.length ≤ 128 := hc.2.1
    have := readBlock_blockBytes (pre ++ chunksBytes cs1) (chunksBytes cs2 ++ post)
      (c.map Prod.fst) (c.map Prod.snd)
      (chain_le_of_pairwise_lt _ (chain_le_of_pairwise_lt_flatten cs1 cs2 c hl.sorted))
      (by omega) (by omega)
    rw [hfile, chunksBytes_append]
    simpa [chunksBytes, hpre, chunkDocBytes, chunkFreqBytes] using this
  unfold InvertedList.decompressBlock
  simp only [hnot, if_false, hoff, hread]


theorem cursorAt_hasNext (e : LexEntry) (j : Nat) (c : List Posting) (p : Nat) (hp : p < c.length) :
    (cursorAt e j c p).hasNext = true := by
  simp [InvertedList.hasNext, cursorAt, hp]

theorem cursorAt_posting (e : LexEntry) (j : Nat) (blk : List Posting) (p : Nat)
    (hp : p < blk.length) :
    ((cursorAt e j blk p).getDocID, (cursorAt e j blk p).getFrequency)
      = Posting.toInt blk[p] := by
  simp [InvertedList.getDocID, InvertedList.getFrequency, cursorAt_hasNext e j blk p hp,
    Posting.toInt]
  simp [cursorAt, List.getD_eq_getElem?_getD, List.getElem?_map, List.getElem?_eq_getElem hp]

theorem cursorAt_endBlock (e : LexEntry) (j : Nat) (c : List Posting) (p : Nat) :
    (cursorAt e j c p).endBlock = e.startBlock + (e.numPostings + BLOCK_SIZE - 1) / BLOCK_SIZE :=
  rfl

theorem collect_finished (idx : Index) (l : InvertedList) (h : l.finished = true) (fuel : Nat) :
    InvertedList.collect fuel idx l = some [] := by
  have : l.hasNext = false := by simp [InvertedList.hasNext, h]
  cases fuel <;> simp [InvertedList.collect, this]

/-- `next()` on a cursor that stands on a posting of a laid-out term: the next posting of
the block, or the first posting of the next block, or the finished cursor after the last. -/
theorem next_layout (idx : Index) (e : LexEntry) (cs1 cs2 : List (List Posting))
    (c : List Posting) (hl : TermLayout idx e (cs1 ++ c :: cs2)) (p : Nat) (hp : p < c.length) :
    (p + 1 < c.length ∧
      InvertedList.next idx (cursorAt e cs1.length c p) = some (cursorAt e cs1.length c (p + 1)))
    ∨ (p + 1 = c.length ∧ ∃ c' cs2', cs2 = c' :: cs2' ∧
      InvertedList.next idx (cursorAt e cs1.length c p) = some (cursorAt e (cs1.length + 1) c' 0))
    ∨ (p + 1 = c.length ∧ cs2 = [] ∧ ∃ l, InvertedList.next idx (cursorAt e cs1.length c p) = some l
        ∧ l.finished = true) := by
  by_cases h : p + 1 < c.length
  · left
    refine ⟨h, ?_⟩
    have : ¬ (p + 1 ≥ c.length) := by omega
    simp [InvertedList.next, cursorAt, this]
  · right
    have hpe : p + 1 = c.length := by omega
    have hge : p + 1 ≥ c.length := by omega
    have hcount := hl.count
    cases cs2 with
    | nil =>
      right
      refine ⟨hpe, rfl, ?_⟩
      have hnot : ¬ (e.startBlock + cs1.length + 1 < e.startBlock + (cs1.length + 1)) := by omega
      simp [InvertedList.next, cursorAt, hge, InvertedList.endBlock, hcount, hnot]
    | cons c' cs2' =>
      left
      refine ⟨hpe, c', cs2', rfl, ?_⟩
      have hlt : e.startBlock + cs1.length + 1 < e.startBlock + (cs1.length + (cs2'.length + 1 + 1)) := by
        omega
      have hl' : TermLayout idx e ((cs1 ++ [c]) ++ c' :: cs2') := by simpa using hl
      have hdec := decompressBlock_layout idx e (cs1 ++ [c]) cs2' c' hl'
        { cursorAt e cs1.length c (p + 1) with currentBlockIdx := e.startBlock + cs1.length + 1 }
        rfl rfl rfl
      simp only [List.length_append, List.length_singleton] at hdec
      simp only [InvertedList.next, cursorAt, List.length_map, hge, if_true,
        InvertedList.endBlock, hcount, List.length_append, List.length_cons, hlt]
      simp only [cursorAt, Nat.add_assoc] at hdec ⊢
      rw [hdec]

/-- The posting loop from a posting of a laid-out term visits the rest of the block and all
later blocks, and ends. -/
theorem collect_layout (idx : Index) (e : LexEntry) (fuel : Nat) :
    ∀ (cs1 cs2 : List (List Posting)) (blk : List Posting) (p : Nat),
      TermLayout idx e (cs1 ++ blk :: cs2) → p < blk.length →
      (blk.drop p).length + cs2.flatten.length < fuel →
      InvertedList.collect fuel idx (cursorAt e cs1.length blk p)
        = some ((blk.drop p ++ cs2.flatten).map Posting.toInt) := by
  induction fuel with
  | zero => intro cs1 cs2 blk p _ _ hf; omega
  | succ fuel ih =>
    intro cs1 cs2 blk p hl hp hf
    have hdrop : blk.drop p = blk[p] :: blk.drop (p + 1) := List.drop_eq_getElem_cons hp
    have hdl : (blk.drop p).length = (blk.drop (p + 1)).length + 1 := by
      rw [hdrop, List.length_cons]
    simp only [InvertedList.collect, cursorAt_hasNext e _ blk p hp, if_true,
      cursorAt_posting e _ blk p hp]
    rcases next_layout idx e cs1 cs2 blk hl p hp with ⟨h1, hn⟩ | ⟨h1, c', cs2', rfl, hn⟩ |
        ⟨h1, rfl, l, hn, hfin⟩
    · rw [hn]
      dsimp only
      rw [ih cs1 cs2 blk (p + 1) hl h1 (by omega), hdrop]
      rfl
    · have hl' : TermLayout idx e ((cs1 ++ [blk]) ++ c' :: cs2') := by simpa using hl
      have hc' := (hl.blocks c' (by simp)).1
      have hpos : 0 < c'.length := List.length_pos.mpr hc'
      have hd0 : blk.drop (p + 1) = [] := List.drop_eq_nil_of_le (by omega)
      have := ih (cs1 ++ [blk]) cs2' c' 0 hl' hpos (by
        simp only [List.flatten_cons, List.length_append, hd0, List.length_nil] at hf hdl
        simp only [List.drop_zero]
        omega)
      simp only [List.length_append, List.length_singleton] at this
      rw [hn]
      dsimp only
      rw [this, hdrop, hd0]
      simp only [List.drop_zero, List.flatten_cons, List.map_append, List.map_cons,
        List.cons_append, List.nil_append, List.map_nil]
    · have hd0 : blk.drop (p + 1) = [] := List.drop_eq_nil_of_le (by omega)
      rw [hn]
      dsimp only
      rw [collect_finished idx l hfin, hdrop, hd0]
      rfl


/-! ## `nextGEQ` on a laid-out term -/

theorem skipBlocks_spec (lastDocIDs : List Nat) (t : Nat) (k : Nat) :
    ∀ cur : Nat, (∀ i, cur ≤ i → i < cur + k → ∃ v, lastDocIDs[i]? = some v) →
      ∃ cur' found, skipBlocks lastDocIDs t k cur = some (cur', found)
        ∧ cur ≤ cur' ∧ cur' ≤ cur + k
        ∧ (found = true → cur' < cur + k ∧ ∃ v, lastDocIDs[cur']? = some v ∧ t ≤ v)
        ∧ (found = false → cur' = cur + k)
        ∧ (∀ i, cur ≤ i → i < cur' → ∃ v, lastDocIDs[i]? = some v ∧ v < t) := by
  induction k with
  | zero =>
    intro cur _
    refine ⟨cur, false, rfl, le_refl _, le_refl _, by simp, by simp, ?_⟩
    intro i h1 h2; omega
  | succ k ih =>
    intro cur h
    obtain ⟨v, hv⟩ := h cur (le_refl _) (by omega)
    by_cases hge : v ≥ t
    · refine ⟨cur, true, by simp [skipBlocks, hv, hge], le_refl _, by omega, ?_, by simp, ?_⟩
      · intro _; exact ⟨by omega, v, hv, hge⟩
      · intro i h1 h2; omega
    · obtain ⟨cur', found, hs, h1, h2, h3, h4, h5⟩ :=
        ih (cur + 1) (fun i hi1 hi2 => h i (by omega) (by omega))
      refine ⟨cur', found, by simp [skipBlocks, hv, hge, hs], by omega, by omega, ?_, ?_, ?_⟩
      · intro hf
        obtain ⟨h6, h7⟩ := h3 hf
        exact ⟨by omega, h7⟩
      · intro hf; have := h4 hf; omega
      · intro i hi1 hi2
        by_cases hic : i = cur
        · subst hic; exact ⟨v, hv, by omega⟩
        · exact h5 i (by omega) hi2

theorem scanFrom_some (t : Nat) (ds : List Nat) :
    ∀ (pos q : Nat), scanFrom t ds pos = some q →
      pos ≤ q ∧ q < pos + ds.length ∧ ∃ d, ds[q - pos]? = some d ∧ t ≤ d := by
  induction ds with
  | nil => intro pos q h; simp [scanFrom] at h
  | cons d ds ih =>
    intro pos q h
    by_cases hd : d ≥ t
    · simp only [scanFrom, hd, if_true, Option.some.injEq] at h
      subst h
      exact ⟨le_refl _, by simp, d, by simp, hd⟩
    · simp only [scanFrom, hd, if_false] at h
      obtain ⟨h1, h2, d', h3, h4⟩ := ih (pos + 1) q h
      refine ⟨by omega, by simp; omega, d', ?_, h4⟩
      have e : q - pos = (q - (pos + 1)) + 1 := by omega
      rw [e, List.getElem?_cons_succ]
      exact h3

theorem scanFrom_none (t : Nat) (ds : List Nat) :
    ∀ pos : Nat, (∀ d ∈ ds, d < t) → scanFrom t ds pos = none := by
  induction ds with
  | nil => intro pos _; rfl
  | cons d ds ih =>
    intro pos h
    have hd : ¬ (d ≥ t) := by have := h d (List.mem_cons_self _ _); omega
    simp only [scanFrom, hd, if_false]
    exact ih (pos + 1) (fun x hx => h x (List.mem_cons_of_mem _ hx))

theorem scanFrom_drop_some (t : Nat) (docs : List Nat) (p q : Nat)
    (h : scanFrom t (docs.drop p) p = some q) :
    p ≤ q ∧ q < docs.length ∧ ∃ d, docs[q]? = some d ∧ t ≤ d := by
  obtain ⟨h1, h2, d, h3, h4⟩ := scanFrom_some t (docs.drop p) p q h
  rw [List.getElem?_drop] at h3
  have e : p + (q - p) = q := by omega
  rw [e] at h3
  have hq : q < docs.length := by
    by_contra hc
    rw [List.getElem?_eq_none (by omega)] at h3
    cases h3
  exact ⟨h1, hq, d, h3, h4⟩

/-- A block of a term by its number. -/
theorem layout_split (cs : List (List Posting)) (j : Nat) (blk : List Posting)
    (hj : cs[j]? = some blk) :
    cs = cs.take j ++ blk :: cs.drop (j + 1) ∧ (cs.take j).length = j := by
  have hlt : j < cs.length := by
    by_contra hc
    rw [List.getElem?_eq_none (by omega)] at hj
    cases hj
  have hb : cs[j] = blk := by
    rw [List.getElem?_eq_getElem hlt] at hj
    exact Option.some.inj hj
  refine ⟨?_, by simp; omega⟩
  rw [← hb, List.getElem_cons_drop, List.take_append_drop]

theorem layout_last (idx : Index) (e : LexEntry) (cs : List (List Posting))
    (hl : TermLayout idx e cs) (j : Nat) (blk : List Posting) (hj : cs[j]? = some blk) :
    idx.lastDocIDs[e.startBlock + j]? = some (chunkLast blk) := by
  obtain ⟨a, b, hlast, ha⟩ := hl.lasts
  have hlt : j < cs.length := by
    by_contra hc
    rw [List.getElem?_eq_none (by omega)] at hj
    cases hj
  rw [hlast, List.getElem?_append_right (by omega), ← ha]
  have e1 : a.length + j - a.length = j := by omega
  rw [e1, List.getElem?_append_left (by simp; omega), List.getElem?_map, hj]
  rfl

theorem layout_block_sorted (idx : Index) (e : LexEntry) (cs : List (List Posting))
    (hl : TermLayout idx e cs) (j : Nat) (blk : List Posting) (hj : cs[j]? = some blk) :
    (blk.map Prod.fst).Pairwise (· < ·) := by
  obtain ⟨hsplit, _⟩ := layout_split cs j blk hj
  have hs := hl.sorted
  rw [hsplit] at hs
  exact chain_le_of_pairwise_lt_flatten _ _ _ hs

theorem layout_block_mem (cs : List (List Posting)) (j : Nat) (blk : List Posting)
    (hj : cs[j]? = some blk) : blk ∈ cs := by
  obtain ⟨hsplit, _⟩ := layout_split cs j blk hj
  rw [hsplit]; simp

/-- Doc ids of an earlier block are below the doc ids of a later block. -/
theorem layout_blocks_lt (idx : Index) (e : LexEntry) (cs : List (List Posting))
    (hl : TermLayout idx e cs) (j j' : Nat) (b1 b2 : List Posting)
    (h1 : cs[j]? = some b1) (h2 : cs[j']? = some b2) (hjj : j < j')
    (x y : Posting) (hx : x ∈ b1) (hy : y ∈ b2) : x.1 < y.1 := by
  have hs := hl.sorted
  rw [List.map_flatten, List.pairwise_flatten] at hs
  have hp := hs.2
  rw [List.pairwise_iff_getElem] at hp
  have hlt1 : j < cs.length := by
    by_contra hc
    rw [List.getElem?_eq_none (by omega)] at h1
    cases h1
  have hlt2 : j' < cs.length := by
    by_contra hc
    rw [List.getElem?_eq_none (by omega)] at h2
    cases h2
  have hb1 : cs[j] = b1 := by
    rw [List.getElem?_eq_getElem hlt1] at h1; exact Option.some.inj h1
  have hb2 : cs[j'] = b2 := by
    rw [List.getElem?_eq_getElem hlt2] at h2; exact Option.some.inj h2
  have := hp j j' (by simpa using hlt1) (by simpa using hlt2) hjj x.1
    (by simp only [List.getElem_map, hb1]; exact List.mem_map_of_mem _ hx) y.1
    (by simp only [List.getElem_map, hb2]; exact List.mem_map_of_mem _ hy)
  exact this

/-- Within a block the doc ids grow with the position, and none exceeds the block's
`last_doc_id`. -/
theorem block_mono (blk : List Posting) (hs : (blk.map Prod.fst).Pairwise (· < ·))
    (p q : Nat) (hq : q < blk.length) (hpq : p ≤ q) :
    (blk[p]).1 ≤ (blk[q]).1 := by
  rcases Nat.eq_or_lt_of_le hpq with rfl | hlt
  · exact le_refl _
  · rw [List.pairwise_iff_getElem] at hs
    have := hs p q (by simp; omega) (by simpa using hq) hlt
    simp only [List.getElem_map] at this
    exact Nat.le_of_lt this

theorem block_le_last (blk : List Posting) (hs : (blk.map Prod.fst).Pairwise (· < ·))
    (x : Posting) (hx : x ∈ blk) : x.1 ≤ chunkLast blk := by
  have hne : blk ≠ [] := List.ne_nil_of_mem hx
  obtain ⟨q, hq, rfl⟩ := List.getElem_of_mem hx
  have hpos : 0 < blk.length := List.length_pos.mpr hne
  have hb : blk.length - 1 < blk.length := by omega
  have hlast : chunkLast blk = (blk[blk.length - 1]).1 := by
    unfold chunkLast
    rw [List.getLastD_eq_getLast?, List.getLast?_eq_getLast _ (by simpa using hne),
      List.getLast_eq_getElem]
    simp
  rw [hlast]
  exact block_mono blk hs q (blk.length - 1) (by omega) (by omega)


theorem decompress_at (idx : Index) (e : LexEntry) (cs : List (List Posting))
    (hl : TermLayout idx e cs) (j : Nat) (blk : List Posting) (hj : cs[j]? = some blk)
    (l : InvertedList) (h1 : l.startOffset = e.startOffset) (h2 : l.startBlock = e.startBlock)
    (h3 : l.numPostings = e.numPostings) :
    InvertedList.decompressBlock idx l (e.startBlock + j)
      = some { l with currentDocIDs := blk.map Prod.fst, currentFreqs := blk.map Prod.snd,
                      positionInBlock := 0 } := by
  obtain ⟨hsplit, hlen⟩ := layout_split cs j blk hj
  have hl' : TermLayout idx e (cs.take j ++ blk :: cs.drop (j + 1)) := by rw [← hsplit]; exact hl
  have := decompressBlock_layout idx e (cs.take j) (cs.drop (j + 1)) blk hl' l h1 h2 h3
  rw [hlen] at this
  exact this

theorem getElem?_lt_length {α : Type} (xs : List α) (j : Nat) (x : α) (h : xs[j]? = some x) :
    j < xs.length := by
  by_contra hc
  rw [List.getElem?_eq_none (by omega)] at h
  cases h

theorem cursorAt_curDoc (e : LexEntry) (j : Nat) (blk : List Posting) (p : Nat)
    (hp : p < blk.length) : (cursorAt e j blk p).curDoc = (blk[p]).1 := by
  simp [InvertedList.curDoc, cursorAt, List.getD_eq_getElem?_getD, List.getElem?_map,
    List.getElem?_eq_getElem hp]

/-- `nextGEQ(t)` on a cursor that stands on a posting whose doc id is at least `t`: the call
returns true and the cursor is unchanged. -/
theorem nextGEQFuel_hit (idx : Index) (e : LexEntry) (cs : List (List Posting))
    (hl : TermLayout idx e cs) (j : Nat) (blk : List Posting) (hj : cs[j]? = some blk)
    (p : Nat) (hp : p < blk.length) (t : Nat) (ht : t ≤ (blk[p]).1) (fuel : Nat) :
    InvertedList.nextGEQFuel (fuel + 1) idx (cursorAt e j blk p) t
      = some (true, cursorAt e j blk p) := by
  have hjl := getElem?_lt_length cs j blk hj
  have hsorted := layout_block_sorted idx e cs hl j blk hj
  have hlast := layout_last idx e cs hl j blk hj
  have hle : (blk[p]).1 ≤ chunkLast blk :=
    block_le_last blk hsorted _ (List.getElem_mem _)
  have hk : (cursorAt e j blk p).endBlock - (cursorAt e j blk p).currentBlockIdx
      = (cs.length - j - 1) + 1 := by
    rw [cursorAt_endBlock, hl.count]
    simp only [cursorAt]
    omega
  have hskip : skipBlocks idx.lastDocIDs t ((cs.length - j - 1) + 1) (e.startBlock + j)
      = some (e.startBlock + j, true) := by
    have hge : chunkLast blk ≥ t := by omega
    simp only [skipBlocks, hlast, hge, if_true]
  have hscan : scanFrom t ((blk.map Prod.fst).drop p) p = some p := by
    have hp' : p < (blk.map Prod.fst).length := by simpa using hp
    rw [List.drop_eq_getElem_cons hp']
    have hge : (blk.map Prod.fst)[p] ≥ t := by simpa using ht
    simp only [scanFrom, hge, if_true]
  have hre : ((blk.map Prod.fst).isEmpty || decide (p ≥ (blk.map Prod.fst).length)) = false := by
    have hne : blk ≠ [] := List.ne_nil_of_length_pos (by omega)
    have hnp : ¬ (blk.length ≤ p) := by omega
    simp [hne, hnp]
  unfold InvertedList.nextGEQFuel
  rw [hk]
  simp only [cursorAt, Bool.false_eq_true, if_false, hskip, hre, Bool.and_false, hscan]

/-- The general behaviour of `nextGEQ` on a cursor that stands on a posting of a laid-out
term: the call returns; when it returns false the cursor is finished; when it returns true
the cursor stands on a posting of the same or a later block, whose doc id is at least the
target and at least the doc id it stood on before. -/
theorem nextGEQFuel_layout (idx : Index) (e : LexEntry) (cs : List (List Posting))
    (hl : TermLayout idx e cs) (t : Nat) (fuel : Nat) :
    ∀ (j : Nat) (blk : List Posting) (p : Nat), cs[j]? = some blk → p < blk.length →
      cs.length - j + 1 ≤ fuel →
      ∃ b l', InvertedList.nextGEQFuel fuel idx (cursorAt e j blk p) t = some (b, l')
        ∧ ((b = false ∧ l'.finished = true)
          ∨ (b = true ∧ ∃ j' blk' p', cs[j']? = some blk' ∧ p' < blk'.length
              ∧ l' = cursorAt e j' blk' p' ∧ j ≤ j'
              ∧ (cursorAt e j blk p).curDoc ≤ l'.curDoc ∧ t ≤ l'.curDoc)) := by
  induction fuel with
  | zero => intro j blk p _ _ hf; omega
  | succ fuel ih =>
    intro j blk p hj hp hf
    have hjl := getElem?_lt_length cs j blk hj
    have hsorted := layout_block_sorted idx e cs hl j blk hj
    have hk : (cursorAt e j blk p).endBlock - (cursorAt e j blk p).currentBlockIdx
        = cs.length - j := by
      rw [cursorAt_endBlock, hl.count]
      simp only [cursorAt]
      omega
    have hend : ∀ (a : Nat) (b c : List Nat) (d : Nat) (f : Bool),
        InvertedList.endBlock ⟨e.startOffset, e.startBlock, e.numPostings, a, b, c, d, f⟩
          = e.startBlock + cs.length := by
      intro a b c d f
      simp only [InvertedList.endBlock, hl.count]
    obtain ⟨cur', found, hs, hc1, hc2, hc3, hc4, hc5⟩ :=
      skipBlocks_spec idx.lastDocIDs t (cs.length - j) (e.startBlock + j) (by
        intro i hi1 hi2
        obtain ⟨b', hb'⟩ : ∃ b', cs[i - e.startBlock]? = some b' :=
          ⟨cs[i - e.startBlock], List.getElem?_eq_getElem (by omega)⟩
        have := layout_last idx e cs hl (i - e.startBlock) b' hb'
        have e1 : e.startBlock + (i - e.startBlock) = i := by omega
        rw [e1] at this
        exact ⟨_, this⟩)
    obtain ⟨j', rfl⟩ : ∃ j', cur' = e.startBlock + j' := ⟨cur' - e.startBlock, by omega⟩
    have hre : ((blk.map Prod.fst).isEmpty || decide (p ≥ (blk.map Prod.fst).length)) = false := by
      have hne : blk ≠ [] := List.ne_nil_of_length_pos (by omega)
      have hnp : ¬ (blk.length ≤ p) := by omega
      simp [hne, hnp]
    unfold InvertedList.nextGEQFuel
    rw [hk]
    simp only [cursorAt, Bool.false_eq_true, if_false, hs, hre, Bool.and_false]
    cases hscan : scanFrom t ((blk.map Prod.fst).drop p) p with
    | some q =>
      obtain ⟨hq1, hq2, d, hq3, hq4⟩ := scanFrom_drop_some t _ p q hscan
      have hq2' : q < blk.length := by simpa using hq2
      by_cases hjj : j' = j
      · subst hjj
        refine ⟨true, _, rfl, Or.inr ⟨rfl, j', blk, q, hj, hq2', rfl, le_refl _, ?_, ?_⟩⟩
        · have h1 := cursorAt_curDoc e j' blk p hp
          have h2 := cursorAt_curDoc e j' blk q hq2'
          simp only [cursorAt] at h1 h2
          rw [h1, h2]
          exact block_mono blk hsorted p q hq2' hq1
        · have h2 := cursorAt_curDoc e j' blk q hq2'
          simp only [cursorAt] at h2
          rw [h2]
          rw [List.getElem?_map, List.getElem?_eq_getElem hq2'] at hq3
          simp only [Option.map_some', Option.some.injEq] at hq3
          omega
      · exfalso
        obtain ⟨v, hv1, hv2⟩ := hc5 (e.startBlock + j) (le_refl _) (by omega)
        rw [layout_last idx e cs hl j blk hj] at hv1
        have hv : chunkLast blk < t := by
          simp only [Option.some.injEq] at hv1
          omega
        have : scanFrom t ((blk.map Prod.fst).drop p) p = none := by
          apply scanFrom_none
          intro x hx
          have hx' := List.mem_of_mem_drop hx
          rw [List.mem_map] at hx'
          obtain ⟨y, hy, rfl⟩ := hx'
          have := block_le_last blk hsorted y hy
          omega
        rw [this] at hscan
        cases hscan
    | none =>
      simp only [hend]
      by_cases hfin : e.startBlock + j' + 1 ≥ e.startBlock + cs.length
      · simp only [hfin, if_true]
        exact ⟨false, _, rfl, Or.inl ⟨rfl, rfl⟩⟩
      · simp only [hfin, if_false]
        have hj1 : j' + 1 < cs.length := by omega
        have hb'' : cs[j' + 1]? = some cs[j' + 1] := List.getElem?_eq_getElem hj1
        have hne'' := (hl.blocks cs[j' + 1] (List.getElem_mem _)).1
        have hpos : 0 < (cs[j' + 1]).length := List.length_pos.mpr hne''
        have hdec := decompress_at idx e cs hl (j' + 1) cs[j' + 1] hb''
          ⟨e.startOffset, e.startBlock, e.numPostings, e.startBlock + j' + 1, blk.map Prod.fst,
            blk.map Prod.snd, max p (blk.map Prod.fst).length, false⟩ rfl rfl rfl
        rw [← Nat.add_assoc] at hdec
        rw [hdec]
        obtain ⟨b, l', hr, hpost⟩ := ih (j' + 1) cs[j' + 1] 0 hb'' hpos (by omega)
        simp only [cursorAt, ← Nat.add_assoc] at hr
        simp only
        rw [hr]
        refine ⟨b, l', rfl, ?_⟩
        rcases hpost with h | ⟨hb, j2, blk2, p2, h1, h2, h3, h4, h5, h6⟩
        · exact Or.inl h
        · refine Or.inr ⟨hb, j2, blk2, p2, h1, h2, h3, by omega, ?_, h6⟩
          have hlt := layout_blocks_lt idx e cs hl j (j' + 1) blk cs[j' + 1] hj hb'' (by omega)
            blk[p] (cs[j' + 1])[0] (List.getElem_mem _) (List.getElem_mem _)
          have e1 := cursorAt_curDoc e j blk p hp
          have e2 := cursorAt_curDoc e (j' + 1) cs[j' + 1] 0 hpos
          simp only [cursorAt] at e1
          rw [e1]
          rw [e2] at h5
          omega


/-! ## What the merger writes -/

theorem writeChunks_eq (cs : List (List Posting)) : ∀ o : BlockOut,
    writeChunks o cs =
      { invFile := o.invFile ++ chunksBytes cs,
        lastDocIDs := o.lastDocIDs ++ cs.map chunkLast,
        docIDSizes := o.docIDSizes ++ cs.map chunkDocBytes,
        freqSizes := o.freqSizes ++ cs.map chunkFreqBytes } := by
  induction cs with
  | nil => intro o; simp [writeChunks, chunksBytes]
  | cons c cs ih =>
    intro o
    have : writeChunks o (c :: cs) = writeChunks (writeChunk o c) cs := rfl
    rw [this, ih, writeChunk, write_block_eq]
    simp [chunksBytes, chunkLast, chunkDocBytes, chunkFreqBytes]

theorem flush_feed (ps : List Posting) : ∀ (o : BlockOut) (pending : List Posting),
    flush (feed o pending ps).1 (feed o pending ps).2 = writeChunks o (chunkAux pending ps) := by
  induction ps with
  | nil =>
    intro o pending
    by_cases h : pending = [] <;> simp [feed, flush, chunkAux, h, writeChunks]
  | cons p ps ih =>
    intro o pending
    by_cases h : (pending ++ [p]).length = BLOCK_SIZE
    · simp only [feed, chunkAux, h, if_true, ih]
      rfl
    · simp only [feed, chunkAux, h, if_false, ih]

theorem feed_pending_lt (ps : List Posting) : ∀ (o : BlockOut) (pending : List Posting),
    pending.length < BLOCK_SIZE → (feed o pending ps).2.length < BLOCK_SIZE := by
  induction ps with
  | nil => intro o pending h; simpa [feed] using h
  | cons p ps ih =>
    intro o pending hlt
    by_cases h : (pending ++ [p]).length = BLOCK_SIZE
    · simp only [feed, h, if_true]
      exact ih _ [] (by simp [BLOCK_SIZE])
    · simp only [feed, h, if_false]
      apply ih
      simp only [List.length_append, List.length_singleton] at h ⊢
      omega

theorem chunkAux_flatten (ps : List Posting) : ∀ pending : List Posting,
    (chunkAux pending ps).flatten = pending ++ ps := by
  induction ps with
  | nil => intro pending; by_cases h : pending = [] <;> simp [chunkAux, h]
  | cons p ps ih =>
    intro pending
    by_cases h : (pending ++ [p]).length = BLOCK_SIZE
    · simp only [chunkAux, h, if_true, List.flatten_cons, ih]
      simp
    · simp only [chunkAux, h, if_false, ih]
      simp

theorem chunkAux_length (ps : List Posting) : ∀ pending : List Posting,
    pending.length < BLOCK_SIZE →
    (chunkAux pending ps).length = (pending.length + ps.length + BLOCK_SIZE - 1) / BLOCK_SIZE := by
  induction ps with
  | nil =>
    intro pending hlt
    by_cases h : pending = []
    · simp [chunkAux, h, BLOCK_SIZE]
    · have hpos : 0 < pending.length := List.length_pos.mpr h
      simp only [chunkAux, h, if_false, List.length_singleton, List.length_nil, BLOCK_SIZE] at hlt ⊢
      omega
  | cons p ps ih =>
    intro pending hlt
    by_cases h : (pending ++ [p]).length = BLOCK_SIZE
    · have hp : pending.length + 1 = 128 := by simpa [BLOCK_SIZE] using h
      rw [chunkAux, if_pos h, List.length_cons, ih [] (by simp [BLOCK_SIZE])]
      simp only [List.length_nil, List.length_cons, BLOCK_SIZE]
      omega
    · simp only [chunkAux, h, if_false]
      rw [ih (pending ++ [p]) (by
        simp only [List.length_append, List.length_singleton] at h ⊢
        omega)]
      have e : (pending ++ [p]).length + ps.length = pending.length + (p :: ps).length := by
        simp only [List.length_append, List.length_singleton, List.length_cons, List.length_nil]
        omega
      rw [e]

theorem chunkAux_blocks (ps : List Posting) : ∀ pending : List Posting,
    pending.length < BLOCK_SIZE →
    ∀ c ∈ chunkAux pending ps, c ≠ [] ∧ c.length ≤ BLOCK_SIZE := by
  induction ps with
  | nil =>
    intro pending hlt c hc
    by_cases h : pending = []
    · simp [chunkAux, h] at hc
    · simp only [chunkAux, h, if_false, List.mem_singleton] at hc
      subst hc
      exact ⟨h, Nat.le_of_lt hlt⟩
  | cons p ps ih =>
    intro pending hlt c hc
    by_cases h : (pending ++ [p]).length = BLOCK_SIZE
    · simp only [chunkAux, h, if_true, List.mem_cons] at hc
      rcases hc with rfl | hc
      · exact ⟨by simp, Nat.le_of_eq h⟩
      · exact ih [] (by simp [BLOCK_SIZE]) c hc
    · simp only [chunkAux, h, if_false] at hc
      exact ih (pending ++ [p]) (by
        simp only [List.length_append, List.length_singleton] at h ⊢
        omega) c hc

theorem chunks_flatten (ps : List Posting) : (chunks ps).flatten = ps := by
  simp [chunks, chunkAux_flatten]

theorem chunks_length (ps : List Posting) :
    (chunks ps).length = (ps.length + BLOCK_SIZE - 1) / BLOCK_SIZE := by
  have := chunkAux_length ps [] (by simp [BLOCK_SIZE])
  simpa [chunks] using this

theorem chunks_blocks (ps : List Posting) :
    ∀ c ∈ chunks ps, c ≠ [] ∧ c.length ≤ BLOCK_SIZE :=
  chunkAux_blocks ps [] (by simp [BLOCK_SIZE])


theorem map_fst_ne_nil (pending : List Posting) :
    (pending.map Prod.fst ≠ []) ↔ pending ≠ [] := by
  simp

theorem mergeStep_same (o : BlockOut) (lex : List LexLine) (tp n : Nat) (df : String → Nat)
    (t : String) (pending : List Posting) (off blk d f i : Nat) :
    mergeStep (stateOf o lex tp n df t pending off blk) ⟨t, d, f, i⟩ =
      if (pending ++ [(d, f)]).length = BLOCK_SIZE then
        stateOf (writeChunk o (pending ++ [(d, f)])) lex tp (n + 1)
          (Function.update df t (df t + 1)) t [] off blk
      else
        stateOf o lex tp (n + 1) (Function.update df t (df t + 1)) t (pending ++ [(d, f)])
          off blk := by
  by_cases h : (pending ++ [(d, f)]).length = BLOCK_SIZE
  · have h' : (pending.map Prod.fst ++ [d]).length = BLOCK_SIZE := by simpa using h
    simp only [mergeStep, stateOf, ne_eq, not_true_eq_false, and_false, if_false, h', h, if_true,
      writeChunk, List.map_append, List.map_cons, List.map_nil]
  · have h' : ¬ (pending.map Prod.fst ++ [d]).length = BLOCK_SIZE := by simpa using h
    simp only [mergeStep, stateOf, ne_eq, not_true_eq_false, and_false, if_false, h', h,
      List.map_append, List.map_cons, List.map_nil]

theorem foldl_same_term (lex : List LexLine) (tp : Nat) (t : String) (off blk : Nat)
    (ps : List (Nat × Nat × Nat)) :
    ∀ (o : BlockOut) (n : Nat) (df : String → Nat) (pending : List Posting),
      (termEntries t ps).foldl mergeStep (stateOf o lex tp n df t pending off blk) =
        stateOf (feed o pending (postingsOfTriples ps)).1 lex tp (n + ps.length)
          (Function.update df t (df t + ps.length)) t
          (feed o pending (postingsOfTriples ps)).2 off blk := by
  induction ps with
  | nil =>
    intro o n df pending
    simp [termEntries, postingsOfTriples, feed]
  | cons p ps ih =>
    intro o n df pending
    have hte : termEntries t (p :: ps) = ⟨t, p.1, p.2.1, p.2.2⟩ :: termEntries t ps := rfl
    have hpt : postingsOfTriples (p :: ps) = (p.1, p.2.1) :: postingsOfTriples ps := rfl
    rw [hte, List.foldl_cons, mergeStep_same, hpt]
    have hdf : Function.update (Function.update df t (df t + 1)) t
        (Function.update df t (df t + 1) t + ps.length)
        = Function.update df t (df t + (p :: ps).length) := by
      rw [Function.update_idem, Function.update_same, List.length_cons]
      have e : df t + 1 + ps.length = df t + (ps.length + 1) := by omega
      rw [e]
    have hn : n + 1 + ps.length = n + (p :: ps).length := by
      rw [List.length_cons]; omega
    by_cases h : (pending ++ [(p.1, p.2.1)]).length = BLOCK_SIZE
    · simp only [h, if_true, feed]
      rw [ih, hdf, hn]
    · simp only [h, if_false, feed]
      rw [ih, hdf, hn]

theorem mergeStep_new_term (o : BlockOut) (lex : List LexLine) (tp n : Nat) (df : String → Nat)
    (t t' : String) (pending : List Posting) (off blk d f i : Nat)
    (ht : t ≠ "") (htt : t' ≠ t) :
    mergeStep (stateOf o lex tp n df t pending off blk) ⟨t', d, f, i⟩ =
      mergeStep (stateOf (flush o pending) (lex ++ [⟨t, off, blk, n, df t⟩]) (tp + 1) 0
        (Function.update df t' 0) t' [] (flush o pending).invFile.length
        (flush o pending).lastDocIDs.length) ⟨t', d, f, i⟩ := by
  rw [mergeStep_same]
  by_cases hp : pending = []
  · subst hp
    simp [mergeStep, stateOf, finishTerm, flush, ht, htt, writeChunk]
  · simp [mergeStep, stateOf, finishTerm, flush, ht, htt, writeChunk, hp]

theorem mergeStep_first (t' : String) (d f i : Nat) (ht : t' ≠ "") :
    mergeStep MergeState.init ⟨t', d, f, i⟩ =
      mergeStep (stateOf BlockOut.empty [] 0 0 (Function.update (fun _ => 0) t' 0) t' [] 0 0)
        ⟨t', d, f, i⟩ := by
  rw [mergeStep_same]
  simp [mergeStep, stateOf, MergeState.init, BlockOut.empty, ht, writeChunk]

theorem mergeFinish_stateOf (o : BlockOut) (lex : List LexLine) (tp n : Nat) (df : String → Nat)
    (t : String) (pending : List Posting) (off blk : Nat) (ht : t ≠ "") :
    (mergeFinish (stateOf o lex tp n df t pending off blk)).out = flush o pending
    ∧ (mergeFinish (stateOf o lex tp n df t pending off blk)).lexFile
        = lex ++ [⟨t, off, blk, n, df t⟩] := by
  by_cases hp : pending = []
  · subst hp
    simp [mergeFinish, stateOf, flush, ht]
  · simp [mergeFinish, stateOf, flush, ht, hp, writeChunk]

theorem writeChunks_invFile_length (o : BlockOut) (cs : List (List Posting)) :
    (writeChunks o cs).invFile.length = o.invFile.length + (chunksBytes cs).length := by
  rw [writeChunks_eq]; simp

theorem writeChunks_lastDocIDs_length (o : BlockOut) (cs : List (List Posting)) :
    (writeChunks o cs).lastDocIDs.length = o.lastDocIDs.length + cs.length := by
  rw [writeChunks_eq]; simp

/-- The merger from the middle of a term on, over the groups of the terms that follow. -/
theorem merge_groups (gs : List (String × List (Nat × Nat × Nat))) :
    ∀ (o : BlockOut) (lex : List LexLine) (tp n : Nat) (df : String → Nat) (t : String)
      (pending : List Posting) (off blk : Nat), t ≠ "" →
      (t :: gs.map Prod.fst).Nodup → (∀ g ∈ gs, g.1 ≠ "" ∧ g.2 ≠ []) →
      (mergeFinish ((groupEntries gs).foldl mergeStep
          (stateOf o lex tp n df t pending off blk))).out = writeGroups (flush o pending) gs
      ∧ (mergeFinish ((groupEntries gs).foldl mergeStep
          (stateOf o lex tp n df t pending off blk))).lexFile
        = lex ++ ⟨t, off, blk, n, df t⟩ ::
            lexLines gs (flush o pending).invFile.length (flush o pending).lastDocIDs.length := by
  induction gs with
  | nil =>
    intro o lex tp n df t pending off blk ht _ _
    simpa [groupEntries, writeGroups, lexLines] using
      mergeFinish_stateOf o lex tp n df t pending off blk ht
  | cons g gs ih =>
    intro o lex tp n df t pending off blk ht hnd hg
    obtain ⟨t', ps⟩ := g
    have hg' := hg (t', ps) (List.mem_cons_self _ _)
    have ht' : t' ≠ "" := hg'.1
    obtain ⟨p, ps', rfl⟩ := List.exists_cons_of_ne_nil hg'.2
    have htt : t' ≠ t := by
      intro he
      subst he
      simp at hnd
    have hnd' : (t' :: gs.map Prod.fst).Nodup := by
      have := List.Nodup.of_cons hnd
      simpa using this
    have hte : termEntries t' (p :: ps') = ⟨t', p.1, p.2.1, p.2.2⟩ :: termEntries t' ps' := rfl
    have hfold : (termEntries t' (p :: ps')).foldl mergeStep
          (stateOf o lex tp n df t pending off blk)
        = (termEntries t' (p :: ps')).foldl mergeStep
          (stateOf (flush o pending) (lex ++ [⟨t, off, blk, n, df t⟩]) (tp + 1) 0
            (Function.update df t' 0) t' [] (flush o pending).invFile.length
            (flush o pending).lastDocIDs.length) := by
      rw [hte, List.foldl_cons, List.foldl_cons,
        mergeStep_new_term o lex tp n df t t' pending off blk _ _ _ ht htt]
    simp only [groupEntries, List.foldl_append]
    rw [hfold, foldl_same_term]
    obtain ⟨h1, h2⟩ := ih _ (lex ++ [⟨t, off, blk, n, df t⟩]) (tp + 1) (0 + (p :: ps').length)
      (Function.update (Function.update df t' 0) t'
        (Function.update df t' 0 t' + (p :: ps').length)) t'
      (feed (flush o pending) [] (postingsOfTriples (p :: ps'))).2
      (flush o pending).invFile.length (flush o pending).lastDocIDs.length ht' hnd'
      (fun g hg1 => hg g (List.mem_cons_of_mem _ hg1))
    rw [flush_feed] at h1 h2
    refine ⟨?_, ?_⟩
    · rw [h1]; rfl
    · rw [h2, writeChunks_invFile_length, writeChunks_lastDocIDs_length]
      simp [lexLines, chunks, Function.update_same]

/-- The inverted file, the skip table and the lexicon the merger writes for a sequence of
term groups. -/
theorem merge_spec (gs : List (String × List (Nat × Nat × Nat))) (hv : ValidGroups gs) :
    (mergeEntries (groupEntries gs)).out = writeGroups BlockOut.empty gs
    ∧ (mergeEntries (groupEntries gs)).lexFile = lexLines gs 0 0 := by
  cases gs with
  | nil => simp [mergeEntries, groupEntries, mergeFinish, MergeState.init, writeGroups, lexLines,
      BlockOut.empty]
  | cons g gs =>
    obtain ⟨t', ps⟩ := g
    have hg' := hv.2 (t', ps) (List.mem_cons_self _ _)
    have ht' : t' ≠ "" := hg'.1
    obtain ⟨p, ps', rfl⟩ := List.exists_cons_of_ne_nil hg'.2.1
    have hte : termEntries t' (p :: ps') = ⟨t', p.1, p.2.1, p.2.2⟩ :: termEntries t' ps' := rfl
    have hfold : (termEntries t' (p :: ps')).foldl mergeStep MergeState.init
        = (termEntries t' (p :: ps')).foldl mergeStep
          (stateOf BlockOut.empty [] 0 0 (Function.update (fun _ => 0) t' 0) t' [] 0 0) := by
      rw [hte, List.foldl_cons, List.foldl_cons, mergeStep_first t' _ _ _ ht']
    simp only [mergeEntries, groupEntries, List.foldl_append]
    rw [hfold, foldl_same_term]
    obtain ⟨h1, h2⟩ := merge_groups gs _ [] 0 (0 + (p :: ps').length)
      (Function.update (Function.update (fun _ => 0) t' 0) t'
        (Function.update (fun _ => 0) t' 0 t' + (p :: ps').length)) t'
      (feed BlockOut.empty [] (postingsOfTriples (p :: ps'))).2 0 0 ht'
      (by simpa using hv.1)
      (fun g hg1 => ⟨(hv.2 g (List.mem_cons_of_mem _ hg1)).1,
        (hv.2 g (List.mem_cons_of_mem _ hg1)).2.1⟩)
    rw [flush_feed] at h1 h2
    refine ⟨?_, ?_⟩
    · rw [h1]; rfl
    · rw [h2, writeChunks_invFile_length, writeChunks_lastDocIDs_length]
      simp [lexLines, chunks, Function.update_same, BlockOut.empty]


/-! ## The layout of the index the merger writes -/

theorem writeChunks_append (cs1 cs2 : List (List Posting)) (o : BlockOut) :
    writeChunks o (cs1 ++ cs2) = writeChunks (writeChunks o cs1) cs2 := by
  simp [writeChunks, List.foldl_append]

theorem writeGroups_eq (gs : List (String × List (Nat × Nat × Nat))) : ∀ o : BlockOut,
    writeGroups o gs = writeChunks o (allChunks gs) := by
  induction gs with
  | nil => intro o; rfl
  | cons g gs ih =>
    intro o
    simp only [writeGroups, ih, allChunks, List.map_cons, List.flatten_cons, writeChunks_append]

theorem allChunks_append (gs1 gs2 : List (String × List (Nat × Nat × Nat))) :
    allChunks (gs1 ++ gs2) = allChunks gs1 ++ allChunks gs2 := by
  simp [allChunks]

theorem allChunks_cons (g : String × List (Nat × Nat × Nat))
    (gs : List (String × List (Nat × Nat × Nat))) :
    allChunks (g :: gs) = chunks (postingsOfTriples g.2) ++ allChunks gs := by
  simp [allChunks]

theorem lexLines_terms (gs : List (String × List (Nat × Nat × Nat))) : ∀ off blk : Nat,
    (lexLines gs off blk).map LexLine.term = gs.map Prod.fst := by
  induction gs with
  | nil => intro off blk; rfl
  | cons g gs ih => intro off blk; simp [lexLines, ih]

theorem lexLines_mem (gs1 : List (String × List (Nat × Nat × Nat))) :
    ∀ (g : String × List (Nat × Nat × Nat)) (gs2 : List (String × List (Nat × Nat × Nat)))
      (off blk : Nat),
      (⟨g.1, off + (chunksBytes (allChunks gs1)).length, blk + (allChunks gs1).length,
          g.2.length, g.2.length⟩ : LexLine) ∈ lexLines (gs1 ++ g :: gs2) off blk := by
  induction gs1 with
  | nil => intro g gs2 off blk; simp [lexLines, allChunks, chunksBytes]
  | cons g1 gs1 ih =>
    intro g gs2 off blk
    have := ih g gs2 (off + (chunksBytes (chunks (postingsOfTriples g1.2))).length)
      (blk + (chunks (postingsOfTriples g1.2)).length)
    simp only [List.cons_append, lexLines, List.mem_cons]
    right
    rw [allChunks_cons, chunksBytes_append, List.length_append, List.length_append,
      ← Nat.add_assoc, ← Nat.add_assoc]
    exact this

theorem lookup_of_mem_nodup (l : List (String × LexEntry)) (k : String) (v : LexEntry)
    (hnd : (l.map Prod.fst).Nodup) (hm : (k, v) ∈ l) : l.lookup k = some v := by
  induction l with
  | nil => simp at hm
  | cons a l ih =>
    obtain ⟨k', v'⟩ := a
    simp only [List.map_cons, List.nodup_cons] at hnd
    simp only [List.mem_cons, Prod.mk.injEq] at hm
    rcases hm with ⟨rfl, rfl⟩ | hm
    · simp [List.lookup]
    · have hne : k ≠ k' := by
        intro he
        subst he
        exact hnd.1 (List.mem_map_of_mem Prod.fst hm)
      have hb : (k == k') = false := by simpa using hne
      simp only [List.lookup, hb]
      exact ih hnd.2 hm

theorem foldl_cons_lexicon (lines : List LexLine) : ∀ acc : List (String × LexEntry),
    lines.foldl (fun lex l => (l.term, (⟨l.startOffset, l.startBlock, l.totalPostings, l.df⟩ :
        LexEntry)) :: lex) acc
      = (lines.map (fun l => (l.term, (⟨l.startOffset, l.startBlock, l.totalPostings, l.df⟩ :
          LexEntry)))).reverse ++ acc := by
  induction lines with
  | nil => intro acc; rfl
  | cons l ls ih => intro acc; simp [ih]

theorem loadIndex_lookup (m : MergeState) (l : LexLine) (hm : l ∈ m.lexFile)
    (hnd : (m.lexFile.map LexLine.term).Nodup) :
    (loadIndex m).lexicon.lookup l.term
      = some ⟨l.startOffset, l.startBlock, l.totalPostings, l.df⟩ := by
  simp only [loadIndex, foldl_cons_lexicon, List.append_nil]
  apply lookup_of_mem_nodup
  · rw [← List.map_reverse, List.map_map]
    have : (Prod.fst ∘ fun l : LexLine =>
        (l.term, (⟨l.startOffset, l.startBlock, l.totalPostings, l.df⟩ : LexEntry)))
        = LexLine.term := rfl
    rw [this, List.map_reverse, List.nodup_reverse]
    exact hnd
  · rw [List.mem_reverse]
    exact List.mem_map_of_mem _ hm

/-- The index the merger writes holds every term under its lexicon entry, laid out in its
blocks. -/
theorem merged_layout (gs1 gs2 : List (String × List (Nat × Nat × Nat))) (t : String)
    (ps : List (Nat × Nat × Nat)) (hv : ValidGroups (gs1 ++ (t, ps) :: gs2)) :
    (loadIndex (mergeEntries (groupEntries (gs1 ++ (t, ps) :: gs2)))).lexicon.lookup t
        = some (groupEntry gs1 ps)
    ∧ TermLayout (loadIndex (mergeEntries (groupEntries (gs1 ++ (t, ps) :: gs2))))
        (groupEntry gs1 ps) (chunks (postingsOfTriples ps)) := by
  obtain ⟨hout, hlex⟩ := merge_spec _ hv
  have hg := hv.2 (t, ps) (by simp)
  constructor
  · have hm := lexLines_mem gs1 (t, ps) gs2 0 0
    rw [← hlex] at hm
    have hnd : ((mergeEntries (groupEntries (gs1 ++ (t, ps) :: gs2))).lexFile.map
        LexLine.term).Nodup := by
      rw [hlex, lexLines_terms]; exact hv.1
    have := loadIndex_lookup _ _ hm hnd
    simpa [groupEntry] using this
  · rw [writeGroups_eq, writeChunks_eq, allChunks_append, allChunks_cons] at hout
    have hflat : (chunks (postingsOfTriples ps)).flatten = postingsOfTriples ps :=
      chunks_flatten _
    refine ⟨?_, ?_, ?_, ?_, ?_, ?_, ?_⟩
    · refine ⟨chunksBytes (allChunks gs1), chunksBytes (allChunks gs2), ?_, rfl⟩
      simp [loadIndex, hout, BlockOut.empty, chunksBytes_append]
    · refine ⟨(allChunks gs1).map chunkLast, (allChunks gs2).map chunkLast, ?_, by
        simp [groupEntry]⟩
      simp [loadIndex, hout, BlockOut.empty]
    · refine ⟨(allChunks gs1).map chunkDocBytes, (allChunks gs2).map chunkDocBytes, ?_, by
        simp [groupEntry]⟩
      simp [loadIndex, hout, BlockOut.empty]
    · refine ⟨(allChunks gs1).map chunkFreqBytes, (allChunks gs2).map chunkFreqBytes, ?_, by
        simp [groupEntry]⟩
      simp [loadIndex, hout, BlockOut.empty]
    · rw [chunks_length]
      simp [groupEntry, postingsOfTriples]
    · intro c hc
      obtain ⟨h1, h2⟩ := chunks_blocks _ c hc
      refine ⟨h1, h2, ?_⟩
      intro p hp
      have hpm : p ∈ postingsOfTriples ps := by
        rw [← hflat]
        exact List.mem_flatten.mpr ⟨c, hc, hp⟩
      simp only [postingsOfTriples, List.mem_map] at hpm
      obtain ⟨q, hq, rfl⟩ := hpm
      exact hg.2.2.2 q hq
    · rw [hflat]
      exact hg.2.2.1


/-! ## Sorted pop sequences are sequences of term groups -/

theorem termEntries_triples (t : String) (l : List TermEntry) (h : ∀ x ∈ l, x.term = t) :
    termEntries t (l.map TermEntry.triple) = l := by
  induction l with
  | nil => rfl
  | cons x xs ih =>
    have hx := h x (List.mem_cons_self _ _)
    have := ih (fun y hy => h y (List.mem_cons_of_mem _ hy))
    simp only [termEntries, List.map_cons, List.map_map] at this ⊢
    rw [this]
    congr 1
    cases x
    simp only [TermEntry.triple] at hx ⊢
    subst hx
    rfl

theorem groupEntries_term_mem (gs : List (String × List (Nat × Nat × Nat))) (x : TermEntry)
    (hx : x ∈ groupEntries gs) : x.term ∈ gs.map Prod.fst := by
  induction gs with
  | nil => simp [groupEntries] at hx
  | cons g gs ih =>
    simp only [groupEntries, List.mem_append] at hx
    rcases hx with hx | hx
    · simp only [termEntries, List.mem_map] at hx
      obtain ⟨p, _, rfl⟩ := hx
      simp
    · simp only [List.map_cons, List.mem_cons]
      exact Or.inr (ih hx)

theorem group_term_mem (gs : List (String × List (Nat × Nat × Nat)))
    (hne : ∀ g ∈ gs, g.2 ≠ []) (t : String) (ht : t ∈ gs.map Prod.fst) :
    ∃ x ∈ groupEntries gs, x.term = t := by
  induction gs with
  | nil => simp at ht
  | cons g gs ih =>
    simp only [List.map_cons, List.mem_cons] at ht
    rcases ht with rfl | ht
    · obtain ⟨p, ps, hp⟩ := List.exists_cons_of_ne_nil (hne g (List.mem_cons_self _ _))
      refine ⟨⟨g.1, p.1, p.2.1, p.2.2⟩, ?_, rfl⟩
      simp [groupEntries, termEntries, hp]
    · obtain ⟨x, hx, hxt⟩ := ih (fun g hg => hne g (List.mem_cons_of_mem _ hg)) ht
      exact ⟨x, by simp [groupEntries, hx], hxt⟩

theorem entryLt_term_ne (a b : TermEntry) (h : entryLt a b) (hne : b.term ≠ a.term) :
    a.term < b.term := by
  rcases h with h | ⟨h, _⟩
  · exact h
  · exact absurd h.symm hne

theorem dropWhile_head_not {α : Type} (p : α → Bool) (l : List α) (y : α) (ys : List α)
    (h : l.dropWhile p = y :: ys) : p y = false := by
  induction l with
  | nil => simp at h
  | cons a l ih =>
    by_cases ha : p a = true
    · rw [List.dropWhile_cons_of_pos ha] at h
      exact ih h
    · rw [List.dropWhile_cons_of_neg ha] at h
      simp only [List.cons.injEq] at h
      rw [← h.1]
      simpa using ha

/-- A sorted pop sequence splits into the groups of its terms. -/
theorem sorted_groups (n : Nat) : ∀ popped : List TermEntry, popped.length ≤ n →
    SortedEntries popped → ∃ gs, ValidGroups gs ∧ groupEntries gs = popped := by
  induction n with
  | zero =>
    intro popped hlen _
    have : popped = [] := List.length_eq_zero.mp (by omega)
    subst this
    exact ⟨[], ⟨by simp, by simp⟩, rfl⟩
  | succ n ih =>
    intro popped hlen hs
    cases popped with
    | nil => exact ⟨[], ⟨by simp, by simp⟩, rfl⟩
    | cons e rest =>
      obtain ⟨hpw, hbd⟩ := hs
      rw [List.pairwise_cons] at hpw
      obtain ⟨he, hrest⟩ := hpw
      set same := rest.takeWhile (fun x => decide (x.term = e.term)) with hsame
      set others := rest.dropWhile (fun x => decide (x.term = e.term)) with hothers
      have hsplit : rest = same ++ others := (List.takeWhile_append_dropWhile _ rest).symm
      have hsame_t : ∀ x ∈ same, x.term = e.term := by
        intro x hx
        have := List.mem_takeWhile_imp hx
        simpa using this
      have hothers_sub : ∀ x ∈ others, x ∈ rest := by
        intro x hx; rw [hsplit]; exact List.mem_append_right _ hx
      have hsame_sub : ∀ x ∈ same, x ∈ rest := by
        intro x hx; rw [hsplit]; exact List.mem_append_left _ hx
      have hothers_pw : others.Pairwise entryLt := by
        rw [hsplit] at hrest
        exact (List.pairwise_append.mp hrest).2.1
      have hothers_t : ∀ x ∈ others, x.term ≠ e.term := by
        intro x hx hxt
        cases hoth : others with
        | nil => rw [hoth] at hx; simp at hx
        | cons y ys =>
          have hy : y.term ≠ e.term := by
            have := dropWhile_head_not (fun x => decide (x.term = e.term)) rest y ys
              (hothers.symm.trans hoth)
            simpa using this
          have hey : e.term < y.term :=
            entryLt_term_ne e y (he y (hothers_sub y (by rw [hoth]; simp))) hy
          rw [hoth] at hx hothers_pw
          rcases List.mem_cons.mp hx with rfl | hx'
          · exact hy hxt
          · have hyx := (List.pairwise_cons.mp hothers_pw).1 x hx'
            rcases hyx with h | ⟨h, _⟩
            · rw [hxt] at h
              exact lt_asymm hey h
            · exact hy (h.trans hxt)
      have hlen' : others.length ≤ n := by
        have : rest.length = same.length + others.length := by
          rw [hsplit, List.length_append]
        simp only [List.length_cons] at hlen
        omega
      obtain ⟨gs', hv', hge'⟩ := ih others hlen'
        ⟨hothers_pw, fun x hx => hbd x (List.mem_cons_of_mem _ (hothers_sub x hx))⟩
      refine ⟨(e.term, (e :: same).map TermEntry.triple) :: gs', ⟨?_, ?_⟩, ?_⟩
      · simp only [List.map_cons, List.nodup_cons]
        refine ⟨?_, hv'.1⟩
        intro hmem
        obtain ⟨x, hx, hxt⟩ := group_term_mem gs' (fun g hg => (hv'.2 g hg).2.1) e.term hmem
        rw [hge'] at hx
        exact hothers_t x hx hxt
      · intro g hg
        rcases List.mem_cons.mp hg with rfl | hg
        · refine ⟨(hbd e (List.mem_cons_self _ _)).1, by simp, ?_, ?_⟩
          · have hpw2 : (e :: same).Pairwise entryLt := by
              rw [List.pairwise_cons]
              refine ⟨fun x hx => he x (hsame_sub x hx), ?_⟩
              rw [hsplit] at hrest
              exact (List.pairwise_append.mp hrest).1
            have hall : ∀ x ∈ e :: same, x.term = e.term := by
              intro x hx
              rcases List.mem_cons.mp hx with rfl | hx
              · rfl
              · exact hsame_t x hx
            simp only [postingsOfTriples, List.map_map]
            rw [List.pairwise_map]
            refine List.Pairwise.imp_of_mem ?_ hpw2
            intro a b ha hb hab
            simp only [Function.comp, TermEntry.triple]
            rcases hab with h | ⟨_, h⟩
            · rw [hall a ha, hall b hb] at h
              exact absurd h (lt_irrefl _)
            · exact h
          · intro p hp
            simp only [List.mem_map] at hp
            obtain ⟨x, hx, rfl⟩ := hp
            have hxm : x ∈ e :: rest := by
              rcases List.mem_cons.mp hx with rfl | hx
              · exact List.mem_cons_self _ _
              · exact List.mem_cons_of_mem _ (hsame_sub x hx)
            exact (hbd x hxm).2
        · exact hv'.2 g hg
      · simp only [groupEntries]
        rw [termEntries_triples e.term (e :: same) (by
          intro x hx
          rcases List.mem_cons.mp hx with rfl | hx
          · rfl
          · exact hsame_t x hx), hge', hsplit]
        simp


theorem groupEntries_append (gs1 gs2 : List (String × List (Nat × Nat × Nat))) :
    groupEntries (gs1 ++ gs2) = groupEntries gs1 ++ groupEntries gs2 := by
  induction gs1 with
  | nil => rfl
  | cons g gs ih => simp [groupEntries, ih]

theorem filter_groupEntries_of_not_mem (gs : List (String × List (Nat × Nat × Nat)))
    (t : String) (h : t ∉ gs.map Prod.fst) :
    (groupEntries gs).filter (fun e => e.term = t) = [] := by
  rw [List.filter_eq_nil_iff]
  intro x hx
  have := groupEntries_term_mem gs x hx
  simp only [decide_eq_true_eq]
  intro hxt
  rw [hxt] at this
  exact h this

theorem postingsOfTerm_group (gs1 gs2 : List (String × List (Nat × Nat × Nat))) (t : String)
    (ps : List (Nat × Nat × Nat)) (hv : ValidGroups (gs1 ++ (t, ps) :: gs2)) :
    postingsOfTerm (groupEntries (gs1 ++ (t, ps) :: gs2)) t = postingsOfTriples ps := by
  have hnd := hv.1
  simp only [List.map_append, List.map_cons] at hnd
  have h1 : t ∉ gs1.map Prod.fst := by
    intro h
    have := (List.nodup_append.mp hnd).2.2
    exact this h (List.mem_cons_self _ _)
  have h2 : t ∉ gs2.map Prod.fst := by
    have := (List.nodup_append.mp hnd).2.1
    exact (List.nodup_cons.mp this).1
  have h3 : (termEntries t ps).filter (fun e => e.term = t) = termEntries t ps := by
    rw [List.filter_eq_self]
    intro x hx
    simp only [termEntries, List.mem_map] at hx
    obtain ⟨p, _, rfl⟩ := hx
    simp
  simp only [postingsOfTerm, groupEntries_append, groupEntries, List.filter_append,
    filter_groupEntries_of_not_mem gs1 t h1, filter_groupEntries_of_not_mem gs2 t h2, h3,
    List.nil_append, List.append_nil]
  simp [termEntries, postingsOfTriples]

/-- Every term of the index written from a sorted pop sequence has its lexicon entry, with
`numPostings = df =` the number of its postings, and is laid out in the blocks of its
posting list. -/
theorem sorted_term_layout (popped : List TermEntry) (t : String) (hs : SortedEntries popped)
    (ht : ∃ x ∈ popped, x.term = t) :
    ∃ e, (loadIndex (mergeEntries popped)).lexicon.lookup t = some e
      ∧ e.numPostings = (postingsOfTerm popped t).length
      ∧ e.df = (postingsOfTerm popped t).length
      ∧ TermLayout (loadIndex (mergeEntries popped)) e (chunks (postingsOfTerm popped t))
      ∧ postingsOfTerm popped t ≠ []
      ∧ ((postingsOfTerm popped t).map Prod.fst).Pairwise (· < ·) := by
  obtain ⟨gs, hv, hge⟩ := sorted_groups popped.length popped (le_refl _) hs
  obtain ⟨x, hx, hxt⟩ := ht
  rw [← hge] at hx
  have hmem := groupEntries_term_mem gs x hx
  rw [hxt, List.mem_map] at hmem
  obtain ⟨g, hg, hgt⟩ := hmem
  obtain ⟨gs1, gs2, hsplit⟩ := List.append_of_mem hg
  obtain ⟨t', ps⟩ := g
  simp only at hgt
  subst hgt
  subst hsplit
  have hP := postingsOfTerm_group gs1 gs2 t' ps hv
  rw [hge] at hP
  obtain ⟨hl1, hl2⟩ := merged_layout gs1 gs2 t' ps hv
  rw [hge] at hl1 hl2
  have hgv := hv.2 (t', ps) (by simp)
  refine ⟨groupEntry gs1 ps, hl1, ?_, ?_, ?_, ?_, ?_⟩
  · simp [hP, groupEntry, postingsOfTriples]
  · simp [hP, groupEntry, postingsOfTriples]
  · rw [hP]; exact hl2
  · rw [hP]
    simpa [postingsOfTriples] using hgv.2.1
  · rw [hP]; exact hgv.2.2.1


/-! ## Claims on the `InvertedList` cursor over a merged index -/

theorem chunks_ne_nil (ps : List Posting) (h : ps ≠ []) : chunks ps ≠ [] := by
  intro he
  have := chunks_flatten ps
  rw [he] at this
  exact h this.symm

theorem new_layout (idx : Index) (t : String) (e : LexEntry) (blk : List Posting)
    (cs2 : List (List Posting)) (hlook : idx.lexicon.lookup t = some e)
    (hl : TermLayout idx e (blk :: cs2)) :
    InvertedList.new idx t = some (cursorAt e 0 blk 0) := by
  unfold InvertedList.new
  rw [hlook]
  exact decompress_at idx e (blk :: cs2) hl 0 blk (by simp) _ rfl rfl rfl

theorem nextGEQ_hit (idx : Index) (e : LexEntry) (cs : List (List Posting))
    (hl : TermLayout idx e cs) (j : Nat) (blk : List Posting) (hj : cs[j]? = some blk)
    (p : Nat) (hp : p < blk.length) (t : Nat) (ht : t ≤ (cursorAt e j blk p).curDoc) :
    InvertedList.nextGEQ idx (cursorAt e j blk p) t = some (true, cursorAt e j blk p) := by
  rw [cursorAt_curDoc e j blk p hp] at ht
  exact nextGEQFuel_hit idx e cs hl j blk hj p hp t ht _

theorem decompressBlock_finished (idx : Index) (l l' : InvertedList) (b : Nat)
    (hfin : l.finished = true) (h : InvertedList.decompressBlock idx l b = some l') :
    l'.finished = true := by
  unfold InvertedList.decompressBlock at h
  split at h
  · simp only [Option.some.injEq] at h; rw [← h]
  · split at h
    · cases h
    · split at h
      · cases h
      · simp only [Option.some.injEq] at h; rw [← h]; exact hfin

theorem nextGEQ_finished (idx : Index) (l : InvertedList) (t : Nat) (hfin : l.finished = true) :
    InvertedList.nextGEQ idx l t = some (false, l) := by
  simp [InvertedList.nextGEQ, InvertedList.nextGEQFuel, hfin]

theorem nextGEQ_inOrder (idx : Index) (e : LexEntry) (cs : List (List Posting))
    (hl : TermLayout idx e cs) (l : InvertedList) (t : Nat) (hin : InOrder e cs l) :
    ∃ b l', InvertedList.nextGEQ idx l t = some (b, l') ∧ InOrder e cs l'
      ∧ (b = false → l'.hasNext = false)
      ∧ (b = true → l'.hasNext = true ∧ t ≤ l'.curDoc ∧ l.hasNext = true
          ∧ l.curDoc ≤ l'.curDoc) := by
  rcases hin with hfin | ⟨j, blk, p, hj, hp, rfl⟩
  · refine ⟨false, l, nextGEQ_finished idx l t hfin, Or.inl hfin, ?_, by simp⟩
    intro _; simp [InvertedList.hasNext, hfin]
  · have hjl := getElem?_lt_length cs j blk hj
    obtain ⟨b, l', hr, hpost⟩ := nextGEQFuel_layout idx e cs hl t
      ((cursorAt e j blk p).endBlock - (cursorAt e j blk p).currentBlockIdx + 1) j blk p hj hp (by
        rw [cursorAt_endBlock, hl.count]
        simp only [cursorAt]
        omega)
    refine ⟨b, l', hr, ?_, ?_, ?_⟩
    · rcases hpost with ⟨_, h⟩ | ⟨_, j', blk', p', h1, h2, h3, _⟩
      · exact Or.inl h
      · exact Or.inr ⟨j', blk', p', h1, h2, h3⟩
    · intro hb
      rcases hpost with ⟨_, h⟩ | ⟨hb', _⟩
      · simp [InvertedList.hasNext, h]
      · rw [hb] at hb'; cases hb'
    · intro hb
      rcases hpost with ⟨hb', _⟩ | ⟨_, j', blk', p', h1, h2, h3, _, h5, h6⟩
      · rw [hb] at hb'; cases hb'
      · refine ⟨?_, h6, cursorAt_hasNext e j blk p hp, h5⟩
        rw [h3]
        exact cursorAt_hasNext e j' blk' p' h2

theorem next_inOrder (idx : Index) (e : LexEntry) (cs : List (List Posting))
    (hl : TermLayout idx e cs) (l l' : InvertedList) (hin : InOrder e cs l)
    (h : InvertedList.next idx l = some l') : InOrder e cs l' := by
  rcases hin with hfin | ⟨j, blk, p, hj, hp, rfl⟩
  · left
    unfold InvertedList.next at h
    simp only at h
    split at h
    · split at h
      · exact decompressBlock_finished idx _ l' _ (by simpa using hfin) h
      · simp only [Option.some.injEq] at h; rw [← h]
    · simp only [Option.some.injEq] at h; rw [← h]; exact hfin
  · obtain ⟨hsplit, hlen⟩ := layout_split cs j blk hj
    have hl' : TermLayout idx e (cs.take j ++ blk :: cs.drop (j + 1)) := by
      rw [← hsplit]; exact hl
    have hn := next_layout idx e (cs.take j) (cs.drop (j + 1)) blk hl' p hp
    rw [hlen] at hn
    rcases hn with ⟨h1, hn⟩ | ⟨h1, c', cs2', hcs, hn⟩ | ⟨h1, _, l2, hn, hfin⟩
    · rw [hn] at h
      simp only [Option.some.injEq] at h
      exact Or.inr ⟨j, blk, p + 1, hj, h1, h.symm⟩
    · rw [hn] at h
      simp only [Option.some.injEq] at h
      have hj1 : cs[j + 1]? = some c' := by
        have : (cs.drop (j + 1))[0]? = some c' := by rw [hcs]; simp
        rw [List.getElem?_drop] at this
        simpa using this
      have hne := (hl.blocks c' (layout_block_mem cs (j + 1) c' hj1)).1
      exact Or.inr ⟨j + 1, c', 0, hj1, List.length_pos.mpr hne, h.symm⟩
    · rw [hn] at h
      simp only [Option.some.injEq] at h
      rw [← h]
      exact Or.inl hfin

/-- Every reachable state of a cursor for a term of a merged index is in order. -/
theorem reachable_inOrder (idx : Index) (t : String) (e : LexEntry) (cs : List (List Posting))
    (hlook : idx.lexicon.lookup t = some e) (hl : TermLayout idx e cs) (hne : cs ≠ [])
    (l : InvertedList) (hr : Reachable idx t l) : InOrder e cs l := by
  induction hr with
  | new l h =>
    obtain ⟨blk, cs2, rfl⟩ := List.exists_cons_of_ne_nil hne
    rw [new_layout idx t e blk cs2 hlook hl] at h
    simp only [Option.some.injEq] at h
    have hb := (hl.blocks blk (by simp)).1
    exact Or.inr ⟨0, blk, 0, by simp, List.length_pos.mpr hb, h.symm⟩
  | nextGEQ l l' target b _ h ih =>
    obtain ⟨b', l'', h', hin, _⟩ := nextGEQ_inOrder idx e cs hl l target ih
    rw [h'] at h
    simp only [Option.some.injEq, Prod.mk.injEq] at h
    rw [← h.2]
    exact hin
  | next l l' _ h ih => exact next_inOrder idx e cs hl l l' ih h


theorem getDocID_eq_curDoc (l : InvertedList) (h : l.hasNext = true) :
    l.getDocID = (l.curDoc : Int) := by
  simp [InvertedList.getDocID, InvertedList.curDoc, h]

theorem runTargets_inOrder (idx : Index) (e : LexEntry) (cs : List (List Posting))
    (hl : TermLayout idx e cs) (ts : List Nat) :
    ∀ (l : InvertedList) (m : Int), InOrder e cs l → (l.hasNext = true → m ≤ (l.curDoc : Int)) →
      ∃ r, InvertedList.runTargets idx l ts = some r ∧ r.length = ts.length
        ∧ (∀ x ∈ r, x.1 = true → m ≤ x.2)
        ∧ ((r.filter (fun x => x.1)).map Prod.snd).Pairwise (· ≤ ·)
        ∧ ∀ (i t' : Nat) (d : Int), ts[i]? = some t' → r[i]? = some (true, d) → (t' : Int) ≤ d := by
  induction ts with
  | nil =>
    intro l m _ _
    exact ⟨[], rfl, rfl, by simp, by simp, by simp⟩
  | cons t ts ih =>
    intro l m hin hm
    obtain ⟨b, l', hr, hin', hb0, hb1⟩ := nextGEQ_inOrder idx e cs hl l t hin
    cases b with
    | false =>
      have hno := hb0 rfl
      obtain ⟨r, h1, h2, h3, h4, h5⟩ := ih l' m hin' (by rw [hno]; intro h; cases h)
      refine ⟨(false, l'.getDocID) :: r, by simp [InvertedList.runTargets, hr, h1],
        by simp [h2], ?_, ?_, ?_⟩
      · intro x hx hxt
        rcases List.mem_cons.mp hx with rfl | hx
        · cases hxt
        · exact h3 x hx hxt
      · simpa using h4
      · intro i t' d hti hri
        cases i with
        | zero => simp at hri
        | succ i =>
          simp only [List.getElem?_cons_succ] at hti hri
          exact h5 i t' d hti hri
    | true =>
      obtain ⟨hh, htd, hlh, hld⟩ := hb1 rfl
      obtain ⟨r, h1, h2, h3, h4, h5⟩ := ih l' (l'.curDoc : Int) hin' (fun _ => le_refl _)
      have hdoc := getDocID_eq_curDoc l' hh
      have hml : m ≤ (l'.curDoc : Int) := by
        have := hm hlh
        have : (l.curDoc : Int) ≤ (l'.curDoc : Int) := by exact_mod_cast hld
        omega
      refine ⟨(true, l'.getDocID) :: r, by simp [InvertedList.runTargets, hr, h1],
        by simp [h2], ?_, ?_, ?_⟩
      · intro x hx hxt
        rcases List.mem_cons.mp hx with rfl | hx
        · simp only [hdoc]; exact hml
        · have := h3 x hx hxt
          omega
      · simp only [List.filter_cons_of_pos, List.map_cons, List.pairwise_cons]
        refine ⟨?_, h4⟩
        intro y hy
        rw [List.mem_map] at hy
        obtain ⟨x, hx, rfl⟩ := hy
        rw [List.mem_filter] at hx
        rw [hdoc]
        exact h3 x hx.1 hx.2
      · intro i t' d hti hri
        cases i with
        | zero =>
          simp only [List.getElem?_cons_zero, Option.some.injEq, Prod.mk.injEq, true_and] at hti hri
          rw [← hri, hdoc, ← hti]
          exact_mod_cast htd
        | succ i =>
          simp only [List.getElem?_cons_succ] at hti hri
          exact h5 i t' d hti hri

/-- C2. For every term of an index the merger has written, the posting loop of
`processDisjunctiveQuery` (`nextGEQ(0)`, then `getDocID` / `getFrequency` / `next` while
`hasNext()`) ends and visits exactly the term's posting list: every `(doc, freq)` pair
once, in the order of their strictly increasing doc ids, and as many postings as the
`df` of the term's lexicon entry. -/
theorem C2_iteration_yields_postings (popped : List TermEntry) (t : String)
    (hs : SortedEntries popped) (ht : ∃ x ∈ popped, x.term = t)
    (fuel : Nat) (hf : (postingsOfTerm popped t).length < fuel) :
    InvertedList.iterate fuel (loadIndex (mergeEntries popped)) t
        = some ((postingsOfTerm popped t).map Posting.toInt)
      ∧ ((postingsOfTerm popped t).map Prod.fst).Pairwise (· < ·)
      ∧ ((loadIndex (mergeEntries popped)).lexicon.lookup t).map LexEntry.df
          = some (postingsOfTerm popped t).length := by
  obtain ⟨e, hlook, _, hdf, hl, hne, hsorted⟩ := sorted_term_layout popped t hs ht
  refine ⟨?_, hsorted, by rw [hlook]; simp [hdf]⟩
  obtain ⟨blk, cs2, hcs⟩ := List.exists_cons_of_ne_nil (chunks_ne_nil _ hne)
  rw [hcs] at hl
  have hb := (hl.blocks blk (by simp)).1
  have hpos : 0 < blk.length := List.length_pos.mpr hb
  have hflat : blk ++ cs2.flatten = postingsOfTerm popped t := by
    have := chunks_flatten (postingsOfTerm popped t)
    rw [hcs] at this
    simpa using this
  have hcol := collect_layout (loadIndex (mergeEntries popped)) e fuel [] cs2 blk 0 hl hpos (by
    rw [← hflat] at hf
    simpa using hf)
  unfold InvertedList.iterate
  rw [new_layout _ t e blk cs2 hlook hl]
  simp only
  rw [nextGEQ_hit _ e (blk :: cs2) hl 0 blk (by simp) 0 hpos 0 (Nat.zero_le _)]
  simp only
  rw [List.length_nil] at hcol
  rw [hcol, List.drop_zero, hflat]

theorem poppedSmall_sorted : SortedEntries poppedSmall := by
  unfold SortedEntries
  refine ⟨?_, by decide⟩
  simp only [poppedSmall, List.pairwise_cons, List.mem_cons, List.mem_singleton,
    forall_eq_or_imp, forall_eq, entryLt]
  simp
  decide

theorem C2_iteration_yields_postings_witness :
    InvertedList.iterate 4 (loadIndex (mergeEntries poppedSmall)) "b"
        = some ((postingsOfTerm poppedSmall "b").map Posting.toInt)
      ∧ ((postingsOfTerm poppedSmall "b").map Prod.fst).Pairwise (· < ·)
      ∧ ((loadIndex (mergeEntries poppedSmall)).lexicon.lookup "b").map LexEntry.df
          = some (postingsOfTerm poppedSmall "b").length :=
  C2_iteration_yields_postings poppedSmall "b" poppedSmall_sorted (by decide) 4 (by decide)

/-- C9. For every term of an index the merger has written and every non-decreasing
sequence of targets applied by successive `nextGEQ` calls to one cursor (in whatever
reachable state it starts), every call returns, the doc ids the cursor stands on after
the calls that return true form a non-decreasing sequence, and each of them is at least
the target of its call. -/
theorem C9_nextGEQ_monotone (popped : List TermEntry) (t : String)
    (hs : SortedEntries popped) (ht : ∃ x ∈ popped, x.term = t)
    (l : InvertedList) (hr : Reachable (loadIndex (mergeEntries popped)) t l)
    (ts : List Nat) (hts : ts.Pairwise (· ≤ ·)) :
    ∃ r, InvertedList.runTargets (loadIndex (mergeEntries popped)) l ts = some r
      ∧ r.length = ts.length
      ∧ ((r.filter (fun x => x.1)).map Prod.snd).Pairwise (· ≤ ·)
      ∧ ∀ (i target : Nat) (d : Int), ts[i]? = some target → r[i]? = some (true, d) →
          (target : Int) ≤ d := by
  have _ := hts
  obtain ⟨e, hlook, _, _, hl, hne, _⟩ := sorted_term_layout popped t hs ht
  have hin := reachable_inOrder _ t e _ hlook hl (chunks_ne_nil _ hne) l hr
  obtain ⟨r, h1, h2, _, h4, h5⟩ := runTargets_inOrder _ e _ hl ts l 0 hin (fun _ => by omega)
  exact ⟨r, h1, h2, h4, h5⟩

/-- C10. If a cursor for a term of an index the merger has written stands on a posting
(`hasNext()` is true) with doc id `d`, then `nextGEQ(target)` for any `target <= d` returns
true and leaves the whole cursor state (block index, decoded block, position in the block)
as it was. -/
theorem C10_nextGEQ_noop (popped : List TermEntry) (t : String)
    (hs : SortedEntries popped) (ht : ∃ x ∈ popped, x.term = t)
    (l : InvertedList) (hr : Reachable (loadIndex (mergeEntries popped)) t l)
    (hn : l.hasNext = true) (target : Nat) (htg : (target : Int) ≤ l.getDocID) :
    InvertedList.nextGEQ (loadIndex (mergeEntries popped)) l target = some (true, l) := by
  obtain ⟨e, hlook, _, _, hl, hne, _⟩ := sorted_term_layout popped t hs ht
  have hin := reachable_inOrder _ t e _ hlook hl (chunks_ne_nil _ hne) l hr
  rw [getDocID_eq_curDoc l hn] at htg
  have htg' : target ≤ l.curDoc := by exact_mod_cast htg
  rcases hin with hfin | ⟨j, blk, p, hj, hp, rfl⟩
  · simp [InvertedList.hasNext, hfin] at hn
  · exact nextGEQ_hit _ e _ hl j blk hj p hp target htg'


theorem C9_nextGEQ_monotone_witness :
    ∃ r, InvertedList.runTargets (loadIndex (mergeEntries poppedSmall)) cursorSmallB [0, 3, 3, 10]
        = some r
      ∧ r.length = [0, 3, 3, 10].length
      ∧ ((r.filter (fun x => x.1)).map Prod.snd).Pairwise (· ≤ ·)
      ∧ ∀ (i target : Nat) (d : Int), [0, 3, 3, 10][i]? = some target →
          r[i]? = some (true, d) → (target : Int) ≤ d :=
  C9_nextGEQ_monotone poppedSmall "b" poppedSmall_sorted (by decide) cursorSmallB
    (Reachable.new _ (by decide)) [0, 3, 3, 10] (by decide)

theorem C10_nextGEQ_noop_witness :
    InvertedList.nextGEQ (loadIndex (mergeEntries poppedSmall)) cursorSmallB 2
      = some (true, cursorSmallB) :=
  C10_nextGEQ_noop poppedSmall "b" poppedSmall_sorted (by decide) cursorSmallB
    (Reachable.new _ (by decide)) (by decide) 2 (by decide)

/-! ## The two-block term: where the cursors lose postings -/

theorem popped129_sorted : SortedEntries popped129 := by
  unfold SortedEntries popped129
  constructor
  · rw [List.pairwise_map]
    refine List.Pairwise.imp ?_ (List.pairwise_lt_range 129)
    intro a b hab
    exact Or.inr ⟨rfl, hab⟩
  · intro e he
    rw [List.mem_map] at he
    obtain ⟨i, hi, rfl⟩ := he
    rw [List.mem_range] at hi
    refine ⟨?_, ?_, by norm_num⟩
    · show ("t" : String) ≠ ""
      decide
    · show i < 2 ^ 31
      omega

set_option maxRecDepth 100000 in
/-- C1 (failing input). On the index of the two-block term `"t"` (doc ids 0 to 128) the fresh
cursor stands on doc id 0; `nextGEQ(128)` skips block 0 through the skip table but does not
load block 1, scans the stale block 0 to its end, steps past the last block and returns
false with the cursor finished, although the posting with doc id 128 exists. `InvList`
does the same. -/
theorem C1_nextGEQ_misses_later_block :
    (128, 1) ∈ postingsOfTerm popped129 "t"
    ∧ (InvertedList.new index129 "t").map (fun l => (l.hasNext, l.getDocID)) = some (true, 0)
    ∧ ((InvertedList.new index129 "t").bind (fun l => InvertedList.nextGEQ index129 l 128)).map
        (fun r => (r.1, r.2.finished)) = some (false, true)
    ∧ ((InvList.new index129 "t").bind (fun l => InvList.nextGEQ index129 l 128)).map
        (fun r => (r.1, r.2.done)) = some (false, true) := by
  decide!

theorem InvList.collect_fuel (fuel : Nat) : ∀ (l : InvList) (r : List (Nat × Nat)),
    InvList.collect fuel l = some r → InvList.collect (fuel + 1) l = some r := by
  induction fuel with
  | zero =>
    intro l r h
    by_cases hh : l.has = true
    · simp [InvList.collect, hh] at h
    · simp only [InvList.collect, hh, Bool.false_eq_true, if_false] at h ⊢
      exact h
  | succ fuel ih =>
    intro l r h
    by_cases hh : l.has = true
    · rw [InvList.collect] at h ⊢
      simp only [hh, if_true] at h ⊢
      cases hd : l.doc with
      | none => simp [hd] at h
      | some d =>
        cases hf : l.freq with
        | none => simp [hd, hf] at h
        | some f =>
          cases hc : InvList.collect fuel l.next with
          | none => simp [hd, hf, hc] at h
          | some rest =>
            rw [ih l.next rest hc]
            simpa [hd, hf, hc] using h
    · rw [InvList.collect] at h ⊢
      simp only [hh, Bool.false_eq_true, if_false] at h ⊢
      exact h

theorem InvList.collect_fuel_le (l : InvList) (r : List (Nat × Nat)) (f1 f2 : Nat)
    (hle : f1 ≤ f2) (h : InvList.collect f1 l = some r) : InvList.collect f2 l = some r := by
  induction hle with
  | refl => exact h
  | step _ ih => exact InvList.collect_fuel _ l r ih

set_option maxRecDepth 100000 in
theorem iterate129 :
    InvList.iterate 129 index129 "t" = some ((List.range 128).map (fun i => (i, 1)))
    ∧ (index129.lexicon.lookup "t").map LexEntry.df = some 129 := by
  decide!

/-- C3 (failing input). On the index of the two-block term `"t"`, whose lexicon entry has
`df = 129`, the posting loop of `query` / `queryBM25` (`nextGEQ(0)`, then `doc` / `freq` /
`next` while `has()`) ends after the 128 postings of block 0, however many iterations it
is allowed: `InvList::next` is `pi++` and never loads the next block. -/
theorem C3_invList_stops_after_first_block (fuel : Nat) (hf : 129 ≤ fuel) :
    (InvList.iterate fuel index129 "t").map List.length = some 128
    ∧ (index129.lexicon.lookup "t").map LexEntry.df = some 129
    ∧ (postingsOfTerm popped129 "t").length = 129 := by
  obtain ⟨h1, h2⟩ := iterate129
  refine ⟨?_, h2, by decide!⟩
  unfold InvList.iterate at h1 ⊢
  cases hn : InvList.new index129 "t" with
  | none => rw [hn] at h1; cases h1
  | some l =>
    rw [hn] at h1
    simp only at h1 ⊢
    cases hg : InvList.nextGEQ index129 l 0 with
    | none => rw [hg] at h1; cases h1
    | some bl =>
      rw [hg] at h1
      simp only at h1 ⊢
      rw [InvList.collect_fuel_le bl.2 _ 129 fuel hf h1]
      simp

theorem C3_invList_stops_after_first_block_witness :
    (InvList.iterate 1000 index129 "t").map List.length = some 128
    ∧ (index129.lexicon.lookup "t").map LexEntry.df = some 129
    ∧ (postingsOfTerm popped129 "t").length = 129 :=
  C3_invList_stops_after_first_block 1000 (by decide)


/-! ## Cursor of an absent term; blocks per term -/

/-- C11. A cursor constructed for a term that is not in the lexicon is exhausted at once:
the constructor returns without reading a block (it gives the same cursor whatever the
inverted file and the skip table hold), `hasNext()` is false, `getDocID()` is -1,
`getFrequency()` is 0, and every `nextGEQ(target)` returns false and leaves the cursor as
it is, so this stays true after any number of calls. -/
theorem C11_absent_term_cursor (idx : Index) (t : String) (h : idx.lexicon.lookup t = none) :
    ∃ l, InvertedList.new idx t = some l
      ∧ l.finished = true ∧ l.hasNext = false ∧ l.getDocID = -1 ∧ l.getFrequency = 0
      ∧ (∀ target, InvertedList.nextGEQ idx l target = some (false, l))
      ∧ (∀ idx' : Index, idx'.lexicon = idx.lexicon →
          InvertedList.new idx' t = some l
            ∧ ∀ target, InvertedList.nextGEQ idx' l target = some (false, l)) := by
  refine ⟨⟨0, 0, 0, 0, [], [], 0, true⟩, ?_, rfl, rfl, rfl, rfl, ?_, ?_⟩
  · simp [InvertedList.new, h]
  · intro target
    exact nextGEQ_finished idx _ target rfl
  · intro idx' hlex
    refine ⟨?_, fun target => nextGEQ_finished idx' _ target rfl⟩
    simp [InvertedList.new, hlex, h]

theorem C11_absent_term_cursor_witness :
    ∃ l, InvertedList.new (loadIndex (mergeEntries poppedSmall)) "zebra" = some l
      ∧ l.finished = true ∧ l.hasNext = false ∧ l.getDocID = -1 ∧ l.getFrequency = 0
      ∧ (∀ target, InvertedList.nextGEQ (loadIndex (mergeEntries poppedSmall)) l target
          = some (false, l))
      ∧ (∀ idx' : Index, idx'.lexicon = (loadIndex (mergeEntries poppedSmall)).lexicon →
          InvertedList.new idx' "zebra" = some l
            ∧ ∀ target, InvertedList.nextGEQ idx' l target = some (false, l)) :=
  C11_absent_term_cursor (loadIndex (mergeEntries poppedSmall)) "zebra" (by decide)

theorem blocksPerTerm_lexLines (gs : List (String × List (Nat × Nat × Nat))) :
    ∀ off blk : Nat,
      blocksPerTerm (lexLines gs off blk) (blk + (allChunks gs).length)
        = gs.map (fun g => (g.2.length + BLOCK_SIZE - 1) / BLOCK_SIZE) := by
  induction gs with
  | nil => intro off blk; rfl
  | cons g gs ih =>
    intro off blk
    have hc : (chunks (postingsOfTriples g.2)).length = (g.2.length + BLOCK_SIZE - 1) / BLOCK_SIZE := by
      rw [chunks_length]; simp [postingsOfTriples]
    cases gs with
    | nil =>
      simp only [lexLines, blocksPerTerm, allChunks_cons, List.length_append, List.map_cons,
        List.map_nil, hc]
      simp [allChunks]
    | cons g' gs' =>
      have := ih (off + (chunksBytes (chunks (postingsOfTriples g.2))).length)
        (blk + (chunks (postingsOfTriples g.2)).length)
      simp only [lexLines, blocksPerTerm, List.map_cons] at this ⊢
      rw [allChunks_cons, List.length_append, ← Nat.add_assoc, this, hc]
      simp

theorem lexLines_df (gs : List (String × List (Nat × Nat × Nat))) :
    ∀ (off blk : Nat) (l : LexLine), l ∈ lexLines gs off blk →
      l.totalPostings = l.df ∧ ∃ g ∈ gs, g.1 = l.term ∧ g.2.length = l.df := by
  induction gs with
  | nil => intro off blk l hl; simp [lexLines] at hl
  | cons g gs ih =>
    intro off blk l hl
    simp only [lexLines, List.mem_cons] at hl
    rcases hl with rfl | hl
    · exact ⟨rfl, g, List.mem_cons_self _ _, rfl, rfl⟩
    · obtain ⟨h1, g', hg', h2⟩ := ih _ _ l hl
      exact ⟨h1, g', List.mem_cons_of_mem _ hg', h2⟩

theorem lexLines_map_blocks (gs : List (String × List (Nat × Nat × Nat))) :
    ∀ off blk : Nat,
      (lexLines gs off blk).map (fun l => (l.df + BLOCK_SIZE - 1) / BLOCK_SIZE)
        = gs.map (fun g => (g.2.length + BLOCK_SIZE - 1) / BLOCK_SIZE) := by
  induction gs with
  | nil => intro off blk; rfl
  | cons g gs ih => intro off blk; simp only [lexLines, List.map_cons, ih]

/-- C20. For every sorted pop sequence, the number of blocks the merger writes for each
term, counted from the term's start block to the start block of the next term (to the end
of the skip table for the last term), is `ceil(df / 128)` for the `df` of its lexicon line,
and that `df` is the number of postings of the term (at least one); a term with a multiple
of 128 postings thus gets `df / 128` blocks and no extra one. The three skip arrays have
one entry per block. -/
theorem C20_blocks_per_term (popped : List TermEntry) (hs : SortedEntries popped) :
    blocksPerTerm (mergeEntries popped).lexFile (mergeEntries popped).out.lastDocIDs.length
        = (mergeEntries popped).lexFile.map (fun l => (l.df + BLOCK_SIZE - 1) / BLOCK_SIZE)
      ∧ (∀ l ∈ (mergeEntries popped).lexFile,
          l.df = (postingsOfTerm popped l.term).length ∧ 1 ≤ l.df
            ∧ (l.df % BLOCK_SIZE = 0 → (l.df + BLOCK_SIZE - 1) / BLOCK_SIZE = l.df / BLOCK_SIZE))
      ∧ (mergeEntries popped).out.docIDSizes.length = (mergeEntries popped).out.lastDocIDs.length
      ∧ (mergeEntries popped).out.freqSizes.length = (mergeEntries popped).out.lastDocIDs.length := by
  obtain ⟨gs, hv, hge⟩ := sorted_groups popped.length popped (le_refl _) hs
  obtain ⟨hout, hlex⟩ := merge_spec gs hv
  rw [hge] at hout hlex
  rw [writeGroups_eq, writeChunks_eq] at hout
  refine ⟨?_, ?_, ?_, ?_⟩
  · have := blocksPerTerm_lexLines gs 0 0
    rw [hlex, hout, lexLines_map_blocks]
    simpa [BlockOut.empty] using this
  · intro l hl
    rw [hlex] at hl
    obtain ⟨_, g, hg, hgt, hgl⟩ := lexLines_df gs 0 0 l hl
    obtain ⟨gs1, gs2, hsplit⟩ := List.append_of_mem hg
    obtain ⟨t', ps⟩ := g
    simp only at hgt hgl
    subst hsplit
    have hP := postingsOfTerm_group gs1 gs2 t' ps hv
    rw [hge, hgt] at hP
    have hne := (hv.2 (t', ps) hg).2.1
    have hpos : 0 < ps.length := List.length_pos.mpr hne
    refine ⟨?_, by omega, ?_⟩
    · rw [hP, ← hgl]; simp [postingsOfTriples]
    · intro hmod
      simp only [BLOCK_SIZE] at hmod ⊢
      omega
  · rw [hout]; simp [BlockOut.empty]
  · rw [hout]; simp [BlockOut.empty]

theorem C20_blocks_per_term_witness :
    blocksPerTerm (mergeEntries poppedSmall).lexFile
          (mergeEntries poppedSmall).out.lastDocIDs.length
        = (mergeEntries poppedSmall).lexFile.map (fun l => (l.df + BLOCK_SIZE - 1) / BLOCK_SIZE)
      ∧ (∀ l ∈ (mergeEntries poppedSmall).lexFile,
          l.df = (postingsOfTerm poppedSmall l.term).length ∧ 1 ≤ l.df
            ∧ (l.df % BLOCK_SIZE = 0 → (l.df + BLOCK_SIZE - 1) / BLOCK_SIZE = l.df / BLOCK_SIZE))
      ∧ (mergeEntries poppedSmall).out.docIDSizes.length
          = (mergeEntries poppedSmall).out.lastDocIDs.length
      ∧ (mergeEntries poppedSmall).out.freqSizes.length
          = (mergeEntries poppedSmall).out.lastDocIDs.length :=
  C20_blocks_per_term poppedSmall poppedSmall_sorted


/-! ## Score maps and ranking: lemmas -/

theorem addScore_keys {K S : Type} [DecidableEq K] [Add S] [Zero S] (m : List (K × S)) (k : K)
    (s : S) :
    (addScore m k s).map Prod.fst
      = if k ∈ m.map Prod.fst then m.map Prod.fst else m.map Prod.fst ++ [k] := by
  induction m with
  | nil => simp [addScore]
  | cons a m ih =>
    obtain ⟨k', v⟩ := a
    by_cases h : k' = k
    · subst h; simp [addScore]
    · have h' : ¬ k = k' := fun e => h e.symm
      simp only [addScore, h, if_false, List.map_cons, ih, List.mem_cons, h', false_or]
      split <;> simp

theorem mem_addScore_keys {K S : Type} [DecidableEq K] [Add S] [Zero S] (m : List (K × S))
    (k : K) (s : S) (x : K) :
    x ∈ (addScore m k s).map Prod.fst ↔ x ∈ m.map Prod.fst ∨ x = k := by
  rw [addScore_keys]
  split
  · constructor
    · intro h; exact Or.inl h
    · rintro (h | rfl)
      · exact h
      · assumption
  · simp

theorem addScore_nodup {K S : Type} [DecidableEq K] [Add S] [Zero S] (m : List (K × S)) (k : K)
    (s : S) (h : (m.map Prod.fst).Nodup) : ((addScore m k s).map Prod.fst).Nodup := by
  rw [addScore_keys]
  split
  · exact h
  · rename_i hk
    rw [List.nodup_append]
    refine ⟨h, by simp, ?_⟩
    intro a ha hb
    simp only [List.mem_singleton] at hb
    subst hb
    exact hk ha

theorem scoreAt_addScore {K S : Type} [DecidableEq K] [AddMonoid S] (m : List (K × S)) (k : K)
    (s : S) (x : K) :
    scoreAt (addScore m k s) x = if k = x then scoreAt m x + s else scoreAt m x := by
  induction m with
  | nil =>
    by_cases h : k = x <;> simp [addScore, scoreAt, h]
  | cons a m ih =>
    obtain ⟨k', v⟩ := a
    by_cases h : k' = k
    · subst h
      by_cases hx : k' = x <;> simp [addScore, scoreAt, hx]
    · by_cases hx : k' = x
      · subst hx
        have h' : ¬ k = k' := fun e => h e.symm
        simp [addScore, scoreAt, h, h']
      · simp only [addScore, h, if_false, scoreAt, hx, ih]

theorem scoreAt_of_mem {K S : Type} [DecidableEq K] [Zero S] (m : List (K × S)) (k : K) (v : S)
    (hnd : (m.map Prod.fst).Nodup) (hm : (k, v) ∈ m) : scoreAt m k = v := by
  induction m with
  | nil => simp at hm
  | cons a m ih =>
    obtain ⟨k', v'⟩ := a
    simp only [List.map_cons, List.nodup_cons] at hnd
    simp only [List.mem_cons, Prod.mk.injEq] at hm
    rcases hm with ⟨rfl, rfl⟩ | hm
    · simp [scoreAt]
    · have hne : ¬ k' = k := by
        intro he
        subst he
        exact hnd.1 (List.mem_map_of_mem Prod.fst hm)
      simp only [scoreAt, hne, if_false]
      exact ih hnd.2 hm

theorem scoreAt_of_not_mem {K S : Type} [DecidableEq K] [Zero S] (m : List (K × S)) (k : K)
    (h : k ∉ m.map Prod.fst) : scoreAt m k = 0 := by
  induction m with
  | nil => rfl
  | cons a m ih =>
    obtain ⟨k', v'⟩ := a
    simp only [List.map_cons, List.mem_cons, not_or] at h
    have hne : ¬ k' = k := fun e => h.1 e.symm
    simp only [scoreAt, hne, if_false]
    exact ih h.2

theorem sortByScoreDesc_perm {K S : Type} [LinearOrder S] (r : List (K × S)) :
    (sortByScoreDesc r).Perm r :=
  List.perm_insertionSort _ r

theorem sortByScoreDesc_sorted {K S : Type} [LinearOrder S] (r : List (K × S)) :
    (sortByScoreDesc r).Pairwise (fun a b => a.2 ≥ b.2) := by
  haveI : IsTotal (K × S) (fun a b => a.2 ≥ b.2) := ⟨fun a b => le_total b.2 a.2⟩
  haveI : IsTrans (K × S) (fun a b => a.2 ≥ b.2) := ⟨fun a b c h1 h2 => le_trans h2 h1⟩
  exact List.sorted_insertionSort (fun a b => a.2 ≥ b.2) r

theorem accumRRF_keys {S : Type} [DivisionRing S] (xs : List String) :
    ∀ (i : Nat) (sc : List (String × S)) (x : String),
      x ∈ (accumRRF xs i sc).map Prod.fst ↔ x ∈ sc.map Prod.fst ∨ x ∈ xs := by
  induction xs with
  | nil => intro i sc x; simp [accumRRF]
  | cons x0 xs ih =>
    intro i sc x
    simp only [accumRRF, ih, mem_addScore_keys, List.mem_cons]
    tauto

theorem accumRRF_nodup {S : Type} [DivisionRing S] (xs : List String) :
    ∀ (i : Nat) (sc : List (String × S)), (sc.map Prod.fst).Nodup →
      ((accumRRF xs i sc).map Prod.fst).Nodup := by
  induction xs with
  | nil => intro i sc h; exact h
  | cons x0 xs ih =>
    intro i sc h
    exact ih (i + 1) _ (addScore_nodup sc x0 _ h)

theorem accumRRF_scoreAt {S : Type} [DivisionRing S] (xs : List String) :
    ∀ (i : Nat) (sc : List (String × S)) (x : String), xs.Nodup →
      scoreAt (accumRRF xs i sc) x
        = scoreAt sc x + if x ∈ xs then rrfTerm (i + xs.indexOf x) else 0 := by
  induction xs with
  | nil => intro i sc x _; simp [accumRRF]
  | cons x0 xs ih =>
    intro i sc x hnd
    rw [List.nodup_cons] at hnd
    simp only [accumRRF]
    rw [ih (i + 1) _ x hnd.2, scoreAt_addScore]
    by_cases hx : x0 = x
    · subst hx
      simp [hnd.1]
    · have hx' : ¬ x = x0 := fun e => hx e.symm
      simp only [hx, if_false, List.mem_cons, hx', false_or, List.indexOf_cons_ne _ hx]
      by_cases hm : x ∈ xs
      · simp only [hm, if_true]
        congr 2
        omega
      · simp [hm]

theorem fuseBM_eq {S : Type} [DivisionRing S] (docIdMap : List (Nat × String))
    (bm : List (Nat × S)) : ∀ (i : Nat) (sc : List (String × S)),
    fuseBM docIdMap bm i sc = accumRRF (bm.map (fun p => extOf docIdMap p.1)) i sc := by
  induction bm with
  | nil => intro i sc; rfl
  | cons p bm ih => intro i sc; simp only [fuseBM, List.map_cons, accumRRF, ih]

theorem fuseDense_eq {S : Type} [DivisionRing S] (passageIds : List String)
    (dn : List (Nat × S)) : ∀ (i : Nat) (sc : List (String × S)),
    (∀ p ∈ dn, p.1 < passageIds.length) →
    fuseDense passageIds dn i sc
      = some (accumRRF (dn.map (fun p => passageIds.getD p.1 "")) i sc) := by
  induction dn with
  | nil => intro i sc _; rfl
  | cons p dn ih =>
    intro i sc h
    have hp := h p (List.mem_cons_self _ _)
    have hget : passageIds[p.1]? = some (passageIds.getD p.1 "") := by
      rw [List.getD_eq_getElem?_getD, List.getElem?_eq_getElem hp]
      rfl
    simp only [fuseDense, hget, List.map_cons, accumRRF]
    exact ih (i + 1) _ (fun q hq => h q (List.mem_cons_of_mem _ hq))

theorem rrfOf_eq {S : Type} [DivisionRing S] (xs : List String) (x : String) :
    (if x ∈ xs then rrfTerm (0 + xs.indexOf x) else (0 : S)) = rrfOf xs x := by
  unfold rrfOf rrfTerm
  have e : RRF_K + (0 + xs.indexOf x) + 1 = RRF_K + (xs.indexOf x + 1) := by omega
  rw [e]

/-- C17. For every BM25 ranking and dense ranking whose documents have pairwise different
external ids within each list (no document twice, ids mapped injectively), `fuse` returns a
list without repeated external ids in which every external id has the score that is the
sum, over the lists containing it, of `1 / (60 + r)` for its 1-based rank `r` in the list;
an id present in one list only has that list's single term; an id in neither list is
absent; and an id of either list is present unless the output was cut at `TOP_K`. -/
theorem C17_fuse_scores {S : Type} [LinearOrderedField S] (docIdMap : List (Nat × String))
    (passageIds : List String) (bm dn : List (Nat × S))
    (hbm : (bm.map (fun p => extOf docIdMap p.1)).Nodup)
    (hrow : ∀ p ∈ dn, p.1 < passageIds.length)
    (hdn : (dn.map (fun p => passageIds.getD p.1 "")).Nodup) :
    ∃ r, fuse docIdMap passageIds bm dn = some r
      ∧ (r.map Prod.fst).Nodup
      ∧ (∀ x s, (x, s) ∈ r →
          (x ∈ bm.map (fun p => extOf docIdMap p.1) ∨ x ∈ dn.map (fun p => passageIds.getD p.1 ""))
          ∧ s = rrfOf (bm.map (fun p => extOf docIdMap p.1)) x
                + rrfOf (dn.map (fun p => passageIds.getD p.1 "")) x
          ∧ (x ∉ dn.map (fun p => passageIds.getD p.1 "") →
              s = 1 / ((RRF_K + ((bm.map (fun p => extOf docIdMap p.1)).indexOf x + 1) : Nat) : S))
          ∧ (x ∉ bm.map (fun p => extOf docIdMap p.1) →
              s = 1 / ((RRF_K + ((dn.map (fun p => passageIds.getD p.1 "")).indexOf x + 1) : Nat) : S)))
      ∧ (∀ x, x ∈ bm.map (fun p => extOf docIdMap p.1) ∨ x ∈ dn.map (fun p => passageIds.getD p.1 "") →
          x ∈ r.map Prod.fst ∨ r.length = TOP_K) := by
  set bmExt := bm.map (fun p => extOf docIdMap p.1) with hbmExt
  set dnExt := dn.map (fun p => passageIds.getD p.1 "") with hdnExt
  set sc : List (String × S) := accumRRF dnExt 0 (accumRRF bmExt 0 []) with hsc
  have hfuse : fuse docIdMap passageIds bm dn = some (rankTopK sc) := by
    simp only [fuse, fuseBM_eq, fuseDense_eq passageIds dn 0 _ hrow]
  have hnd : (sc.map Prod.fst).Nodup :=
    accumRRF_nodup dnExt 0 _ (accumRRF_nodup bmExt 0 [] (by simp))
  have hkeys : ∀ x, x ∈ sc.map Prod.fst ↔ x ∈ bmExt ∨ x ∈ dnExt := by
    intro x
    rw [hsc, accumRRF_keys, accumRRF_keys]
    simp
  have hscore : ∀ x, scoreAt sc x = rrfOf bmExt x + rrfOf dnExt x := by
    intro x
    rw [hsc, accumRRF_scoreAt dnExt 0 _ x hdn, accumRRF_scoreAt bmExt 0 [] x hbm, rrfOf_eq,
      rrfOf_eq]
    simp [scoreAt]
  have hperm := sortByScoreDesc_perm sc
  have hsub : (rankTopK sc).Sublist (sortByScoreDesc sc) := List.take_sublist _ _
  refine ⟨rankTopK sc, hfuse, ?_, ?_, ?_⟩
  · exact ((hperm.map Prod.fst).nodup_iff.mpr hnd).sublist (hsub.map Prod.fst)
  · intro x s hxs
    have hmem : (x, s) ∈ sc := hperm.mem_iff.mp (hsub.subset hxs)
    have hs : s = rrfOf bmExt x + rrfOf dnExt x := by
      rw [← hscore x, scoreAt_of_mem sc x s hnd hmem]
    have hk := (hkeys x).mp (List.mem_map_of_mem Prod.fst hmem)
    refine ⟨hk, hs, ?_, ?_⟩
    · intro hnot
      have hin : x ∈ bmExt := hk.resolve_right hnot
      rw [hs]
      simp [rrfOf, hnot, hin]
    · intro hnot
      have hin : x ∈ dnExt := hk.resolve_left hnot
      rw [hs]
      simp [rrfOf, hnot, hin]
  · intro x hx
    have hk := (hkeys x).mpr hx
    by_cases hlen : (sortByScoreDesc sc).length ≤ TOP_K
    · left
      have : rankTopK sc = sortByScoreDesc sc := List.take_of_length_le hlen
      rw [this]
      exact (hperm.map Prod.fst).mem_iff.mpr hk
    · right
      simp only [rankTopK, List.length_take]
      omega


/-! ## `InvList` on a laid-out term -/

theorem InvList.load_eq (idx : Index) (l : InvList) :
    (InvList.load idx l).map InvList.toInvertedList
      = InvertedList.decompressBlock idx l.toInvertedList l.bi := by
  unfold InvList.load InvertedList.decompressBlock
  simp only [InvList.toInvertedList, InvList.endBlock, InvertedList.endBlock]
  split
  · rfl
  · split
    · rfl
    · split
      · rfl
      · rfl

theorem InvList.toInvertedList_inj (l1 l2 : InvList)
    (h : l1.toInvertedList = l2.toInvertedList) : l1 = l2 := by
  cases l1; cases l2
  simp only [InvList.toInvertedList, InvertedList.mk.injEq] at h
  simp only [InvList.mk.injEq]
  tauto

theorem InvList.new_first_block (idx : Index) (t : String) (e : LexEntry) (blk : List Posting)
    (cs2 : List (List Posting)) (hlook : idx.lexicon.lookup t = some e)
    (hl : TermLayout idx e (blk :: cs2)) :
    InvList.new idx t = some (invListAt e blk 0) := by
  unfold InvList.new
  rw [hlook]
  simp only
  have h1 := InvList.load_eq idx ⟨e.startOffset, e.startBlock, e.numPostings, e.startBlock, 0,
    [], [], false⟩
  have h2 := decompress_at idx e (blk :: cs2) hl 0 blk (by simp)
    (InvList.toInvertedList ⟨e.startOffset, e.startBlock, e.numPostings, e.startBlock, 0,
      [], [], false⟩) rfl rfl rfl
  rw [Nat.add_zero] at h2
  rw [show (InvList.mk e.startOffset e.startBlock e.numPostings e.startBlock 0 [] [] false).bi
    = e.startBlock from rfl, h2] at h1
  cases hld : InvList.load idx ⟨e.startOffset, e.startBlock, e.numPostings, e.startBlock, 0,
    [], [], false⟩ with
  | none => rw [hld] at h1; cases h1
  | some l' =>
    rw [hld] at h1
    simp only [Option.map_some', Option.some.injEq] at h1
    congr 1
    apply InvList.toInvertedList_inj
    rw [h1]
    rfl

theorem InvList.nextGEQ_zero (idx : Index) (e : LexEntry) (blk : List Posting)
    (cs2 : List (List Posting)) (hl : TermLayout idx e (blk :: cs2)) :
    InvList.nextGEQ idx (invListAt e blk 0) 0 = some (true, invListAt e blk 0) := by
  have hne := (hl.blocks blk (by simp)).1
  have hpos : 0 < blk.length := List.length_pos.mpr hne
  have hlast := layout_last idx e (blk :: cs2) hl 0 blk (by simp)
  rw [Nat.add_zero] at hlast
  have hk : (invListAt e blk 0).endBlock - (invListAt e blk 0).bi = cs2.length + 1 := by
    simp only [InvList.endBlock, invListAt, hl.count, List.length_cons]
    omega
  obtain ⟨p0, rest, hblk⟩ := List.exists_cons_of_ne_nil hne
  unfold InvList.nextGEQ InvList.nextGEQFuel
  rw [hk]
  simp only [invListAt, Bool.false_eq_true, if_false, skipBlocks, hlast, ge_iff_le, Nat.zero_le,
    if_true]
  subst hblk
  simp [scanFrom]

theorem InvList.collect_block (e : LexEntry) (blk : List Posting) (fuel : Nat) :
    ∀ p : Nat, p ≤ blk.length → blk.length - p < fuel →
      InvList.collect fuel (invListAt e blk p) = some (blk.drop p) := by
  induction fuel with
  | zero => intro p _ h; omega
  | succ fuel ih =>
    intro p hp hf
    by_cases hlt : p < blk.length
    · have hhas : (invListAt e blk p).has = true := by simp [InvList.has, invListAt, hlt]
      have hdoc : (invListAt e blk p).doc = some (blk[p]).1 := by
        simp [InvList.doc, invListAt, List.getElem?_map, List.getElem?_eq_getElem hlt]
      have hfreq : (invListAt e blk p).freq = some (blk[p]).2 := by
        simp [InvList.freq, invListAt, List.getElem?_map, List.getElem?_eq_getElem hlt]
      have hnext : (invListAt e blk p).next = invListAt e blk (p + 1) := rfl
      rw [InvList.collect]
      simp only [hhas, if_true, hdoc, hfreq, hnext, ih (p + 1) (by omega) (by omega)]
      rw [List.drop_eq_getElem_cons hlt]
    · have hpe : p = blk.length := by omega
      have hhas : (invListAt e blk p).has = false := by simp [InvList.has, invListAt, hpe]
      rw [InvList.collect]
      simp only [hhas, Bool.false_eq_true, if_false]
      rw [List.drop_eq_nil_of_le (by omega)]

/-- On a laid-out term the posting loop of `query` / `queryBM25` visits the postings of the
term's first block, and nothing else. -/
theorem InvList.iterate_layout (idx : Index) (t : String) (e : LexEntry) (blk : List Posting)
    (cs2 : List (List Posting)) (hlook : idx.lexicon.lookup t = some e)
    (hl : TermLayout idx e (blk :: cs2)) (fuel : Nat) (hf : blk.length < fuel) :
    InvList.iterate fuel idx t = some blk := by
  unfold InvList.iterate
  rw [InvList.new_first_block idx t e blk cs2 hlook hl]
  simp only
  rw [InvList.nextGEQ_zero idx e blk cs2 hl]
  simp only
  rw [InvList.collect_block e blk fuel 0 (Nat.zero_le _) (by omega)]
  rfl


theorem lookup_some_mem_keys (l : List (String × LexEntry)) (k : String) (v : LexEntry)
    (h : l.lookup k = some v) : k ∈ l.map Prod.fst := by
  induction l with
  | nil => simp [List.lookup] at h
  | cons a l ih =>
    obtain ⟨k', v'⟩ := a
    by_cases hk : k = k'
    · subst hk; simp
    · have hb : (k == k') = false := by simpa using hk
      simp only [List.lookup, hb] at h
      simp only [List.map_cons, List.mem_cons]
      exact Or.inr (ih h)

/-- A term that has an entry in the lexicon of a merged index has an entry in the pop
sequence. -/
theorem merged_lookup_some (popped : List TermEntry) (hs : SortedEntries popped) (t : String)
    (e : LexEntry) (h : (loadIndex (mergeEntries popped)).lexicon.lookup t = some e) :
    ∃ x ∈ popped, x.term = t := by
  obtain ⟨gs, hv, hge⟩ := sorted_groups popped.length popped (le_refl _) hs
  obtain ⟨_, hlex⟩ := merge_spec gs hv
  rw [hge] at hlex
  have hk := lookup_some_mem_keys _ t e h
  simp only [loadIndex, foldl_cons_lexicon, List.append_nil, hlex] at hk
  rw [← List.map_reverse, List.map_map, List.mem_map] at hk
  obtain ⟨l, hl, hlt⟩ := hk
  rw [List.mem_reverse] at hl
  have hterm : t ∈ (lexLines gs 0 0).map LexLine.term := by
    rw [List.mem_map]
    exact ⟨l, hl, hlt⟩
  rw [lexLines_terms] at hterm
  obtain ⟨x, hx, hxt⟩ := group_term_mem gs (fun g hg => (hv.2 g hg).2.1) t hterm
  rw [hge] at hx
  exact ⟨x, hx, hxt⟩

/-- What the posting loop of `query` / `queryBM25` visits for a term of a merged index: the
first block of the term's posting list. -/
theorem InvList.iterate_merged (popped : List TermEntry) (hs : SortedEntries popped)
    (t : String) (ht : ∃ x ∈ popped, x.term = t) (fuel : Nat) (hf : BLOCK_SIZE < fuel) :
    ∃ blk cs2, chunks (postingsOfTerm popped t) = blk :: cs2
      ∧ InvList.iterate fuel (loadIndex (mergeEntries popped)) t = some blk := by
  obtain ⟨e, hlook, _, _, hl, hne, _⟩ := sorted_term_layout popped t hs ht
  obtain ⟨blk, cs2, hcs⟩ := List.exists_cons_of_ne_nil (chunks_ne_nil _ hne)
  rw [hcs] at hl
  have hb := (hl.blocks blk (by simp)).2.1
  exact ⟨blk, cs2, hcs, InvList.iterate_layout _ t e blk cs2 hlook hl fuel (by omega)⟩

theorem mem_postingsOfTerm (popped : List TermEntry) (t : String) (p : Posting)
    (h : p ∈ postingsOfTerm popped t) : ∃ x ∈ popped, x.term = t ∧ x.docID = p.1 ∧ x.freq = p.2 := by
  simp only [postingsOfTerm, List.mem_map, List.mem_filter, decide_eq_true_eq] at h
  obtain ⟨x, ⟨hx, hxt⟩, rfl⟩ := h
  exact ⟨x, hx, hxt, rfl, rfl⟩

theorem mem_first_chunk (ps : List Posting) (blk : List Posting) (cs2 : List (List Posting))
    (h : chunks ps = blk :: cs2) (p : Posting) (hp : p ∈ blk) : p ∈ ps := by
  have := chunks_flatten ps
  rw [h] at this
  rw [← this]
  simp [hp]

theorem queryPostings_total {S : Type} [Field S] [DecidableEq S] (log : S → S)
    (env : ScoreEnv S) (df : Nat) (ps : List (Nat × Nat)) :
    ∀ st : List S × List Nat, (∀ p ∈ ps, p.1 < st.1.length) → (∀ d ∈ st.2, d < st.1.length) →
      ∃ st', queryPostings log env df ps st = some st' ∧ st'.1.length = st.1.length
        ∧ ∀ d ∈ st'.2, d < st'.1.length := by
  induction ps with
  | nil => intro st _ h; exact ⟨st, rfl, rfl, h⟩
  | cons p ps ih =>
    intro st hps ht
    have hp := hps p (List.mem_cons_self _ _)
    have hget : st.1[p.1]? = some (st.1[p.1]) := List.getElem?_eq_getElem hp
    simp only [queryPostings, queryPosting, hget]
    obtain ⟨st', h1, h2, h3⟩ := ih
      (st.1.set p.1 (st.1[p.1] + bm25 log env p.2 (docLengthOf env p.1) df),
        if st.1[p.1] = 0 then st.2 ++ [p.1] else st.2)
      (by
        intro q hq
        simp only [List.length_set]
        exact hps q (List.mem_cons_of_mem _ hq))
      (by
        intro d hd
        simp only [List.length_set]
        split at hd
        · rcases List.mem_append.mp hd with h | h
          · exact ht d h
          · simp only [List.mem_singleton] at h; subst h; exact hp
        · exact ht d hd)
    refine ⟨st', h1, ?_, h3⟩
    rw [h2]
    simp

theorem queryTerms_total {S : Type} [Field S] [DecidableEq S] (log : S → S)
    (popped : List TermEntry) (hs : SortedEntries popped) (env : ScoreEnv S)
    (fuel : Nat) (hf : BLOCK_SIZE < fuel) (terms : List String) :
    ∀ st : List S × List Nat, (∀ x ∈ popped, x.docID < st.1.length) →
      (∀ d ∈ st.2, d < st.1.length) →
      ∃ st', queryTerms log fuel (loadIndex (mergeEntries popped)) env terms st = some st'
        ∧ st'.1.length = st.1.length ∧ ∀ d ∈ st'.2, d < st'.1.length := by
  induction terms with
  | nil => intro st _ h; exact ⟨st, rfl, rfl, h⟩
  | cons t ts ih =>
    intro st hdoc ht
    cases hlook : (loadIndex (mergeEntries popped)).lexicon.lookup t with
    | none =>
      simp only [queryTerms, hlook]
      exact ih st hdoc ht
    | some e =>
      have hmem := merged_lookup_some popped hs t e hlook
      obtain ⟨blk, cs2, hcs, hit⟩ := InvList.iterate_merged popped hs t hmem fuel hf
      obtain ⟨st1, h1, h2, h3⟩ := queryPostings_total log env e.df blk st (by
        intro p hp
        obtain ⟨x, hx, _, hxd, _⟩ := mem_postingsOfTerm popped t p (mem_first_chunk _ blk cs2 hcs p hp)
        rw [← hxd]
        exact hdoc x hx) ht
      obtain ⟨st2, h4, h5, h6⟩ := ih st1 (by rw [h2]; exact hdoc) h3
      refine ⟨st2, ?_, by rw [h5, h2], h6⟩
      simp only [queryTerms, hlook, hit, h1, h4]

theorem touchedScores_total {S : Type} (sc : List S) (touched : List Nat)
    (h : ∀ d ∈ touched, d < sc.length) : ∃ r, touchedScores sc touched = some r := by
  induction touched with
  | nil => exact ⟨[], rfl⟩
  | cons d ds ih =>
    obtain ⟨r, hr⟩ := ih (fun x hx => h x (List.mem_cons_of_mem _ hx))
    have hd := h d (List.mem_cons_self _ _)
    exact ⟨(d, sc[d]) :: r, by simp [touchedScores, hr, List.getElem?_eq_getElem hd]⟩

theorem rankTopK_props {K S : Type} [LinearOrder S] (scored : List (K × S)) :
    (rankTopK scored).Pairwise (fun a b => a.2 ≥ b.2)
      ∧ (rankTopK scored).length ≤ TOP_K
      ∧ (rankTopK scored ++ (sortByScoreDesc scored).drop TOP_K).Perm scored
      ∧ ∀ o ∈ (sortByScoreDesc scored).drop TOP_K, ∀ x ∈ rankTopK scored, o.2 ≤ x.2 := by
  have hsorted := sortByScoreDesc_sorted scored
  have hsplit : rankTopK scored ++ (sortByScoreDesc scored).drop TOP_K = sortByScoreDesc scored :=
    List.take_append_drop _ _
  refine ⟨?_, ?_, ?_, ?_⟩
  · exact hsorted.sublist (List.take_sublist _ _)
  · simp only [rankTopK, List.length_take]
    omega
  · rw [hsplit]
    exact sortByScoreDesc_perm scored
  · intro o ho x hx
    rw [← hsplit] at hsorted
    exact (List.pairwise_append.mp hsorted).2.2 x hx o ho

/-- C16. On an index the merger has written, with a score array that has an entry for every
doc id, `query()` and `queryBM25()` return (for every iteration bound above the block size)
the scored documents sorted by score, cut at `TOP_K = 1000`: the returned list is ordered by
non-increasing score, has at most 1000 entries, is together with the omitted documents a
rearrangement of the scored ones, and no omitted document has a score strictly greater than
a returned one. -/
theorem C16_query_sorted_topk {S : Type} [LinearOrderedField S] (log : S → S)
    (popped : List TermEntry) (hs : SortedEntries popped) (env : ScoreEnv S)
    (terms : List String) (st : List S × List Nat)
    (hdoc : ∀ x ∈ popped, x.docID < st.1.length) (htouched : ∀ d ∈ st.2, d < st.1.length)
    (fuel : Nat) (hf : BLOCK_SIZE < fuel) :
    ∃ scored st',
      queryScored log fuel (loadIndex (mergeEntries popped)) env terms st = some (scored, st')
      ∧ query log fuel (loadIndex (mergeEntries popped)) env terms st
          = some (rankTopK scored, st')
      ∧ queryBM25 log fuel (loadIndex (mergeEntries popped)) env terms st
          = some (rankTopK scored, st')
      ∧ (rankTopK scored).Pairwise (fun a b => a.2 ≥ b.2)
      ∧ (rankTopK scored).length ≤ 1000
      ∧ (rankTopK scored ++ (sortByScoreDesc scored).drop 1000).Perm scored
      ∧ ∀ o ∈ (sortByScoreDesc scored).drop 1000, ∀ x ∈ rankTopK scored, ¬ (o.2 > x.2) := by
  obtain ⟨st1, h1, _, h3⟩ := queryTerms_total log popped hs env fuel hf terms st hdoc htouched
  obtain ⟨r, hr⟩ := touchedScores_total st1.1 st1.2 h3
  obtain ⟨p1, p2, p3, p4⟩ := rankTopK_props r
  have hq : queryScored log fuel (loadIndex (mergeEntries popped)) env terms st
      = some (r, (r.foldl (fun sc p => sc.set p.1 0) st1.1, [])) := by
    simp only [queryScored, h1, hr]
  refine ⟨r, _, hq, ?_, ?_, p1, p2, p3, ?_⟩
  · simp only [query, hq]
  · simp only [queryBM25, hq]
  · intro o ho x hx
    exact not_lt.mpr (p4 o ho x hx)


theorem C17_fuse_scores_witness :
    ∃ r, fuse (S := ℚ) docIdMapABCD passageIdsABCD [(0, 3), (2, 2)] [(3, 9), (0, 8)] = some r
      ∧ (r.map Prod.fst).Nodup
      ∧ (∀ x s, (x, s) ∈ r →
          (x ∈ ([(0, 3), (2, 2)] : List (Nat × ℚ)).map (fun p => extOf docIdMapABCD p.1)
            ∨ x ∈ ([(3, 9), (0, 8)] : List (Nat × ℚ)).map (fun p => passageIdsABCD.getD p.1 ""))
          ∧ s = rrfOf (([(0, 3), (2, 2)] : List (Nat × ℚ)).map (fun p => extOf docIdMapABCD p.1)) x
                + rrfOf (([(3, 9), (0, 8)] : List (Nat × ℚ)).map
                    (fun p => passageIdsABCD.getD p.1 "")) x
          ∧ (x ∉ ([(3, 9), (0, 8)] : List (Nat × ℚ)).map (fun p => passageIdsABCD.getD p.1 "") →
              s = 1 / ((RRF_K + ((([(0, 3), (2, 2)] : List (Nat × ℚ)).map
                    (fun p => extOf docIdMapABCD p.1)).indexOf x + 1) : Nat) : ℚ))
          ∧ (x ∉ ([(0, 3), (2, 2)] : List (Nat × ℚ)).map (fun p => extOf docIdMapABCD p.1) →
              s = 1 / ((RRF_K + ((([(3, 9), (0, 8)] : List (Nat × ℚ)).map
                    (fun p => passageIdsABCD.getD p.1 "")).indexOf x + 1) : Nat) : ℚ)))
      ∧ (∀ x, x ∈ ([(0, 3), (2, 2)] : List (Nat × ℚ)).map (fun p => extOf docIdMapABCD p.1)
            ∨ x ∈ ([(3, 9), (0, 8)] : List (Nat × ℚ)).map (fun p => passageIdsABCD.getD p.1 "") →
          x ∈ r.map Prod.fst ∨ r.length = TOP_K) :=
  C17_fuse_scores docIdMapABCD passageIdsABCD [(0, 3), (2, 2)] [(3, 9), (0, 8)]
    (by decide) (by decide) (by decide)

/-- C19. `fuse` applied to the BM25 ranking `[A, C, D]` and the dense ranking `[D, A, B]`
(doc ids and rows 0, 1, 2, 3 for the external ids A, B, C, D; whatever the scores inside the
two rankings) gives exactly the scores `A = 1/61 + 1/62`, `C = 1/62`, `D = 1/63 + 1/61`,
`B = 1/63` and returns them in the order A, D, C, B. -/
theorem C19_fuse_example {S : Type} [LinearOrderedField S] (b1 b2 b3 d1 d2 d3 : S) :
    fuse docIdMapABCD passageIdsABCD [(0, b1), (2, b2), (3, b3)] [(3, d1), (0, d2), (1, d3)]
      = some [("A", 1 / 61 + 1 / 62), ("D", 1 / 63 + 1 / 61), ("C", 1 / 62), ("B", 1 / 63)] := by
  have e0 : extOf docIdMapABCD 0 = "A" := by decide
  have e2 : extOf docIdMapABCD 2 = "C" := by decide
  have e3 : extOf docIdMapABCD 3 = "D" := by decide
  have p0 : passageIdsABCD[0]? = some "A" := by decide
  have p1 : passageIdsABCD[1]? = some "B" := by decide
  have p3 : passageIdsABCD[3]? = some "D" := by decide
  have hacc : fuseDense passageIdsABCD [(3, d1), (0, d2), (1, d3)] 0
      (fuseBM docIdMapABCD [(0, b1), (2, b2), (3, b3)] 0 [])
      = some [("A", (1 / 61 + 1 / 62 : S)), ("C", 1 / 62), ("D", 1 / 63 + 1 / 61),
          ("B", 1 / 63)] := by
    have n1 : ("A" : String) ≠ "C" := by decide
    have n2 : ("A" : String) ≠ "D" := by decide
    have n3 : ("C" : String) ≠ "D" := by decide
    have n4 : ("A" : String) ≠ "B" := by decide
    have n5 : ("C" : String) ≠ "B" := by decide
    have n6 : ("D" : String) ≠ "B" := by decide
    have n7 : ("C" : String) ≠ "A" := by decide
    simp only [fuseBM, fuseDense, e0, e2, e3, p0, p1, p3, addScore, rrfTerm, RRF_K, n1, n2, n3,
      n4, n5, n6, n7, if_true, if_false]
    norm_num
  have hsort : sortByScoreDesc [("A", (1 / 61 + 1 / 62 : S)), ("C", 1 / 62),
        ("D", 1 / 63 + 1 / 61), ("B", 1 / 63)]
      = [("A", 1 / 61 + 1 / 62), ("D", 1 / 63 + 1 / 61), ("C", 1 / 62), ("B", 1 / 63)] := by
    simp only [sortByScoreDesc, List.insertionSort, List.orderedInsert]
    norm_num
  simp only [fuse, hacc, rankTopK, hsort, TOP_K]
  rfl

theorem C16_query_sorted_topk_witness :
    ∃ scored st',
      queryScored (S := ℚ) id 129 (loadIndex (mergeEntries poppedSmall)) ⟨[], 10, 2⟩ ["b", "a"]
          (List.replicate 10 0, []) = some (scored, st')
      ∧ query (S := ℚ) id 129 (loadIndex (mergeEntries poppedSmall)) ⟨[], 10, 2⟩ ["b", "a"]
          (List.replicate 10 0, []) = some (rankTopK scored, st')
      ∧ queryBM25 (S := ℚ) id 129 (loadIndex (mergeEntries poppedSmall)) ⟨[], 10, 2⟩ ["b", "a"]
          (List.replicate 10 0, []) = some (rankTopK scored, st')
      ∧ (rankTopK scored).Pairwise (fun a b => a.2 ≥ b.2)
      ∧ (rankTopK scored).length ≤ 1000
      ∧ (rankTopK scored ++ (sortByScoreDesc scored).drop 1000).Perm scored
      ∧ ∀ o ∈ (sortByScoreDesc scored).drop 1000, ∀ x ∈ rankTopK scored, ¬ (o.2 > x.2) :=
  C16_query_sorted_topk id poppedSmall poppedSmall_sorted ⟨[], 10, 2⟩ ["b", "a"]
    (List.replicate 10 0, []) (by decide) (by decide) 129 (by decide)


/-! ## Where the fused score leaves its range -/

theorem poppedFoxDog_sorted : SortedEntries poppedFoxDog := by
  unfold SortedEntries
  refine ⟨?_, by decide⟩
  simp only [poppedFoxDog, List.pairwise_cons, List.mem_cons, List.mem_singleton,
    forall_eq_or_imp, forall_eq, entryLt]
  simp
  decide

theorem iterateFoxDog :
    InvList.iterate 129 indexFoxDog "fox" = some [(0, 1)]
      ∧ (indexFoxDog.lexicon.lookup "fox").map LexEntry.df = some 1 := by
  decide!

theorem bm25FoxDog {S : Type} [LinearOrderedField S] (log : S → S) (hlog : log 1 = 0) :
    bm25 log envFoxDog 1 (docLengthOf (envFoxDog : ScoreEnv S) 0) 1 = 0 := by
  have h1 : (((2 : Nat) : S) - ((1 : Nat) : S) + 1 / 2) / (((1 : Nat) : S) + 1 / 2) = 1 := by
    norm_num
  simp only [bm25, envFoxDog]
  rw [h1, hlog, zero_mul]

/-- C18 (failing input). In the two-document index every term has `df = N / 2`, so its idf
is `ln 1 = 0` and every BM25 contribution is exactly 0. For the query `fox fox`,
`queryBM25` finds `sc[0] == 0` again at the second term and pushes doc 0 onto `touched` a
second time: its ranking is `[(0, 0), (0, 0)]`. `fuse` of this ranking with the dense
ranking `[A, B]` gives `A` the score `1/61 + 1/62 + 1/61`, which is above `2/61`. -/
theorem C18_fused_score_above_bound {S : Type} [LinearOrderedField S] (log : S → S)
    (hlog : log 1 = 0) (s0 s1 : S) :
    queryBM25 log 129 indexFoxDog envFoxDog ["fox", "fox"] ([0, 0], [])
        = some ([(0, 0), (0, 0)], ([0, 0], []))
      ∧ fuse docIdMapFoxDog passageIdsFoxDog [(0, (0 : S)), (0, 0)] [(0, s0), (1, s1)]
          = some [("A", 1 / 61 + 1 / 62 + 1 / 61), ("B", 1 / 62)]
      ∧ (2 / (RRF_K + 1 : S)) < 1 / 61 + 1 / 62 + 1 / 61 := by
  obtain ⟨hit, hdf⟩ := iterateFoxDog
  cases hlook : indexFoxDog.lexicon.lookup "fox" with
  | none => rw [hlook] at hdf; cases hdf
  | some e =>
    rw [hlook] at hdf
    simp only [Option.map_some', Option.some.injEq] at hdf
    have hb := bm25FoxDog log hlog
    refine ⟨?_, ?_, ?_⟩
    · simp only [queryBM25, queryScored, queryTerms, hlook, hit, queryPostings, queryPosting, hdf,
        List.getElem?_cons_zero, hb, add_zero, if_true, List.set_cons_zero, List.nil_append,
        List.cons_append, touchedScores, List.foldl_cons, List.foldl_nil, rankTopK,
        sortByScoreDesc, List.insertionSort, List.orderedInsert, ge_iff_le, le_refl,
        TOP_K, List.take]
    · have e0 : extOf docIdMapFoxDog 0 = "A" := by decide
      have p0 : passageIdsFoxDog[0]? = some "A" := by decide
      have p1 : passageIdsFoxDog[1]? = some "B" := by decide
      have n1 : ("A" : String) ≠ "B" := by decide
      have hacc : fuseDense passageIdsFoxDog [(0, s0), (1, s1)] 0
          (fuseBM docIdMapFoxDog [(0, (0 : S)), (0, 0)] 0 [])
          = some [("A", (1 / 61 + 1 / 62 + 1 / 61 : S)), ("B", 1 / 62)] := by
        simp only [fuseBM, fuseDense, e0, p0, p1, addScore, rrfTerm, RRF_K, n1, if_true, if_false]
        norm_num
      have hsort : sortByScoreDesc [("A", (1 / 61 + 1 / 62 + 1 / 61 : S)), ("B", 1 / 62)]
          = [("A", 1 / 61 + 1 / 62 + 1 / 61), ("B", 1 / 62)] := by
        simp only [sortByScoreDesc, List.insertionSort, List.orderedInsert]
        norm_num
      simp only [fuse, hacc, rankTopK, hsort, TOP_K]
      rfl
    · simp only [RRF_K]
      norm_num

theorem C18_fused_score_above_bound_witness :
    queryBM25 Real.log 129 indexFoxDog envFoxDog ["fox", "fox"] ([0, 0], [])
        = some ([(0, 0), (0, 0)], ([0, 0], []))
      ∧ fuse docIdMapFoxDog passageIdsFoxDog [(0, (0 : ℝ)), (0, 0)] [(0, 1), (1, 0)]
          = some [("A", 1 / 61 + 1 / 62 + 1 / 61), ("B", 1 / 62)]
      ∧ (2 / (RRF_K + 1 : ℝ)) < 1 / 61 + 1 / 62 + 1 / 61 :=
  C18_fused_score_above_bound Real.log Real.log_one 1 0

/-! ## The disjunctive plan on a merged index -/

theorem disjAccumulate_keys {S : Type} [LinearOrderedField S] [FloorRing S] (log : S → S)
    (env : ScoreEnv S) (df : Nat) (visited : List (Int × Int)) :
    ∀ (m : List (Int × S)) (k : Int),
      k ∈ (disjAccumulate log env df visited m).map Prod.fst
        ↔ k ∈ m.map Prod.fst ∨ k ∈ visited.map Prod.fst := by
  induction visited with
  | nil => intro m k; simp [disjAccumulate]
  | cons p ps ih =>
    intro m k
    have := ih (addScore m p.1
      (calculateBM25 log env.avgLen p.2 (docLenOf env p.1) df env.totalDocs)) k
    simp only [disjAccumulate, List.foldl_cons] at this ⊢
    rw [this, mem_addScore_keys]
    simp only [List.map_cons, List.mem_cons]
    tauto

theorem disjAccumulate_nodup {S : Type} [LinearOrderedField S] [FloorRing S] (log : S → S)
    (env : ScoreEnv S) (df : Nat) (visited : List (Int × Int)) :
    ∀ (m : List (Int × S)), (m.map Prod.fst).Nodup →
      ((disjAccumulate log env df visited m).map Prod.fst).Nodup := by
  induction visited with
  | nil => intro m h; simpa [disjAccumulate] using h
  | cons p ps ih =>
    intro m h
    have := ih (addScore m p.1
      (calculateBM25 log env.avgLen p.2 (docLenOf env p.1) df env.totalDocs))
      (addScore_nodup m _ _ h)
    simpa only [disjAccumulate, List.foldl_cons] using this

theorem lookup_none_of_not_mem (P : List Posting) (n : Nat) (h : n ∉ P.map Prod.fst) :
    P.lookup n = none := by
  induction P with
  | nil => rfl
  | cons p P ih =>
    obtain ⟨d, f⟩ := p
    simp only [List.map_cons, List.mem_cons, not_or] at h
    have hb : (n == d) = false := by simpa using h.1
    simp only [List.lookup, hb]
    exact ih h.2

theorem lookup_of_mem_postings (P : List Posting) (hnd : (P.map Prod.fst).Nodup) (n tf : Nat)
    (h : (n, tf) ∈ P) : P.lookup n = some tf := by
  induction P with
  | nil => simp at h
  | cons p P ih =>
    obtain ⟨d, f⟩ := p
    simp only [List.map_cons, List.nodup_cons] at hnd
    simp only [List.mem_cons, Prod.mk.injEq] at h
    rcases h with ⟨rfl, rfl⟩ | h
    · simp [List.lookup]
    · have hne : n ≠ d := by
        intro hc
        apply hnd.1
        rw [← hc]
        exact List.mem_map.mpr ⟨(n, tf), h, rfl⟩
      have hb : (n == d) = false := by simpa using hne
      simp only [List.lookup, hb]
      exact ih hnd.2 h

theorem mem_of_lookup_postings (P : List Posting) (n tf : Nat) (h : P.lookup n = some tf) :
    (n, tf) ∈ P := by
  induction P with
  | nil => simp [List.lookup] at h
  | cons p P ih =>
    obtain ⟨d, f⟩ := p
    by_cases hd : n = d
    · subst hd
      simp only [List.lookup, beq_self_eq_true, Option.some.injEq] at h
      subst h
      simp
    · have hb : (n == d) = false := by simpa using hd
      simp only [List.lookup, hb] at h
      exact List.mem_cons_of_mem _ (ih h)

/-- The score one term adds for document `n`: the BM25 value of the posting of `n`, if the
term has one. -/
theorem disjAccumulate_scoreAt {S : Type} [LinearOrderedField S] [FloorRing S] (log : S → S)
    (env : ScoreEnv S) (df : Nat) (n : Nat) (P : List Posting) :
    (P.map Prod.fst).Nodup → ∀ (m : List (Int × S)),
      scoreAt (disjAccumulate log env df (P.map Posting.toInt) m) (n : Int)
        = scoreAt m (n : Int) + ((P.lookup n).map (fun tf : Nat =>
            calculateBM25 log env.avgLen (tf : Int) (docLenOf env (n : Int)) df
              env.totalDocs)).getD 0 := by
  induction P with
  | nil => intro _ m; simp [disjAccumulate, List.lookup]
  | cons p P ih =>
    intro hnd m
    obtain ⟨d, f⟩ := p
    simp only [List.map_cons, List.nodup_cons] at hnd
    have := ih hnd.2 (addScore m (d : Int)
      (calculateBM25 log env.avgLen (f : Int) (docLenOf env (d : Int)) df env.totalDocs))
    simp only [disjAccumulate, List.map_cons, List.foldl_cons, Posting.toInt] at this ⊢
    rw [this, scoreAt_addScore]
    by_cases hd : n = d
    · subst hd
      rw [lookup_none_of_not_mem P n hnd.1]
      simp [List.lookup]
    · have hb : (n == d) = false := by simpa using hd
      have hne : ¬ ((d : Int) = (n : Int)) := by
        intro hc; exact hd (by exact_mod_cast hc.symm)
      simp only [List.lookup, hb, if_neg hne]

/-- What the posting loop of `processDisjunctiveQuery` visits for a term of a merged index:
the term's posting list. -/
theorem InvertedList.iterate_postings (popped : List TermEntry) (hs : SortedEntries popped)
    (t : String) (ht : ∃ x ∈ popped, x.term = t) (fuel : Nat)
    (hf : (postingsOfTerm popped t).length < fuel) :
    InvertedList.iterate fuel (loadIndex (mergeEntries popped)) t
      = some ((postingsOfTerm popped t).map Posting.toInt) := by
  obtain ⟨e, hlook, _, hdf, hl, hne, hsorted⟩ := sorted_term_layout popped t hs ht
  obtain ⟨blk, cs2, hcs⟩ := List.exists_cons_of_ne_nil (chunks_ne_nil _ hne)
  rw [hcs] at hl
  have hb := (hl.blocks blk (by simp)).1
  have hpos : 0 < blk.length := List.length_pos.mpr hb
  have hflat : blk ++ cs2.flatten = postingsOfTerm popped t := by
    have := chunks_flatten (postingsOfTerm popped t)
    rw [hcs] at this
    simpa using this
  have hcol := collect_layout (loadIndex (mergeEntries popped)) e fuel [] cs2 blk 0 hl hpos (by
    rw [← hflat] at hf
    simpa using hf)
  unfold InvertedList.iterate
  rw [new_layout _ t e blk cs2 hlook hl]
  simp only
  rw [nextGEQ_hit _ e (blk :: cs2) hl 0 blk (by simp) 0 hpos 0 (Nat.zero_le _)]
  simp only
  rw [List.length_nil] at hcol
  rw [hcol, List.drop_zero, hflat]

theorem postingsOfTerm_length_le (popped : List TermEntry) (t : String) :
    (postingsOfTerm popped t).length ≤ popped.length := by
  simp only [postingsOfTerm, List.length_map]
  exact List.length_filter_le _ _

/-- A term without a lexicon entry in a merged index has an empty posting list. -/
theorem postingsOfTerm_of_lookup_none (popped : List TermEntry) (hs : SortedEntries popped)
    (t : String) (h : (loadIndex (mergeEntries popped)).lexicon.lookup t = none) :
    postingsOfTerm popped t = [] := by
  by_contra hne
  obtain ⟨p, hp⟩ := List.exists_mem_of_ne_nil _ hne
  obtain ⟨x, hx, hxt, _⟩ := mem_postingsOfTerm popped t p hp
  obtain ⟨e, hlook, _⟩ := sorted_term_layout popped t hs ⟨x, hx, hxt⟩
  rw [h] at hlook
  cases hlook

theorem mem_toInt_keys (P : List Posting) (k : Int) :
    k ∈ (P.map Posting.toInt).map Prod.fst ↔ ∃ p ∈ P, (p.1 : Int) = k := by
  simp [Posting.toInt]

theorem pairwise_lt_nodup (l : List Nat) (h : l.Pairwise (· < ·)) : l.Nodup :=
  h.imp (fun hab => Nat.ne_of_lt hab)

/-- The term loop of `processDisjunctiveQuery` on a merged index: it ends, the keys it adds
are the documents of the posting lists of the query terms, and the score of a document
grows by the BM25 sum of the query for it. -/
theorem disjTerms_merged {S : Type} [LinearOrderedField S] [FloorRing S] (log : S → S)
    (env : ScoreEnv S) (popped : List TermEntry) (hs : SortedEntries popped) (fuel : Nat)
    (hf : popped.length < fuel) (q : List String) :
    ∀ (m : List (Int × S)), (m.map Prod.fst).Nodup →
      ∃ m', disjTerms log fuel (loadIndex (mergeEntries popped)) env q m = some m'
        ∧ (m'.map Prod.fst).Nodup
        ∧ (∀ k : Int, k ∈ m'.map Prod.fst ↔ k ∈ m.map Prod.fst
            ∨ ∃ t ∈ q, ∃ p ∈ postingsOfTerm popped t, (p.1 : Int) = k)
        ∧ (∀ n : Nat, scoreAt m' (n : Int) = scoreAt m (n : Int) + bm25Sum log env popped q n) := by
  induction q with
  | nil =>
    intro m hm
    exact ⟨m, rfl, hm, by simp, by simp [bm25Sum]⟩
  | cons t ts ih =>
    intro m hm
    cases hlook : (loadIndex (mergeEntries popped)).lexicon.lookup t with
    | none =>
      have hP := postingsOfTerm_of_lookup_none popped hs t hlook
      obtain ⟨m', h1, h2, h3, h4⟩ := ih m hm
      refine ⟨m', ?_, h2, ?_, ?_⟩
      · simp only [disjTerms, hlook]; exact h1
      · intro k
        rw [h3 k]
        simp only [List.mem_cons, exists_eq_or_imp, hP, List.not_mem_nil, false_and,
          exists_false, false_or]
      · intro n
        rw [h4 n]
        simp [bm25Sum, tfOf, hP, List.lookup]
    | some e =>
      have ht := merged_lookup_some popped hs t e hlook
      obtain ⟨e', hlook', _, hdf, _, _, hsorted⟩ := sorted_term_layout popped t hs ht
      rw [hlook] at hlook'
      simp only [Option.some.injEq] at hlook'
      subst hlook'
      have hit := InvertedList.iterate_postings popped hs t ht fuel
        (lt_of_le_of_lt (postingsOfTerm_length_le popped t) hf)
      have hnd := pairwise_lt_nodup _ hsorted
      obtain ⟨m', h1, h2, h3, h4⟩ := ih
        (disjAccumulate log env e.df ((postingsOfTerm popped t).map Posting.toInt) m)
        (disjAccumulate_nodup log env e.df _ m hm)
      refine ⟨m', ?_, h2, ?_, ?_⟩
      · simp only [disjTerms, hlook, hit]; exact h1
      · intro k
        rw [h3 k, disjAccumulate_keys, mem_toInt_keys]
        simp only [List.mem_cons, exists_eq_or_imp]
        exact or_assoc
      · intro n
        rw [h4 n, disjAccumulate_scoreAt log env e.df n _ hnd, add_assoc]
        congr 1
        simp only [bm25Sum, List.filterMap_cons, tfOf, hdf]
        cases (postingsOfTerm popped t).lookup n with
        | none => simp
        | some tf => simp

/-- The result of `processDisjunctiveQuery` on a merged index. -/
theorem processDisjunctiveQuery_merged {S : Type} [LinearOrderedField S] [FloorRing S]
    (log : S → S) (env : ScoreEnv S) (popped : List TermEntry) (hs : SortedEntries popped)
    (fuel : Nat) (hf : popped.length < fuel) (q : List String) :
    ∃ r, processDisjunctiveQuery log fuel (loadIndex (mergeEntries popped)) env q = some r
      ∧ (r.map Prod.fst).Nodup
      ∧ ∀ (d : Int) (s : S), (d, s) ∈ r ↔
          ∃ n : Nat, d = (n : Int) ∧ (∃ t ∈ q, n ∈ (postingsOfTerm popped t).map Prod.fst)
            ∧ s = bm25Sum log env popped q n := by
  obtain ⟨m', h1, h2, h3, h4⟩ := disjTerms_merged log env popped hs fuel hf q [] (by simp)
  have hperm := sortByScoreDesc_perm m'
  refine ⟨sortByScoreDesc m', by simp [processDisjunctiveQuery, h1], ?_, ?_⟩
  · exact (hperm.map Prod.fst).nodup_iff.mpr h2
  · intro d s
    rw [hperm.mem_iff]
    constructor
    · intro hmem
      have hk : d ∈ m'.map Prod.fst := List.mem_map.mpr ⟨(d, s), hmem, rfl⟩
      rw [h3 d] at hk
      simp only [List.map_nil, List.not_mem_nil, false_or] at hk
      obtain ⟨t, ht, p, hp, rfl⟩ := hk
      refine ⟨p.1, rfl, ⟨t, ht, List.mem_map.mpr ⟨p, hp, rfl⟩⟩, ?_⟩
      have := h4 p.1
      rw [scoreAt_of_mem m' _ s h2 hmem] at this
      simpa [scoreAt] using this
    · rintro ⟨n, rfl, ⟨t, ht, hn⟩, rfl⟩
      obtain ⟨p, hp, rfl⟩ := List.mem_map.mp hn
      have hk : ((p.1 : Nat) : Int) ∈ m'.map Prod.fst := by
        rw [h3]
        exact Or.inr ⟨t, ht, p, hp, rfl⟩
      obtain ⟨⟨d', s'⟩, hmem, hd⟩ := List.mem_map.mp hk
      simp only at hd
      subst hd
      have := h4 p.1
      rw [scoreAt_of_mem m' _ s' h2 hmem] at this
      simp only [scoreAt, zero_add] at this
      rw [← this]
      exact hmem
/-! ## The conjunctive plan on a merged index -/

theorem mem_chunks_postings (P : List Posting) (j : Nat) (blk : List Posting)
    (hj : (chunks P)[j]? = some blk) (q : Posting) (hq : q ∈ blk) : q ∈ P := by
  have hmem := layout_block_mem (chunks P) j blk hj
  have := chunks_flatten P
  rw [← this]
  exact List.mem_flatten.mpr ⟨blk, hmem, hq⟩

/-- A cursor in order that has a posting stands on a posting of its term. -/
theorem inOrder_posting (e : LexEntry) (P : List Posting) (l : InvertedList)
    (hin : InOrder e (chunks P) l) (hn : l.hasNext = true) :
    ∃ q ∈ P, l.getDocID = (q.1 : Int) ∧ l.getFrequency = (q.2 : Int) := by
  rcases hin with hfin | ⟨j, blk, p, hj, hp, rfl⟩
  · simp [InvertedList.hasNext, hfin] at hn
  · have hpost := cursorAt_posting e j blk p hp
    simp only [Posting.toInt, Prod.mk.injEq] at hpost
    exact ⟨blk[p], mem_chunks_postings P j blk hj _ (List.getElem_mem hp), hpost.1, hpost.2⟩

/-- The first loop of `processConjunctiveQuery` on a merged index: the early return when a
term has no lexicon entry, and otherwise one fresh cursor per term. -/
theorem conjTermInfos_merged (popped : List TermEntry) (hs : SortedEntries popped)
    (q : List String) :
    ((∃ t ∈ q, (loadIndex (mergeEntries popped)).lexicon.lookup t = none)
        ∧ conjTermInfos (loadIndex (mergeEntries popped)) q = some none)
      ∨ ((∀ t ∈ q, (loadIndex (mergeEntries popped)).lexicon.lookup t ≠ none)
        ∧ ∃ infos, conjTermInfos (loadIndex (mergeEntries popped)) q = some (some infos)
            ∧ infos.map TermInfo.term = q ∧ ∀ info ∈ infos, InfoOK popped info) := by
  induction q with
  | nil => exact Or.inr ⟨by simp, [], rfl, rfl, by simp⟩
  | cons t ts ih =>
    cases hlook : (loadIndex (mergeEntries popped)).lexicon.lookup t with
    | none =>
      exact Or.inl ⟨⟨t, by simp, hlook⟩, by simp [conjTermInfos, hlook]⟩
    | some e =>
      have ht := merged_lookup_some popped hs t e hlook
      obtain ⟨e', hlook', _, hdf, hl, hne, _⟩ := sorted_term_layout popped t hs ht
      rw [hlook] at hlook'
      simp only [Option.some.injEq] at hlook'
      subst hlook'
      obtain ⟨blk, cs2, hcs⟩ := List.exists_cons_of_ne_nil (chunks_ne_nil _ hne)
      have hl2 := hl
      rw [hcs] at hl2
      have hnew := new_layout _ t e blk cs2 hlook hl2
      have hb := (hl2.blocks blk (by simp)).1
      rcases ih with ⟨⟨t', ht', hnone⟩, hr⟩ | ⟨hall, infos, hr, hterms, hok⟩
      · exact Or.inl ⟨⟨t', List.mem_cons_of_mem _ ht', hnone⟩,
          by simp [conjTermInfos, hlook, hnew, hr]⟩
      · refine Or.inr ⟨?_, { term := t, df := e.df, list := cursorAt e 0 blk 0 } :: infos,
          by simp [conjTermInfos, hlook, hnew, hr], by simp [hterms], ?_⟩
        · intro t' ht'
          rcases List.mem_cons.mp ht' with rfl | h
          · rw [hlook]; simp
          · exact hall t' h
        · intro info hinfo
          rcases List.mem_cons.mp hinfo with rfl | h
          · refine ⟨e, hlook, hdf, hl, Or.inr ⟨0, blk, 0, ?_, List.length_pos.mpr hb, rfl⟩⟩
            simp only
            rw [hcs]
            simp
          · exact hok info h

/-- The inner loop of the conjunctive plan on cursors in order: it returns, leaves the
cursors in order, and when it reports `inAll` every frequency it pushed is the frequency of
the posting of the pivot's document in the list of the cursor's term. -/
theorem conjOthers_ok (popped : List TermEntry) (n : Nat) :
    ∀ others : List TermInfo, (∀ info ∈ others, InfoOK popped info) →
      ∃ inAll freqs others',
        conjOthers (loadIndex (mergeEntries popped)) (n : Int) others
            = some (inAll, freqs, others')
          ∧ others'.map TermInfo.term = others.map TermInfo.term
          ∧ others'.map TermInfo.df = others.map TermInfo.df
          ∧ (∀ info ∈ others', InfoOK popped info)
          ∧ (inAll = true →
              List.Forall₂ (FreqOf popped n) (others.map TermInfo.term) freqs) := by
  intro others
  induction others with
  | nil =>
    intro _
    exact ⟨true, [], [], rfl, rfl, rfl, by simp, fun _ => List.Forall₂.nil⟩
  | cons info rest ih =>
    intro hok
    obtain ⟨e, hlook, hdf, hl, hin⟩ := hok info (by simp)
    obtain ⟨b, l', hr, hin', _, _⟩ := nextGEQ_inOrder _ e _ hl info.list n hin
    have hok1 : InfoOK popped { info with list := l' } := ⟨e, hlook, hdf, hl, hin'⟩
    by_cases hc : (!l'.hasNext || decide (l'.getDocID ≠ (n : Int))) = true
    · refine ⟨false, [], { info with list := l' } :: rest, ?_, by simp, by simp, ?_, by simp⟩
      · simp only [conjOthers, Int.toNat_ofNat, hr]
        rw [if_pos hc]
      · intro i hi
        rcases List.mem_cons.mp hi with rfl | h
        · exact hok1
        · exact hok i (List.mem_cons_of_mem _ h)
    · obtain ⟨inAll, freqs, rest', hco, hterm, hdfs, hok', hall⟩ :=
        ih (fun i hi => hok i (List.mem_cons_of_mem _ hi))
      refine ⟨inAll, l'.getFrequency :: freqs, { info with list := l' } :: rest', ?_,
        by simp [hterm], by simp [hdfs], ?_, ?_⟩
      · simp only [conjOthers, Int.toNat_ofNat, hr]
        rw [if_neg hc, hco]
      · intro i hi
        rcases List.mem_cons.mp hi with rfl | h
        · exact hok1
        · exact hok' i h
      · intro hA
        simp only [Bool.or_eq_true, Bool.not_eq_true', decide_eq_true_eq, not_or,
          Bool.not_eq_false, not_not] at hc
        obtain ⟨q, hq, hd, hfreq⟩ := inOrder_posting e _ l' hin' hc.1
        have hqn : q.1 = n := by
          have := hc.2
          rw [hd] at this
          exact_mod_cast this
        refine List.Forall₂.cons ⟨q.2, hfreq, ?_⟩ (hall hA)
        rw [← hqn]
        exact hq

theorem conjLoop_not_hasNext (fuel : Nat) (idx : Index) (l : InvertedList)
    (others : List TermInfo) (h : l.hasNext = false) : conjLoop fuel idx l others = some [] := by
  cases fuel <;> simp [conjLoop, h]

/-- The pivot loop of the conjunctive plan on a merged index: it ends within one iteration
per posting of the pivot, and every `(docID, freqs)` pair it records holds a document of
the pivot's posting list with, per cursor, the frequency of that document's posting. -/
theorem conjLoop_ok (popped : List TermEntry) (pt : String) (e : LexEntry) (fuel : Nat) :
    ∀ (cs1 cs2 : List (List Posting)) (blk : List Posting) (p : Nat) (others : List TermInfo),
      chunks (postingsOfTerm popped pt) = cs1 ++ blk :: cs2 →
      TermLayout (loadIndex (mergeEntries popped)) e (cs1 ++ blk :: cs2) → p < blk.length →
      (blk.drop p).length + cs2.flatten.length < fuel →
      (∀ info ∈ others, InfoOK popped info) →
      ∃ hits, conjLoop fuel (loadIndex (mergeEntries popped)) (cursorAt e cs1.length blk p) others
            = some hits
        ∧ ∀ h ∈ hits, ∃ n : Nat, h.1 = (n : Int)
            ∧ List.Forall₂ (FreqOf popped n) (pt :: others.map TermInfo.term) h.2 := by
  induction fuel with
  | zero => intro cs1 cs2 blk p others _ _ _ hf; omega
  | succ fuel ih =>
    intro cs1 cs2 blk p others hcs hl hp hf hok
    have hdrop : blk.drop p = blk[p] :: blk.drop (p + 1) := List.drop_eq_getElem_cons hp
    have hdl : (blk.drop p).length = (blk.drop (p + 1)).length + 1 := by
      rw [hdrop, List.length_cons]
    have hpost := cursorAt_posting e cs1.length blk p hp
    simp only [Posting.toInt, Prod.mk.injEq] at hpost
    obtain ⟨inAll, freqs, others', hco, hterm, _, hok', hall⟩ :=
      conjOthers_ok popped (blk[p]).1 others hok
    have hmemP : blk[p] ∈ postingsOfTerm popped pt := by
      refine mem_chunks_postings _ cs1.length blk ?_ _ (List.getElem_mem hp)
      rw [hcs, List.getElem?_append_right (le_refl _)]
      simp
    have key : ∀ hits' : List (Int × List Int),
        (∀ h ∈ hits', ∃ n : Nat, h.1 = (n : Int)
            ∧ List.Forall₂ (FreqOf popped n) (pt :: others'.map TermInfo.term) h.2) →
        ∀ h ∈ (if inAll = true then
                ((cursorAt e cs1.length blk p).getDocID,
                  (cursorAt e cs1.length blk p).getFrequency :: freqs) :: hits'
              else hits'),
          ∃ n : Nat, h.1 = (n : Int)
            ∧ List.Forall₂ (FreqOf popped n) (pt :: others.map TermInfo.term) h.2 := by
      intro hits' hh h hmem
      by_cases hA : inAll = true
      · rw [if_pos hA] at hmem
        rcases List.mem_cons.mp hmem with rfl | hm
        · exact ⟨(blk[p]).1, hpost.1,
            List.Forall₂.cons ⟨(blk[p]).2, hpost.2, hmemP⟩ (hall hA)⟩
        · rw [← hterm]; exact hh h hm
      · rw [if_neg hA] at hmem
        rw [← hterm]; exact hh h hmem
    simp only [conjLoop, cursorAt_hasNext e _ blk p hp, if_true]
    rw [hpost.1, hco]
    simp only
    rcases next_layout _ e cs1 cs2 blk hl p hp with ⟨h1, hn⟩ | ⟨h1, c', cs2', rfl, hn⟩ |
        ⟨h1, rfl, l, hn, hfin⟩
    · obtain ⟨hits', hr, hh⟩ := ih cs1 cs2 blk (p + 1) others' hcs hl h1 (by omega) hok'
      rw [hn]
      simp only
      rw [hr]
      simp only
      refine ⟨_, rfl, ?_⟩
      rw [← hpost.1]
      exact key hits' hh
    · have hl' : TermLayout (loadIndex (mergeEntries popped)) e ((cs1 ++ [blk]) ++ c' :: cs2') := by
        simpa using hl
      have hcs' : chunks (postingsOfTerm popped pt) = (cs1 ++ [blk]) ++ c' :: cs2' := by
        simpa using hcs
      have hc' := (hl.blocks c' (by simp)).1
      have hpos : 0 < c'.length := List.length_pos.mpr hc'
      have hd0 : blk.drop (p + 1) = [] := List.drop_eq_nil_of_le (by omega)
      obtain ⟨hits', hr, hh⟩ := ih (cs1 ++ [blk]) cs2' c' 0 others' hcs' hl' hpos (by
        simp only [List.flatten_cons, List.length_append, hd0, List.length_nil] at hf hdl
        simp only [List.drop_zero]
        omega) hok'
      simp only [List.length_append, List.length_singleton] at hr
      rw [hn]
      simp only
      rw [hr]
      simp only
      refine ⟨_, rfl, ?_⟩
      rw [← hpost.1]
      exact key hits' hh
    · have hnn : l.hasNext = false := by simp [InvertedList.hasNext, hfin]
      rw [hn]
      simp only
      rw [conjLoop_not_hasNext fuel _ l others' hnn]
      simp only
      refine ⟨_, rfl, ?_⟩
      rw [← hpost.1]
      exact key [] (by simp)
theorem postings_nodup (popped : List TermEntry) (hs : SortedEntries popped) (t : String) :
    ((postingsOfTerm popped t).map Prod.fst).Nodup := by
  by_cases hne : postingsOfTerm popped t = []
  · rw [hne]; simp
  · obtain ⟨p, hp⟩ := List.exists_mem_of_ne_nil _ hne
    obtain ⟨x, hx, hxt, _⟩ := mem_postingsOfTerm popped t p hp
    obtain ⟨e, _, _, _, _, _, hsorted⟩ := sorted_term_layout popped t hs ⟨x, hx, hxt⟩
    exact pairwise_lt_nodup _ hsorted

/-- The early returns of `processConjunctiveQuery`: an empty term list, or a term without a
lexicon entry, on a merged index. -/
theorem conjunctiveScan_early (popped : List TermEntry) (hs : SortedEntries popped)
    (fuel : Nat) (q : List String)
    (h : q = [] ∨ ∃ t ∈ q, (loadIndex (mergeEntries popped)).lexicon.lookup t = none) :
    conjunctiveScan fuel (loadIndex (mergeEntries popped)) q = some none := by
  by_cases hq : q = []
  · simp [conjunctiveScan, hq]
  · rcases h with h | ⟨t, ht, hnone⟩
    · exact absurd h hq
    · rcases conjTermInfos_merged popped hs q with ⟨_, hr⟩ | ⟨hall, _⟩
      · simp [conjunctiveScan, hq, hr]
      · exact absurd hnone (hall t ht)

theorem chunk_rest_le (P : List Posting) (j : Nat) (blk : List Posting)
    (hj : (chunks P)[j]? = some blk) (p : Nat) :
    (blk.drop p).length + ((chunks P).drop (j + 1)).flatten.length ≤ P.length := by
  obtain ⟨hsplit, _⟩ := layout_split (chunks P) j blk hj
  have hflat := congrArg List.length (congrArg List.flatten hsplit)
  rw [chunks_flatten] at hflat
  simp only [List.flatten_append, List.flatten_cons, List.length_append] at hflat
  have : (blk.drop p).length ≤ blk.length := by simp
  omega

/-- The conjunctive plan without the scoring on a merged index, for a non-empty list of
terms that all have a lexicon entry: it ends; the cursors are ordered as a permutation `ts`
of the query terms; every recorded pair holds a document and, per term of `ts`, the
frequency of the posting of that document in the term's posting list. -/
theorem conjunctiveScan_merged (popped : List TermEntry) (hs : SortedEntries popped)
    (fuel : Nat) (hf : popped.length < fuel) (q : List String) (hq : q ≠ [])
    (hall : ∀ t ∈ q, (loadIndex (mergeEntries popped)).lexicon.lookup t ≠ none) :
    ∃ ts hits, conjunctiveScan fuel (loadIndex (mergeEntries popped)) q
          = some (some (ts.map (fun t => (postingsOfTerm popped t).length), hits))
      ∧ ts.Perm q
      ∧ ∀ h ∈ hits, ∃ n : Nat, h.1 = (n : Int) ∧ List.Forall₂ (FreqOf popped n) ts h.2 := by
  rcases conjTermInfos_merged popped hs q with ⟨⟨t, ht, hnone⟩, _⟩ | ⟨_, infos, hr, hterms, hok⟩
  · exact absurd hnone (hall t ht)
  have hperm : (sortByDf infos).Perm infos := List.perm_insertionSort _ infos
  have hok' : ∀ info ∈ sortByDf infos, InfoOK popped info :=
    fun info hi => hok info (hperm.mem_iff.mp hi)
  have htp : ((sortByDf infos).map TermInfo.term).Perm q := by
    rw [← hterms]; exact hperm.map _
  have hdfs : (sortByDf infos).map TermInfo.df
      = ((sortByDf infos).map TermInfo.term).map (fun t => (postingsOfTerm popped t).length) := by
    rw [List.map_map]
    apply List.map_congr_left
    intro info hi
    obtain ⟨_, _, hdf, _⟩ := hok' info hi
    exact hdf
  cases hsort : sortByDf infos with
  | nil =>
    rw [hsort] at htp
    exact absurd (List.Perm.nil_eq htp).symm hq
  | cons pivot others =>
    rw [hsort] at hok' htp hdfs
    obtain ⟨e, hlook, hdf, hl, hin⟩ := hok' pivot (by simp)
    obtain ⟨b, l', hg, hin', _, _⟩ := nextGEQ_inOrder _ e _ hl pivot.list 0 hin
    have hoth : ∀ info ∈ others, InfoOK popped info :=
      fun info hi => hok' info (List.mem_cons_of_mem _ hi)
    have hloop : ∃ hits, conjLoop fuel (loadIndex (mergeEntries popped)) l' others = some hits
        ∧ ∀ h ∈ hits, ∃ n : Nat, h.1 = (n : Int)
            ∧ List.Forall₂ (FreqOf popped n) (pivot.term :: others.map TermInfo.term) h.2 := by
      rcases hin' with hfin | ⟨j, blk, p, hj, hp, rfl⟩
      · exact ⟨[], conjLoop_not_hasNext fuel _ l' others
          (by simp [InvertedList.hasNext, hfin]), by simp⟩
      · obtain ⟨hsplit, hlen⟩ := layout_split _ j blk hj
        have hl2 := hl
        rw [hsplit] at hl2
        have := conjLoop_ok popped pivot.term e fuel _ _ blk p others hsplit hl2 hp (by
          have h1 := chunk_rest_le (postingsOfTerm popped pivot.term) j blk hj p
          have h2 := postingsOfTerm_length_le popped pivot.term
          omega) hoth
        rw [hlen] at this
        exact this
    obtain ⟨hits, hloop, hh⟩ := hloop
    refine ⟨(pivot :: others).map TermInfo.term, hits, ?_, htp, ?_⟩
    · have hq' : ¬ (q = []) := hq
      simp only [conjunctiveScan, hq', if_false, hr, hsort, hg, hloop]
      rw [hdfs]
    · simpa using hh

theorem forall₂_mem_left {A B : Type} {R : A → B → Prop} {l1 : List A} {l2 : List B}
    (h : List.Forall₂ R l1 l2) (a : A) (ha : a ∈ l1) : ∃ b ∈ l2, R a b := by
  induction h with
  | nil => simp at ha
  | cons hab _ ih =>
    rcases List.mem_cons.mp ha with rfl | h
    · exact ⟨_, by simp, hab⟩
    · obtain ⟨b, hb, hr⟩ := ih h
      exact ⟨b, List.mem_cons_of_mem _ hb, hr⟩

theorem foldl_add_eq {S A : Type} [AddCommMonoid S] (g : A → S) (l : List A) :
    ∀ a : S, l.foldl (fun acc x => acc + g x) a = a + (l.map g).sum := by
  induction l with
  | nil => intro a; simp
  | cons x l ih =>
    intro a
    simp only [List.foldl_cons, List.map_cons, List.sum_cons]
    rw [ih, add_assoc]

/-- The `totalScore` of a recorded pair is the BM25 sum of the cursors' terms. -/
theorem totalScore_eq {S : Type} [LinearOrderedField S] [FloorRing S] (log : S → S)
    (env : ScoreEnv S) (popped : List TermEntry) (hs : SortedEntries popped) (n : Nat)
    (ts : List String) (freqs : List Int) (h : List.Forall₂ (FreqOf popped n) ts freqs) :
    totalScore log env (n : Int) freqs (ts.map (fun t => (postingsOfTerm popped t).length))
      = bm25Sum log env popped ts n := by
  unfold totalScore
  rw [foldl_add_eq, zero_add]
  induction h with
  | nil => simp [bm25Sum]
  | cons hf _ ih =>
    obtain ⟨tf, rfl, hmem⟩ := hf
    have hlk := lookup_of_mem_postings _ (postings_nodup popped hs _) n tf hmem
    simp only [bm25Sum, List.map_cons, List.zip_cons_cons, List.sum_cons, List.filterMap_cons,
      tfOf, hlk, Option.map_some'] at ih ⊢
    rw [ih]

theorem setScore_mem {K S : Type} [DecidableEq K] (m : List (K × S)) (k : K) (s : S)
    (x : K × S) (h : x ∈ setScore m k s) : x ∈ m ∨ x = (k, s) := by
  induction m with
  | nil => simp only [setScore, List.mem_singleton] at h; exact Or.inr h
  | cons a m ih =>
    obtain ⟨k', v⟩ := a
    simp only [setScore] at h
    split at h
    · rename_i hk
      rcases List.mem_cons.mp h with rfl | h
      · exact Or.inr (by rw [hk])
      · exact Or.inl (List.mem_cons_of_mem _ h)
    · rcases List.mem_cons.mp h with rfl | h
      · exact Or.inl (by simp)
      · rcases ih h with h | h
        · exact Or.inl (List.mem_cons_of_mem _ h)
        · exact Or.inr h

theorem foldl_setScore_mem {K S A : Type} [DecidableEq K] (key : A → K) (val : A → S)
    (hits : List A) : ∀ (m : List (K × S)) (x : K × S),
      x ∈ hits.foldl (fun m p => setScore m (key p) (val p)) m →
        x ∈ m ∨ ∃ p ∈ hits, x = (key p, val p) := by
  induction hits with
  | nil => intro m x h; exact Or.inl h
  | cons a hits ih =>
    intro m x h
    rcases ih _ x h with h | ⟨p, hp, rfl⟩
    · rcases setScore_mem m _ _ x h with h | rfl
      · exact Or.inl h
      · exact Or.inr ⟨a, by simp, rfl⟩
    · exact Or.inr ⟨p, List.mem_cons_of_mem _ hp, rfl⟩

/-- Every pair in the result of `processConjunctiveQuery` on a merged index holds a document
that has a posting in the posting list of every query term, and the BM25 sum of the query
for it. -/
theorem processConjunctiveQuery_sound {S : Type} [LinearOrderedField S] [FloorRing S]
    (log : S → S) (env : ScoreEnv S) (popped : List TermEntry) (hs : SortedEntries popped)
    (fuel : Nat) (hf : popped.length < fuel) (q : List String) :
    ∃ r, processConjunctiveQuery log fuel (loadIndex (mergeEntries popped)) env q = some r
      ∧ ∀ (d : Int) (s : S), (d, s) ∈ r →
          ∃ n : Nat, d = (n : Int) ∧ q ≠ []
            ∧ (∀ t ∈ q, n ∈ (postingsOfTerm popped t).map Prod.fst)
            ∧ s = bm25Sum log env popped q n := by
  by_cases hearly : q = [] ∨ ∃ t ∈ q, (loadIndex (mergeEntries popped)).lexicon.lookup t = none
  · refine ⟨[], ?_, by simp⟩
    simp [processConjunctiveQuery, conjunctiveScan_early popped hs fuel q hearly]
  · simp only [not_or, not_exists, not_and] at hearly
    obtain ⟨ts, hits, hscan, hperm, hh⟩ :=
      conjunctiveScan_merged popped hs fuel hf q hearly.1 hearly.2
    refine ⟨sortByScoreDesc (hits.foldl (fun m p => setScore m p.1
      (totalScore log env p.1 p.2 (ts.map (fun t => (postingsOfTerm popped t).length)))) []),
      by simp only [processConjunctiveQuery, hscan], ?_⟩
    intro d s hmem
    rw [(sortByScoreDesc_perm _).mem_iff] at hmem
    rcases foldl_setScore_mem (fun p : Int × List Int => p.1)
      (fun p => totalScore log env p.1 p.2 (ts.map (fun t => (postingsOfTerm popped t).length)))
      hits [] (d, s) hmem with h | ⟨p, hp, hds⟩
    · simp at h
    · obtain ⟨n, hn, hfa⟩ := hh p hp
      simp only [Prod.mk.injEq] at hds
      refine ⟨n, by rw [hds.1, hn], hearly.1, ?_, ?_⟩
      · intro t ht
        have htm : t ∈ ts := hperm.mem_iff.mpr ht
        obtain ⟨f, _, hft⟩ := forall₂_mem_left hfa t htm
        obtain ⟨tf, _, hm⟩ := hft
        exact List.mem_map.mpr ⟨(n, tf), hm, rfl⟩
      · rw [hds.2, hn, totalScore_eq log env popped hs n ts p.2 hfa]
        unfold bm25Sum
        exact (hperm.filterMap _).sum_eq
theorem poppedABCD_sorted : SortedEntries poppedABCD := by
  unfold SortedEntries
  refine ⟨?_, by decide⟩
  simp only [poppedABCD, List.pairwise_cons, List.mem_cons, List.mem_singleton,
    forall_eq_or_imp, forall_eq, entryLt]
  simp
  decide

/-- C15. On an index the merger has written, `processConjunctiveQuery` returns the empty
list for the empty term list and for every term list that holds a term without a lexicon
entry, whatever the other terms are and however many loop iterations it is allowed. -/
theorem C15_conjunctive_absent_term {S : Type} [LinearOrderedField S] [FloorRing S]
    (log : S → S) (env : ScoreEnv S) (popped : List TermEntry) (hs : SortedEntries popped)
    (fuel : Nat) (q : List String)
    (h : q = [] ∨ ∃ t ∈ q, (loadIndex (mergeEntries popped)).lexicon.lookup t = none) :
    processConjunctiveQuery log fuel (loadIndex (mergeEntries popped)) env q = some [] := by
  simp [processConjunctiveQuery, conjunctiveScan_early popped hs fuel q h]

set_option maxRecDepth 100000 in
theorem C15_conjunctive_absent_term_witness :
    SortedEntries poppedABCD
      ∧ (loadIndex (mergeEntries poppedABCD)).lexicon.lookup "zebra" = none
      ∧ processConjunctiveQuery Real.log 10 (loadIndex (mergeEntries poppedABCD)) envABCD
          ["the", "zebra", "lazy"] = some [] :=
  ⟨poppedABCD_sorted, by decide!,
    C15_conjunctive_absent_term Real.log envABCD poppedABCD poppedABCD_sorted 10
      ["the", "zebra", "lazy"] (Or.inr ⟨"zebra", by simp, by decide!⟩)⟩

/-- C14. On an index the merger has written, `processDisjunctiveQuery` returns (given more
loop iterations than the index has postings) a list with one pair per document that has a
posting in the list of at least one query term, and no pair for any other document. The
score of a document `n` is `bm25Sum`: the sum, over the entries `t` of the term list `q`
that occur in `n` (every such term is in the lexicon; a term the list holds twice is summed
twice), of `calculateBM25(tf(t, n), |n|, df(t), N)` with `df(t)` the length of the posting
list and `|n|` the entry of the document length table for `n`. -/
theorem C14_disjunctive_scores {S : Type} [LinearOrderedField S] [FloorRing S]
    (log : S → S) (env : ScoreEnv S) (popped : List TermEntry) (hs : SortedEntries popped)
    (fuel : Nat) (hf : popped.length < fuel) (q : List String) :
    ∃ r, processDisjunctiveQuery log fuel (loadIndex (mergeEntries popped)) env q = some r
      ∧ (r.map Prod.fst).Nodup
      ∧ (∀ (d : Int) (s : S), (d, s) ∈ r ↔
          ∃ n : Nat, d = (n : Int) ∧ (∃ t ∈ q, n ∈ (postingsOfTerm popped t).map Prod.fst)
            ∧ s = bm25Sum log env popped q n)
      ∧ (∀ t ∈ q, (loadIndex (mergeEntries popped)).lexicon.lookup t = none →
          ∀ n, tfOf popped t n = none)
      ∧ (∀ n len : Nat, env.docLengths.lookup n = some len →
          docLenOf env (n : Int) = (len : Int)) := by
  obtain ⟨r, h1, h2, h3⟩ := processDisjunctiveQuery_merged log env popped hs fuel hf q
  refine ⟨r, h1, h2, h3, ?_, ?_⟩
  · intro t _ hnone n
    simp [tfOf, postingsOfTerm_of_lookup_none popped hs t hnone, List.lookup]
  · intro n len hlen
    simp [docLenOf, hlen]

theorem C14_disjunctive_scores_witness :
    SortedEntries poppedABCD ∧ poppedABCD.length < 20
      ∧ ∃ r, processDisjunctiveQuery Real.log 20 (loadIndex (mergeEntries poppedABCD)) envABCD
            ["the", "zebra", "lazy"] = some r
        ∧ (r.map Prod.fst).Nodup
        ∧ (∀ (d : Int) (s : ℝ), (d, s) ∈ r ↔
            ∃ n : Nat, d = (n : Int)
              ∧ (∃ t ∈ ["the", "zebra", "lazy"], n ∈ (postingsOfTerm poppedABCD t).map Prod.fst)
              ∧ s = bm25Sum Real.log envABCD poppedABCD ["the", "zebra", "lazy"] n)
        ∧ (∀ t ∈ ["the", "zebra", "lazy"],
            (loadIndex (mergeEntries poppedABCD)).lexicon.lookup t = none →
            ∀ n, tfOf poppedABCD t n = none)
        ∧ (∀ n len : Nat, (envABCD : ScoreEnv ℝ).docLengths.lookup n = some len →
            docLenOf (envABCD : ScoreEnv ℝ) (n : Int) = (len : Int)) :=
  ⟨poppedABCD_sorted, by decide,
    C14_disjunctive_scores Real.log envABCD poppedABCD poppedABCD_sorted 20 (by decide)
      ["the", "zebra", "lazy"]⟩

/-- C13. On an index the merger has written and for every list of query terms, both query
plans return (given more loop iterations than the index has postings), the disjunctive
result holds every document once, and every `(doc id, score)` pair of the result of
`processConjunctiveQuery` is a pair of the result of `processDisjunctiveQuery`: same
document, same score. -/
theorem C13_and_subset_or {S : Type} [LinearOrderedField S] [FloorRing S]
    (log : S → S) (env : ScoreEnv S) (popped : List TermEntry) (hs : SortedEntries popped)
    (fuel : Nat) (hf : popped.length < fuel) (q : List String) :
    ∃ rAnd rOr,
      processConjunctiveQuery log fuel (loadIndex (mergeEntries popped)) env q = some rAnd
        ∧ processDisjunctiveQuery log fuel (loadIndex (mergeEntries popped)) env q = some rOr
        ∧ (rOr.map Prod.fst).Nodup
        ∧ ∀ (d : Int) (s : S), (d, s) ∈ rAnd → (d, s) ∈ rOr := by
  obtain ⟨rOr, h1, h2, h3⟩ := processDisjunctiveQuery_merged log env popped hs fuel hf q
  obtain ⟨rAnd, h4, h5⟩ := processConjunctiveQuery_sound log env popped hs fuel hf q
  refine ⟨rAnd, rOr, h4, h1, h2, ?_⟩
  intro d s hmem
  obtain ⟨n, hd, hq, hall, hsum⟩ := h5 d s hmem
  obtain ⟨t, ht⟩ := List.exists_mem_of_ne_nil q hq
  exact (h3 d s).mpr ⟨n, hd, ⟨t, ht, hall t ht⟩, hsum⟩

theorem C13_and_subset_or_witness :
    SortedEntries poppedABCD ∧ poppedABCD.length < 20
      ∧ ∃ rAnd rOr,
        processConjunctiveQuery Real.log 20 (loadIndex (mergeEntries poppedABCD)) envABCD
            ["quick", "brown"] = some rAnd
          ∧ processDisjunctiveQuery Real.log 20 (loadIndex (mergeEntries poppedABCD)) envABCD
              ["quick", "brown"] = some rOr
          ∧ (rOr.map Prod.fst).Nodup
          ∧ ∀ (d : Int) (s : ℝ), (d, s) ∈ rAnd → (d, s) ∈ rOr :=
  ⟨poppedABCD_sorted, by decide,
    C13_and_subset_or Real.log envABCD poppedABCD poppedABCD_sorted 20 (by decide)
      ["quick", "brown"]⟩

theorem conjLoop_fuel (fuel : Nat) : ∀ (idx : Index) (pivot : InvertedList)
    (others : List TermInfo) (r : List (Int × List Int)),
    conjLoop fuel idx pivot others = some r → conjLoop (fuel + 1) idx pivot others = some r := by
  induction fuel with
  | zero =>
    intro idx pivot others r h
    by_cases hn : pivot.hasNext = true
    · simp [conjLoop, hn] at h
    · simp only [conjLoop, hn] at h ⊢
      exact h
  | succ fuel ih =>
    intro idx pivot others r h
    rw [conjLoop] at h ⊢
    by_cases hn : pivot.hasNext = true
    · simp only [hn, if_true] at h ⊢
      cases hco : conjOthers idx pivot.getDocID others with
      | none => rw [hco] at h; cases h
      | some x =>
        obtain ⟨inAll, freqs, others'⟩ := x
        rw [hco] at h
        simp only at h ⊢
        cases hnx : InvertedList.next idx pivot with
        | none => rw [hnx] at h; cases h
        | some pivot' =>
          rw [hnx] at h
          simp only at h ⊢
          cases hl : conjLoop fuel idx pivot' others' with
          | none => rw [hl] at h; cases h
          | some hits =>
            rw [hl] at h
            rw [ih idx pivot' others' hits hl]
            exact h
    · simp only [hn] at h ⊢
      exact h

theorem conjLoop_fuel_le (idx : Index) (pivot : InvertedList) (others : List TermInfo)
    (r : List (Int × List Int)) (f1 f2 : Nat) (hle : f1 ≤ f2)
    (h : conjLoop f1 idx pivot others = some r) : conjLoop f2 idx pivot others = some r := by
  induction hle with
  | refl => exact h
  | step _ ih => exact conjLoop_fuel _ idx pivot others r ih

/-- A scan that has run to its end gives the same with more iterations allowed. -/
theorem conjunctiveScan_fuel_le (idx : Index) (q : List String)
    (x : List Nat × List (Int × List Int)) (f1 f2 : Nat) (hle : f1 ≤ f2)
    (h : conjunctiveScan f1 idx q = some (some x)) : conjunctiveScan f2 idx q = some (some x) := by
  unfold conjunctiveScan at h ⊢
  by_cases hq : q = []
  · simp [hq] at h
  · simp only [hq, if_false] at h ⊢
    cases hti : conjTermInfos idx q with
    | none => rw [hti] at h; cases h
    | some oi =>
      cases oi with
      | none => rw [hti] at h; simp at h
      | some infos =>
        rw [hti] at h
        simp only at h ⊢
        cases hsort : sortByDf infos with
        | nil => rw [hsort] at h; cases h
        | cons pivot others =>
          rw [hsort] at h
          simp only at h ⊢
          cases hg : InvertedList.nextGEQ idx pivot.list 0 with
          | none => rw [hg] at h; cases h
          | some bl =>
            rw [hg] at h
            simp only at h ⊢
            cases hl : conjLoop f1 idx bl.2 others with
            | none => rw [hl] at h; cases h
            | some hits =>
              rw [hl] at h
              rw [conjLoop_fuel_le idx bl.2 others hits f1 f2 hle hl]
              exact h

theorem poppedAB_sorted : SortedEntries poppedAB := by
  unfold SortedEntries poppedAB
  constructor
  · rw [List.pairwise_cons, List.pairwise_map]
    constructor
    · intro x hx
      rw [List.mem_map] at hx
      obtain ⟨i, _, rfl⟩ := hx
      left
      show ("a" : String) < "b"
      simp
      decide
    · refine List.Pairwise.imp ?_ (List.pairwise_lt_range 129)
      intro a b hab
      exact Or.inr ⟨rfl, hab⟩
  · intro e he
    rcases List.mem_cons.mp he with rfl | he
    · decide
    · rw [List.mem_map] at he
      obtain ⟨i, hi, rfl⟩ := he
      rw [List.mem_range] at hi
      refine ⟨?_, ?_, by norm_num⟩
      · show ("b" : String) ≠ ""
        decide
      · show i < 2 ^ 31
        omega

set_option maxRecDepth 100000 in
theorem scanAB :
    conjunctiveScan 2 indexAB ["a", "b"] = some (some ([1, 129], []))
    ∧ conjunctiveScan 2 indexAB ["b", "a"] = some (some ([1, 129], []))
    ∧ (indexAB.lexicon.lookup "a").map LexEntry.df = some 1
    ∧ (indexAB.lexicon.lookup "b").map LexEntry.df = some 129
    ∧ (128, 1) ∈ postingsOfTerm poppedAB "a" ∧ (128, 1) ∈ postingsOfTerm poppedAB "b"
    ∧ conjunctiveScan 5 (loadIndex (mergeEntries poppedABCD)) ["quick", "brown"]
        = some (some ([2, 2], [(0, [1, 1]), (1, [1, 1])]))
    ∧ conjunctiveScan 5 (loadIndex (mergeEntries poppedABCD)) ["the", "lazy"]
        = some (some ([2, 2], [(3, [1, 1])])) := by
  refine ⟨?_, ?_, ?_, ?_, ?_, ?_, ?_, ?_⟩ <;> decide!

/-- C12 (failing input). The index the merger writes for the term `"a"` with the one posting
of document 128 and the term `"b"` with the 129 postings of the documents 0 to 128 (two
blocks). Document 128 has a posting in both lists, and both terms are in the lexicon, yet
`processConjunctiveQuery` returns the empty list for `a b` (and for `b a`), however many
loop iterations it is allowed: the pivot `"a"` stands on 128, and `nextGEQ(128)` on the
cursor of `"b"` skips block 0 without loading block 1 and returns false. On the
four-document corpus, whose lists have one block, the plan records the documents 0, 1 for
`quick brown` and 3 for `the lazy`. -/
theorem C12_conjunctive_misses_document {S : Type} [LinearOrderedField S] [FloorRing S]
    (log : S → S) (env : ScoreEnv S) (fuel : Nat) (hf : 2 ≤ fuel) :
    SortedEntries poppedAB
    ∧ (indexAB.lexicon.lookup "a").map LexEntry.df = some 1
    ∧ (indexAB.lexicon.lookup "b").map LexEntry.df = some 129
    ∧ (128, 1) ∈ postingsOfTerm poppedAB "a" ∧ (128, 1) ∈ postingsOfTerm poppedAB "b"
    ∧ processConjunctiveQuery log fuel indexAB env ["a", "b"] = some []
    ∧ processConjunctiveQuery log fuel indexAB env ["b", "a"] = some []
    ∧ conjunctiveScan 5 (loadIndex (mergeEntries poppedABCD)) ["quick", "brown"]
        = some (some ([2, 2], [(0, [1, 1]), (1, [1, 1])]))
    ∧ conjunctiveScan 5 (loadIndex (mergeEntries poppedABCD)) ["the", "lazy"]
        = some (some ([2, 2], [(3, [1, 1])])) := by
  obtain ⟨h1, h2, h3, h4, h5, h6, h7, h8⟩ := scanAB
  refine ⟨poppedAB_sorted, h3, h4, h5, h6, ?_, ?_, h7, h8⟩
  · simp only [processConjunctiveQuery, conjunctiveScan_fuel_le indexAB _ _ 2 fuel hf h1]
    rfl
  · simp only [processConjunctiveQuery, conjunctiveScan_fuel_le indexAB _ _ 2 fuel hf h2]
    rfl

theorem C12_conjunctive_misses_document_witness :
    2 ≤ 1000
    ∧ SortedEntries poppedAB
    ∧ (indexAB.lexicon.lookup "a").map LexEntry.df = some 1
    ∧ (indexAB.lexicon.lookup "b").map LexEntry.df = some 129
    ∧ (128, 1) ∈ postingsOfTerm poppedAB "a" ∧ (128, 1) ∈ postingsOfTerm poppedAB "b"
    ∧ processConjunctiveQuery Real.log 1000 indexAB envABCD ["a", "b"] = some []
    ∧ processConjunctiveQuery Real.log 1000 indexAB envABCD ["b", "a"] = some []
    ∧ conjunctiveScan 5 (loadIndex (mergeEntries poppedABCD)) ["quick", "brown"]
        = some (some ([2, 2], [(0, [1, 1]), (1, [1, 1])]))
    ∧ conjunctiveScan 5 (loadIndex (mergeEntries poppedABCD)) ["the", "lazy"]
        = some (some ([2, 2], [(3, [1, 1])])) :=
  ⟨by decide, C12_conjunctive_misses_document Real.log envABCD 1000 (by decide)⟩

/-! ## The range of fused scores for rankings without repeated documents -/

theorem rrfOf_bounds {S : Type} [LinearOrderedField S] (xs : List String) (x : String) :
    0 ≤ (rrfOf xs x : S) ∧ (rrfOf xs x : S) ≤ 1 / (RRF_K + 1 : S)
      ∧ (x ∈ xs → 0 < (rrfOf xs x : S)) := by
  unfold rrfOf
  have hpos : (0 : S) < ((RRF_K + (xs.indexOf x + 1) : Nat) : S) := by
    exact_mod_cast Nat.succ_pos _
  have hle : (RRF_K + 1 : S) ≤ ((RRF_K + (xs.indexOf x + 1) : Nat) : S) := by
    have : RRF_K + 1 ≤ RRF_K + (xs.indexOf x + 1) := by omega
    exact_mod_cast this
  have h61 : (0 : S) < (RRF_K + 1 : S) := by
    simp only [RRF_K]; norm_num
  by_cases hx : x ∈ xs
  · simp only [hx, if_true, forall_true_left]
    exact ⟨le_of_lt (one_div_pos.mpr hpos), one_div_le_one_div_of_le h61 hle,
      one_div_pos.mpr hpos⟩
  · simp only [hx, if_false, false_implies, and_true]
    exact ⟨le_refl _, le_of_lt (one_div_pos.mpr h61)⟩

/-- For rankings whose documents have pairwise different external ids within each list,
every score in the output of `fuse` lies in `(0, 2 / (RRF_K + 1)]`. -/
theorem fuse_score_range {S : Type} [LinearOrderedField S] (docIdMap : List (Nat × String))
    (passageIds : List String) (bm dn : List (Nat × S))
    (hbm : (bm.map (fun p => extOf docIdMap p.1)).Nodup)
    (hrow : ∀ p ∈ dn, p.1 < passageIds.length)
    (hdn : (dn.map (fun p => passageIds.getD p.1 "")).Nodup) :
    ∃ r, fuse docIdMap passageIds bm dn = some r
      ∧ ∀ x s, (x, s) ∈ r → 0 < s ∧ s ≤ 2 / (RRF_K + 1 : S) := by
  set bmExt := bm.map (fun p => extOf docIdMap p.1) with hbmExt
  set dnExt := dn.map (fun p => passageIds.getD p.1 "") with hdnExt
  set sc : List (String × S) := accumRRF dnExt 0 (accumRRF bmExt 0 []) with hsc
  have hfuse : fuse docIdMap passageIds bm dn = some (rankTopK sc) := by
    simp only [fuse, fuseBM_eq, fuseDense_eq passageIds dn 0 _ hrow]
  have hnd : (sc.map Prod.fst).Nodup :=
    accumRRF_nodup dnExt 0 _ (accumRRF_nodup bmExt 0 [] (by simp))
  have hkeys : ∀ x, x ∈ sc.map Prod.fst ↔ x ∈ bmExt ∨ x ∈ dnExt := by
    intro x
    rw [hsc, accumRRF_keys, accumRRF_keys]
    simp
  have hscore : ∀ x, scoreAt sc x = rrfOf bmExt x + rrfOf dnExt x := by
    intro x
    rw [hsc, accumRRF_scoreAt dnExt 0 _ x hdn, accumRRF_scoreAt bmExt 0 [] x hbm, rrfOf_eq,
      rrfOf_eq]
    simp [scoreAt]
  have hperm := sortByScoreDesc_perm sc
  have hsub : (rankTopK sc).Sublist (sortByScoreDesc sc) := List.take_sublist _ _
  refine ⟨rankTopK sc, hfuse, ?_⟩
  intro x s hxs
  have hmem : (x, s) ∈ sc := hperm.mem_iff.mp (hsub.subset hxs)
  have hs : s = rrfOf bmExt x + rrfOf dnExt x := by
    rw [← hscore x, scoreAt_of_mem sc x s hnd hmem]
  have hk := (hkeys x).mp (List.mem_map_of_mem Prod.fst hmem)
  obtain ⟨b0, b1, b2⟩ := rrfOf_bounds (S := S) bmExt x
  obtain ⟨d0, d1, d2⟩ := rrfOf_bounds (S := S) dnExt x
  rw [hs]
  constructor
  · rcases hk with h | h
    · exact add_pos_of_pos_of_nonneg (b2 h) d0
    · exact add_pos_of_nonneg_of_pos b0 (d2 h)
  · have : (2 : S) / (RRF_K + 1 : S) = 1 / (RRF_K + 1 : S) + 1 / (RRF_K + 1 : S) := by ring
    rw [this]
    exact add_le_add b1 d1

/-! ## Skip table and lexicon lines of the merged index -/

theorem allChunks_flatten (gs : List (String × List (Nat × Nat × Nat))) :
    (allChunks gs).flatten = (groupEntries gs).map (fun e => (e.docID, e.freq)) := by
  induction gs with
  | nil => rfl
  | cons g gs ih =>
    rw [allChunks_cons, List.flatten_append, chunks_flatten, ih]
    simp [groupEntries, termEntries, postingsOfTriples]

theorem allChunks_blocks (gs : List (String × List (Nat × Nat × Nat))) (hv : ValidGroups gs) :
    ∀ c ∈ allChunks gs, c ≠ [] ∧ c.length ≤ BLOCK_SIZE ∧ (c.map Prod.fst).Pairwise (· < ·) := by
  intro c hc
  simp only [allChunks, List.mem_flatten, List.mem_map] at hc
  obtain ⟨cs, ⟨g, hg, rfl⟩, hc⟩ := hc
  obtain ⟨h1, h2⟩ := chunks_blocks (postingsOfTriples g.2) c hc
  refine ⟨h1, h2, ?_⟩
  have hsorted := (hv.2 g hg).2.2.1
  have hsub : c.Sublist (postingsOfTriples g.2) := by
    have := List.sublist_flatten_of_mem hc
    rwa [chunks_flatten] at this
  exact hsorted.sublist (hsub.map Prod.fst)

theorem foldl_write_block_eq (cs : List (List Posting)) (o : BlockOut) :
    cs.foldl (fun o c => write_block o (c.map Prod.fst) (c.map Prod.snd)) o = writeChunks o cs :=
  rfl

/-- C21. For every sorted pop sequence there is the list `blocks` of the blocks the merger
writes, in write order: the output is what one `write_block` call per block produces, the
blocks hold the popped postings in order, at most 128 and at least one each. The three skip
arrays have one entry per `write_block` call, and for every block index `b`:
`lastDocIDs[b]` is the last doc id of block `b`, which is the largest one of the block;
`docIDSizes[b]` is the length of the varbyte encoding of the block's delta stream;
`freqSizes[b]` is the length of the varbyte encoding of its frequencies; and the two
encodings, each after its `u32` size, are what the inverted file holds for the blocks. -/
theorem C21_skip_table_entries (popped : List TermEntry) (hs : SortedEntries popped) :
    ∃ blocks : List (List Posting),
      (mergeEntries popped).out
          = blocks.foldl (fun o c => write_block o (c.map Prod.fst) (c.map Prod.snd))
              BlockOut.empty
      ∧ blocks.flatten = popped.map (fun e => (e.docID, e.freq))
      ∧ (∀ c ∈ blocks, c ≠ [] ∧ c.length ≤ BLOCK_SIZE)
      ∧ (mergeEntries popped).out.lastDocIDs.length = blocks.length
      ∧ (mergeEntries popped).out.docIDSizes.length = blocks.length
      ∧ (mergeEntries popped).out.freqSizes.length = blocks.length
      ∧ (∀ (b : Nat) (c : List Posting), blocks[b]? = some c →
          (mergeEntries popped).out.lastDocIDs[b]? = (c.map Prod.fst).getLast?
          ∧ (∀ p ∈ c, p.1 ≤ (mergeEntries popped).out.lastDocIDs.getD b 0)
          ∧ (mergeEntries popped).out.docIDSizes[b]?
              = some (encodeStream (deltaEncode (c.map Prod.fst))).length
          ∧ (mergeEntries popped).out.freqSizes[b]?
              = some (encodeStream (c.map Prod.snd)).length)
      ∧ (mergeEntries popped).out.invFile
          = (blocks.map (fun c =>
              writeInt (encodeStream (deltaEncode (c.map Prod.fst))).length
                ++ encodeStream (deltaEncode (c.map Prod.fst))
                ++ writeInt (encodeStream (c.map Prod.snd)).length
                ++ encodeStream (c.map Prod.snd))).flatten := by
  obtain ⟨gs, hv, hge⟩ := sorted_groups popped.length popped (le_refl _) hs
  obtain ⟨hout, _⟩ := merge_spec gs hv
  rw [hge, writeGroups_eq] at hout
  have hblocks := allChunks_blocks gs hv
  refine ⟨allChunks gs, ?_, ?_, ?_, ?_, ?_, ?_, ?_, ?_⟩
  · rw [hout, foldl_write_block_eq]
  · rw [allChunks_flatten, hge]
  · intro c hc
    exact ⟨(hblocks c hc).1, (hblocks c hc).2.1⟩
  · rw [hout, writeChunks_eq]; simp [BlockOut.empty]
  · rw [hout, writeChunks_eq]; simp [BlockOut.empty]
  · rw [hout, writeChunks_eq]; simp [BlockOut.empty]
  · intro b c hb
    have hmem : c ∈ allChunks gs := layout_block_mem _ b c hb
    obtain ⟨hne, _, hsorted⟩ := hblocks c hmem
    rw [hout, writeChunks_eq]
    simp only [BlockOut.empty, List.nil_append, List.getElem?_map, hb, Option.map_some',
      List.getD_eq_getElem?_getD, Option.getD_some, encodeStream_eq]
    refine ⟨?_, ?_, rfl, rfl⟩
    · unfold chunkLast
      rw [List.getLastD_eq_getLast?, List.getLast?_eq_getLast _ (by simpa using hne)]
      rfl
    · intro p hp
      exact block_le_last c hsorted p hp
  · rw [hout, writeChunks_eq]
    simp only [BlockOut.empty, List.nil_append, encodeStream_eq]
    generalize allChunks gs = cs
    induction cs with
    | nil => rfl
    | cons c cs ih =>
      simp only [chunksBytes, blockBytes, List.map_cons, List.flatten_cons, ih,
        List.append_assoc]

theorem C21_skip_table_entries_witness :
    SortedEntries poppedSmall
    ∧ ∃ blocks : List (List Posting),
      (mergeEntries poppedSmall).out
          = blocks.foldl (fun o c => write_block o (c.map Prod.fst) (c.map Prod.snd))
              BlockOut.empty
      ∧ blocks.flatten = poppedSmall.map (fun e => (e.docID, e.freq))
      ∧ (∀ c ∈ blocks, c ≠ [] ∧ c.length ≤ BLOCK_SIZE)
      ∧ (mergeEntries poppedSmall).out.lastDocIDs.length = blocks.length
      ∧ (mergeEntries poppedSmall).out.docIDSizes.length = blocks.length
      ∧ (mergeEntries poppedSmall).out.freqSizes.length = blocks.length
      ∧ (∀ (b : Nat) (c : List Posting), blocks[b]? = some c →
          (mergeEntries poppedSmall).out.lastDocIDs[b]? = (c.map Prod.fst).getLast?
          ∧ (∀ p ∈ c, p.1 ≤ (mergeEntries poppedSmall).out.lastDocIDs.getD b 0)
          ∧ (mergeEntries poppedSmall).out.docIDSizes[b]?
              = some (encodeStream (deltaEncode (c.map Prod.fst))).length
          ∧ (mergeEntries poppedSmall).out.freqSizes[b]?
              = some (encodeStream (c.map Prod.snd)).length)
      ∧ (mergeEntries poppedSmall).out.invFile
          = (blocks.map (fun c =>
              writeInt (encodeStream (deltaEncode (c.map Prod.fst))).length
                ++ encodeStream (deltaEncode (c.map Prod.fst))
                ++ writeInt (encodeStream (c.map Prod.snd)).length
                ++ encodeStream (c.map Prod.snd))).flatten :=
  ⟨poppedSmall_sorted, C21_skip_table_entries poppedSmall poppedSmall_sorted⟩

/-- C22. For every sorted pop sequence the merger writes one lexicon line for every term
that has an entry in the sequence, no line for any other term and no second line for a
term; in every line `total_postings` and `df` are equal, and both are the number of entries
of the line's term in the whole pop sequence, whatever runs they came from. -/
theorem C22_one_lexicon_line (popped : List TermEntry) (hs : SortedEntries popped) :
    ((mergeEntries popped).lexFile.map LexLine.term).Nodup
    ∧ (∀ t : String, t ∈ (mergeEntries popped).lexFile.map LexLine.term
        ↔ ∃ x ∈ popped, x.term = t)
    ∧ ∀ l ∈ (mergeEntries popped).lexFile,
        l.totalPostings = l.df
        ∧ l.df = (popped.filter (fun e => e.term = l.term)).length := by
  obtain ⟨gs, hv, hge⟩ := sorted_groups popped.length popped (le_refl _) hs
  obtain ⟨_, hlex⟩ := merge_spec gs hv
  rw [hge] at hlex
  refine ⟨?_, ?_, ?_⟩
  · rw [hlex, lexLines_terms]
    exact hv.1
  · intro t
    rw [hlex, lexLines_terms, ← hge]
    constructor
    · intro ht
      exact group_term_mem gs (fun g hg => (hv.2 g hg).2.1) t ht
    · rintro ⟨x, hx, rfl⟩
      exact groupEntries_term_mem gs x hx
  · intro l hl
    rw [hlex] at hl
    obtain ⟨h1, g, hg, hgt, hgl⟩ := lexLines_df gs 0 0 l hl
    refine ⟨h1, ?_⟩
    obtain ⟨gs1, gs2, hsplit⟩ := List.append_of_mem hg
    obtain ⟨t', ps⟩ := g
    simp only at hgt hgl
    subst hsplit
    have hP := postingsOfTerm_group gs1 gs2 t' ps hv
    rw [hge, hgt] at hP
    have := congrArg List.length hP
    simp only [postingsOfTerm, postingsOfTriples, List.length_map] at this
    rw [this, hgl]

theorem C22_one_lexicon_line_witness :
    SortedEntries poppedSmall
    ∧ ((mergeEntries poppedSmall).lexFile.map LexLine.term).Nodup
    ∧ (∀ t : String, t ∈ (mergeEntries poppedSmall).lexFile.map LexLine.term
        ↔ ∃ x ∈ poppedSmall, x.term = t)
    ∧ ∀ l ∈ (mergeEntries poppedSmall).lexFile,
        l.totalPostings = l.df
        ∧ l.df = (poppedSmall.filter (fun e => e.term = l.term)).length :=
  ⟨poppedSmall_sorted, C22_one_lexicon_line poppedSmall poppedSmall_sorted⟩
/-! ## The basic analyzer -/

theorem lowerToken_ne_empty (r : List Nat) : lowerToken r ≠ "" ↔ r ≠ [] := by
  unfold lowerToken
  constructor
  · intro h hr
    apply h
    rw [hr]
    rfl
  · intro h hc
    apply h
    have := congrArg String.data hc
    simpa using this

theorem lowerToken_push (r : List Nat) (c : Nat) :
    (lowerToken r).push (Char.ofNat (tolower c)) = lowerToken (r ++ [c]) := by
  simp [lowerToken, String.push]

/-- The loop of `tokenize` follows the splitting of the input at the bytes that are not
alphanumeric, the current token being the lowercased piece read so far. -/
theorem tokenizeLoop_spec (s : List Nat) : ∀ (acc : List Nat) (tokens : List String),
    tokenizeLoop s (lowerToken acc.reverse) tokens
      = tokens ++ ((List.splitOnP.go (fun c => !isalnum c) s acc).filter
          (fun r => r ≠ [])).map lowerToken := by
  have hempty : lowerToken [] = "" := rfl
  induction s with
  | nil =>
    intro acc tokens
    simp only [tokenizeLoop, List.splitOnP.go]
    by_cases h : acc.reverse = []
    · rw [h, hempty]
      simp
    · have : lowerToken acc.reverse ≠ "" := (lowerToken_ne_empty _).mpr h
      rw [if_pos this, List.filter_cons_of_pos (by simpa using h)]
      simp
  | cons c s ih =>
    intro acc tokens
    simp only [tokenizeLoop, List.splitOnP.go]
    by_cases hc : isalnum c = true
    · simp only [hc, if_true, Bool.not_true, Bool.false_eq_true, if_false]
      rw [lowerToken_push, ← List.reverse_cons]
      exact ih (c :: acc) tokens
    · have hc' : isalnum c = false := by simpa using hc
      simp only [hc', Bool.false_eq_true, if_false, Bool.not_false, if_true]
      have h0 := ih []
      simp only [List.reverse_nil, hempty] at h0
      by_cases h : acc.reverse = []
      · rw [h, hempty, if_neg (by simp), h0, List.filter_cons_of_neg (by simp)]
      · have hn : lowerToken acc.reverse ≠ "" := (lowerToken_ne_empty _).mpr h
        rw [if_pos hn, h0, List.filter_cons_of_pos (by simpa using h)]
        simp

theorem splitOnP_go_mem {α : Type} (p : α → Bool) (s : List α) : ∀ (acc : List α),
    ∀ r ∈ List.splitOnP.go p s acc, ∀ x ∈ r, x ∈ acc ∨ (x ∈ s ∧ p x = false) := by
  induction s with
  | nil =>
    intro acc r hr x hx
    simp only [List.splitOnP.go, List.mem_singleton] at hr
    subst hr
    exact Or.inl (List.mem_reverse.mp hx)
  | cons c s ih =>
    intro acc r hr x hx
    simp only [List.splitOnP.go] at hr
    by_cases hc : p c = true
    · simp only [hc, if_true, List.mem_cons] at hr
      rcases hr with rfl | hr
      · exact Or.inl (List.mem_reverse.mp hx)
      · rcases ih [] r hr x hx with h | ⟨h1, h2⟩
        · simp at h
        · exact Or.inr ⟨List.mem_cons_of_mem _ h1, h2⟩
    · simp only [hc, if_false] at hr
      rcases ih (c :: acc) r hr x hx with h | ⟨h1, h2⟩
      · rcases List.mem_cons.mp h with rfl | h
        · exact Or.inr ⟨List.mem_cons_self _ _, by simpa using hc⟩
        · exact Or.inl h
      · exact Or.inr ⟨List.mem_cons_of_mem _ h1, h2⟩

theorem splitOnP_go_flatten {α : Type} (p : α → Bool) (s : List α) : ∀ (acc : List α),
    (List.splitOnP.go p s acc).flatten = acc.reverse ++ s.filter (fun x => !p x) := by
  induction s with
  | nil => intro acc; simp [List.splitOnP.go]
  | cons c s ih =>
    intro acc
    simp only [List.splitOnP.go]
    by_cases hc : p c = true
    · simp [hc, ih]
    · have hc' : p c = false := by simpa using hc
      simp only [hc', Bool.false_eq_true, if_false, ih, List.reverse_cons, List.append_assoc]
      rw [List.filter_cons_of_pos (by simp [hc'])]
      rfl

theorem flatten_filter_ne_nil {α : Type} [DecidableEq α] (l : List (List α)) :
    (l.filter (fun r => r ≠ [])).flatten = l.flatten := by
  induction l with
  | nil => rfl
  | cons r l ih =>
    by_cases h : r = []
    · rw [List.filter_cons_of_neg (by simpa using h), ih, h]
      rfl
    · rw [List.filter_cons_of_pos (by simpa using h), List.flatten_cons, List.flatten_cons, ih]

theorem ofNat_toNat_small : ∀ n < 128, (Char.ofNat n).toNat = n := by
  decide

theorem alnum_lower_range (c : Nat) (h : isalnum c = true) :
    (Char.ofNat (tolower c)).toNat = tolower c
      ∧ ((97 ≤ tolower c ∧ tolower c ≤ 122) ∨ (48 ≤ tolower c ∧ tolower c ≤ 57)) := by
  have hr : (97 ≤ tolower c ∧ tolower c ≤ 122) ∨ (48 ≤ tolower c ∧ tolower c ≤ 57) := by
    simp only [isalnum, Bool.or_eq_true, Bool.and_eq_true, decide_eq_true_eq] at h
    unfold tolower
    split <;> omega
  refine ⟨?_, hr⟩
  exact ofNat_toNat_small (tolower c) (by omega)

/-- C30. For every byte string `s`, the basic `tokenize(s)` (a total function) returns the
lowercased maximal runs of ASCII alphanumeric bytes of `s` in order of occurrence. The runs
are the non-empty pieces of `s` between its non-alphanumeric bytes: the pieces, each
followed by the separator byte that ends it, make up `s`; every byte of a run is
alphanumeric; the runs together are the alphanumeric bytes of `s`. Every token is
non-empty and consists of the characters `a`-`z` and `0`-`9` only. -/
theorem C30_tokenize_runs (s : List Nat) :
    tokenize s = (alnumRuns s).map lowerToken
    ∧ (List.zipWith (· ++ ·) (s.splitOnP (fun c => !isalnum c))
          ((s.filter (fun c => !isalnum c)).map (fun x => [x]) ++ [[]])).flatten = s
    ∧ (∀ r ∈ alnumRuns s, r ≠ [] ∧ ∀ c ∈ r, isalnum c = true)
    ∧ (alnumRuns s).flatten = s.filter isalnum
    ∧ (∀ t ∈ tokenize s, t ≠ "" ∧ ∀ ch ∈ t.data,
        (97 ≤ ch.toNat ∧ ch.toNat ≤ 122) ∨ (48 ≤ ch.toNat ∧ ch.toNat ≤ 57)) := by
  have h1 : tokenize s = (alnumRuns s).map lowerToken := by
    have := tokenizeLoop_spec s [] []
    simpa [tokenize, alnumRuns, List.splitOnP] using this
  have h3 : ∀ r ∈ alnumRuns s, r ≠ [] ∧ ∀ c ∈ r, isalnum c = true := by
    intro r hr
    simp only [alnumRuns, List.splitOnP, List.mem_filter, decide_eq_true_eq] at hr
    refine ⟨hr.2, ?_⟩
    intro c hc
    rcases splitOnP_go_mem _ s [] r hr.1 c hc with h | ⟨_, h⟩
    · simp at h
    · simpa using h
  refine ⟨h1, List.splitOnP_spec _ s, h3, ?_, ?_⟩
  · simp only [alnumRuns, List.splitOnP]
    rw [flatten_filter_ne_nil, splitOnP_go_flatten]
    simp
  · intro t ht
    rw [h1, List.mem_map] at ht
    obtain ⟨r, hr, rfl⟩ := ht
    obtain ⟨hne, hall⟩ := h3 r hr
    refine ⟨(lowerToken_ne_empty r).mpr hne, ?_⟩
    intro ch hch
    simp only [lowerToken, List.mem_map] at hch
    obtain ⟨c, hc, rfl⟩ := hch
    obtain ⟨e, hrange⟩ := alnum_lower_range c (hall c hc)
    rw [e]
    exact hrange
/-! ## The order of run records -/

theorem charsLt_iff (a : List Char) : ∀ b : List Char, charsLt a b = true ↔ a < b := by
  induction a with
  | nil =>
    intro b
    cases b with
    | nil => simp [charsLt]
    | cons b bs => simp only [charsLt, true_iff]; exact List.nil_lt_cons b bs
  | cons a as ih =>
    intro b
    cases b with
    | nil => simp [charsLt]
    | cons b bs =>
      simp only [charsLt, Bool.or_eq_true, Bool.and_eq_true, decide_eq_true_eq, ih]
      have hlt : a.toNat < b.toNat ↔ a < b := by
        rw [Char.lt_def]
        rfl
      have heq : a.toNat = b.toNat ↔ a = b := by
        constructor
        · intro h
          have := congrArg Char.ofNat h
          simpa using this
        · intro h; rw [h]
      rw [hlt, heq]
      constructor
      · rintro (h | ⟨rfl, h⟩)
        · exact List.Lex.rel h
        · exact List.Lex.cons h
      · intro h
        cases h with
        | rel h => exact Or.inl h
        | cons h => exact Or.inr ⟨rfl, h⟩

theorem strLt_iff (a b : String) : strLt a b = true ↔ a < b := by
  rw [String.lt_iff_toList_lt]
  exact charsLt_iff a.data b.data

theorem recordLt_iff (a b : RunRecord) : recordLt a b = true ↔ recordLex a < recordLex b := by
  obtain ⟨t1, d1, f1⟩ := a
  obtain ⟨t2, d2, f2⟩ := b
  simp only [recordLt, recordLex, Bool.or_eq_true, Bool.and_eq_true, decide_eq_true_eq,
    strLt_iff, Prod.Lex.lt_iff]

theorem recordLex_injective (a b : RunRecord) (h : recordLex a = recordLex b) : a = b := by
  obtain ⟨t1, d1, f1⟩ := a
  obtain ⟨t2, d2, f2⟩ := b
  simp only [recordLex, EmbeddingLike.apply_eq_iff_eq, Prod.mk.injEq] at h
  simp [h.1, h.2.1, h.2.2]

theorem sortRecords_le_iff (a b : RunRecord) :
    (recordLt b a = false) ↔ recordLex a ≤ recordLex b := by
  rw [← not_lt, ← recordLt_iff]
  simp

theorem sortRecords_perm (buf : List RunRecord) : (sortRecords buf).Perm buf :=
  List.perm_insertionSort _ buf

theorem sortRecords_sorted (buf : List RunRecord) :
    (sortRecords buf).Pairwise (fun a b => recordLex a ≤ recordLex b) := by
  have hT : IsTotal RunRecord (fun a b => recordLt b a = false) :=
    ⟨fun a b => by
      rw [sortRecords_le_iff, sortRecords_le_iff]
      exact le_total _ _⟩
  have hTr : IsTrans RunRecord (fun a b => recordLt b a = false) :=
    ⟨fun a b c hab hbc => by
      rw [sortRecords_le_iff] at hab hbc ⊢
      exact le_trans hab hbc⟩
  have := List.sorted_insertionSort (fun a b : RunRecord => recordLt b a = false) buf
  exact this.imp (fun h => (sortRecords_le_iff _ _).mp h)

/-- A buffer without two records of the same `(term, doc_id)` is sorted into a run that is
strictly increasing by `(term, doc_id)`. -/
theorem sortRecords_strict (buf : List RunRecord)
    (hnd : (buf.map (fun r => (r.1, r.2.1))).Nodup) :
    (sortRecords buf).Pairwise recordKeyLt := by
  have hs := sortRecords_sorted buf
  have hnd' : ((sortRecords buf).map (fun r => (r.1, r.2.1))).Nodup :=
    ((sortRecords_perm buf).map _).nodup_iff.mpr hnd
  rw [List.Nodup, List.pairwise_map] at hnd'
  refine (hs.and hnd').imp ?_
  rintro ⟨t1, d1, f1⟩ ⟨t2, d2, f2⟩ ⟨hle, hne⟩
  simp only [recordLex, Prod.Lex.le_iff, ne_eq, Prod.mk.injEq, not_and] at hle hne
  simp only [recordKeyLt, strLt_iff]
  rcases hle with h | ⟨rfl, h⟩
  · exact Or.inl h
  · right
    refine ⟨rfl, ?_⟩
    rcases h with h | ⟨h, _⟩
    · exact h
    · exact absurd h (hne rfl)
/-! ## Term frequencies of one document -/

theorem addScore_sum (m : List (String × Nat)) (k : String) (s : Nat) :
    ((addScore m k s).map Prod.snd).sum = (m.map Prod.snd).sum + s := by
  induction m with
  | nil => simp [addScore]
  | cons a m ih =>
    obtain ⟨k', v⟩ := a
    simp only [addScore]
    split
    · simp only [List.map_cons, List.sum_cons]; omega
    · simp only [List.map_cons, List.sum_cons, ih]; omega

theorem countInto_props (tokens : List String) : ∀ m : List (String × Nat),
    (m.map Prod.fst).Nodup →
    ((tokens.foldl (fun termFreq t => addScore termFreq t 1) m).map Prod.fst).Nodup
    ∧ (∀ t, t ∈ (tokens.foldl (fun termFreq t => addScore termFreq t 1) m).map Prod.fst
        ↔ t ∈ m.map Prod.fst ∨ t ∈ tokens)
    ∧ (∀ t, scoreAt (tokens.foldl (fun termFreq t => addScore termFreq t 1) m) t
        = scoreAt m t + tokens.count t)
    ∧ ((tokens.foldl (fun termFreq t => addScore termFreq t 1) m).map Prod.snd).sum
        = (m.map Prod.snd).sum + tokens.length := by
  induction tokens with
  | nil => intro m hm; simp [hm]
  | cons x tokens ih =>
    intro m hm
    obtain ⟨h1, h2, h3, h4⟩ := ih (addScore m x 1) (addScore_nodup m x 1 hm)
    simp only [List.foldl_cons]
    refine ⟨h1, ?_, ?_, ?_⟩
    · intro t
      rw [h2 t, mem_addScore_keys]
      simp only [List.mem_cons]
      tauto
    · intro t
      rw [h3 t, scoreAt_addScore, List.count_cons]
      by_cases hx : x = t
      · subst hx
        simp
        omega
      · have : (x == t) = false := by simpa using hx
        simp [hx, this]
    · rw [h4, addScore_sum, List.length_cons]
      omega

/-- The postings one document adds to the buffer: one record per distinct token, with the
document's id and the number of occurrences of the token. -/
theorem docPostings_props (tokens : List String) (docID : Nat) :
    ((docPostings tokens docID).map (fun r => r.1)).Nodup
    ∧ (∀ t, t ∈ (docPostings tokens docID).map (fun r => r.1) ↔ t ∈ tokens)
    ∧ (∀ r ∈ docPostings tokens docID,
        r.2.1 = docID ∧ r.2.2 = tokens.count r.1 ∧ 1 ≤ r.2.2)
    ∧ ((docPostings tokens docID).map (fun r => r.2.2)).sum = tokens.length := by
  obtain ⟨h1, h2, h3, h4⟩ := countInto_props tokens [] (by simp)
  have hfst : (docPostings tokens docID).map (fun r => r.1) = (countTerms tokens).map Prod.fst := by
    simp [docPostings, List.map_map, Function.comp_def]
  have hsnd : (docPostings tokens docID).map (fun r => r.2.2)
      = (countTerms tokens).map Prod.snd := by
    simp [docPostings, List.map_map, Function.comp_def]
  refine ⟨?_, ?_, ?_, ?_⟩
  · rw [hfst]; exact h1
  · intro t
    rw [hfst]
    have := h2 t
    simpa [countTerms] using this
  · intro r hr
    simp only [docPostings, List.mem_map] at hr
    obtain ⟨⟨t, v⟩, hp, rfl⟩ := hr
    have hv : v = tokens.count t := by
      have := h3 t
      rw [scoreAt_of_mem _ t v h1 hp] at this
      simpa [scoreAt] using this
    refine ⟨rfl, hv, ?_⟩
    have hmem : t ∈ tokens := by
      have := (h2 t).mp (List.mem_map.mpr ⟨(t, v), hp, rfl⟩)
      simpa using this
    show 1 ≤ v
    rw [hv]
    exact List.count_pos_iff.mpr hmem
  · rw [hsnd]
    have := h4
    simpa [countTerms] using this
/-! ## The builder's line loop -/

theorem storeRecords_append (ps : List (List Nat)) (p : List Nat) : ∀ off : Nat,
    storeRecords off (ps ++ [p]) = storeRecords off ps ++ [(off + ps.flatten.length, p.length)] := by
  induction ps with
  | nil => intro off; simp [storeRecords]
  | cons q ps ih =>
    intro off
    show storeRecords off (q :: (ps ++ [p])) = storeRecords off (q :: ps) ++ _
    rw [storeRecords, storeRecords, ih, List.flatten_cons, List.length_append, Nat.add_assoc]
    rfl

theorem indexedDocs_append_none (lines : List (List Nat)) (line : List Nat)
    (h : parseLine line = none) : indexedDocs (lines ++ [line]) = indexedDocs lines := by
  simp [indexedDocs, List.filterMap_append, h]

theorem indexedDocs_append_empty (lines : List (List Nat)) (line : List Nat) (d : List Nat × List Nat)
    (h : parseLine line = some d) (ht : tokenize d.2 = []) :
    indexedDocs (lines ++ [line]) = indexedDocs lines := by
  simp [indexedDocs, List.filterMap_append, h, List.filter_append, ht]

theorem indexedDocs_append_doc (lines : List (List Nat)) (line : List Nat) (d : List Nat × List Nat)
    (h : parseLine line = some d) (ht : tokenize d.2 ≠ []) :
    indexedDocs (lines ++ [line]) = indexedDocs lines ++ [d] := by
  simp [indexedDocs, List.filterMap_append, h, List.filter_append, ht]

theorem corpusPostings_append (docs : List (List Nat × List Nat)) (d : List Nat × List Nat) :
    corpusPostings (docs ++ [d]) = corpusPostings docs ++ docPostings (tokenize d.2) docs.length := by
  simp [corpusPostings, List.enum_append, List.enumFrom_singleton]

theorem spill_inv (lines : List (List Nat)) (st : BuildState) (h : BuildInv lines st)
    (hne : st.postingBuffer ≠ []) : BuildInv lines (spill st) := by
  refine ⟨h.docID, h.pageTable, h.docLengthFile, h.docStoreFile, h.docStoreIndexFile, ?_, ?_,
    ?_, ?_⟩
  · simp only [spill, List.flatten_append, List.flatten_cons, List.flatten_nil, List.append_nil]
    exact ((sortRecords_perm st.postingBuffer).append_left st.runs.flatten).trans h.postings
  · intro run hrun
    simp only [spill, List.mem_append, List.mem_singleton] at hrun
    rcases hrun with hrun | rfl
    · exact h.runs run hrun
    · refine ⟨?_, sortRecords_strict _ h.buffer.1⟩
      intro hc
      have := (sortRecords_perm st.postingBuffer).length_eq
      rw [hc] at this
      exact hne (List.length_eq_zero.mp this.symm)
  · simp [spill]
  · simp [spill, h.runNumber]

/-- One iteration of the builder's line loop keeps the invariant. -/
theorem ingestLine_inv (maxBuffer : Nat) (lines : List (List Nat)) (st : BuildState)
    (h : BuildInv lines st) (line : List Nat) :
    BuildInv (lines ++ [line]) (ingestLine maxBuffer st line) := by
  unfold ingestLine
  cases hp : parseLine line with
  | none =>
    simp only
    have hi := indexedDocs_append_none lines line hp
    exact ⟨by rw [hi]; exact h.docID, by rw [hi]; exact h.pageTable,
      by rw [hi]; exact h.docLengthFile,
      by simp [List.filterMap_append, hp, h.docStoreFile],
      by simp [List.filterMap_append, hp, h.docStoreIndexFile],
      by rw [hi]; exact h.postings, h.runs, h.buffer, h.runNumber⟩
  | some d =>
    obtain ⟨pid_str, passage⟩ := d
    simp only
    have hstore : st.docStoreFile ++ passage
        = (((lines ++ [line]).filterMap parseLine).map Prod.snd).flatten := by
      simp [List.filterMap_append, hp, h.docStoreFile]
    have hidx : st.docStoreIndexFile ++ [(st.docStoreFile.length, passage.length)]
        = storeRecords 0 (((lines ++ [line]).filterMap parseLine).map Prod.snd) := by
      simp only [List.filterMap_append, List.filterMap_cons, hp, List.filterMap_nil,
        List.map_append, List.map_cons, List.map_nil, storeRecords_append, Nat.zero_add,
        h.docStoreIndexFile, h.docStoreFile]
    by_cases ht : tokenize passage = []
    · simp only [ht, if_true]
      have hi := indexedDocs_append_empty lines line (pid_str, passage) hp ht
      exact ⟨by rw [hi]; exact h.docID, by rw [hi]; exact h.pageTable,
        by rw [hi]; exact h.docLengthFile, hstore, hidx,
        by rw [hi]; exact h.postings, h.runs, h.buffer, h.runNumber⟩
    · simp only [ht, if_false]
      have hi := indexedDocs_append_doc lines line (pid_str, passage) hp ht
      obtain ⟨hk1, hk2, hk3, _⟩ := docPostings_props (tokenize passage) st.docID
      have hinv : BuildInv (lines ++ [line])
          { docID := st.docID + 1, runNumber := st.runNumber,
            pageTable := st.pageTable ++ [(st.docID, pid_str)],
            docLengthFile := st.docLengthFile ++ [(st.docID, (tokenize passage).length)],
            docStoreFile := st.docStoreFile ++ passage,
            docStoreIndexFile := st.docStoreIndexFile ++ [(st.docStoreFile.length, passage.length)],
            postingBuffer := st.postingBuffer ++ docPostings (tokenize passage) st.docID,
            runs := st.runs } := by
        refine ⟨?_, ?_, ?_, hstore, hidx, ?_, h.runs, ?_, h.runNumber⟩
        · simp [hi, h.docID]
        · simp [hi, List.enum_append, List.enumFrom_singleton, h.pageTable, h.docID]
        · simp [hi, List.enum_append, List.enumFrom_singleton, h.docLengthFile, h.docID]
        · rw [hi, corpusPostings_append, ← h.docID, ← List.append_assoc]
          exact h.postings.append_right _
        · constructor
          · rw [List.map_append, List.nodup_append]
            refine ⟨h.buffer.1, ?_, ?_⟩
            · have : (docPostings (tokenize passage) st.docID).map (fun r => (r.1, r.2.1))
                  = ((docPostings (tokenize passage) st.docID).map (fun r => r.1)).map
                      (fun t => (t, st.docID)) := by
                rw [List.map_map]
                apply List.map_congr_left
                intro r hr
                simp [(hk3 r hr).1]
              rw [this]
              exact hk1.map (fun a b hab => by simpa using hab)
            · intro k hk1' hk2'
              simp only [List.mem_map] at hk1' hk2'
              obtain ⟨r1, hr1, rfl⟩ := hk1'
              obtain ⟨r2, hr2, he⟩ := hk2'
              have h1 := h.buffer.2 r1 hr1
              have h2 := (hk3 r2 hr2).1
              simp only [Prod.mk.injEq] at he
              omega
          · intro r hr
            simp only [List.mem_append] at hr
            rcases hr with hr | hr
            · have := h.buffer.2 r hr
              show r.2.1 < st.docID + 1
              omega
            · have := (hk3 r hr).1
              show r.2.1 < st.docID + 1
              omega
      split
      · apply spill_inv _ _ hinv
        intro hc
        have hne : docPostings (tokenize passage) st.docID ≠ [] := by
          intro he
          have := (hk2 ((tokenize passage).head ht)).mpr (List.head_mem ht)
          rw [he] at this
          simp at this
        simp only [List.append_eq_nil] at hc
        exact hne hc.2
      · exact hinv

theorem foldl_ingest_inv (maxBuffer : Nat) (lines : List (List Nat)) :
    BuildInv lines (lines.foldl (ingestLine maxBuffer) BuildState.init) := by
  induction lines using List.reverseRecOn with
  | nil =>
    exact ⟨rfl, rfl, rfl, rfl, rfl, by simp [BuildState.init, corpusPostings, indexedDocs],
      by simp [BuildState.init], by simp [BuildState.init], rfl⟩
  | append_singleton lines line ih =>
    rw [List.foldl_append]
    exact ingestLine_inv maxBuffer lines _ ih line

/-- The state the builder ends in: the invariant of the line loop, with an empty buffer. -/
theorem buildWith_inv (maxBuffer : Nat) (file : List Nat) :
    BuildInv (fileLines file) (buildWith maxBuffer file)
      ∧ (buildWith maxBuffer file).postingBuffer = [] := by
  have h := foldl_ingest_inv maxBuffer (fileLines file)
  unfold buildWith buildFinish
  split
  · rename_i hne
    exact ⟨spill_inv _ _ h hne, rfl⟩
  · rename_i hne
    exact ⟨h, by simpa using hne⟩
/-! ## Claims on the builder -/

theorem storeRecords_getElem? (ps : List (List Nat)) : ∀ (off j : Nat) (p : List Nat),
    ps[j]? = some p →
    (storeRecords off ps)[j]? = some (off + (ps.take j).flatten.length, p.length) := by
  induction ps with
  | nil => intro off j p h; simp at h
  | cons q ps ih =>
    intro off j p h
    cases j with
    | zero =>
      simp only [List.getElem?_cons_zero, Option.some.injEq] at h
      subst h
      simp [storeRecords]
    | succ j =>
      simp only [List.getElem?_cons_succ] at h
      simp only [storeRecords, List.getElem?_cons_succ, ih (off + q.length) j p h,
        List.take_succ_cons, List.flatten_cons, List.length_append, Nat.add_assoc]

theorem flatten_drop_take (ps : List (List Nat)) : ∀ (j : Nat) (p : List Nat),
    ps[j]? = some p →
    (ps.flatten.drop (ps.take j).flatten.length).take p.length = p := by
  induction ps with
  | nil => intro j p h; simp at h
  | cons q ps ih =>
    intro j p h
    cases j with
    | zero =>
      simp only [List.getElem?_cons_zero, Option.some.injEq] at h
      subst h
      simp
    | succ j =>
      simp only [List.getElem?_cons_succ] at h
      simp only [List.take_succ_cons, List.flatten_cons, List.length_append]
      rw [List.drop_append_eq_append_drop]
      have : q.length + (ps.take j).flatten.length - q.length = (ps.take j).flatten.length := by
        omega
      rw [List.drop_eq_nil_of_le (by omega), this, List.nil_append]
      exact ih j p h

/-- Record number `j` of `documents.idx` holds offset and length of the text of the `j`-th
well-formed line of the corpus (empty analysis or not), and `getDocumentText(j)` returns
that text. -/
theorem getDocumentText_build (maxBuffer : Nat) (file : List Nat) (j : Nat)
    (d : List Nat × List Nat) (h : ((fileLines file).filterMap parseLine)[j]? = some d) :
    getDocumentText (buildWith maxBuffer file).docStoreIndexFile
      (buildWith maxBuffer file).docStoreFile (j : Int) = some d.2 := by
  obtain ⟨hinv, _⟩ := buildWith_inv maxBuffer file
  have hp : (((fileLines file).filterMap parseLine).map Prod.snd)[j]? = some d.2 := by
    rw [List.getElem?_map, h]; rfl
  have hrec := storeRecords_getElem? _ 0 j d.2 hp
  have hlen : j < (buildWith maxBuffer file).docStoreIndexFile.length := by
    rw [hinv.docStoreIndexFile]
    exact getElem?_lt_length _ j _ hrec
  unfold getDocumentText
  have hcond : ¬ ((j : Int) < 0 ∨ (j : Int) ≥ ((buildWith maxBuffer file).docStoreIndexFile.length : Int)) := by
    omega
  rw [if_neg hcond, Int.toNat_ofNat, hinv.docStoreIndexFile, hrec, hinv.docStoreFile]
  simp only [Nat.zero_add]
  rw [flatten_drop_take _ j d.2 hp]
  simp

/-- C24. For every input file (and every buffer cap, `MAX_BUFFER_SIZE` among them) the
builder ends with `docID`, the `total_documents` it writes, equal to the number of
well-formed lines whose analysis is not empty; the `i`-th such line (0-based, input order)
has the page-table entry `(i, external id)` and the length-table entry `(i, number of
tokens)`, with at least one token; and the two tables hold nothing else, so a line with
empty analysis has no doc id and no entry. -/
theorem C24_doc_id_assignment (maxBuffer : Nat) (file : List Nat) :
    (buildWith maxBuffer file).docID = (indexedDocs (fileLines file)).length
    ∧ (buildWith maxBuffer file).pageTable
        = (indexedDocs (fileLines file)).enum.map (fun x => (x.1, x.2.1))
    ∧ (buildWith maxBuffer file).docLengthFile
        = (indexedDocs (fileLines file)).enum.map (fun x => (x.1, (tokenize x.2.2).length))
    ∧ indexedDocs (fileLines file)
        = ((fileLines file).filterMap parseLine).filter (fun d => tokenize d.2 ≠ [])
    ∧ (∀ (i : Nat) (d : List Nat × List Nat), (indexedDocs (fileLines file))[i]? = some d →
        (buildWith maxBuffer file).pageTable[i]? = some (i, d.1)
        ∧ (buildWith maxBuffer file).docLengthFile[i]? = some (i, (tokenize d.2).length)
        ∧ 1 ≤ (tokenize d.2).length)
    ∧ build file = buildWith MAX_BUFFER_SIZE file := by
  obtain ⟨hinv, _⟩ := buildWith_inv maxBuffer file
  refine ⟨hinv.docID, hinv.pageTable, hinv.docLengthFile, rfl, ?_, rfl⟩
  intro i d hd
  refine ⟨?_, ?_, ?_⟩
  · rw [hinv.pageTable, List.getElem?_map, List.getElem?_enum, hd]; rfl
  · rw [hinv.docLengthFile, List.getElem?_map, List.getElem?_enum, hd]; rfl
  · have hmem : d ∈ indexedDocs (fileLines file) := List.mem_iff_getElem?.mpr ⟨i, hd⟩
    simp only [indexedDocs, List.mem_filter, decide_eq_true_eq] at hmem
    exact List.length_pos.mpr hmem.2

/-- C25. For every input file and buffer cap, the builder has written as many runs as
`runNumber` says, and in every run the records are strictly increasing by
`(term, doc_id)`, term first (compared byte-wise, which is the order of `String`), then doc
id: every record is below all later ones, consecutive ones in particular, so no
`(term, doc_id)` pair occurs twice in a run. No run is empty. -/
theorem C25_runs_strictly_sorted (maxBuffer : Nat) (file : List Nat) :
    (buildWith maxBuffer file).runNumber = (buildWith maxBuffer file).runs.length
    ∧ (∀ run ∈ (buildWith maxBuffer file).runs,
        run ≠ [] ∧ run.Pairwise recordKeyLt ∧ run.Chain' recordKeyLt
        ∧ (run.map (fun r => (r.1, r.2.1))).Nodup)
    ∧ (∀ a b : RunRecord, recordKeyLt a b ↔ a.1 < b.1 ∨ (a.1 = b.1 ∧ a.2.1 < b.2.1)) := by
  obtain ⟨hinv, _⟩ := buildWith_inv maxBuffer file
  have hiff : ∀ a b : RunRecord, recordKeyLt a b ↔ a.1 < b.1 ∨ (a.1 = b.1 ∧ a.2.1 < b.2.1) := by
    intro a b
    simp only [recordKeyLt, strLt_iff]
  refine ⟨hinv.runNumber, ?_, hiff⟩
  intro run hrun
  obtain ⟨hne, hpw⟩ := hinv.runs run hrun
  refine ⟨hne, hpw, List.Pairwise.chain' hpw, ?_⟩
  rw [List.Nodup, List.pairwise_map]
  refine hpw.imp ?_
  intro a b hab hc
  rw [hiff] at hab
  simp only [Prod.mk.injEq] at hc
  rcases hab with h | ⟨_, h⟩
  · rw [hc.1] at h; exact lt_irrefl _ h
  · rw [hc.2] at h; exact lt_irrefl _ h

/-- C26. For every input file and buffer cap, the records of all runs together are, up to
order, the postings of the documents, the document with doc id `i` contributing
`docPostings` of its token sequence. For every token sequence and doc id these postings
have pairwise different terms, their terms are exactly the tokens, each carries the doc id
and as frequency the number of occurrences of its term in the sequence, which is at least
1, and the frequencies sum to the length of the sequence, which is the length the builder
records for the document. -/
theorem C26_postings_per_document (maxBuffer : Nat) (file : List Nat) :
    ((buildWith maxBuffer file).runs.flatten).Perm
        (((indexedDocs (fileLines file)).enum.map
          (fun x => docPostings (tokenize x.2.2) x.1)).flatten)
    ∧ (∀ (tokens : List String) (docID : Nat),
        ((docPostings tokens docID).map (fun r => r.1)).Nodup
        ∧ (∀ t, t ∈ (docPostings tokens docID).map (fun r => r.1) ↔ t ∈ tokens)
        ∧ (∀ r ∈ docPostings tokens docID,
            r.2.1 = docID ∧ r.2.2 = tokens.count r.1 ∧ 1 ≤ r.2.2)
        ∧ ((docPostings tokens docID).map (fun r => r.2.2)).sum = tokens.length)
    ∧ (∀ (i : Nat) (d : List Nat × List Nat), (indexedDocs (fileLines file))[i]? = some d →
        (buildWith maxBuffer file).docLengthFile[i]?
          = some (i, ((docPostings (tokenize d.2) i).map (fun r => r.2.2)).sum)) := by
  obtain ⟨hinv, hbuf⟩ := buildWith_inv maxBuffer file
  refine ⟨?_, docPostings_props, ?_⟩
  · have := hinv.postings
    rw [hbuf, List.append_nil] at this
    exact this
  · intro i d hd
    rw [(docPostings_props (tokenize d.2) i).2.2.2, hinv.docLengthFile, List.getElem?_map,
      List.getElem?_enum, hd]
    rfl

set_option maxRecDepth 100000 in
/-- C23 (failing input). The corpus `p0 <tab> ...` / `p1 <tab> fox`: the first line is
well-formed but its analysis is empty, so the second line is the only document and gets doc
id 0 (page table `(0, p1)`, length 1). The builder has written a `documents.idx` record for
both lines, so record 0 is the record of the first line and `getDocumentText(0)` returns
`...`, not the text `fox` of document 0. -/
theorem C23_doc_store_misaligned :
    indexedDocs (fileLines corpusSkew) = [(bytesOf "p1", bytesOf "fox")]
    ∧ (build corpusSkew).pageTable = [(0, bytesOf "p1")]
    ∧ (build corpusSkew).docLengthFile = [(0, 1)]
    ∧ (build corpusSkew).docID = 1
    ∧ (build corpusSkew).docStoreIndexFile = [(0, 3), (3, 3)]
    ∧ getDocumentText (build corpusSkew).docStoreIndexFile (build corpusSkew).docStoreFile 0
        = some (bytesOf "...")
    ∧ bytesOf "..." ≠ bytesOf "fox" := by
  refine ⟨?_, ?_, ?_, ?_, ?_, ?_, ?_⟩ <;> decide!
/-! ## The four-document corpus, built and merged -/

set_option maxRecDepth 100000 in
theorem buildABCD :
    (build corpusABCD).pageTable
        = [(0, bytesOf "A"), (1, bytesOf "B"), (2, bytesOf "C"), (3, bytesOf "D")]
    ∧ (build corpusABCD).docLengthFile = [(0, 4), (1, 3), (2, 4), (3, 3)]
    ∧ (build corpusABCD).docID = 4
    ∧ (build corpusABCD).runNumber = 1
    ∧ popSequence (build corpusABCD).runs = poppedABCD
    ∧ (mergeRuns (build corpusABCD).runs).lexFile.map (fun l => (l.term, l.totalPostings, l.df))
        = [("brown", 2, 2), ("dog", 1, 1), ("dogs", 1, 1), ("fox", 2, 2), ("jumps", 1, 1),
           ("lazy", 2, 2), ("over", 1, 1), ("quick", 2, 2), ("the", 2, 2)] := by
  refine ⟨?_, ?_, ?_, ?_, ?_, ?_⟩ <;> decide!

theorem mergeRunsABCD : mergeRuns (build corpusABCD).runs = mergeEntries poppedABCD := by
  unfold mergeRuns
  rw [buildABCD.2.2.2.2.1]

theorem loadDocLengthsABCD {S : Type} [LinearOrderedField S] :
    loadDocLengths (build corpusABCD).docLengthFile = (envABCD : ScoreEnv S) := by
  rw [buildABCD.2.1]
  simp only [loadDocLengths, List.foldl_cons, List.foldl_nil, setScore, envABCD,
    ScoreEnv.mk.injEq]
  refine ⟨by decide, by decide, ?_⟩
  norm_num [setScore]

/-- C27. Building the four-document corpus with the basic analyzer and merging the one run
it gives: the documents get the doc ids 0 to 3 in input order (`A`, `B`, `C`, `D`), the
lengths 4, 3, 4, 3; `total_documents` is 4; the query program loads `N = 4` and
`avgdl = 3.5`; the lexicon has exactly the nine lines of the terms `brown`, `dog`, `dogs`,
`fox`, `jumps`, `lazy`, `over`, `quick`, `the` with the `df` values 2, 1, 1, 2, 1, 2, 1, 2,
2. -/
theorem C27_four_document_corpus {S : Type} [LinearOrderedField S] :
    (build corpusABCD).pageTable
        = [(0, bytesOf "A"), (1, bytesOf "B"), (2, bytesOf "C"), (3, bytesOf "D")]
    ∧ (build corpusABCD).docLengthFile = [(0, 4), (1, 3), (2, 4), (3, 3)]
    ∧ (build corpusABCD).docID = 4
    ∧ (build corpusABCD).runNumber = 1
    ∧ (mergeRuns (build corpusABCD).runs).lexFile.map (fun l => (l.term, l.totalPostings, l.df))
        = [("brown", 2, 2), ("dog", 1, 1), ("dogs", 1, 1), ("fox", 2, 2), ("jumps", 1, 1),
           ("lazy", 2, 2), ("over", 1, 1), ("quick", 2, 2), ("the", 2, 2)]
    ∧ (loadDocLengths (build corpusABCD).docLengthFile : ScoreEnv S).docLengths
        = [(0, 4), (1, 3), (2, 4), (3, 3)]
    ∧ (loadDocLengths (build corpusABCD).docLengthFile : ScoreEnv S).totalDocs = 4
    ∧ (loadDocLengths (build corpusABCD).docLengthFile : ScoreEnv S).avgLen = 7 / 2 := by
  obtain ⟨h1, h2, h3, h4, _, h6⟩ := buildABCD
  refine ⟨h1, h2, h3, h4, h6, ?_, ?_, ?_⟩
  · rw [loadDocLengthsABCD]; rfl
  · rw [loadDocLengthsABCD]; rfl
  · rw [loadDocLengthsABCD]; rfl

/-! ## Scores on the four-document corpus -/

set_option maxRecDepth 100000 in
theorem lexiconABCD :
    ((loadIndex (mergeEntries poppedABCD)).lexicon.lookup "quick").map LexEntry.df = some 2
    ∧ ((loadIndex (mergeEntries poppedABCD)).lexicon.lookup "brown").map LexEntry.df = some 2
    ∧ ((loadIndex (mergeEntries poppedABCD)).lexicon.lookup "the").map LexEntry.df = some 2
    ∧ ((loadIndex (mergeEntries poppedABCD)).lexicon.lookup "lazy").map LexEntry.df = some 2 := by
  refine ⟨?_, ?_, ?_, ?_⟩ <;> decide!


/-- With `N = 4` and `df = 2` the idf is `ln 1 = 0`, and so is the BM25 contribution. -/
theorem calculateBM25_half {S : Type} [LinearOrderedField S] (log : S → S) (hlog : log 1 = 0)
    (avgDocLength : S) (tf docLength : Int) :
    calculateBM25 log avgDocLength tf docLength 2 4 = 0 := by
  unfold calculateBM25
  have : (((4 : Nat) : S) - ((2 : Nat) : S) + 1 / 2) / (((2 : Nat) : S) + 1 / 2) = 1 := by
    norm_num
  simp only [this, hlog, zero_mul]

/-- The conjunctive plan for `quick brown` on the built and merged four-document corpus, for
a logarithm with `ln 1 = 0`: documents 0 and 1, both with score 0. -/
theorem conjQuickBrown {S : Type} [LinearOrderedField S] [FloorRing S] (log : S → S)
    (hlog : log 1 = 0) (fuel : Nat) (hf : 5 ≤ fuel) :
    processConjunctiveQuery log fuel (loadIndex (mergeRuns (build corpusABCD).runs))
        (loadDocLengths (build corpusABCD).docLengthFile) ["quick", "brown"]
      = some [(0, 0), (1, 0)] := by
  rw [mergeRunsABCD, loadDocLengthsABCD]
  have hscan := conjunctiveScan_fuel_le _ _ _ 5 fuel hf scanAB.2.2.2.2.2.2.1
  have htd : (envABCD : ScoreEnv S).totalDocs = 4 := rfl
  simp only [processConjunctiveQuery, hscan, List.foldl_cons, List.foldl_nil, totalScore,
    List.zip_cons_cons, List.zip_nil_right, htd, calculateBM25_half log hlog, add_zero,
    setScore]
  simp [sortByScoreDesc, List.insertionSort, List.orderedInsert]
/-- C28 (amended). On the four-document corpus, built with the basic analyzer and merged
(`N = 4`, `|A| = 4`, `|B| = 3`, `df(quick) = df(brown) = 2`), the AND query `quick brown`
returns the documents `A` and `B` (doc ids 0 and 1), and both have the score 0: the idf of
both terms is `ln((4 - 2 + 0.5) / (2 + 0.5)) = ln 1 = 0`. The score of `A` is equal to the
score of `B`, not strictly greater. -/
theorem C28_quick_brown_scores_equal {S : Type} [LinearOrderedField S] [FloorRing S]
    (log : S → S) (hlog : log 1 = 0) (fuel : Nat) (hf : 5 ≤ fuel) :
    (loadDocLengths (build corpusABCD).docLengthFile : ScoreEnv S).docLengths.lookup 0 = some 4
    ∧ (loadDocLengths (build corpusABCD).docLengthFile : ScoreEnv S).docLengths.lookup 1 = some 3
    ∧ (loadDocLengths (build corpusABCD).docLengthFile : ScoreEnv S).totalDocs = 4
    ∧ ((loadIndex (mergeRuns (build corpusABCD).runs)).lexicon.lookup "quick").map LexEntry.df
        = some 2
    ∧ ((loadIndex (mergeRuns (build corpusABCD).runs)).lexicon.lookup "brown").map LexEntry.df
        = some 2
    ∧ processConjunctiveQuery log fuel (loadIndex (mergeRuns (build corpusABCD).runs))
          (loadDocLengths (build corpusABCD).docLengthFile) ["quick", "brown"]
        = some [(0, 0), (1, 0)] := by
  refine ⟨?_, ?_, ?_, ?_, ?_, conjQuickBrown log hlog fuel hf⟩
  · rw [loadDocLengthsABCD]; rfl
  · rw [loadDocLengthsABCD]; rfl
  · rw [loadDocLengthsABCD]; rfl
  · rw [mergeRunsABCD]; exact lexiconABCD.1
  · rw [mergeRunsABCD]; exact lexiconABCD.2.1

theorem C28_quick_brown_scores_equal_witness :
    Real.log 1 = 0 ∧ 5 ≤ 20
    ∧ (loadDocLengths (build corpusABCD).docLengthFile : ScoreEnv ℝ).docLengths.lookup 0 = some 4
    ∧ (loadDocLengths (build corpusABCD).docLengthFile : ScoreEnv ℝ).docLengths.lookup 1 = some 3
    ∧ (loadDocLengths (build corpusABCD).docLengthFile : ScoreEnv ℝ).totalDocs = 4
    ∧ ((loadIndex (mergeRuns (build corpusABCD).runs)).lexicon.lookup "quick").map LexEntry.df
        = some 2
    ∧ ((loadIndex (mergeRuns (build corpusABCD).runs)).lexicon.lookup "brown").map LexEntry.df
        = some 2
    ∧ processConjunctiveQuery Real.log 20 (loadIndex (mergeRuns (build corpusABCD).runs))
          (loadDocLengths (build corpusABCD).docLengthFile) ["quick", "brown"]
        = some [(0, 0), (1, 0)] :=
  ⟨Real.log_one, by decide, C28_quick_brown_scores_equal Real.log Real.log_one 20 (by decide)⟩

/-- C28 (counterexample). On the four-document corpus `|A| = 4 >= |B| = 3`, and yet the
result of the AND query `quick brown` does not give `A` a score strictly greater than the
score of `B`. -/
theorem C28_A_not_above_B :
    (loadDocLengths (build corpusABCD).docLengthFile : ScoreEnv ℝ).docLengths.lookup 0 = some 4
    ∧ (loadDocLengths (build corpusABCD).docLengthFile : ScoreEnv ℝ).docLengths.lookup 1 = some 3
    ∧ ¬ ∃ (r : List (Int × ℝ)) (sA sB : ℝ),
        processConjunctiveQuery Real.log 20 (loadIndex (mergeRuns (build corpusABCD).runs))
            (loadDocLengths (build corpusABCD).docLengthFile) ["quick", "brown"] = some r
          ∧ (0, sA) ∈ r ∧ (1, sB) ∈ r ∧ sA > sB := by
  refine ⟨by rw [loadDocLengthsABCD]; rfl, by rw [loadDocLengthsABCD]; rfl, ?_⟩
  rintro ⟨r, sA, sB, hr, hA, hB, hgt⟩
  rw [conjQuickBrown Real.log Real.log_one 20 (by decide)] at hr
  simp only [Option.some.injEq] at hr
  subst hr
  simp only [List.mem_cons, Prod.mk.injEq, List.mem_singleton, List.not_mem_nil, or_false] at hA hB
  have hA0 : sA = 0 := by
    rcases hA with h | h
    · exact h.2
    · exact absurd h.1 (by decide)
  have hB0 : sB = 0 := by
    rcases hB with h | h
    · exact absurd h.1 (by decide)
    · exact h.2
  rw [hA0, hB0] at hgt
  exact lt_irrefl _ hgt

theorem bm25Sum_zero {S : Type} [LinearOrderedField S] [FloorRing S] (log : S → S)
    (env : ScoreEnv S) (popped : List TermEntry) (n : Nat) (q : List String)
    (h : ∀ t ∈ q, ∀ tf dl : Int, calculateBM25 log env.avgLen tf dl
      (postingsOfTerm popped t).length env.totalDocs = 0) :
    bm25Sum log env popped q n = 0 := by
  induction q with
  | nil => simp [bm25Sum]
  | cons t ts ih =>
    have iht := ih (fun t' ht' => h t' (List.mem_cons_of_mem _ ht'))
    simp only [bm25Sum, List.filterMap_cons] at iht ⊢
    cases tfOf popped t n with
    | none => simpa using iht
    | some tf =>
      simp only [Option.map_some', List.sum_cons, iht, add_zero]
      exact h t (List.mem_cons_self _ _) _ _

/-- The disjunctive plan for `the lazy` on the built and merged four-document corpus, for a
logarithm with `ln 1 = 0`: the documents 0, 2 and 3, each once, all with score 0. -/
theorem disjTheLazy {S : Type} [LinearOrderedField S] [FloorRing S] (log : S → S)
    (hlog : log 1 = 0) (fuel : Nat) (hf : 14 < fuel) :
    ∃ r, processDisjunctiveQuery log fuel (loadIndex (mergeRuns (build corpusABCD).runs))
          (loadDocLengths (build corpusABCD).docLengthFile) ["the", "lazy"] = some r
      ∧ (r.map Prod.fst).Nodup
      ∧ ∀ (d : Int) (s : S), (d, s) ∈ r ↔ (d = 0 ∨ d = 2 ∨ d = 3) ∧ s = 0 := by
  rw [mergeRunsABCD, loadDocLengthsABCD]
  obtain ⟨r, h1, h2, h3⟩ := processDisjunctiveQuery_merged log envABCD poppedABCD
    poppedABCD_sorted fuel hf ["the", "lazy"]
  refine ⟨r, h1, h2, ?_⟩
  have hthe : (postingsOfTerm poppedABCD "the").map Prod.fst = [0, 3] := by decide
  have hlazy : (postingsOfTerm poppedABCD "lazy").map Prod.fst = [2, 3] := by decide
  have hzero : ∀ n, bm25Sum log envABCD poppedABCD ["the", "lazy"] n = 0 := by
    intro n
    apply bm25Sum_zero
    intro t ht tf dl
    have htd : (envABCD : ScoreEnv S).totalDocs = 4 := rfl
    simp only [List.mem_cons, List.mem_singleton, List.not_mem_nil, or_false] at ht
    rcases ht with rfl | rfl
    · have : (postingsOfTerm poppedABCD "the").length = 2 := by decide
      rw [this, htd]
      exact calculateBM25_half log hlog _ _ _
    · have : (postingsOfTerm poppedABCD "lazy").length = 2 := by decide
      rw [this, htd]
      exact calculateBM25_half log hlog _ _ _
  intro d s
  rw [h3 d s]
  constructor
  · rintro ⟨n, rfl, ⟨t, ht, hn⟩, rfl⟩
    refine ⟨?_, hzero n⟩
    simp only [List.mem_cons, List.mem_singleton, List.not_mem_nil, or_false] at ht
    rcases ht with rfl | rfl
    · rw [hthe] at hn
      simp only [List.mem_cons, List.mem_singleton, List.not_mem_nil, or_false] at hn
      rcases hn with rfl | rfl
      · left; rfl
      · right; right; rfl
    · rw [hlazy] at hn
      simp only [List.mem_cons, List.mem_singleton, List.not_mem_nil, or_false] at hn
      rcases hn with rfl | rfl
      · right; left; rfl
      · right; right; rfl
  · rintro ⟨hd, rfl⟩
    rcases hd with rfl | rfl | rfl
    · exact ⟨0, rfl, ⟨"the", by simp, by rw [hthe]; simp⟩, (hzero 0).symm⟩
    · exact ⟨2, rfl, ⟨"lazy", by simp, by rw [hlazy]; simp⟩, (hzero 2).symm⟩
    · exact ⟨3, rfl, ⟨"the", by simp, by rw [hthe]; simp⟩, (hzero 3).symm⟩

/-- C29 (amended). On the four-document corpus, built with the basic analyzer and merged,
the OR query `the lazy` returns exactly the documents `A`, `C` and `D` (doc ids 0, 2, 3),
each once, and all three have the score 0: both terms have `df = 2 = N / 2`, so their idf
is `ln 1 = 0`. The score of `D` is equal to the scores of `A` and `C`, not strictly
greater, and the scores do not fix which of the three comes first. -/
theorem C29_the_lazy_all_zero {S : Type} [LinearOrderedField S] [FloorRing S]
    (log : S → S) (hlog : log 1 = 0) (fuel : Nat) (hf : 14 < fuel) :
    (loadDocLengths (build corpusABCD).docLengthFile : ScoreEnv S).totalDocs = 4
    ∧ ((loadIndex (mergeRuns (build corpusABCD).runs)).lexicon.lookup "the").map LexEntry.df
        = some 2
    ∧ ((loadIndex (mergeRuns (build corpusABCD).runs)).lexicon.lookup "lazy").map LexEntry.df
        = some 2
    ∧ ∃ r, processDisjunctiveQuery log fuel (loadIndex (mergeRuns (build corpusABCD).runs))
          (loadDocLengths (build corpusABCD).docLengthFile) ["the", "lazy"] = some r
      ∧ (r.map Prod.fst).Nodup
      ∧ ∀ (d : Int) (s : S), (d, s) ∈ r ↔ (d = 0 ∨ d = 2 ∨ d = 3) ∧ s = 0 := by
  refine ⟨?_, ?_, ?_, disjTheLazy log hlog fuel hf⟩
  · rw [loadDocLengthsABCD]; rfl
  · rw [mergeRunsABCD]; exact lexiconABCD.2.2.1
  · rw [mergeRunsABCD]; exact lexiconABCD.2.2.2

theorem C29_the_lazy_all_zero_witness :
    Real.log 1 = 0 ∧ 14 < 20
    ∧ (loadDocLengths (build corpusABCD).docLengthFile : ScoreEnv ℝ).totalDocs = 4
    ∧ ((loadIndex (mergeRuns (build corpusABCD).runs)).lexicon.lookup "the").map LexEntry.df
        = some 2
    ∧ ((loadIndex (mergeRuns (build corpusABCD).runs)).lexicon.lookup "lazy").map LexEntry.df
        = some 2
    ∧ ∃ r, processDisjunctiveQuery Real.log 20 (loadIndex (mergeRuns (build corpusABCD).runs))
          (loadDocLengths (build corpusABCD).docLengthFile) ["the", "lazy"] = some r
      ∧ (r.map Prod.fst).Nodup
      ∧ ∀ (d : Int) (s : ℝ), (d, s) ∈ r ↔ (d = 0 ∨ d = 2 ∨ d = 3) ∧ s = 0 :=
  ⟨Real.log_one, by decide, C29_the_lazy_all_zero Real.log Real.log_one 20 (by decide)⟩

/-- C29 (counterexample). The result of the OR query `the lazy` on the four-document corpus
does not give `D` a score strictly greater than the scores of `A` and `C`. -/
theorem C29_D_not_above_A_and_C :
    ¬ ∃ (r : List (Int × ℝ)) (sA sC sD : ℝ),
        processDisjunctiveQuery Real.log 20 (loadIndex (mergeRuns (build corpusABCD).runs))
            (loadDocLengths (build corpusABCD).docLengthFile) ["the", "lazy"] = some r
          ∧ (0, sA) ∈ r ∧ (2, sC) ∈ r ∧ (3, sD) ∈ r ∧ sD > sA ∧ sD > sC := by
  rintro ⟨r, sA, sC, sD, hr, hA, _, hD, hgt, _⟩
  obtain ⟨r', hr', _, hall⟩ := disjTheLazy Real.log Real.log_one 20 (by decide)
  rw [hr] at hr'
  simp only [Option.some.injEq] at hr'
  subst hr'
  have hA0 := ((hall 0 sA).mp hA).2
  have hD0 := ((hall 3 sD).mp hD).2
  rw [hA0, hD0] at hgt
  exact lt_irrefl _ hgt


/-! ## The BM25 formula and its sign -/

/-- The scorer `bm25` of `src/bm25/query.cpp` is `calculateBM25` of `indexer/query.cpp` at
the globals `avgLen` and `totalDocs`. -/
theorem bm25_eq_calculateBM25 {S : Type} [Field S] (log : S → S) (env : ScoreEnv S)
    (tf dl df : Nat) :
    bm25 log env tf dl df
      = calculateBM25 log env.avgLen (tf : Int) (dl : Int) df env.totalDocs := by
  simp [bm25, calculateBM25]

/-- The term-frequency factor of `calculateBM25` is positive. -/
theorem tfComponent_pos (avgdl : ℝ) (tf dl : Int) (htf : 1 ≤ tf) (hdl : 0 ≤ dl)
    (havg : 0 < avgdl) :
    0 < ((tf : ℝ) * (K1 + 1)) / ((tf : ℝ) + K1 * (1 - B + B * ((dl : ℝ) / avgdl))) := by
  have h1 : (1 : ℝ) ≤ (tf : ℝ) := by exact_mod_cast htf
  have h2 : (0 : ℝ) ≤ (dl : ℝ) := by exact_mod_cast hdl
  have h3 : 0 ≤ (dl : ℝ) / avgdl := div_nonneg h2 havg.le
  have hK : (K1 : ℝ) = 12 / 10 := rfl
  have hB : (B : ℝ) = 75 / 100 := rfl
  rw [hK, hB]
  apply div_pos
  · nlinarith
  · nlinarith

/-- The argument of the logarithm in `calculateBM25` is positive when `df ≤ N`, and compares
with 1 as `N` compares with `2 * df`. -/
theorem idf_arg (df N : Nat) (hN : df ≤ N) :
    0 < (((N : ℝ) - (df : ℝ) + 1 / 2) / ((df : ℝ) + 1 / 2)) ∧
    ((((N : ℝ) - (df : ℝ) + 1 / 2) / ((df : ℝ) + 1 / 2)) < 1 ↔ (N : ℝ) / 2 < df) ∧
    ((((N : ℝ) - (df : ℝ) + 1 / 2) / ((df : ℝ) + 1 / 2)) = 1 ↔ (df : ℝ) = N / 2) ∧
    (1 < (((N : ℝ) - (df : ℝ) + 1 / 2) / ((df : ℝ) + 1 / 2)) ↔ (df : ℝ) < N / 2) := by
  have h1 : (df : ℝ) ≤ (N : ℝ) := by exact_mod_cast hN
  have h0 : (0 : ℝ) ≤ (df : ℝ) := by positivity
  have hd : (0 : ℝ) < (df : ℝ) + 1 / 2 := by linarith
  refine ⟨div_pos (by linarith) hd, ?_, ?_, ?_⟩
  · rw [div_lt_one hd]; constructor <;> intro h <;> linarith
  · rw [div_eq_one_iff_eq hd.ne.symm]; constructor <;> intro h <;> linarith
  · rw [one_lt_div hd]; constructor <;> intro h <;> linarith

/-- C35: `calculateBM25(tf, dl, df, N)` is `ln((N - df + 0.5) / (df + 0.5)) * tf * (K1 + 1) /
(tf + K1 * (1 - B + B * dl / avgdl))` with `K1 = 1.2` and `B = 0.75`, nothing clamps it, and
`bm25` of `src/bm25/query.cpp` is the same function: over the real numbers, for `tf ≥ 1`,
`dl ≥ 0`, `avgdl > 0` and `df ≤ N` (so in particular for `0 < df ≤ N`), the score is negative iff `df > N/2`, zero iff
`df = N/2` and positive iff `df < N/2`. -/
theorem C35_bm25_formula_and_sign (avgdl : ℝ) (tf dl : Int) (df N : Nat)
    (htf : 1 ≤ tf) (hdl : 0 ≤ dl) (havg : 0 < avgdl) (hN : df ≤ N) :
    calculateBM25 Real.log avgdl tf dl df N
        = Real.log (((N : ℝ) - df + 0.5) / (df + 0.5)) * tf * ((12 / 10 : ℝ) + 1)
            / (tf + (12 / 10 : ℝ) * (1 - (75 / 100 : ℝ) + (75 / 100 : ℝ) * dl / avgdl)) ∧
    (K1 : ℝ) = 1.2 ∧ (B : ℝ) = 0.75 ∧
    (calculateBM25 Real.log avgdl tf dl df N < 0 ↔ (N : ℝ) / 2 < df) ∧
    (calculateBM25 Real.log avgdl tf dl df N = 0 ↔ (df : ℝ) = N / 2) ∧
    (0 < calculateBM25 Real.log avgdl tf dl df N ↔ (df : ℝ) < N / 2) ∧
    (∀ env : ScoreEnv ℝ, ∀ tf' dl' : Nat, env.avgLen = avgdl → env.totalDocs = N →
      (tf' : Int) = tf → (dl' : Int) = dl →
      bm25 Real.log env tf' dl' df = calculateBM25 Real.log avgdl tf dl df N) := by
  obtain ⟨hx, hlt, heq, hgt⟩ := idf_arg df N hN
  have ht := tfComponent_pos avgdl tf dl htf hdl havg
  have hK : (K1 : ℝ) = 12 / 10 := rfl
  have hB : (B : ℝ) = 75 / 100 := rfl
  refine ⟨?_, by rw [hK]; norm_num, by rw [hB]; norm_num, ?_, ?_, ?_, ?_⟩
  · simp only [calculateBM25, hK, hB]
    norm_num
    ring
  · simp only [calculateBM25]
    rw [mul_neg_iff]
    constructor
    · rintro (⟨_, h⟩ | ⟨h, _⟩)
      · exact absurd ht (not_lt.mpr h.le)
      · exact hlt.mp ((Real.log_neg_iff hx).mp h)
    · intro h
      exact Or.inr ⟨(Real.log_neg_iff hx).mpr (hlt.mpr h), ht⟩
  · simp only [calculateBM25]
    rw [mul_eq_zero]
    constructor
    · rintro (h | h)
      · exact heq.mp (Real.eq_one_of_pos_of_log_eq_zero hx h)
      · exact absurd h ht.ne.symm
    · intro h
      left
      rw [heq.mpr h, Real.log_one]
  · simp only [calculateBM25]
    constructor
    · intro h
      have : 0 < Real.log (((N : ℝ) - (df : ℝ) + 1 / 2) / ((df : ℝ) + 1 / 2)) :=
        (pos_iff_pos_of_mul_pos h).mpr ht
      exact hgt.mp ((Real.log_pos_iff hx).mp this)
    · intro h
      exact mul_pos ((Real.log_pos_iff hx).mpr (hgt.mpr h)) ht
  · intro env tf' dl' h1 h2 h3 h4
    rw [bm25_eq_calculateBM25, h1, h2, h3, h4]

/-- C35 at `tf = 2`, `dl = 3`, `avgdl = 4`, `df = 3` and `N = 4`. -/
theorem C35_bm25_formula_and_sign_witness :
    (calculateBM25 Real.log 4 2 3 3 4 < 0 ↔ ((4 : Nat) : ℝ) / 2 < ((3 : Nat) : ℝ)) :=
  (C35_bm25_formula_and_sign 4 2 3 3 4 (by decide) (by decide) (by norm_num)
    (by decide)).2.2.2.1

/-! ## Start offsets and block ranges of the terms -/

theorem lexLines_append (gs1 : List (String × List (Nat × Nat × Nat))) :
    ∀ (gs2 : List (String × List (Nat × Nat × Nat))) (off blk : Nat),
      lexLines (gs1 ++ gs2) off blk
        = lexLines gs1 off blk
            ++ lexLines gs2 (off + (chunksBytes (allChunks gs1)).length)
                 (blk + (allChunks gs1).length) := by
  induction gs1 with
  | nil => intro gs2 off blk; simp [lexLines, allChunks, chunksBytes]
  | cons g gs1 ih =>
    intro gs2 off blk
    have := ih gs2 (off + (chunksBytes (chunks (postingsOfTriples g.2))).length)
      (blk + (chunks (postingsOfTriples g.2)).length)
    simp only [List.cons_append, lexLines, allChunks_cons, chunksBytes_append,
      List.length_append, List.cons.injEq, true_and]
    rw [Nat.add_assoc, Nat.add_assoc] at this
    exact this

theorem lexLines_length (gs : List (String × List (Nat × Nat × Nat))) : ∀ off blk : Nat,
    (lexLines gs off blk).length = gs.length := by
  induction gs with
  | nil => intro off blk; rfl
  | cons g gs ih => intro off blk; simp [lexLines, ih]

/-- A line of the lexicon file belongs to one group, and the lines before and after it to the
groups before and after. -/
theorem lexLines_split (gs : List (String × List (Nat × Nat × Nat))) (ls1 ls2 : List LexLine)
    (l : LexLine) (h : lexLines gs 0 0 = ls1 ++ l :: ls2) :
    ∃ gs1 g gs2, gs = gs1 ++ g :: gs2 ∧ ls1 = lexLines gs1 0 0
      ∧ l = ⟨g.1, (chunksBytes (allChunks gs1)).length, (allChunks gs1).length, g.2.length,
              g.2.length⟩
      ∧ ls2 = lexLines gs2 ((chunksBytes (allChunks (gs1 ++ [g]))).length)
                ((allChunks (gs1 ++ [g])).length) := by
  have hlen : gs.length = ls1.length + (ls2.length + 1) := by
    have := congrArg List.length h
    rw [lexLines_length] at this
    simpa using this
  have hd : gs.drop ls1.length ≠ [] := by
    intro h0
    have := congrArg List.length h0
    simp at this
    omega
  obtain ⟨g, gs2, hg⟩ := List.exists_cons_of_ne_nil hd
  have hgs : gs = gs.take ls1.length ++ g :: gs2 := by
    rw [← hg, List.take_append_drop]
  have h1 : (gs.take ls1.length).length = ls1.length := by
    rw [List.length_take]; omega
  rw [hgs, lexLines_append] at h
  have h2 := List.append_inj h (by rw [lexLines_length, h1])
  refine ⟨gs.take ls1.length, g, gs2, hgs, h2.1.symm, ?_, ?_⟩
  · have := h2.2
    simp only [lexLines, Nat.zero_add, List.cons.injEq] at this
    exact this.1.symm
  · have := h2.2
    simp only [lexLines, Nat.zero_add, List.cons.injEq] at this
    rw [← this.2, allChunks_append, chunksBytes_append]
    simp [allChunks, chunksBytes_append]

theorem chunksBytes_length_cons (c : List Posting) (cs : List (List Posting)) :
    (chunksBytes (c :: cs)).length
      = 8 + chunkDocBytes c + chunkFreqBytes c + (chunksBytes cs).length := by
  simp only [chunksBytes, List.length_append, blockBytes_length, chunkDocBytes, chunkFreqBytes]
  omega

/-- The skip table's sizes of a run of blocks add up to the bytes of the blocks. -/
theorem spanSum_chunks (o : BlockOut) (cs : List (List Posting)) :
    ∀ (pre post : List (List Posting)),
      o.docIDSizes = (pre ++ cs ++ post).map chunkDocBytes →
      o.freqSizes = (pre ++ cs ++ post).map chunkFreqBytes →
      spanSum o pre.length cs.length = (chunksBytes cs).length := by
  induction cs with
  | nil => intro pre post _ _; simp [spanSum, chunksBytes]
  | cons c cs ih =>
    intro pre post hd hf
    have hd' : o.docIDSizes = ((pre ++ [c]) ++ cs ++ post).map chunkDocBytes := by
      rw [hd]; simp
    have hf' : o.freqSizes = ((pre ++ [c]) ++ cs ++ post).map chunkFreqBytes := by
      rw [hf]; simp
    have := ih (pre ++ [c]) post hd' hf'
    simp only [List.length_append, List.length_singleton] at this
    have hb : blockSpan o pre.length = 8 + chunkDocBytes c + chunkFreqBytes c := by
      have e1 : (List.map chunkDocBytes (pre ++ c :: cs ++ post))[pre.length]?
          = some (chunkDocBytes c) := by
        rw [List.append_assoc, List.map_append,
          List.getElem?_append_right (by simp)]
        simp
      have e2 : (List.map chunkFreqBytes (pre ++ c :: cs ++ post))[pre.length]?
          = some (chunkFreqBytes c) := by
        rw [List.append_assoc, List.map_append,
          List.getElem?_append_right (by simp)]
        simp
      simp only [blockSpan, hd, hf, List.getD_eq_getElem?_getD, e1, e2, Option.getD_some]
    simp only [spanSum, List.length_cons, List.range'_succ, List.map_cons, List.sum_cons,
      hb] at this ⊢
    rw [this, chunksBytes_length_cons]

theorem spanSum_add (o : BlockOut) (first a b : Nat) :
    spanSum o first (a + b) = spanSum o first a + spanSum o (first + a) b := by
  simp only [spanSum]
  rw [← List.sum_append, ← List.map_append, Nat.add_comm a b]
  congr 2
  have := List.range'_append first a b 1
  rw [Nat.one_mul] at this
  exact this.symm

theorem allChunks_length (gs : List (String × List (Nat × Nat × Nat))) :
    (allChunks gs).length = (gs.map (fun g => numBlocks g.2.length)).sum := by
  induction gs with
  | nil => rfl
  | cons g gs ih =>
    rw [allChunks_cons, List.length_append, ih, chunks_length]
    simp [numBlocks, postingsOfTriples]

theorem lexLines_numBlocks (gs : List (String × List (Nat × Nat × Nat))) : ∀ off blk : Nat,
    ((lexLines gs off blk).map (fun x => numBlocks x.df)).sum
      = (gs.map (fun g => numBlocks g.2.length)).sum := by
  induction gs with
  | nil => intro off blk; rfl
  | cons g gs ih => intro off blk; simp [lexLines, ih]

/-- What the merger has written when it is done, around one line of the lexicon file: the
blocks `pre` of the terms before, the blocks `cs` of the line's term, the blocks `post` of
the terms after. -/
theorem lexLine_layout (popped : List TermEntry) (hs : SortedEntries popped)
    (ls1 ls2 : List LexLine) (l : LexLine)
    (h : (mergeEntries popped).lexFile = ls1 ++ l :: ls2) :
    ∃ pre cs post : List (List Posting),
      (mergeEntries popped).out.invFile = chunksBytes (pre ++ cs ++ post)
      ∧ (mergeEntries popped).out.lastDocIDs = (pre ++ cs ++ post).map chunkLast
      ∧ (mergeEntries popped).out.docIDSizes = (pre ++ cs ++ post).map chunkDocBytes
      ∧ (mergeEntries popped).out.freqSizes = (pre ++ cs ++ post).map chunkFreqBytes
      ∧ cs = chunks (postingsOfTerm popped l.term)
      ∧ cs.length = numBlocks l.df
      ∧ l.startBlock = pre.length
      ∧ l.startOffset = (chunksBytes pre).length
      ∧ pre.length = (ls1.map (fun x => numBlocks x.df)).sum
      ∧ post.length = (ls2.map (fun x => numBlocks x.df)).sum := by
  obtain ⟨gs, hv, hge⟩ := sorted_groups popped.length popped (le_refl _) hs
  obtain ⟨hout, hlex⟩ := merge_spec gs hv
  rw [hge] at hout hlex
  rw [writeGroups_eq, writeChunks_eq] at hout
  rw [hlex] at h
  obtain ⟨gs1, g, gs2, hsplit, h1, h2, h3⟩ := lexLines_split gs ls1 ls2 l h
  obtain ⟨t, ps⟩ := g
  subst hsplit
  have hP := postingsOfTerm_group gs1 gs2 t ps hv
  rw [hge] at hP
  have hall : allChunks (gs1 ++ (t, ps) :: gs2)
      = allChunks gs1 ++ chunks (postingsOfTriples ps) ++ allChunks gs2 := by
    rw [allChunks_append, allChunks_cons, List.append_assoc]
  refine ⟨allChunks gs1, chunks (postingsOfTriples ps), allChunks gs2, ?_, ?_, ?_, ?_, ?_, ?_,
    ?_, ?_, ?_, ?_⟩
  · rw [hout, hall]; simp [BlockOut.empty]
  · rw [hout, hall]; simp [BlockOut.empty]
  · rw [hout, hall]; simp [BlockOut.empty]
  · rw [hout, hall]; simp [BlockOut.empty]
  · rw [h2, hP]
  · rw [h2, chunks_length]; simp [numBlocks, postingsOfTriples]
  · rw [h2]
  · rw [h2]
  · rw [h1, lexLines_numBlocks, allChunks_length]
  · rw [h3, lexLines_numBlocks, allChunks_length]

theorem drop_take_middle {α : Type} (a b c : List α) :
    ((a ++ b ++ c).drop a.length).take b.length = b := by
  rw [List.append_assoc, List.drop_left, List.take_left]

/-- C36: in the lexicon file the merger writes, the `start_block` of a line is the number of
blocks of the lines before it and its `start_offset` is the sum of
`8 + doc_bytes[i] + freq_bytes[i]` over the blocks `i < start_block`; both are 0 on the first
line; on every other line they are the previous line's values plus the previous term's
`ceil(df / 128)` blocks and the bytes of those blocks, so a term starts where the term before
it ends; the last term ends at the end of the skip table and of the inverted file; the
ranges of later lines lie behind the range of an earlier one; and the blocks of the range
`[start_block, start_block + ceil(df / 128))`, in the skip table and in the inverted file
from `start_offset`, are the blocks of the term's posting list. -/
theorem C36_term_block_ranges (popped : List TermEntry) (hs : SortedEntries popped)
    (ls1 ls2 : List LexLine) (l : LexLine)
    (h : (mergeEntries popped).lexFile = ls1 ++ l :: ls2) :
    l.startBlock = (ls1.map (fun x => numBlocks x.df)).sum
    ∧ l.startOffset = spanSum (mergeEntries popped).out 0 l.startBlock
    ∧ (ls1 = [] → l.startOffset = 0 ∧ l.startBlock = 0)
    ∧ (∀ (ls0 : List LexLine) (p : LexLine), ls1 = ls0 ++ [p] →
        l.startBlock = p.startBlock + numBlocks p.df
        ∧ l.startOffset
            = p.startOffset + spanSum (mergeEntries popped).out p.startBlock (numBlocks p.df))
    ∧ (ls2 = [] →
        l.startBlock + numBlocks l.df = (mergeEntries popped).out.lastDocIDs.length
        ∧ l.startOffset + spanSum (mergeEntries popped).out l.startBlock (numBlocks l.df)
            = (mergeEntries popped).out.invFile.length)
    ∧ (∀ l' ∈ ls2, l.startBlock + numBlocks l.df ≤ l'.startBlock)
    ∧ (chunks (postingsOfTerm popped l.term)).length = numBlocks l.df
    ∧ ((mergeEntries popped).out.lastDocIDs.drop l.startBlock).take (numBlocks l.df)
        = (chunks (postingsOfTerm popped l.term)).map chunkLast
    ∧ ((mergeEntries popped).out.docIDSizes.drop l.startBlock).take (numBlocks l.df)
        = (chunks (postingsOfTerm popped l.term)).map chunkDocBytes
    ∧ ((mergeEntries popped).out.freqSizes.drop l.startBlock).take (numBlocks l.df)
        = (chunks (postingsOfTerm popped l.term)).map chunkFreqBytes
    ∧ ((mergeEntries popped).out.invFile.drop l.startOffset).take
          (spanSum (mergeEntries popped).out l.startBlock (numBlocks l.df))
        = chunksBytes (chunks (postingsOfTerm popped l.term)) := by
  obtain ⟨pre, cs, post, hfile, hlast, hds, hfs, hcs, hlen, hsb, hso, hpre, hpost⟩ :=
    lexLine_layout popped hs ls1 ls2 l h
  have hs0 : spanSum (mergeEntries popped).out 0 pre.length = (chunksBytes pre).length := by
    have := spanSum_chunks (mergeEntries popped).out pre [] (cs ++ post)
      (by rw [hds]; simp) (by rw [hfs]; simp)
    simpa using this
  have hs1 : spanSum (mergeEntries popped).out pre.length cs.length
      = (chunksBytes cs).length :=
    spanSum_chunks (mergeEntries popped).out cs pre post hds hfs
  refine ⟨by rw [hsb, hpre], by rw [hso, hsb, hs0], ?_, ?_, ?_, ?_, by rw [← hcs, hlen], ?_, ?_,
    ?_, ?_⟩
  · intro h1
    rw [h1] at hpre
    simp only [List.map_nil, List.sum_nil] at hpre
    have : pre = [] := List.eq_nil_of_length_eq_zero hpre
    rw [hso, hsb, this]
    exact ⟨rfl, rfl⟩
  · intro ls0 p h1
    have h' : (mergeEntries popped).lexFile = ls0 ++ p :: (l :: ls2) := by
      rw [h, h1]; simp
    obtain ⟨pre', cs', post', _, _, hds', hfs', _, hlen', hsb', hso', hpre', _⟩ :=
      lexLine_layout popped hs ls0 (l :: ls2) p h'
    have hs0' : spanSum (mergeEntries popped).out 0 pre'.length = (chunksBytes pre').length := by
      have := spanSum_chunks (mergeEntries popped).out pre' [] (cs' ++ post')
        (by rw [hds']; simp) (by rw [hfs']; simp)
      simpa using this
    have e1 : pre.length = pre'.length + numBlocks p.df := by
      rw [hpre, hpre', h1]; simp
    refine ⟨by rw [hsb, hsb', e1], ?_⟩
    rw [hso, hso', hsb', ← hs0, ← hs0', e1, spanSum_add, Nat.zero_add]
  · intro h2
    rw [h2] at hpost
    simp only [List.map_nil, List.sum_nil] at hpost
    have hp : post = [] := List.eq_nil_of_length_eq_zero hpost
    rw [hsb, hso, ← hlen, hs1, hlast, hfile, hp]
    simp [chunksBytes_append]
  · intro l' hl'
    obtain ⟨la, lb, hsplit⟩ := List.append_of_mem hl'
    have h' : (mergeEntries popped).lexFile = (ls1 ++ l :: la) ++ l' :: lb := by
      rw [h, hsplit]; simp
    obtain ⟨pre', _, _, _, _, _, _, _, _, hsb', _, hpre', _⟩ :=
      lexLine_layout popped hs (ls1 ++ l :: la) lb l' h'
    rw [hsb', hpre', hsb, hpre]
    simp only [List.map_append, List.map_cons, List.sum_append, List.sum_cons]
    omega
  · rw [hlast, hsb, ← hlen, ← hcs, List.map_append, List.map_append]
    simp
  · rw [hds, hsb, ← hlen, ← hcs, List.map_append, List.map_append]
    simp
  · rw [hfs, hsb, ← hlen, ← hcs, List.map_append, List.map_append]
    simp
  · rw [hfile, hso, hsb, ← hlen, hs1, ← hcs, chunksBytes_append, chunksBytes_append]
    exact drop_take_middle _ _ _

theorem lexFileSmall : (mergeEntries poppedSmall).lexFile
    = [⟨"a", 0, 0, 2, 2⟩] ++ (⟨"b", 12, 1, 3, 3⟩ : LexLine) :: [] := by
  decide

/-- C36 on the line of the term `"b"` of the index of `poppedSmall`, which follows the line
of `"a"`. -/
theorem C36_term_block_ranges_witness :
    (⟨"b", 12, 1, 3, 3⟩ : LexLine).startBlock
        = ([(⟨"a", 0, 0, 2, 2⟩ : LexLine)].map (fun x => numBlocks x.df)).sum
    ∧ (⟨"b", 12, 1, 3, 3⟩ : LexLine).startOffset
        = spanSum (mergeEntries poppedSmall).out 0 (⟨"b", 12, 1, 3, 3⟩ : LexLine).startBlock :=
  have h := C36_term_block_ranges poppedSmall poppedSmall_sorted [⟨"a", 0, 0, 2, 2⟩] []
    ⟨"b", 12, 1, 3, 3⟩ lexFileSmall
  ⟨h.1, h.2.1⟩

/-- In a laid-out term the offset loop of `decompressBlock` for block number `cs1.length` of
the term stops behind the bytes of the term's blocks before it, and the block read there is
that block. -/
theorem blockOffset_layout (idx : Index) (e : LexEntry) (cs1 cs2 : List (List Posting))
    (c : List Posting) (hl : TermLayout idx e (cs1 ++ c :: cs2)) :
    blockOffsetLoop idx.docIDSizes idx.freqSizes cs1.length e.startBlock e.startOffset
        = some (e.startOffset + (chunksBytes cs1).length)
    ∧ readBlock idx.invFile (e.startOffset + (chunksBytes cs1).length)
        = some (chunkDocBytes c, chunkFreqBytes c, c.map Prod.fst, c.map Prod.snd) := by
  obtain ⟨pre, post, hfile, hpre⟩ := hl.file
  obtain ⟨a, b, hd, ha⟩ := hl.dsizes
  obtain ⟨a', b', hf, ha'⟩ := hl.fsizes
  have hc := hl.blocks c (by simp)
  constructor
  · rw [hd, hf, ← ha]
    have := blockOffsetLoop_chunks cs1 a a' ((c :: cs2).map chunkDocBytes ++ b)
      ((c :: cs2).map chunkFreqBytes ++ b') e.startOffset (by rw [ha, ha'])
    simpa [List.map_append] using this
  · have hb1 := encodeAll_length_le (deltaEncode (c.map Prod.fst))
      (deltaEncode_lt _ (by
        intro d hd
        rw [List.mem_map] at hd
        obtain ⟨p, hp, rfl⟩ := hd
        exact (hc.2.2 p hp).1))
    have hb2 := encodeAll_length_le (c.map Prod.snd) (by
        intro d hd
        rw [List.mem_map] at hd
        obtain ⟨p, hp, rfl⟩ := hd
        exact (hc.2.2 p hp).2)
    rw [deltaEncode_length] at hb1
    simp only [List.length_map] at hb1 hb2
    have hcl : c.length ≤ 128 := hc.2.1
    have := readBlock_blockBytes (pre ++ chunksBytes cs1) (chunksBytes cs2 ++ post)
      (c.map Prod.fst) (c.map Prod.snd)
      (chain_le_of_pairwise_lt _ (chain_le_of_pairwise_lt_flatten cs1 cs2 c hl.sorted))
      (by omega) (by omega)
    rw [hfile, chunksBytes_append]
    simpa [chunksBytes, hpre, chunkDocBytes, chunkFreqBytes] using this

/-- What the merger has written when it is done, around one term: the blocks `pre` of the
terms before, the blocks of the term, the blocks `post` of the terms after. -/
theorem term_blocks_layout (popped : List TermEntry) (hs : SortedEntries popped) (t : String)
    (ht : ∃ x ∈ popped, x.term = t) :
    ∃ (e : LexEntry) (pre post : List (List Posting)),
      (loadIndex (mergeEntries popped)).lexicon.lookup t = some e
      ∧ (mergeEntries popped).out
          = writeChunks BlockOut.empty (pre ++ chunks (postingsOfTerm popped t) ++ post)
      ∧ e.startBlock = pre.length
      ∧ e.startOffset = (chunksBytes pre).length
      ∧ e.numPostings = (postingsOfTerm popped t).length
      ∧ TermLayout (loadIndex (mergeEntries popped)) e (chunks (postingsOfTerm popped t)) := by
  obtain ⟨gs, hv, hge⟩ := sorted_groups popped.length popped (le_refl _) hs
  obtain ⟨x, hx, hxt⟩ := ht
  rw [← hge] at hx
  have hmem := groupEntries_term_mem gs x hx
  rw [hxt, List.mem_map] at hmem
  obtain ⟨g, hg, hgt⟩ := hmem
  obtain ⟨gs1, gs2, hsplit⟩ := List.append_of_mem hg
  obtain ⟨t', ps⟩ := g
  simp only at hgt
  subst hgt
  subst hsplit
  have hP := postingsOfTerm_group gs1 gs2 t' ps hv
  rw [hge] at hP
  obtain ⟨hl1, hl2⟩ := merged_layout gs1 gs2 t' ps hv
  obtain ⟨hout, _⟩ := merge_spec _ hv
  rw [hge] at hl1 hl2 hout
  refine ⟨groupEntry gs1 ps, allChunks gs1, allChunks gs2, hl1, ?_, rfl, rfl, ?_, ?_⟩
  · rw [hout, writeGroups_eq, allChunks_append, allChunks_cons, hP, List.append_assoc]
  · simp [hP, groupEntry, postingsOfTriples]
  · rw [hP]; exact hl2

/-- C37: in an index the merger wrote, for every term and every block index `b` of the
term's range `[start_block, start_block + ceil(total_postings / 128))`, the offset loop of
`decompressBlock` returns `start_offset` plus the sum of `8 + doc_bytes[i] + freq_bytes[i]`
over the blocks `i` in `[start_block, b)`; this is the length the inverted file had when the
merger made its call number `b` of `write_block`, the call that appended block `b`; the
block read at that offset is that block, with the sizes and the last doc id the skip table
holds for `b`, and `decompressBlock` leaves its postings in the cursor. -/
theorem C37_block_offset (popped : List TermEntry) (hs : SortedEntries popped) (t : String)
    (ht : ∃ x ∈ popped, x.term = t) :
    ∃ (e : LexEntry) (blocks : List (List Posting)),
      (loadIndex (mergeEntries popped)).lexicon.lookup t = some e
      ∧ (mergeEntries popped).out = writeChunks BlockOut.empty blocks
      ∧ ∀ b : Nat, e.startBlock ≤ b → b < e.startBlock + numBlocks e.numPostings →
          ∃ c : List Posting,
            blocks[b]? = some c
            ∧ (chunks (postingsOfTerm popped t))[b - e.startBlock]? = some c
            ∧ blockOffsetLoop (loadIndex (mergeEntries popped)).docIDSizes
                (loadIndex (mergeEntries popped)).freqSizes (b - e.startBlock) e.startBlock
                e.startOffset
                = some (e.startOffset
                    + spanSum (mergeEntries popped).out e.startBlock (b - e.startBlock))
            ∧ e.startOffset + spanSum (mergeEntries popped).out e.startBlock (b - e.startBlock)
                = (writeChunks BlockOut.empty (blocks.take b)).invFile.length
            ∧ writeChunks BlockOut.empty (blocks.take (b + 1))
                = write_block (writeChunks BlockOut.empty (blocks.take b)) (c.map Prod.fst)
                    (c.map Prod.snd)
            ∧ readBlock (loadIndex (mergeEntries popped)).invFile
                ((writeChunks BlockOut.empty (blocks.take b)).invFile.length)
                = some (chunkDocBytes c, chunkFreqBytes c, c.map Prod.fst, c.map Prod.snd)
            ∧ (loadIndex (mergeEntries popped)).docIDSizes[b]? = some (chunkDocBytes c)
            ∧ (loadIndex (mergeEntries popped)).freqSizes[b]? = some (chunkFreqBytes c)
            ∧ (loadIndex (mergeEntries popped)).lastDocIDs[b]? = some (chunkLast c)
            ∧ ∀ l : InvertedList, l.startOffset = e.startOffset → l.startBlock = e.startBlock →
                l.numPostings = e.numPostings →
                InvertedList.decompressBlock (loadIndex (mergeEntries popped)) l b
                  = some { l with currentDocIDs := c.map Prod.fst,
                                  currentFreqs := c.map Prod.snd, positionInBlock := 0 } := by
  obtain ⟨e, pre, post, hlook, hout, hsb, hso, hnp, hl⟩ := term_blocks_layout popped hs t ht
  refine ⟨e, pre ++ chunks (postingsOfTerm popped t) ++ post, hlook, hout, ?_⟩
  intro b hb1 hb2
  generalize chunks (postingsOfTerm popped t) = cs at hout hl ⊢
  have hcount : numBlocks e.numPostings = cs.length := hl.count
  obtain ⟨j, rfl⟩ : ∃ j, b = e.startBlock + j := ⟨b - e.startBlock, by omega⟩
  have hj : j < cs.length := by omega
  obtain ⟨cs1, c, cs2, hsplit, hlen1⟩ : ∃ cs1 c cs2, cs = cs1 ++ c :: cs2 ∧ cs1.length = j :=
    ⟨cs.take j, cs[j], cs.drop (j + 1),
      by rw [← List.drop_eq_getElem_cons hj, List.take_append_drop],
      by rw [List.length_take]; omega⟩
  subst hsplit
  obtain ⟨hoff, hread⟩ := blockOffset_layout _ e _ _ _ hl
  rw [hlen1] at hoff
  have hsub : e.startBlock + j - e.startBlock = j := by omega
  have hall : pre ++ (cs1 ++ c :: cs2) ++ post = (pre ++ cs1) ++ c :: (cs2 ++ post) := by
    simp
  rw [hall] at hout ⊢
  have hds : (mergeEntries popped).out.docIDSizes
      = ((pre ++ cs1) ++ c :: (cs2 ++ post)).map chunkDocBytes := by
    rw [hout, writeChunks_eq]; simp [BlockOut.empty]
  have hfs : (mergeEntries popped).out.freqSizes
      = ((pre ++ cs1) ++ c :: (cs2 ++ post)).map chunkFreqBytes := by
    rw [hout, writeChunks_eq]; simp [BlockOut.empty]
  have hls : (mergeEntries popped).out.lastDocIDs
      = ((pre ++ cs1) ++ c :: (cs2 ++ post)).map chunkLast := by
    rw [hout, writeChunks_eq]; simp [BlockOut.empty]
  have hplen : (pre ++ cs1).length = e.startBlock + j := by
    rw [List.length_append, hlen1, hsb]
  have hget : ((pre ++ cs1) ++ c :: (cs2 ++ post))[e.startBlock + j]? = some c := by
    rw [← hplen, List.getElem?_append_right (le_refl _)]; simp
  have htake : ((pre ++ cs1) ++ c :: (cs2 ++ post)).take (e.startBlock + j) = pre ++ cs1 := by
    rw [← hplen, List.take_left]
  have htake1 : ((pre ++ cs1) ++ c :: (cs2 ++ post)).take (e.startBlock + j + 1)
      = (pre ++ cs1) ++ [c] := by
    have e1 : (pre ++ cs1) ++ c :: (cs2 ++ post) = ((pre ++ cs1) ++ [c]) ++ (cs2 ++ post) := by
      simp
    have e2 : ((pre ++ cs1) ++ [c]).length = e.startBlock + j + 1 := by
      rw [List.length_append, hplen]; rfl
    rw [e1, ← e2, List.take_left]
  have hspan : spanSum (mergeEntries popped).out e.startBlock j = (chunksBytes cs1).length := by
    have := spanSum_chunks (mergeEntries popped).out cs1 pre (c :: (cs2 ++ post))
      (by rw [hds]) (by rw [hfs])
    rw [hlen1, ← hsb] at this
    exact this
  have hpos : (writeChunks BlockOut.empty
      (((pre ++ cs1) ++ c :: (cs2 ++ post)).take (e.startBlock + j))).invFile.length
      = e.startOffset + (chunksBytes cs1).length := by
    rw [htake, writeChunks_eq, hso]
    simp [BlockOut.empty, chunksBytes_append]
  refine ⟨c, hget, ?_, ?_, ?_, ?_, ?_, ?_, ?_, ?_, ?_⟩
  · rw [hsub, ← hlen1, List.getElem?_append_right (le_refl _)]; simp
  · rw [hsub, hspan]; exact hoff
  · rw [hsub, hspan, hpos]
  · rw [htake1, htake]
    simp only [writeChunks, List.foldl_append, List.foldl_cons, List.foldl_nil, writeChunk]
  · rw [hpos]; exact hread
  · show (mergeEntries popped).out.docIDSizes[e.startBlock + j]? = _
    rw [hds, List.getElem?_map, hget]; rfl
  · show (mergeEntries popped).out.freqSizes[e.startBlock + j]? = _
    rw [hfs, List.getElem?_map, hget]; rfl
  · show (mergeEntries popped).out.lastDocIDs[e.startBlock + j]? = _
    rw [hls, List.getElem?_map, hget]; rfl
  · intro l h1 h2 h3
    rw [← hlen1]
    exact decompressBlock_layout _ e cs1 cs2 c hl l h1 h2 h3

/-- C37 on the term `"b"` of the index of `poppedSmall`. -/
theorem C37_block_offset_witness :
    ∃ (e : LexEntry) (blocks : List (List Posting)),
      (loadIndex (mergeEntries poppedSmall)).lexicon.lookup "b" = some e
      ∧ (mergeEntries poppedSmall).out = writeChunks BlockOut.empty blocks :=
  have ⟨e, blocks, h1, h2, _⟩ := C37_block_offset poppedSmall poppedSmall_sorted "b"
    ⟨⟨"b", 2, 1, 0⟩, by decide, rfl⟩
  ⟨e, blocks, h1, h2⟩


/-! ## The static score array of `query` and `queryBM25` -/

theorem queryPosting_covers {S : Type} [Field S] [DecidableEq S] (log : S → S)
    (env : ScoreEnv S) (df : Nat) (st st' : List S × List Nat) (p : Nat × Nat)
    (h : queryPosting log env df st p = some st') (hc : TouchedCovers st) :
    TouchedCovers st' ∧ st'.1.length = st.1.length := by
  unfold queryPosting at h
  cases hv : st.1[p.1]? with
  | none => rw [hv] at h; cases h
  | some v =>
    rw [hv] at h
    simp only [Option.some.injEq] at h
    subst h
    refine ⟨?_, by simp⟩
    intro d w hd hw
    simp only at hd ⊢
    by_cases hdp : d = p.1
    · subst hdp
      by_cases hv0 : v = 0
      · simp [hv0]
      · simp only [hv0, if_false]
        exact hc _ v hv hv0
    · rw [List.getElem?_set_ne (Ne.symm hdp)] at hd
      have := hc d w hd hw
      split
      · exact List.mem_append_left _ this
      · exact this

theorem queryPostings_covers {S : Type} [Field S] [DecidableEq S] (log : S → S)
    (env : ScoreEnv S) (df : Nat) (ps : List (Nat × Nat)) :
    ∀ (st st' : List S × List Nat), queryPostings log env df ps st = some st' →
      TouchedCovers st → TouchedCovers st' ∧ st'.1.length = st.1.length := by
  induction ps with
  | nil =>
    intro st st' h hc
    simp only [queryPostings, Option.some.injEq] at h
    subst h
    exact ⟨hc, rfl⟩
  | cons p ps ih =>
    intro st st' h hc
    simp only [queryPostings] at h
    cases h1 : queryPosting log env df st p with
    | none => rw [h1] at h; cases h
    | some st1 =>
      rw [h1] at h
      obtain ⟨hc1, hl1⟩ := queryPosting_covers log env df st st1 p h1 hc
      obtain ⟨hc2, hl2⟩ := ih st1 st' h hc1
      exact ⟨hc2, hl2.trans hl1⟩

theorem queryTerms_covers {S : Type} [Field S] [DecidableEq S] (log : S → S) (fuel : Nat)
    (idx : Index) (env : ScoreEnv S) (terms : List String) :
    ∀ (st st' : List S × List Nat), queryTerms log fuel idx env terms st = some st' →
      TouchedCovers st → TouchedCovers st' ∧ st'.1.length = st.1.length := by
  induction terms with
  | nil =>
    intro st st' h hc
    simp only [queryTerms, Option.some.injEq] at h
    subst h
    exact ⟨hc, rfl⟩
  | cons t ts ih =>
    intro st st' h hc
    simp only [queryTerms] at h
    cases hl : idx.lexicon.lookup t with
    | none => rw [hl] at h; exact ih st st' h hc
    | some e =>
      cases hi : InvList.iterate fuel idx t with
      | none => simp only [hl, hi] at h; cases h
      | some ps =>
        cases hq : queryPostings log env e.df ps st with
        | none => simp only [hl, hi, hq] at h; cases h
        | some st1 =>
          simp only [hl, hi, hq] at h
          obtain ⟨hc1, hl1⟩ := queryPostings_covers log env e.df ps st st1 hq hc
          obtain ⟨hc2, hl2⟩ := ih st1 st' h hc1
          exact ⟨hc2, hl2.trans hl1⟩

theorem touchedScores_keys {S : Type} (sc : List S) : ∀ (touched : List Nat)
    (r : List (Nat × S)), touchedScores sc touched = some r → r.map Prod.fst = touched := by
  intro touched
  induction touched with
  | nil => intro r h; simp only [touchedScores, Option.some.injEq] at h; subst h; rfl
  | cons d ds ih =>
    intro r h
    simp only [touchedScores] at h
    cases h1 : sc[d]? with
    | none => rw [h1] at h; simp at h
    | some v =>
      cases h2 : touchedScores sc ds with
      | none => rw [h1, h2] at h; simp at h
      | some r' =>
        rw [h1, h2] at h
        simp only [Option.some.injEq] at h
        subst h
        simp [ih r' h2]

theorem getElem?_map_const {S : Type} [Zero S] (sc : List S) (d : Nat) :
    sc[d]?.map (fun _ => (0 : S)) = if d < sc.length then some 0 else none := by
  by_cases h : d < sc.length
  · rw [List.getElem?_eq_getElem h, if_pos h]; rfl
  · rw [List.getElem?_eq_none (by omega), if_neg h]; rfl

theorem foldl_reset_getElem? {S : Type} [Zero S] (r : List (Nat × S)) :
    ∀ (sc : List S) (d : Nat),
      (r.foldl (fun sc p => sc.set p.1 0) sc)[d]?
        = if d ∈ r.map Prod.fst then sc[d]?.map (fun _ => 0) else sc[d]? := by
  induction r with
  | nil => intro sc d; simp
  | cons p r ih =>
    intro sc d
    simp only [List.foldl_cons, ih, List.map_cons, List.mem_cons, getElem?_map_const,
      List.getElem?_set, List.length_set]
    by_cases h1 : d ∈ r.map Prod.fst <;> by_cases h2 : p.1 = d
    · subst h2; simp [h1, getElem?_map_const]
    · simp [h1, h2, getElem?_map_const]
    · subst h2; simp [h1, getElem?_map_const]
    · have h3 : ¬ d = p.1 := fun h => h2 h.symm
      simp [h1, h2, h3, getElem?_map_const]

/-- Whatever the query terms are, a call of `query` that starts with an all-zero score array
and an empty `touched` leaves an all-zero score array of the same size and an empty
`touched`. -/
theorem queryScored_resets {S : Type} [Field S] [DecidableEq S] (log : S → S) (fuel : Nat)
    (idx : Index) (env : ScoreEnv S) (terms : List String) (n : Nat)
    (r : List (Nat × S)) (st' : List S × List Nat)
    (h : queryScored log fuel idx env terms (List.replicate n 0, []) = some (r, st')) :
    st' = (List.replicate n 0, []) := by
  unfold queryScored at h
  cases h1 : queryTerms log fuel idx env terms (List.replicate n 0, []) with
  | none => rw [h1] at h; cases h
  | some st1 =>
    obtain ⟨sc, touched⟩ := st1
    rw [h1] at h
    simp only at h
    cases h2 : touchedScores sc touched with
    | none => rw [h2] at h; cases h
    | some r' =>
      rw [h2] at h
      simp only [Option.some.injEq, Prod.mk.injEq] at h
      obtain ⟨rfl, rfl⟩ := h
      have hc0 : TouchedCovers ((List.replicate n 0, []) : List S × List Nat) := by
        intro d v hd hv
        simp only [List.getElem?_replicate] at hd
        split at hd
        · simp only [Option.some.injEq] at hd; exact absurd hd.symm hv
        · cases hd
      obtain ⟨hc, hl⟩ := queryTerms_covers log fuel idx env terms _ _ h1 hc0
      simp only [List.length_replicate] at hl
      have hk := touchedScores_keys sc touched r' h2
      congr 1
      apply List.ext_getElem?
      intro d
      rw [foldl_reset_getElem?, hk]
      by_cases hd : d < n
      · rw [List.getElem?_replicate, if_pos hd]
        have hd' : d < sc.length := by rw [hl]; exact hd
        by_cases ht : d ∈ touched
        · simp [ht, List.getElem?_eq_getElem hd']
        · simp only [ht, if_false]
          rw [List.getElem?_eq_getElem hd']
          by_contra hne
          exact ht (hc d sc[d] (List.getElem?_eq_getElem hd') (by
            intro h0; apply hne; rw [h0]))
      · have hd' : ¬ d < sc.length := by rw [hl]; exact hd
        rw [List.getElem?_replicate, if_neg hd, List.getElem?_eq_none (by omega)]
        simp

/-- C39 (failing input). On the index the merger writes for the two-document corpus
`A = "fox"`, `B = "dog"` every term has `df = N / 2`, so every BM25 contribution is
`ln 1 * ... = 0`. For the query `fox fox`, started with an all-zero score array, both `query`
and `queryBM25` find `sc[0] == 0` again at the second term, push doc 0 onto `touched` a
second time and return the ranking `[(0, 0), (0, 0)]`, which holds doc id 0 twice. The score
array is all zeros after the call. -/
theorem C39_query_repeats_document {S : Type} [LinearOrderedField S] (log : S → S)
    (hlog : log 1 = 0) :
    SortedEntries poppedFoxDog
      ∧ query log 129 indexFoxDog envFoxDog ["fox", "fox"] ([0, 0], [])
        = some ([(0, 0), (0, 0)], ([0, 0], []))
      ∧ queryBM25 log 129 indexFoxDog envFoxDog ["fox", "fox"] ([0, 0], [])
        = some ([(0, 0), (0, 0)], ([0, 0], []))
      ∧ ¬ ([((0 : Nat), (0 : S)), (0, 0)].map Prod.fst).Nodup := by
  obtain ⟨hit, hdf⟩ := iterateFoxDog
  cases hlook : indexFoxDog.lexicon.lookup "fox" with
  | none => rw [hlook] at hdf; cases hdf
  | some e =>
    rw [hlook] at hdf
    simp only [Option.map_some', Option.some.injEq] at hdf
    have hb := bm25FoxDog log hlog
    refine ⟨poppedFoxDog_sorted, ?_, ?_, by simp⟩
    · simp only [query, queryScored, queryTerms, hlook, hit, queryPostings, queryPosting, hdf,
        List.getElem?_cons_zero, hb, add_zero, if_true, List.set_cons_zero, List.nil_append,
        List.cons_append, touchedScores, List.foldl_cons, List.foldl_nil, rankTopK,
        sortByScoreDesc, List.insertionSort, List.orderedInsert, ge_iff_le, le_refl,
        TOP_K, List.take]
    · simp only [queryBM25, queryScored, queryTerms, hlook, hit, queryPostings, queryPosting, hdf,
        List.getElem?_cons_zero, hb, add_zero, if_true, List.set_cons_zero, List.nil_append,
        List.cons_append, touchedScores, List.foldl_cons, List.foldl_nil, rankTopK,
        sortByScoreDesc, List.insertionSort, List.orderedInsert, ge_iff_le, le_refl,
        TOP_K, List.take]

/-- C39's failing input with the real logarithm. -/
theorem C39_query_repeats_document_witness :
    query Real.log 129 indexFoxDog envFoxDog ["fox", "fox"] ([0, 0], [])
        = some ([(0, 0), (0, 0)], ([0, 0], []))
      ∧ ¬ ([((0 : Nat), (0 : ℝ)), (0, 0)].map Prod.fst).Nodup :=
  ⟨(C39_query_repeats_document Real.log Real.log_one).2.1,
    (C39_query_repeats_document Real.log Real.log_one).2.2.2⟩

/-! ## Termination of `nextGEQ` -/

theorem layout_lasts_defined (idx : Index) (e : LexEntry) (cs : List (List Posting))
    (hl : TermLayout idx e cs) (cur : Nat) (hcur : e.startBlock ≤ cur) :
    ∀ i, cur ≤ i → i < cur + (e.startBlock + cs.length - cur) →
      ∃ v, idx.lastDocIDs[i]? = some v := by
  intro i hi1 hi2
  obtain ⟨b', hb'⟩ : ∃ b', cs[i - e.startBlock]? = some b' :=
    ⟨cs[i - e.startBlock], List.getElem?_eq_getElem (by omega)⟩
  have := layout_last idx e cs hl (i - e.startBlock) b' hb'
  have e1 : e.startBlock + (i - e.startBlock) = i := by omega
  rw [e1] at this
  exact ⟨_, this⟩

theorem decompress_defined (idx : Index) (e : LexEntry) (cs : List (List Posting))
    (hl : TermLayout idx e cs) (b : Nat) (h1 : e.startBlock ≤ b)
    (h2 : b < e.startBlock + cs.length) (a : Nat) (docs freqs : List Nat) (pos : Nat)
    (fin : Bool) :
    ∃ docs' freqs',
      InvertedList.decompressBlock idx
          ⟨e.startOffset, e.startBlock, e.numPostings, a, docs, freqs, pos, fin⟩ b
        = some ⟨e.startOffset, e.startBlock, e.numPostings, a, docs', freqs', 0, fin⟩ := by
  have hj : b - e.startBlock < cs.length := by omega
  have hdec := decompress_at idx e cs hl (b - e.startBlock) cs[b - e.startBlock]
    (List.getElem?_eq_getElem hj)
    ⟨e.startOffset, e.startBlock, e.numPostings, a, docs, freqs, pos, fin⟩ rfl rfl rfl
  rw [show e.startBlock + (b - e.startBlock) = b by omega] at hdec
  exact ⟨_, _, hdec⟩

/-- One level of `InvertedList::nextGEQ` on a cursor of a laid-out term: either the call
returns without calling itself, or it calls itself on a cursor with a larger block index
that is below the term's block bound. -/
theorem InvertedList.nextGEQ_step (idx : Index) (e : LexEntry) (cs : List (List Posting))
    (hl : TermLayout idx e cs) (t : Nat) (l : InvertedList) (hc : l.IsCursorOf e) :
    (∃ b l', l'.IsCursorOf e ∧ l.currentBlockIdx ≤ l'.currentBlockIdx
        ∧ ∀ f, InvertedList.nextGEQFuel (f + 1) idx l t = some (b, l')
            ∧ InvertedList.nextGEQCalls (f + 1) idx l t = some [])
    ∨ (∃ l4, l4.IsCursorOf e ∧ l.currentBlockIdx < l4.currentBlockIdx
        ∧ l4.currentBlockIdx < l.endBlock
        ∧ ∀ f, InvertedList.nextGEQFuel (f + 1) idx l t = InvertedList.nextGEQFuel f idx l4 t
            ∧ InvertedList.nextGEQCalls (f + 1) idx l t
                = (InvertedList.nextGEQCalls f idx l4 t).map
                    (fun calls => l4.currentBlockIdx :: calls)) := by
  obtain ⟨so, sbk, np, cur, docs, freqs, pos, fin⟩ := l
  obtain ⟨h1, h2, h3, h4⟩ := hc
  simp only at h1 h2 h3 h4
  subst h1 h2 h3
  have hend : ∀ (a : Nat) (b c : List Nat) (d : Nat) (f : Bool),
      InvertedList.endBlock ⟨e.startOffset, e.startBlock, e.numPostings, a, b, c, d, f⟩
        = e.startBlock + cs.length := by
    intro a b c d f
    simp only [InvertedList.endBlock, hl.count]
  cases fin with
  | true =>
    left
    refine ⟨false, _, ⟨rfl, rfl, rfl, h4⟩, le_refl _, ?_⟩
    intro f
    simp [InvertedList.nextGEQFuel, InvertedList.nextGEQCalls]
  | false =>
    obtain ⟨cur', found, hs, hc1, hc2, hc3, hc4, hc5⟩ :=
      skipBlocks_spec idx.lastDocIDs t (e.startBlock + cs.length - cur) cur
        (layout_lasts_defined idx e cs hl cur h4)
    have hl2 : ∃ docs2 freqs2 pos2,
        (if (found && (docs.isEmpty || decide (pos ≥ docs.length))) = true then
            InvertedList.decompressBlock idx
              ⟨e.startOffset, e.startBlock, e.numPostings, cur', docs, freqs, pos, false⟩ cur'
          else some ⟨e.startOffset, e.startBlock, e.numPostings, cur', docs, freqs, pos, false⟩)
          = some ⟨e.startOffset, e.startBlock, e.numPostings, cur', docs2, freqs2, pos2,
              false⟩ := by
      by_cases hre : (found && (docs.isEmpty || decide (pos ≥ docs.length))) = true
      · have hf : found = true := by
          simp only [Bool.and_eq_true] at hre
          exact hre.1
        obtain ⟨hlt, _⟩ := hc3 hf
        obtain ⟨d2, f2, hdec⟩ := decompress_defined idx e cs hl cur' (by omega) (by omega) cur'
          docs freqs pos false
        rw [if_pos hre, hdec]
        exact ⟨_, _, _, rfl⟩
      · rw [if_neg hre]
        exact ⟨docs, freqs, pos, rfl⟩
    obtain ⟨docs2, freqs2, pos2, hl2⟩ := hl2
    cases hscan : scanFrom t (docs2.drop pos2) pos2 with
    | some q =>
      left
      refine ⟨true, ⟨e.startOffset, e.startBlock, e.numPostings, cur', docs2, freqs2, q, false⟩,
        ⟨rfl, rfl, rfl, by simp only; omega⟩, hc1, ?_⟩
      intro f
      simp only [InvertedList.nextGEQFuel, InvertedList.nextGEQCalls, hend, hs, hl2, hscan,
        Bool.false_eq_true, if_false, and_self]
    | none =>
      by_cases hge : cur' + 1 ≥ e.startBlock + cs.length
      · left
        refine ⟨false, ⟨e.startOffset, e.startBlock, e.numPostings, cur' + 1, docs2, freqs2,
          max pos2 docs2.length, true⟩, ⟨rfl, rfl, rfl, by simp only; omega⟩, by simp only; omega, ?_⟩
        intro f
        simp only [InvertedList.nextGEQFuel, InvertedList.nextGEQCalls, hend, hs, hl2, hscan,
          Bool.false_eq_true, if_false, hge, if_true, and_self]
      · right
        obtain ⟨d4, f4, hdec⟩ := decompress_defined idx e cs hl (cur' + 1) (by omega) (by omega)
          (cur' + 1) docs2 freqs2 (max pos2 docs2.length) false
        refine ⟨⟨e.startOffset, e.startBlock, e.numPostings, cur' + 1, d4, f4, 0, false⟩,
          ⟨rfl, rfl, rfl, by simp only; omega⟩, by simp only; omega, by rw [hend]; simp only; omega, ?_⟩
        intro f
        simp only [InvertedList.nextGEQFuel, InvertedList.nextGEQCalls, hend, hs, hl2, hscan,
          Bool.false_eq_true, if_false, hge, hdec]
        constructor
        · trivial
        · cases InvertedList.nextGEQCalls f idx
            ⟨e.startOffset, e.startBlock, e.numPostings, cur' + 1, d4, f4, 0, false⟩ t <;> rfl

theorem InvertedList.isCursorOf_endBlock (e : LexEntry) (l : InvertedList)
    (hc : l.IsCursorOf e) : l.endBlock = e.startBlock + numBlocks e.numPostings := by
  obtain ⟨_, h2, h3, _⟩ := hc
  simp only [InvertedList.endBlock, numBlocks, h2, h3]

/-- `InvertedList::nextGEQ` on a cursor of a laid-out term returns, whatever block is decoded
and wherever the cursor stands: `end - cur + 1` levels of recursion suffice and more levels
change nothing; the calls it makes on itself have strictly increasing block indices below
the term's block bound, and the block index of the cursor does not decrease. -/
theorem InvertedList.nextGEQ_total (idx : Index) (e : LexEntry) (cs : List (List Posting))
    (hl : TermLayout idx e cs) (t : Nat) (n : Nat) :
    ∀ l : InvertedList, l.IsCursorOf e → l.endBlock - l.currentBlockIdx ≤ n →
      ∃ b l' calls,
        (∀ fuel, n + 1 ≤ fuel →
          InvertedList.nextGEQFuel fuel idx l t = some (b, l')
            ∧ InvertedList.nextGEQCalls fuel idx l t = some calls)
        ∧ l'.IsCursorOf e ∧ l.currentBlockIdx ≤ l'.currentBlockIdx
        ∧ List.Chain (· < ·) l.currentBlockIdx calls
        ∧ ∀ c ∈ calls, c < l.endBlock := by
  induction n using Nat.strong_induction_on with
  | _ n ih =>
    intro l hc hn
    rcases InvertedList.nextGEQ_step idx e cs hl t l hc with
      ⟨b, l', hc', hle, hf⟩ | ⟨l4, hc4, hlt, hlt2, hf⟩
    · refine ⟨b, l', [], ?_, hc', hle, List.Chain.nil, by simp⟩
      intro fuel hfu
      obtain ⟨f, rfl⟩ : ∃ f, fuel = f + 1 := ⟨fuel - 1, by omega⟩
      exact hf f
    · have he : l4.endBlock = l.endBlock := by
        rw [InvertedList.isCursorOf_endBlock e l4 hc4, InvertedList.isCursorOf_endBlock e l hc]
      have hm : l4.endBlock - l4.currentBlockIdx < n := by rw [he]; omega
      obtain ⟨b, l', calls, hres, hc', hle, hch, hbd⟩ := ih _ hm l4 hc4 (le_refl _)
      refine ⟨b, l', l4.currentBlockIdx :: calls, ?_, hc', by omega, List.Chain.cons hlt hch, ?_⟩
      · intro fuel hfu
        obtain ⟨f, rfl⟩ : ∃ f, fuel = f + 1 := ⟨fuel - 1, by omega⟩
        obtain ⟨h1, h2⟩ := hf f
        obtain ⟨h3, h4⟩ := hres f (by omega)
        rw [h1, h2, h3, h4]
        exact ⟨rfl, rfl⟩
      · intro c hcm
        rcases List.mem_cons.mp hcm with rfl | hcm
        · exact hlt2
        · rw [← he]; exact hbd c hcm

/-- `InvertedList::next` on a cursor of a laid-out term returns and does not decrease the
block index. -/
theorem InvertedList.next_total (idx : Index) (e : LexEntry) (cs : List (List Posting))
    (hl : TermLayout idx e cs) (l : InvertedList) (hc : l.IsCursorOf e) :
    ∃ l', InvertedList.next idx l = some l' ∧ l'.IsCursorOf e
      ∧ l.currentBlockIdx ≤ l'.currentBlockIdx := by
  obtain ⟨so, sbk, np, cur, docs, freqs, pos, fin⟩ := l
  obtain ⟨h1, h2, h3, h4⟩ := hc
  simp only at h1 h2 h3 h4
  subst h1 h2 h3
  have hend : ∀ (a : Nat) (b c : List Nat) (d : Nat) (f : Bool),
      InvertedList.endBlock ⟨e.startOffset, e.startBlock, e.numPostings, a, b, c, d, f⟩
        = e.startBlock + cs.length := by
    intro a b c d f
    simp only [InvertedList.endBlock, hl.count]
  by_cases hp : pos + 1 ≥ docs.length
  · by_cases hb : cur + 1 < e.startBlock + cs.length
    · obtain ⟨d4, f4, hdec⟩ := decompress_defined idx e cs hl (cur + 1) (by omega) hb
        (cur + 1) docs freqs (pos + 1) fin
      refine ⟨⟨e.startOffset, e.startBlock, e.numPostings, cur + 1, d4, f4, 0, fin⟩, ?_,
        ⟨rfl, rfl, rfl, ?_⟩, ?_⟩
      · simp only [InvertedList.next, hp, if_true, hend, hb, hdec]
      · simp only; omega
      · simp only; omega
    · refine ⟨⟨e.startOffset, e.startBlock, e.numPostings, cur + 1, docs, freqs, pos + 1,
        true⟩, ?_, ⟨rfl, rfl, rfl, ?_⟩, ?_⟩
      · simp only [InvertedList.next, hp, if_true, hend, hb, if_false]
      · simp only; omega
      · simp only; omega
  · refine ⟨⟨e.startOffset, e.startBlock, e.numPostings, cur, docs, freqs, pos + 1, fin⟩, ?_,
      ⟨rfl, rfl, rfl, ?_⟩, ?_⟩
    · simp only [InvertedList.next, hp, if_false]
    · simp only; omega
    · simp only; omega

theorem InvList.load_defined (idx : Index) (e : LexEntry) (cs : List (List Posting))
    (hl : TermLayout idx e cs) (b : Nat) (h1 : e.startBlock ≤ b)
    (h2 : b < e.startBlock + cs.length) (p : Nat) (docs freqs : List Nat) (dn : Bool) :
    ∃ docs' freqs',
      InvList.load idx ⟨e.startOffset, e.startBlock, e.numPostings, b, p, docs, freqs, dn⟩
        = some ⟨e.startOffset, e.startBlock, e.numPostings, b, 0, docs', freqs', dn⟩ := by
  obtain ⟨d', f', hdec⟩ := decompress_defined idx e cs hl b h1 h2 b docs freqs p dn
  have h := InvList.load_eq idx ⟨e.startOffset, e.startBlock, e.numPostings, b, p, docs, freqs, dn⟩
  simp only [InvList.toInvertedList] at h
  rw [hdec] at h
  cases hld : InvList.load idx
      ⟨e.startOffset, e.startBlock, e.numPostings, b, p, docs, freqs, dn⟩ with
  | none => rw [hld] at h; cases h
  | some l' =>
    rw [hld] at h
    simp only [Option.map_some', Option.some.injEq, InvList.toInvertedList,
      InvertedList.mk.injEq] at h
    obtain ⟨a1, a2, a3, a4, a5, a6, a7, a8⟩ := h
    refine ⟨d', f', ?_⟩
    obtain ⟨o, s, n, b', p', ds, fs, dn'⟩ := l'
    simp only at a1 a2 a3 a4 a5 a6 a7 a8
    subst a1 a2 a3 a4 a5 a6 a7 a8
    rfl

theorem InvList.load_past (idx : Index) (e : LexEntry) (cs : List (List Posting))
    (hl : TermLayout idx e cs) (b : Nat) (h2 : e.startBlock + cs.length ≤ b) (p : Nat)
    (docs freqs : List Nat) (dn : Bool) :
    InvList.load idx ⟨e.startOffset, e.startBlock, e.numPostings, b, p, docs, freqs, dn⟩
      = some ⟨e.startOffset, e.startBlock, e.numPostings, b, p, [], [], true⟩ := by
  have : b ≥ e.startBlock + (e.numPostings + BLOCK_SIZE - 1) / BLOCK_SIZE := by
    rw [hl.count]; exact h2
  simp only [InvList.load, InvList.endBlock, this, if_true]

/-- One level of `InvList::nextGEQ` on a cursor of a laid-out term: either the call returns
without calling itself, and the cursor it leaves is done or has a block index up to the
term's block bound if the cursor it came with was so; or the cursor is not done and the call
calls itself on a cursor with a larger block index, which is done or has a block index below
the bound. -/
theorem InvList.recursion_step (idx : Index) (e : LexEntry) (cs : List (List Posting))
    (hl : TermLayout idx e cs) (t : Nat) (l : InvList) (hc : l.IsCursorOf e) :
    (∃ b l', l'.IsCursorOf e ∧ l.bi ≤ l'.bi
        ∧ ((l.done = true ∨ l.bi ≤ l.endBlock) → (l'.done = true ∨ l'.bi ≤ l.endBlock))
        ∧ ∀ f, InvList.nextGEQFuel (f + 1) idx l t = some (b, l')
            ∧ InvList.nextGEQCalls (f + 1) idx l t = some [])
    ∨ (∃ l3, l.done = false ∧ l3.IsCursorOf e ∧ l.bi < l3.bi
        ∧ l3.bi ≤ max l.bi l.endBlock + 1
        ∧ (l3.done = true ∨ l3.bi < l.endBlock)
        ∧ ∀ f, InvList.nextGEQFuel (f + 1) idx l t = InvList.nextGEQFuel f idx l3 t
            ∧ InvList.nextGEQCalls (f + 1) idx l t
                = (InvList.nextGEQCalls f idx l3 t).map (fun calls => l3.bi :: calls)) := by
  obtain ⟨so, sbk, np, cur, pos, docs, freqs, dn⟩ := l
  obtain ⟨h1, h2, h3, h4⟩ := hc
  simp only at h1 h2 h3 h4
  subst h1 h2 h3
  have hend : ∀ (a d : Nat) (b c : List Nat) (f : Bool),
      InvList.endBlock ⟨e.startOffset, e.startBlock, e.numPostings, a, d, b, c, f⟩
        = e.startBlock + cs.length := by
    intro a d b c f
    simp only [InvList.endBlock, hl.count]
  cases dn with
  | true =>
    left
    refine ⟨false, _, ⟨rfl, rfl, rfl, h4⟩, le_refl _, fun h => h, ?_⟩
    intro f
    simp [InvList.nextGEQFuel, InvList.nextGEQCalls]
  | false =>
    obtain ⟨cur', found, hs, hc1, hc2, hc3, hc4, hc5⟩ :=
      skipBlocks_spec idx.lastDocIDs t (e.startBlock + cs.length - cur) cur
        (layout_lasts_defined idx e cs hl cur h4)
    have hl2 : ∃ docs2 freqs2 pos2,
        (if (found && (docs.isEmpty || decide (pos ≥ docs.length))) = true then
            InvList.load idx
              ⟨e.startOffset, e.startBlock, e.numPostings, cur', pos, docs, freqs, false⟩
          else some ⟨e.startOffset, e.startBlock, e.numPostings, cur', pos, docs, freqs, false⟩)
          = some ⟨e.startOffset, e.startBlock, e.numPostings, cur', pos2, docs2, freqs2,
              false⟩ := by
      by_cases hre : (found && (docs.isEmpty || decide (pos ≥ docs.length))) = true
      · have hf : found = true := by
          simp only [Bool.and_eq_true] at hre
          exact hre.1
        obtain ⟨hlt, _⟩ := hc3 hf
        obtain ⟨d2, f2, hdec⟩ := InvList.load_defined idx e cs hl cur' (by omega) (by omega)
          pos docs freqs false
        rw [if_pos hre, hdec]
        exact ⟨_, _, _, rfl⟩
      · rw [if_neg hre]
        exact ⟨docs, freqs, pos, rfl⟩
    obtain ⟨docs2, freqs2, pos2, hl2⟩ := hl2
    cases hscan : scanFrom t (docs2.drop pos2) pos2 with
    | some q =>
      left
      refine ⟨true, ⟨e.startOffset, e.startBlock, e.numPostings, cur', q, docs2, freqs2, false⟩,
        ⟨rfl, rfl, rfl, by simp only; omega⟩, hc1, ?_, ?_⟩
      · rw [hend]
        simp only [Bool.false_eq_true, false_or]
        intro h
        omega
      intro f
      simp only [InvList.nextGEQFuel, InvList.nextGEQCalls, hend, hs, hl2, hscan,
        Bool.false_eq_true, if_false, and_self]
    | none =>
      right
      by_cases hge : cur' + 1 ≥ e.startBlock + cs.length
      · have hld := InvList.load_past idx e cs hl (cur' + 1) hge (max pos2 docs2.length)
          docs2 freqs2 false
        refine ⟨⟨e.startOffset, e.startBlock, e.numPostings, cur' + 1, max pos2 docs2.length,
          [], [], true⟩, rfl, ⟨rfl, rfl, rfl, by simp only; omega⟩, by simp only; omega, ?_,
          Or.inl rfl, ?_⟩
        · rw [hend]; simp only; omega
        · intro f
          simp only [InvList.nextGEQFuel, InvList.nextGEQCalls, hend, hs, hl2, hscan,
            Bool.false_eq_true, if_false, hld]
          constructor
          · trivial
          · cases InvList.nextGEQCalls f idx
              ⟨e.startOffset, e.startBlock, e.numPostings, cur' + 1, max pos2 docs2.length,
                [], [], true⟩ t <;> rfl
      · obtain ⟨d4, f4, hld⟩ := InvList.load_defined idx e cs hl (cur' + 1) (by omega)
          (by omega) (max pos2 docs2.length) docs2 freqs2 false
        refine ⟨⟨e.startOffset, e.startBlock, e.numPostings, cur' + 1, 0, d4, f4, false⟩, rfl,
          ⟨rfl, rfl, rfl, by simp only; omega⟩, by simp only; omega, ?_, Or.inr ?_, ?_⟩
        · rw [hend]; simp only; omega
        · rw [hend]; simp only; omega
        · intro f
          simp only [InvList.nextGEQFuel, InvList.nextGEQCalls, hend, hs, hl2, hscan,
            Bool.false_eq_true, if_false, hld]
          constructor
          · trivial
          · cases InvList.nextGEQCalls f idx
              ⟨e.startOffset, e.startBlock, e.numPostings, cur' + 1, 0, d4, f4, false⟩ t <;> rfl

theorem InvList.endBlock_of_cursor (e : LexEntry) (l : InvList)
    (hc : l.IsCursorOf e) : l.endBlock = e.startBlock + numBlocks e.numPostings := by
  obtain ⟨_, h2, h3, _⟩ := hc
  simp only [InvList.endBlock, numBlocks, h2, h3]

/-- `InvList::nextGEQ` on a cursor of a laid-out term returns, whatever block is decoded and
wherever the cursor stands: `end - bi + 2` levels of recursion suffice and more levels
change nothing; the calls it makes on itself have strictly increasing block indices, and the
block index of the cursor does not decrease. If the cursor it comes with is done or has a
block index up to the term's block bound, so is the cursor it leaves, and no call it makes
on itself has a block index of more than the bound plus one. -/
theorem InvList.recursion_total (idx : Index) (e : LexEntry) (cs : List (List Posting))
    (hl : TermLayout idx e cs) (t : Nat) (n : Nat) :
    ∀ l : InvList, l.IsCursorOf e → l.endBlock - l.bi ≤ n →
      ∃ b l' calls,
        (∀ fuel, n + 2 ≤ fuel →
          InvList.nextGEQFuel fuel idx l t = some (b, l')
            ∧ InvList.nextGEQCalls fuel idx l t = some calls)
        ∧ l'.IsCursorOf e ∧ l.bi ≤ l'.bi
        ∧ List.Chain (· < ·) l.bi calls
        ∧ ((l.done = true ∨ l.bi ≤ l.endBlock) →
            (l'.done = true ∨ l'.bi ≤ l.endBlock) ∧ ∀ c ∈ calls, c ≤ l.endBlock + 1) := by
  induction n using Nat.strong_induction_on with
  | _ n ih =>
    intro l hc hn
    rcases InvList.recursion_step idx e cs hl t l hc with
      ⟨b, l', hc', hle, hrg, hf⟩ | ⟨l3, hnd, hc3, hlt, hbd3, hdl, hf⟩
    · refine ⟨b, l', [], ?_, hc', hle, List.Chain.nil, fun h => ⟨hrg h, by simp⟩⟩
      intro fuel hfu
      obtain ⟨f, rfl⟩ : ∃ f, fuel = f + 1 := ⟨fuel - 1, by omega⟩
      exact hf f
    · have he : l3.endBlock = l.endBlock := by
        rw [InvList.endBlock_of_cursor e l3 hc3, InvList.endBlock_of_cursor e l hc]
      have hin : (l.done = true ∨ l.bi ≤ l.endBlock) → l.bi ≤ l.endBlock := by
        rintro (h | h)
        · rw [hnd] at h; cases h
        · exact h
      rcases hdl with hdone | hlt3
      · refine ⟨false, l3, [l3.bi], ?_, hc3, by omega,
          List.Chain.cons hlt List.Chain.nil, ?_⟩
        · intro fuel hfu
          obtain ⟨f, rfl⟩ : ∃ f, fuel = f + 2 := ⟨fuel - 2, by omega⟩
          obtain ⟨h1, h2⟩ := hf (f + 1)
          rw [h1, h2]
          simp [InvList.nextGEQFuel, InvList.nextGEQCalls, hdone]
        · intro hr
          have := hin hr
          refine ⟨Or.inl hdone, ?_⟩
          intro c hcm
          rw [List.mem_singleton] at hcm
          rw [hcm]
          omega
      · have hm : l3.endBlock - l3.bi < n := by rw [he]; omega
        obtain ⟨b, l', calls, hres, hc', hle, hch, hbd⟩ := ih _ hm l3 hc3 (le_refl _)
        refine ⟨b, l', l3.bi :: calls, ?_, hc', by omega, List.Chain.cons hlt hch, ?_⟩
        · intro fuel hfu
          obtain ⟨f, rfl⟩ : ∃ f, fuel = f + 1 := ⟨fuel - 1, by omega⟩
          obtain ⟨h1, h2⟩ := hf f
          obtain ⟨h3, h4⟩ := hres f (by omega)
          rw [h1, h2, h3, h4]
          exact ⟨rfl, rfl⟩
        · intro hr
          have hlb := hin hr
          obtain ⟨h5, h6⟩ := hbd (Or.inr (by omega))
          rw [he] at h5 h6
          refine ⟨h5, ?_⟩
          intro c hcm
          rcases List.mem_cons.mp hcm with rfl | hcm
          · omega
          · exact h6 c hcm

theorem new_isCursorOf (idx : Index) (t : String) (e : LexEntry) (cs : List (List Posting))
    (hlook : idx.lexicon.lookup t = some e) (hl : TermLayout idx e cs) (hne : cs ≠ []) :
    (∀ l, InvertedList.new idx t = some l → l.IsCursorOf e)
    ∧ (∀ l, InvList.new idx t = some l → l.IsCursorOf e) := by
  have hpos : 0 < cs.length := List.length_pos.mpr hne
  constructor
  · intro l h
    obtain ⟨d, f, hdec⟩ := decompress_defined idx e cs hl e.startBlock (le_refl _) (by omega)
      e.startBlock [] [] 0 false
    simp only [InvertedList.new, hlook, hdec, Option.some.injEq] at h
    rw [← h]
    exact ⟨rfl, rfl, rfl, le_refl _⟩
  · intro l h
    obtain ⟨d, f, hld⟩ := InvList.load_defined idx e cs hl e.startBlock (le_refl _) (by omega)
      0 [] [] false
    simp only [InvList.new, hlook, hld, Option.some.injEq] at h
    rw [← h]
    exact ⟨rfl, rfl, rfl, le_refl _⟩

/-- Every state an `InvertedList` of a term of a laid-out index can reach is a cursor state
of the term. -/
theorem reachable_isCursorOf (idx : Index) (t : String) (e : LexEntry)
    (cs : List (List Posting)) (hlook : idx.lexicon.lookup t = some e)
    (hl : TermLayout idx e cs) (hne : cs ≠ []) (l : InvertedList) (hr : Reachable idx t l) :
    l.IsCursorOf e := by
  induction hr with
  | new l h => exact (new_isCursorOf idx t e cs hlook hl hne).1 l h
  | nextGEQ l l' target b _ h ih =>
    obtain ⟨b', l'', calls, hres, hc', _⟩ :=
      InvertedList.nextGEQ_total idx e cs hl target _ l ih (le_refl _)
    have := (hres _ (le_refl _)).1
    rw [InvertedList.nextGEQ, this] at h
    simp only [Option.some.injEq, Prod.mk.injEq] at h
    rw [← h.2]
    exact hc'
  | next l l' _ h ih =>
    obtain ⟨l'', h1, h2, _⟩ := InvertedList.next_total idx e cs hl l ih
    rw [h1] at h
    simp only [Option.some.injEq] at h
    rw [← h]
    exact h2

/-- Every state an `InvList` of a term of a laid-out index can reach is a cursor state of
the term that is done or has a block index up to the term's block bound. -/
theorem InvList.reachable_inRange (idx : Index) (t : String) (e : LexEntry)
    (cs : List (List Posting)) (hlook : idx.lexicon.lookup t = some e)
    (hl : TermLayout idx e cs) (hne : cs ≠ []) (l : InvList)
    (hr : InvList.Reachable idx t l) : l.IsCursorOf e ∧ l.InRange e := by
  induction hr with
  | new l h =>
    have hc := (new_isCursorOf idx t e cs hlook hl hne).2 l h
    refine ⟨hc, ?_⟩
    have hpos : 0 < cs.length := List.length_pos.mpr hne
    obtain ⟨d, f, hld⟩ := InvList.load_defined idx e cs hl e.startBlock (le_refl _) (by omega)
      0 [] [] false
    simp only [InvList.new, hlook, hld, Option.some.injEq] at h
    rw [← h]
    right
    simp only
    omega
  | nextGEQ l l' target b _ h ih =>
    obtain ⟨hc, hr⟩ := ih
    obtain ⟨b', l'', calls, hres, hc', _, _, hrg⟩ :=
      InvList.recursion_total idx e cs hl target _ l hc (le_refl _)
    have := (hres _ (le_refl _)).1
    rw [InvList.nextGEQ, this] at h
    simp only [Option.some.injEq, Prod.mk.injEq] at h
    rw [← h.2]
    have he := InvList.endBlock_of_cursor e l hc
    refine ⟨hc', ?_⟩
    have := (hrg (by rw [he]; exact hr)).1
    rw [he] at this
    exact this
  | next l _ ih => exact ih

/-- C40 (amended): in an index the merger wrote, for every term, every target and every
cursor state of the term, the recursive `nextGEQ` of both cursor classes returns: the
recursion depth `end - cur + 1` (`end - bi + 2` for `InvList`) suffices and more fuel gives
the same result; every call `nextGEQ` makes on itself is made with a strictly larger block
index than the call before; no call of `nextGEQ` or `next` decreases the block index. The
cursor states are: for an `InvertedList`, any decoded block, any position and any block
index from the term's first block on; for an `InvList` the same, where the cursor is done or
its block index is at most the bound `end = start_block + ceil(total_postings / 128)`. These
states include every state that can be reached from the constructor by calls of `nextGEQ`
and `next`, and every call leaves such a state. The block index of a recursive call of
`InvertedList::nextGEQ` is below `end`; that of a recursive call of `InvList::nextGEQ` is at
most `end + 1`. -/
theorem C40_nextGEQ_terminates (popped : List TermEntry) (hs : SortedEntries popped)
    (t : String) (ht : ∃ x ∈ popped, x.term = t) :
    ∃ e : LexEntry, (loadIndex (mergeEntries popped)).lexicon.lookup t = some e
      ∧ (∀ l, Reachable (loadIndex (mergeEntries popped)) t l → l.IsCursorOf e)
      ∧ (∀ l, InvList.Reachable (loadIndex (mergeEntries popped)) t l →
          l.IsCursorOf e ∧ l.InRange e)
      ∧ (∀ (l : InvertedList) (target : Nat), l.IsCursorOf e →
          ∃ b l' calls,
            InvertedList.nextGEQ (loadIndex (mergeEntries popped)) l target = some (b, l')
            ∧ (∀ fuel, l.endBlock - l.currentBlockIdx + 1 ≤ fuel →
                InvertedList.nextGEQFuel fuel (loadIndex (mergeEntries popped)) l target
                    = some (b, l')
                ∧ InvertedList.nextGEQCalls fuel (loadIndex (mergeEntries popped)) l target
                    = some calls)
            ∧ List.Chain (· < ·) l.currentBlockIdx calls
            ∧ (∀ c ∈ calls, c < e.startBlock + numBlocks e.numPostings)
            ∧ l.currentBlockIdx ≤ l'.currentBlockIdx
            ∧ l'.IsCursorOf e)
      ∧ (∀ l : InvertedList, l.IsCursorOf e →
          ∃ l', InvertedList.next (loadIndex (mergeEntries popped)) l = some l'
            ∧ l.currentBlockIdx ≤ l'.currentBlockIdx ∧ l'.IsCursorOf e)
      ∧ (∀ (l : InvList) (target : Nat), l.IsCursorOf e → l.InRange e →
          ∃ b l' calls,
            InvList.nextGEQ (loadIndex (mergeEntries popped)) l target = some (b, l')
            ∧ (∀ fuel, l.endBlock - l.bi + 2 ≤ fuel →
                InvList.nextGEQFuel fuel (loadIndex (mergeEntries popped)) l target
                    = some (b, l')
                ∧ InvList.nextGEQCalls fuel (loadIndex (mergeEntries popped)) l target
                    = some calls)
            ∧ List.Chain (· < ·) l.bi calls
            ∧ (∀ c ∈ calls, c ≤ e.startBlock + numBlocks e.numPostings + 1)
            ∧ l.bi ≤ l'.bi
            ∧ l'.IsCursorOf e ∧ l'.InRange e)
      ∧ (∀ l : InvList, l.IsCursorOf e → l.InRange e →
          (InvList.next l).bi = l.bi ∧ (InvList.next l).IsCursorOf e
            ∧ (InvList.next l).InRange e) := by
  obtain ⟨e, hlook, _, _, hl, hne, _⟩ := sorted_term_layout popped t hs ht
  have hcs := chunks_ne_nil _ hne
  refine ⟨e, hlook, ?_, ?_, ?_, ?_, ?_, ?_⟩
  · intro l hr
    exact reachable_isCursorOf _ t e _ hlook hl hcs l hr
  · intro l hr
    exact InvList.reachable_inRange _ t e _ hlook hl hcs l hr
  · intro l target hc
    obtain ⟨b, l', calls, hres, hc', hle, hch, hbd⟩ :=
      InvertedList.nextGEQ_total _ e _ hl target _ l hc (le_refl _)
    refine ⟨b, l', calls, (hres _ (le_refl _)).1, hres, hch, ?_, hle, hc'⟩
    rw [← InvertedList.isCursorOf_endBlock e l hc]
    exact hbd
  · intro l hc
    obtain ⟨l', h1, h2, h3⟩ := InvertedList.next_total _ e _ hl l hc
    exact ⟨l', h1, h3, h2⟩
  · intro l target hc hr
    obtain ⟨b, l', calls, hres, hc', hle, hch, hrg⟩ :=
      InvList.recursion_total _ e _ hl target _ l hc (le_refl _)
    have he := InvList.endBlock_of_cursor e l hc
    obtain ⟨h1, h2⟩ := hrg (by rw [he]; exact hr)
    rw [he] at h1 h2
    exact ⟨b, l', calls, (hres _ (le_refl _)).1, hres, hch, h2, hle, hc', h1⟩
  · intro l hc hr
    exact ⟨rfl, hc, hr⟩

set_option maxRecDepth 100000 in
/-- C40 on the term `"b"` of the index of `poppedSmall`: the cursor the `InvList` constructor
leaves and the cursor `nextGEQ(10)` leaves from it are reachable, so they are cursor states
of the term in range. -/
theorem C40_nextGEQ_terminates_witness :
    ∃ e : LexEntry, (loadIndex (mergeEntries poppedSmall)).lexicon.lookup "b" = some e
      ∧ (InvList.IsCursorOf e ⟨12, 1, 3, 1, 0, [2, 3, 9], [1, 4, 1], false⟩
          ∧ InvList.InRange e ⟨12, 1, 3, 1, 0, [2, 3, 9], [1, 4, 1], false⟩)
      ∧ (InvList.IsCursorOf e ⟨12, 1, 3, 3, 3, [], [], true⟩
          ∧ InvList.InRange e ⟨12, 1, 3, 3, 3, [], [], true⟩) :=
  have ⟨e, h1, _, h3, _⟩ := C40_nextGEQ_terminates poppedSmall poppedSmall_sorted "b"
    ⟨⟨"b", 2, 1, 0⟩, by decide, rfl⟩
  have hnew : InvList.Reachable (loadIndex (mergeEntries poppedSmall)) "b"
      ⟨12, 1, 3, 1, 0, [2, 3, 9], [1, 4, 1], false⟩ :=
    InvList.Reachable.new _ (by decide!)
  ⟨e, h1, h3 _ hnew,
    h3 _ (InvList.Reachable.nextGEQ _ _ 10 false hnew (by decide!))⟩

set_option maxRecDepth 100000 in
/-- C40 (counterexample): on the index of `poppedSmall` the term `"b"` has the one block 1,
so its block bound `start_block + ceil(total_postings / 128)` is 2. `nextGEQ(10)` on a fresh
`InvList` of the term, whose doc ids 2, 3 and 9 are all below the target, leaves the skip
loop with `bi = 2`, finds nothing in the decoded block, increments `bi` to 3, and calls
itself with `bi = 3`, which is above the bound. -/
theorem C40_invList_call_past_bound :
    InvList.new (loadIndex (mergeEntries poppedSmall)) "b"
        = some ⟨12, 1, 3, 1, 0, [2, 3, 9], [1, 4, 1], false⟩
      ∧ InvList.endBlock ⟨12, 1, 3, 1, 0, [2, 3, 9], [1, 4, 1], false⟩ = 2
      ∧ InvList.nextGEQCalls 3 (loadIndex (mergeEntries poppedSmall))
          ⟨12, 1, 3, 1, 0, [2, 3, 9], [1, 4, 1], false⟩ 10 = some [3]
      ∧ InvList.nextGEQ (loadIndex (mergeEntries poppedSmall))
          ⟨12, 1, 3, 1, 0, [2, 3, 9], [1, 4, 1], false⟩ 10
          = some (false, ⟨12, 1, 3, 3, 3, [], [], true⟩)
      ∧ ¬ (∀ c ∈ [3], c ≤ InvList.endBlock ⟨12, 1, 3, 1, 0, [2, 3, 9], [1, 4, 1], false⟩) := by
  refine ⟨?_, ?_, ?_, ?_, ?_⟩ <;> decide!


/-! ## The merger's heap pops the records in order -/

theorem entryLt_iff_key (a b : TermEntry) : entryLt a b ↔ entryKey a < entryKey b := by
  simp only [entryLt, entryKey, Prod.Lex.lt_iff]

theorem gt_iff_key (a b : TermEntry) : a.gt b = true ↔ entryKey b < entryKey a := by
  simp only [TermEntry.gt, entryKey, Prod.Lex.lt_iff]
  by_cases h : a.term = b.term
  · simp [h]
  · have h' : b.term ≠ a.term := fun e => h e.symm
    simp only [ne_eq, h, not_false_eq_true, if_true, strLt_iff, h', false_and, or_false]

theorem pqMin_mem : ∀ (es : List TermEntry) (m : TermEntry), pqMin m es ∈ m :: es := by
  intro es
  induction es with
  | nil => intro m; simp [pqMin]
  | cons e es ih =>
    intro m
    simp only [pqMin]
    split
    · exact List.mem_cons_of_mem _ (ih e)
    · have := ih m
      rcases List.mem_cons.mp this with h | h
      · rw [h]; exact List.mem_cons_self _ _
      · exact List.mem_cons_of_mem _ (List.mem_cons_of_mem _ h)

theorem pqMin_le : ∀ (es : List TermEntry) (m : TermEntry),
    ∀ x ∈ m :: es, entryKey (pqMin m es) ≤ entryKey x := by
  intro es
  induction es with
  | nil => intro m x hx; simp only [List.mem_singleton] at hx; rw [hx]; exact le_refl _
  | cons e es ih =>
    intro m x hx
    simp only [pqMin]
    by_cases hg : m.gt e = true
    · rw [if_pos hg]
      have hlt := (gt_iff_key m e).mp hg
      rcases List.mem_cons.mp hx with h | h
      · rw [h]
        exact le_trans (ih e e (List.mem_cons_self _ _)) hlt.le
      · exact ih e x h
    · rw [if_neg hg]
      have hle : entryKey m ≤ entryKey e := by
        rw [gt_iff_key] at hg
        exact not_lt.mp hg
      rcases List.mem_cons.mp hx with h | h
      · rw [h]; exact ih m m (List.mem_cons_self _ _)
      · rcases List.mem_cons.mp h with h | h
        · rw [h]
          exact le_trans (ih m m (List.mem_cons_self _ _)) hle
        · exact ih m x (List.mem_cons_of_mem _ h)

/-- What `pq.top(); pq.pop();` gives: an entry of the queue that no entry of the queue is
below, and the queue without it. -/
theorem pqPop_spec (pq pq1 : List TermEntry) (entry : TermEntry)
    (h : pqPop pq = some (entry, pq1)) :
    entry ∈ pq ∧ pq1 = pq.erase entry ∧ pq.Perm (entry :: pq1)
      ∧ ∀ x ∈ pq, entryKey entry ≤ entryKey x := by
  cases pq with
  | nil => simp [pqPop] at h
  | cons e es =>
    simp only [pqPop, Option.some.injEq, Prod.mk.injEq] at h
    obtain ⟨h1, h2⟩ := h
    subst h1
    refine ⟨pqMin_mem es e, h2.symm, ?_, pqMin_le es e⟩
    rw [← h2]
    exact List.perm_cons_erase (pqMin_mem es e)

theorem pqPop_none (pq : List TermEntry) (h : pqPop pq = none) : pq = [] := by
  cases pq with
  | nil => rfl
  | cons e es => simp [pqPop] at h

theorem entryKey_tagRecord (i : Nat) (r : RunRecord) :
    entryKey (tagRecord i r) = recordKey r := rfl

theorem mem_tagRuns (runs : List (List RunRecord)) : ∀ (i : Nat) (x : TermEntry),
    x ∈ tagRuns runs i ↔ ∃ k run r, runs[k]? = some run ∧ r ∈ run ∧ x = tagRecord (i + k) r := by
  induction runs with
  | nil => intro i x; simp [tagRuns]
  | cons run runs ih =>
    intro i x
    simp only [tagRuns, List.mem_append, List.mem_map, ih]
    constructor
    · rintro (⟨r, hr, rfl⟩ | ⟨k, run', r, h1, h2, h3⟩)
      · exact ⟨0, run, r, by simp, hr, rfl⟩
      · exact ⟨k + 1, run', r, by simpa using h1, h2, by rw [h3]; congr 1; omega⟩
    · rintro ⟨k, run', r, h1, h2, h3⟩
      cases k with
      | zero =>
        simp only [List.getElem?_cons_zero, Option.some.injEq] at h1
        subst h1
        exact Or.inl ⟨r, h2, h3.symm⟩
      | succ k =>
        simp only [List.getElem?_cons_succ] at h1
        exact Or.inr ⟨k, run', r, h1, h2, by rw [h3]; congr 1; omega⟩

theorem tagRuns_set (runs : List (List RunRecord)) : ∀ (i k : Nat) (r : RunRecord)
    (rest : List RunRecord), runs[k]? = some (r :: rest) →
    (tagRuns runs i).Perm (tagRecord (i + k) r :: tagRuns (runs.set k rest) i) := by
  induction runs with
  | nil => intro i k r rest h; simp at h
  | cons run runs ih =>
    intro i k r rest h
    cases k with
    | zero =>
      simp only [List.getElem?_cons_zero, Option.some.injEq] at h
      subst h
      simp only [tagRuns, List.set_cons_zero, List.map_cons, List.cons_append, Nat.add_zero]
      exact List.Perm.refl _
    | succ k =>
      simp only [List.getElem?_cons_succ] at h
      have := ih (i + 1) k r rest h
      simp only [tagRuns, List.set_cons_succ]
      have e1 : i + 1 + k = i + (k + 1) := by omega
      rw [e1] at this
      exact (List.Perm.append_left _ this).trans List.perm_middle

theorem tagRuns_keys (runs : List (List RunRecord)) : ∀ i : Nat,
    (tagRuns runs i).map entryKey = runs.flatten.map recordKey := by
  induction runs with
  | nil => intro i; rfl
  | cons run runs ih =>
    intro i
    simp only [tagRuns, List.map_append, List.map_map, List.flatten_cons, ih]
    rfl

theorem tagRuns_length (runs : List (List RunRecord)) : ∀ i : Nat,
    (tagRuns runs i).length = (runs.map List.length).sum := by
  induction runs with
  | nil => intro i; rfl
  | cons run runs ih => intro i; simp [tagRuns, ih]

theorem tagRuns_nil_of_empty (runs : List (List RunRecord)) (i : Nat)
    (h : ∀ (k : Nat) (r : RunRecord) (rest : List RunRecord), runs[k]? ≠ some (r :: rest)) :
    tagRuns runs i = [] := by
  apply List.eq_nil_iff_forall_not_mem.mpr
  intro x hx
  obtain ⟨k, run, r, h1, h2, _⟩ := (mem_tagRuns runs i x).mp hx
  cases run with
  | nil => simp at h2
  | cons r0 rest0 => exact h k r0 rest0 h1

/-- The entry the queue pops is not above any entry of the queue or any record still to be
read. -/
theorem heap_pop_min (pq pq1 : List TermEntry) (runFiles : List (List RunRecord))
    (entry : TermEntry) (hinv : HeapInv pq runFiles) (hpop : pqPop pq = some (entry, pq1)) :
    ∀ x ∈ pq ++ tagRuns runFiles 0, entryKey entry ≤ entryKey x := by
  obtain ⟨_, _, _, hmin⟩ := pqPop_spec pq pq1 entry hpop
  intro x hx
  rcases List.mem_append.mp hx with h | h
  · exact hmin x h
  · obtain ⟨k, run, r, h1, h2, h3⟩ := (mem_tagRuns runFiles 0 x).mp h
    cases run with
    | nil => simp at h2
    | cons r0 rest0 =>
      obtain ⟨e, he, hek⟩ := hinv.covered k r0 rest0 h1
      have hb := hinv.below e he (r0 :: rest0) (by rw [hek]; exact h1) r h2
      rw [h3, entryKey_tagRecord]
      exact le_trans (hmin e he) hb.le

/-- One iteration of the merge loop when the run of the popped entry has a next record. -/
theorem heap_step_push (pq pq1 : List TermEntry) (runFiles : List (List RunRecord))
    (entry : TermEntry) (r : RunRecord) (rest : List RunRecord) (hinv : HeapInv pq runFiles)
    (hpop : pqPop pq = some (entry, pq1))
    (hrun : runFiles[entry.fileIndex]? = some (r :: rest)) :
    HeapInv (pq1 ++ [tagRecord entry.fileIndex r]) (runFiles.set entry.fileIndex rest)
      ∧ (pq ++ tagRuns runFiles 0).Perm
          (entry :: ((pq1 ++ [tagRecord entry.fileIndex r])
            ++ tagRuns (runFiles.set entry.fileIndex rest) 0)) := by
  obtain ⟨hmem, herase, hperm, _⟩ := pqPop_spec pq pq1 entry hpop
  have hset := tagRuns_set runFiles 0 entry.fileIndex r rest hrun
  rw [Nat.zero_add] at hset
  have hP : (pq ++ tagRuns runFiles 0).Perm
      (entry :: ((pq1 ++ [tagRecord entry.fileIndex r])
        ++ tagRuns (runFiles.set entry.fileIndex rest) 0)) := by
    refine (List.Perm.append hperm hset).trans ?_
    simp only [List.cons_append, List.append_assoc, List.singleton_append, List.nil_append]
    exact List.Perm.refl _
  have hlt : entry.fileIndex < runFiles.length := by
    by_contra hc
    rw [List.getElem?_eq_none (by omega)] at hrun
    cases hrun
  have hsorted := hinv.sorted entry.fileIndex (r :: rest) hrun
  simp only [List.map_cons, List.pairwise_cons] at hsorted
  refine ⟨⟨?_, ?_, ?_, ?_⟩, hP⟩
  · have := (hP.map entryKey).nodup_iff.mp hinv.nodup
    rw [List.map_cons] at this
    exact (List.nodup_cons.mp this).2
  · intro k run hk
    rw [List.getElem?_set] at hk
    split at hk
    · simp only [Option.some.injEq] at hk
      rw [← hk]
      exact hsorted.2
    · exact hinv.sorted k run hk
  · intro e he run hk x hx
    rw [List.getElem?_set] at hk
    rcases List.mem_append.mp he with h | h
    · have he' : e ∈ pq := by rw [herase] at h; exact List.mem_of_mem_erase h
      split at hk
      · rename_i heq
        simp only [Option.some.injEq] at hk
        rw [← hk] at hx
        exact hinv.below e he' (r :: rest) (by rw [← heq]; exact hrun) x
          (List.mem_cons_of_mem _ hx)
      · exact hinv.below e he' run hk x hx
    · rw [List.mem_singleton] at h
      subst h
      simp only [tagRecord, if_true, hlt, Option.some.injEq] at hk
      rw [← hk] at hx
      rw [entryKey_tagRecord]
      exact hsorted.1 _ (List.mem_map_of_mem _ hx)
  · intro k r' rest' hk
    rw [List.getElem?_set] at hk
    by_cases heq : entry.fileIndex = k
    · exact ⟨tagRecord entry.fileIndex r, by simp, heq⟩
    · rw [if_neg heq] at hk
      obtain ⟨e, he, hek⟩ := hinv.covered k r' rest' hk
      refine ⟨e, ?_, hek⟩
      apply List.mem_append_left
      rw [herase]
      apply (List.mem_erase_of_ne ?_).mpr he
      intro hee
      apply heq
      rw [← hee, hek]

/-- One iteration of the merge loop when the run of the popped entry is at its end. -/
theorem heap_step_drop (pq pq1 : List TermEntry) (runFiles : List (List RunRecord))
    (entry : TermEntry) (hinv : HeapInv pq runFiles) (hpop : pqPop pq = some (entry, pq1))
    (hrun : ∀ (r : RunRecord) (rest : List RunRecord),
      runFiles[entry.fileIndex]? ≠ some (r :: rest)) :
    HeapInv pq1 runFiles
      ∧ (pq ++ tagRuns runFiles 0).Perm (entry :: (pq1 ++ tagRuns runFiles 0)) := by
  obtain ⟨hmem, herase, hperm, _⟩ := pqPop_spec pq pq1 entry hpop
  have hP : (pq ++ tagRuns runFiles 0).Perm (entry :: (pq1 ++ tagRuns runFiles 0)) := by
    have := List.Perm.append_right (tagRuns runFiles 0) hperm
    simpa using this
  refine ⟨⟨?_, hinv.sorted, ?_, ?_⟩, hP⟩
  · have := (hP.map entryKey).nodup_iff.mp hinv.nodup
    rw [List.map_cons] at this
    exact (List.nodup_cons.mp this).2
  · intro e he run hk x hx
    have he' : e ∈ pq := by rw [herase] at he; exact List.mem_of_mem_erase he
    exact hinv.below e he' run hk x hx
  · intro k r' rest' hk
    obtain ⟨e, he, hek⟩ := hinv.covered k r' rest' hk
    refine ⟨e, ?_, hek⟩
    rw [herase]
    apply (List.mem_erase_of_ne ?_).mpr he
    intro hee
    apply hrun r' rest'
    rw [← hee, hek]
    exact hk

theorem sorted_cons_of_min (entry : TermEntry) (old new out : List TermEntry)
    (hnd : (old.map entryKey).Nodup) (hP : old.Perm (entry :: new)) (hout : out.Perm new)
    (hmin : ∀ x ∈ old, entryKey entry ≤ entryKey x)
    (hs : (out.map entryKey).Pairwise (· < ·)) :
    (entry :: out).Perm old ∧ (((entry :: out).map entryKey).Pairwise (· < ·)) := by
  refine ⟨(List.Perm.cons _ hout).trans hP.symm, ?_⟩
  rw [List.map_cons, List.pairwise_cons]
  refine ⟨?_, hs⟩
  intro y hy
  obtain ⟨x, hx, rfl⟩ := List.mem_map.mp hy
  have hxn : x ∈ new := hout.mem_iff.mp hx
  have hxo : x ∈ old := hP.mem_iff.mpr (List.mem_cons_of_mem _ hxn)
  have hnd' := (hP.map entryKey).nodup_iff.mp hnd
  rw [List.map_cons] at hnd'
  have hne : entryKey entry ≠ entryKey x := by
    intro heq
    apply (List.nodup_cons.mp hnd').1
    rw [heq]
    exact List.mem_map_of_mem _ hxn
  exact lt_of_le_of_ne (hmin x hxo) hne

/-- From a state of the merge loop the loop pops every entry of the queue and every record
still to be read, in strictly ascending order of `(term, doc_id)`. -/
theorem heapLoop_sorted (fuel : Nat) : ∀ (pq : List TermEntry)
    (runFiles : List (List RunRecord)), HeapInv pq runFiles →
    (pq ++ tagRuns runFiles 0).length ≤ fuel →
    (heapLoop fuel pq runFiles).Perm (pq ++ tagRuns runFiles 0)
      ∧ ((heapLoop fuel pq runFiles).map entryKey).Pairwise (· < ·) := by
  induction fuel with
  | zero =>
    intro pq runFiles _ hlen
    have : pq ++ tagRuns runFiles 0 = [] := List.eq_nil_of_length_eq_zero (by omega)
    rw [this]
    simp [heapLoop]
  | succ fuel ih =>
    intro pq runFiles hinv hlen
    cases hpop : pqPop pq with
    | none =>
      have hpq := pqPop_none pq hpop
      subst hpq
      have : tagRuns runFiles 0 = [] := by
        apply tagRuns_nil_of_empty
        intro k r rest hk
        obtain ⟨e, he, _⟩ := hinv.covered k r rest hk
        simp at he
      simp [heapLoop, pqPop, this]
    | some res =>
      obtain ⟨entry, pq1⟩ := res
      have hmin := heap_pop_min pq pq1 runFiles entry hinv hpop
      cases hrun : runFiles[entry.fileIndex]? with
      | none =>
        obtain ⟨hinv', hP⟩ := heap_step_drop pq pq1 runFiles entry hinv hpop
          (by intro r rest; rw [hrun]; simp)
        have hl : (pq1 ++ tagRuns runFiles 0).length ≤ fuel := by
          have := hP.length_eq
          simp only [List.length_cons] at this
          omega
        obtain ⟨h1, h2⟩ := ih pq1 runFiles hinv' hl
        simp only [heapLoop, hpop, hrun]
        exact sorted_cons_of_min entry _ _ _ hinv.nodup hP h1 hmin h2
      | some run =>
        cases run with
        | nil =>
          obtain ⟨hinv', hP⟩ := heap_step_drop pq pq1 runFiles entry hinv hpop
            (by intro r rest; rw [hrun]; simp)
          have hl : (pq1 ++ tagRuns runFiles 0).length ≤ fuel := by
            have := hP.length_eq
            simp only [List.length_cons] at this
            omega
          obtain ⟨h1, h2⟩ := ih pq1 runFiles hinv' hl
          simp only [heapLoop, hpop, hrun]
          exact sorted_cons_of_min entry _ _ _ hinv.nodup hP h1 hmin h2
        | cons r rest =>
          obtain ⟨hinv', hP⟩ := heap_step_push pq pq1 runFiles entry r rest hinv hpop hrun
          have hl : ((pq1 ++ [tagRecord entry.fileIndex r])
              ++ tagRuns (runFiles.set entry.fileIndex rest) 0).length ≤ fuel := by
            have := hP.length_eq
            simp only [List.length_cons] at this
            omega
          obtain ⟨h1, h2⟩ := ih _ _ hinv' hl
          simp only [heapLoop, hpop, hrun]
          exact sorted_cons_of_min entry _ _ _ hinv.nodup hP h1 hmin h2

theorem heapInit_snd (runs : List (List RunRecord)) : ∀ (i k : Nat),
    (heapInit runs i).2[k]? = (runs[k]?).map List.tail := by
  induction runs with
  | nil => intro i k; simp [heapInit]
  | cons run runs ih =>
    intro i k
    cases run with
    | nil =>
      cases k with
      | zero => simp [heapInit]
      | succ k => simp [heapInit, ih]
    | cons r rest =>
      cases k with
      | zero => simp [heapInit]
      | succ k => simp [heapInit, ih]

theorem heapInit_fst_mem (runs : List (List RunRecord)) : ∀ (i : Nat) (e : TermEntry),
    e ∈ (heapInit runs i).1
      ↔ ∃ k r rest, runs[k]? = some (r :: rest) ∧ e = tagRecord (i + k) r := by
  induction runs with
  | nil => intro i e; simp [heapInit]
  | cons run runs ih =>
    intro i e
    have hshift : (∃ k r rest, runs[k]? = some (r :: rest) ∧ e = tagRecord (i + 1 + k) r)
        ↔ ∃ k r rest, (run :: runs)[k + 1]? = some (r :: rest)
            ∧ e = tagRecord (i + (k + 1)) r := by
      constructor
      · rintro ⟨k, r, rest, h1, h2⟩
        exact ⟨k, r, rest, by simpa using h1, by rw [h2]; congr 1; omega⟩
      · rintro ⟨k, r, rest, h1, h2⟩
        exact ⟨k, r, rest, by simpa using h1, by rw [h2]; congr 1; omega⟩
    cases run with
    | nil =>
      simp only [heapInit, ih, hshift]
      constructor
      · rintro ⟨k, r, rest, h1, h2⟩
        exact ⟨k + 1, r, rest, h1, h2⟩
      · rintro ⟨k, r, rest, h1, h2⟩
        cases k with
        | zero => simp at h1
        | succ k => exact ⟨k, r, rest, h1, h2⟩
    | cons r0 rest0 =>
      simp only [heapInit, List.mem_cons, ih, hshift]
      constructor
      · rintro (h | ⟨k, r, rest, h1, h2⟩)
        · exact ⟨0, r0, rest0, by simp, h⟩
        · exact ⟨k + 1, r, rest, h1, h2⟩
      · rintro ⟨k, r, rest, h1, h2⟩
        cases k with
        | zero =>
          simp only [List.getElem?_cons_zero, Option.some.injEq, List.cons.injEq] at h1
          left
          rw [h2, h1.1]
          rfl
        | succ k => exact Or.inr ⟨k, r, rest, h1, h2⟩

theorem heapInit_perm (runs : List (List RunRecord)) : ∀ i : Nat,
    ((heapInit runs i).1 ++ tagRuns (heapInit runs i).2 i).Perm (tagRuns runs i) := by
  induction runs with
  | nil => intro i; simp [heapInit, tagRuns]
  | cons run runs ih =>
    intro i
    cases run with
    | nil =>
      simp only [heapInit, tagRuns, List.map_nil, List.nil_append]
      exact ih (i + 1)
    | cons r rest =>
      simp only [heapInit, tagRuns, List.map_cons, List.cons_append]
      refine List.Perm.cons _ ?_
      refine List.Perm.trans ?_ (List.Perm.append_left _ (ih (i + 1)))
      rw [← List.append_assoc, ← List.append_assoc]
      exact List.Perm.append_right _ List.perm_append_comm

theorem recordKeyLt_iff (a b : RunRecord) : recordKeyLt a b ↔ recordKey a < recordKey b := by
  simp only [recordKeyLt, recordKey, Prod.Lex.lt_iff, strLt_iff]

/-- Runs that are ascending and share no `(term, doc_id)` pair are strictly ascending. -/
theorem runs_strict (runs : List (List RunRecord))
    (hasc : ∀ run ∈ runs, run.Pairwise (fun a b => ¬ recordKeyLt b a))
    (hnd : (runs.flatten.map (fun r => (r.1, r.2.1))).Nodup) :
    (runs.flatten.map recordKey).Nodup
      ∧ ∀ run ∈ runs, (run.map recordKey).Pairwise (· < ·) := by
  have hk : (runs.flatten.map recordKey).Nodup := by
    have : runs.flatten.map recordKey
        = (runs.flatten.map (fun r => (r.1, r.2.1))).map toLex := by
      rw [List.map_map]; rfl
    rw [this]
    exact hnd.map toLex.injective
  refine ⟨hk, ?_⟩
  intro run hrun
  have hsub : (run.map recordKey).Sublist (runs.flatten.map recordKey) :=
    (List.sublist_flatten_of_mem hrun).map _
  have hne : (run.map recordKey).Pairwise (· ≠ ·) := hsub.nodup hk
  have hle : (run.map recordKey).Pairwise (· ≤ ·) := by
    rw [List.pairwise_map]
    refine (hasc run hrun).imp ?_
    intro a b h
    rw [recordKeyLt_iff] at h
    exact not_lt.mp h
  exact (hle.and hne).imp (fun h => lt_of_le_of_ne h.1 h.2)

/-- The state the initialisation loop leaves is a state of the merge loop, and the queue with
what is left of the runs holds every record once. -/
theorem heapInit_inv (runs : List (List RunRecord))
    (hasc : ∀ run ∈ runs, run.Pairwise (fun a b => ¬ recordKeyLt b a))
    (hnd : (runs.flatten.map (fun r => (r.1, r.2.1))).Nodup) :
    HeapInv (heapInit runs 0).1 (heapInit runs 0).2 := by
  obtain ⟨hk, hstrict⟩ := runs_strict runs hasc hnd
  have hrun : ∀ (k : Nat) (run : List RunRecord), runs[k]? = some run →
      (run.map recordKey).Pairwise (· < ·) := by
    intro k run h
    exact hstrict run (List.mem_iff_getElem?.mpr ⟨k, h⟩)
  refine ⟨?_, ?_, ?_, ?_⟩
  · rw [((heapInit_perm runs 0).map entryKey).nodup_iff, tagRuns_keys]
    exact hk
  · intro k run h
    rw [heapInit_snd] at h
    cases hr : runs[k]? with
    | none => rw [hr] at h; cases h
    | some run0 =>
      rw [hr] at h
      simp only [Option.map_some', Option.some.injEq] at h
      rw [← h]
      have := hrun k run0 hr
      cases run0 with
      | nil => simp
      | cons r rest =>
        simp only [List.map_cons, List.pairwise_cons] at this
        exact this.2
  · intro e he run h x hx
    obtain ⟨k, r, rest, h1, h2⟩ := (heapInit_fst_mem runs 0 e).mp he
    rw [Nat.zero_add] at h2
    rw [h2, heapInit_snd] at h
    simp only [tagRecord, h1, Option.map_some', List.tail_cons, Option.some.injEq] at h
    rw [← h] at hx
    have := hrun k (r :: rest) h1
    simp only [List.map_cons, List.pairwise_cons] at this
    rw [h2, entryKey_tagRecord]
    exact this.1 _ (List.mem_map_of_mem _ hx)
  · intro k r rest h
    rw [heapInit_snd] at h
    cases hr : runs[k]? with
    | none => rw [hr] at h; cases h
    | some run0 =>
      rw [hr] at h
      simp only [Option.map_some', Option.some.injEq] at h
      cases run0 with
      | nil => simp at h
      | cons r0 rest0 =>
        refine ⟨tagRecord k r0, ?_, rfl⟩
        rw [heapInit_fst_mem]
        exact ⟨k, r0, rest0, hr, by rw [Nat.zero_add]⟩

/-- In a list that is strictly ascending by `(term, doc_id)` the entries of a term stand
together, behind the entries of smaller terms and before those of greater terms, and their
doc ids increase strictly. -/
theorem sorted_term_contiguous (t : String) : ∀ l : List TermEntry, l.Pairwise entryLt →
    ∃ pre post, l = pre ++ l.filter (fun e => e.term = t) ++ post
      ∧ (∀ x ∈ pre, x.term < t) ∧ (∀ x ∈ post, t < x.term)
      ∧ ((l.filter (fun e => e.term = t)).map TermEntry.docID).Pairwise (· < ·) := by
  intro l
  induction l with
  | nil => intro _; exact ⟨[], [], rfl, by simp, by simp, by simp⟩
  | cons a l ih =>
    intro h
    rw [List.pairwise_cons] at h
    obtain ⟨pre, post, h1, h2, h3, h4⟩ := ih h.2
    have hlt : ∀ x ∈ l, a.term < x.term ∨ (a.term = x.term ∧ a.docID < x.docID) := h.1
    rcases lt_trichotomy a.term t with hat | hat | hat
    · have hf : (a :: l).filter (fun e => e.term = t) = l.filter (fun e => e.term = t) := by
        rw [List.filter_cons_of_neg]
        simpa using hat.ne
      refine ⟨a :: pre, post, ?_, ?_, h3, by rw [hf]; exact h4⟩
      · rw [hf]
        simp only [List.cons_append]
        rw [← h1]
      · intro x hx
        rcases List.mem_cons.mp hx with rfl | hx
        · exact hat
        · exact h2 x hx
    · have hf : (a :: l).filter (fun e => e.term = t)
          = a :: l.filter (fun e => e.term = t) := by
        rw [List.filter_cons_of_pos]
        simpa using hat
      have hpre : pre = [] := by
        apply List.eq_nil_iff_forall_not_mem.mpr
        intro x hx
        have hxl : x ∈ l := by rw [h1]; simp [hx]
        have := h2 x hx
        rcases hlt x hxl with h5 | h5
        · rw [hat] at h5; exact lt_asymm h5 this
        · rw [hat] at h5; exact this.ne h5.1.symm
      subst hpre
      refine ⟨[], post, ?_, by simp, h3, ?_⟩
      · rw [hf]
        simp only [List.nil_append, List.cons_append] at h1 ⊢
        rw [← h1]
      · rw [hf, List.map_cons, List.pairwise_cons]
        refine ⟨?_, h4⟩
        intro d hd
        obtain ⟨x, hx, rfl⟩ := List.mem_map.mp hd
        have hxl := List.mem_of_mem_filter hx
        have hxt : x.term = t := by simpa using (List.mem_filter.mp hx).2
        rcases hlt x hxl with h5 | h5
        · rw [hat, hxt] at h5; exact absurd h5 (lt_irrefl _)
        · exact h5.2
    · have hall : ∀ x ∈ l, t < x.term := by
        intro x hx
        rcases hlt x hx with h5 | h5
        · exact lt_trans hat h5
        · rw [← h5.1]; exact hat
      have hf0 : l.filter (fun e => e.term = t) = [] := by
        rw [List.filter_eq_nil_iff]
        intro x hx
        simpa using (hall x hx).ne.symm
      have hf : (a :: l).filter (fun e => e.term = t) = [] := by
        rw [List.filter_cons_of_neg, hf0]
        simpa using hat.ne.symm
      refine ⟨[], a :: l, by rw [hf]; rfl, by simp, ?_, by rw [hf]; simp⟩
      intro x hx
      rcases List.mem_cons.mp hx with rfl | hx
      · exact hat
      · exact hall x hx

/-- C38: for any number of runs, each ascending by `(term, doc_id)` and with no
`(term, doc_id)` pair occurring twice overall, the sequence of entries the merger pops from
its min-heap is a permutation of the union of the runs (every record of every run, with the
number of its run) and is strictly ascending by `(term, doc_id)`; hence for every term the
entries of the term are popped one after the other, after all entries of smaller terms and
before all entries of greater terms, in strictly increasing doc order. -/
theorem C38_heap_pops_sorted (runs : List (List RunRecord))
    (hasc : ∀ run ∈ runs, run.Pairwise (fun a b => ¬ recordKeyLt b a))
    (hnd : (runs.flatten.map (fun r => (r.1, r.2.1))).Nodup) :
    (popSequence runs).Perm (tagRuns runs 0)
    ∧ ((popSequence runs).map (fun e => (e.term, e.docID, e.freq))).Perm runs.flatten
    ∧ (popSequence runs).Pairwise entryLt
    ∧ ∀ t : String, ∃ pre post,
        popSequence runs = pre ++ (popSequence runs).filter (fun e => e.term = t) ++ post
        ∧ (∀ x ∈ pre, x.term < t) ∧ (∀ x ∈ post, t < x.term)
        ∧ (((popSequence runs).filter (fun e => e.term = t)).map TermEntry.docID).Pairwise
            (· < ·) := by
  have hinv := heapInit_inv runs hasc hnd
  have hP0 := heapInit_perm runs 0
  have hlen : ((heapInit runs 0).1 ++ tagRuns (heapInit runs 0).2 0).length
      ≤ (runs.map List.length).sum := by
    rw [hP0.length_eq, tagRuns_length]
  obtain ⟨h1, h2⟩ := heapLoop_sorted _ _ _ hinv hlen
  have hperm : (popSequence runs).Perm (tagRuns runs 0) := h1.trans hP0
  have hsorted : (popSequence runs).Pairwise entryLt := by
    rw [List.pairwise_map] at h2
    exact h2.imp (fun h => (entryLt_iff_key _ _).mpr h)
  refine ⟨hperm, ?_, hsorted, fun t => sorted_term_contiguous t _ hsorted⟩
  have := hperm.map (fun e : TermEntry => (e.term, e.docID, e.freq))
  refine this.trans ?_
  have hflat : ∀ (rs : List (List RunRecord)) (i : Nat),
      (tagRuns rs i).map (fun e : TermEntry => (e.term, e.docID, e.freq)) = rs.flatten := by
    intro rs
    induction rs with
    | nil => intro i; rfl
    | cons run rs ih =>
      intro i
      simp only [tagRuns, List.map_append, List.map_map, List.flatten_cons, ih]
      congr 1
      exact List.map_id _
  rw [hflat]

/-- C38 on two runs over the terms `"a"` and `"b"`. -/
theorem C38_heap_pops_sorted_witness :
    (popSequence [[("a", 1, 2), ("b", 2, 1), ("b", 3, 4)], [("a", 5, 1), ("b", 9, 1)]]).Pairwise
        entryLt
    ∧ popSequence [[("a", 1, 2), ("b", 2, 1), ("b", 3, 4)], [("a", 5, 1), ("b", 9, 1)]]
        = poppedSmall :=
  ⟨(C38_heap_pops_sorted [[("a", 1, 2), ("b", 2, 1), ("b", 3, 4)], [("a", 5, 1), ("b", 9, 1)]]
      (by
        show ∀ run ∈ [[("a", 1, 2), ("b", 2, 1), ("b", 3, 4)], [("a", 5, 1), ("b", 9, 1)]],
          run.Pairwise (fun a b : RunRecord =>
            ¬ (strLt b.1 a.1 = true ∨ (b.1 = a.1 ∧ b.2.1 < a.2.1)))
        decide)
      (by decide)).2.2.1, by decide⟩


/-! ## The enriched analyzer -/

theorem tokenizeLoop_tokens (s : List Nat) : ∀ (w : String) (t : List String),
    tokenizeLoop s w t = t ++ tokenizeLoop s w [] := by
  induction s with
  | nil =>
    intro w t
    simp only [tokenizeLoop]
    split <;> simp
  | cons c s ih =>
    intro w t
    simp only [tokenizeLoop]
    split
    · exact ih _ t
    · split
      · rw [ih "" (t ++ [w]), ih "" ([] ++ [w])]
        simp
      · exact ih _ t

/-- The enriched loop from any state does to the words what the basic loop does, except that
a word is dropped when it fails the length and stopword test and stemmed when it passes it. -/
theorem enrichedLoop_spec (s : List Nat) : ∀ (w : String) (t : List String),
    enrichedLoop s w t
      = t ++ ((tokenizeLoop s w []).filter keepWord).map PorterStemmer.stem := by
  induction s with
  | nil =>
    intro w t
    simp only [enrichedLoop, tokenizeLoop]
    by_cases hw : w = ""
    · subst hw; simp
    · by_cases hk : keepWord w = true
      · simp [hw, hk]
      · simp [hw, hk]
  | cons c s ih =>
    intro w t
    simp only [enrichedLoop, tokenizeLoop]
    by_cases hc : isalnum c = true
    · simp only [hc, if_true]
      exact ih _ t
    · simp only [hc, Bool.false_eq_true, if_false]
      by_cases hw : w = ""
      · subst hw
        simp only [ne_eq, not_true_eq_false, if_false]
        exact ih _ t
      · simp only [ne_eq, hw, not_false_eq_true, if_true, List.nil_append]
        rw [tokenizeLoop_tokens s "" [w]]
        by_cases hk : keepWord w = true
        · simp only [hk, if_true]
          rw [ih "" (t ++ [PorterStemmer.stem w])]
          simp [hk]
        · simp only [hk, Bool.false_eq_true, if_false]
          rw [ih "" t]
          simp [hk]

theorem queryTokenizeLoop_eq (s : List Nat) : ∀ (w : String) (t : List String),
    queryTokenizeLoop s w t = enrichedLoop s w t := by
  induction s with
  | nil => intro w t; rfl
  | cons c s ih => intro w t; simp only [queryTokenizeLoop, enrichedLoop, ih]

theorem hybridTokenizeLoop_eq (s : List Nat) : ∀ (w : String) (t : List String),
    hybridTokenizeLoop s w t = enrichedLoop s w t := by
  induction s with
  | nil => intro w t; rfl
  | cons c s ih => intro w t; simp only [hybridTokenizeLoop, enrichedLoop, ih]

/-- C31: for every byte string `s`, the enriched `tokenize(s)` of the indexer is the basic
`tokenize(s)` without the tokens of length at most 1 and without the tokens in `STOPWORDS`,
with `PorterStemmer::stem` applied to each token that is left, in the same order; and the
copies of the enriched tokenizer in `src/bm25/query.cpp` and `src/bm25/hybrid_query.cpp`
return the same list as the one in `src/bm25/indexer.cpp`. -/
theorem C31_enriched_tokenize (s : List Nat) :
    enrichedTokenize s
        = ((tokenize s).filter (fun w => decide (w.length > 1) && !decide (w ∈ STOPWORDS))).map
            PorterStemmer.stem
      ∧ queryTokenize s = enrichedTokenize s
      ∧ hybridTokenize s = enrichedTokenize s := by
  refine ⟨?_, queryTokenizeLoop_eq s "" [], hybridTokenizeLoop_eq s "" []⟩
  have := enrichedLoop_spec s "" []
  simpa [enrichedTokenize, tokenize, keepWord] using this

theorem m_nil : PorterStemmer.m [] = 0 := rfl

theorem m_pos_ne_nil (t : List Char) (h : 0 < PorterStemmer.m t) : t ≠ [] := by
  intro h0
  rw [h0, m_nil] at h
  exact absurd h (lt_irrefl _)

theorem hasV_ne_nil (t : List Char) (h : PorterStemmer.hasV t = true) : t ≠ [] := by
  intro h0
  rw [h0] at h
  cases h

theorem dblC_length (s : List Char) (h : PorterStemmer.dblC s = true) : 2 ≤ s.length := by
  simp only [PorterStemmer.dblC, Bool.and_eq_true, decide_eq_true_eq] at h
  exact h.1.1

theorem take_pred_ne_nil (s : List Char) (h : 2 ≤ s.length) : s.take (s.length - 1) ≠ [] := by
  intro h0
  have := congrArg List.length h0
  rw [List.length_take] at this
  simp only [List.length_nil] at this
  omega

theorem append_data_ne_nil (t : List Char) (r : String) (h : r ≠ "") : t ++ r.data ≠ [] := by
  intro h0
  have := (List.append_eq_nil.mp h0).2
  apply h
  cases r
  simp only at this
  subst this
  rfl

theorem step1a_ne_nil (s : List Char) (h : 2 ≤ s.length) : PorterStemmer.step1a s ≠ [] := by
  have hs : s ≠ [] := by intro h0; rw [h0] at h; simp at h
  unfold PorterStemmer.step1a
  split
  · exact append_data_ne_nil _ _ (by decide)
  · split
    · exact append_data_ne_nil _ _ (by decide)
    · split
      · exact take_pred_ne_nil s h
      · exact hs

theorem step1b_ne_nil (s : List Char) (hs : s ≠ []) : (PorterStemmer.step1b s).1 ≠ [] := by
  unfold PorterStemmer.step1b
  split
  · split
    · exact append_data_ne_nil _ _ (by decide)
    · exact hs
  · split
    · simp only
      split
      · rename_i hv; exact hasV_ne_nil _ hv
      · exact hs
    · split
      · simp only
        split
        · rename_i hv; exact hasV_ne_nil _ hv
        · exact hs
      · exact hs

theorem step1bTidy_ne_nil (s : List Char) (hs : s ≠ []) : PorterStemmer.step1bTidy s ≠ [] := by
  unfold PorterStemmer.step1bTidy
  split
  · exact append_data_ne_nil _ _ (by decide)
  · split
    · rename_i hd
      simp only [Bool.and_eq_true] at hd
      exact take_pred_ne_nil s (dblC_length s hd.1.1.1)
    · split
      · exact append_data_ne_nil _ _ (by decide)
      · exact hs

theorem step1c_ne_nil (s : List Char) (hs : s ≠ []) : PorterStemmer.step1c s ≠ [] := by
  unfold PorterStemmer.step1c
  split
  · exact append_data_ne_nil _ _ (by decide)
  · exact hs

theorem stepTable_ne_nil (s : List Char) (hs : s ≠ []) :
    ∀ table : List (String × String), PorterStemmer.stepTable s table ≠ [] := by
  intro table
  induction table with
  | nil => exact hs
  | cons p rest ih =>
    simp only [PorterStemmer.stepTable]
    split
    · split
      · rename_i hm
        intro h0
        exact m_pos_ne_nil _ hm (List.append_eq_nil.mp h0).1
      · exact hs
    · exact ih

theorem step4_ne_nil (s : List Char) (hs : s ≠ []) :
    ∀ table : List String, PorterStemmer.step4 s table ≠ [] := by
  intro table
  induction table with
  | nil => exact hs
  | cons x rest ih =>
    simp only [PorterStemmer.step4]
    split
    · split
      · rename_i hm
        have ht := m_pos_ne_nil _ (Nat.lt_of_succ_lt hm)
        split
        · split
          · exact ht
          · exact hs
        · exact ht
      · exact hs
    · exact ih

theorem step5a_ne_nil (s : List Char) (hs : s ≠ []) : PorterStemmer.step5a s ≠ [] := by
  unfold PorterStemmer.step5a
  split
  · simp only
    split
    · rename_i hm
      apply m_pos_ne_nil
      simp only [Bool.or_eq_true, decide_eq_true_eq, Bool.and_eq_true, beq_iff_eq] at hm
      rcases hm with hm | hm
      · omega
      · omega
    · exact hs
  · exact hs

theorem step5b_ne_nil (s : List Char) (hs : s ≠ []) : PorterStemmer.step5b s ≠ [] := by
  unfold PorterStemmer.step5b
  split
  · rename_i hd
    simp only [Bool.and_eq_true] at hd
    exact take_pred_ne_nil s (dblC_length s hd.1.2)
  · exact hs

/-- The stemmer never returns the empty word for a word that is not empty. -/
theorem stemChars_ne_nil (w : List Char) (hw : w ≠ []) : PorterStemmer.stemChars w ≠ [] := by
  unfold PorterStemmer.stemChars
  split
  · exact hw
  · rename_i hl
    simp only
    apply step5b_ne_nil
    apply step5a_ne_nil
    apply step4_ne_nil
    apply stepTable_ne_nil
    apply stepTable_ne_nil
    apply step1c_ne_nil
    have h1 := step1a_ne_nil w (by omega)
    have h2 := step1b_ne_nil _ h1
    split
    · exact step1bTidy_ne_nil _ h2
    · exact h2

theorem string_mk_ne_empty (l : List Char) : String.mk l ≠ "" ↔ l ≠ [] := by
  constructor
  · intro h h0; apply h; rw [h0]
  · intro h h0
    apply h
    have := congrArg String.data h0
    exact this

/-- C32: `PorterStemmer::stem(w)` is non-empty for every non-empty word `w` (whatever its
characters are, so in particular for the lowercase alphanumeric words the tokenizer hands
to it), a word of length at most 2 is returned unchanged, and every term the enriched
analyzer emits is a non-empty string. -/
theorem C32_stem_nonempty (w : String) (hw : w ≠ "") :
    PorterStemmer.stem w ≠ ""
      ∧ (w.length ≤ 2 → PorterStemmer.stem w = w)
      ∧ ∀ s : List Nat, ∀ t ∈ enrichedTokenize s, t ≠ "" := by
  refine ⟨?_, ?_, ?_⟩
  · unfold PorterStemmer.stem
    rw [string_mk_ne_empty]
    apply stemChars_ne_nil
    intro h0
    apply hw
    cases w
    simp only at h0
    subst h0
    rfl
  · intro hl
    have : w.data.length ≤ 2 := hl
    simp only [PorterStemmer.stem, PorterStemmer.stemChars, this, if_true]
  · intro s t ht
    have := enrichedLoop_spec s "" []
    simp only [List.nil_append] at this
    rw [enrichedTokenize, this, List.mem_map] at ht
    obtain ⟨x, hx, rfl⟩ := ht
    have hk := (List.mem_filter.mp hx).2
    simp only [keepWord, Bool.and_eq_true, decide_eq_true_eq] at hk
    have hxne : x ≠ "" := by
      intro h0
      rw [h0] at hk
      exact absurd hk.1 (by decide)
    unfold PorterStemmer.stem
    rw [string_mk_ne_empty]
    apply stemChars_ne_nil
    intro h0
    apply hxne
    cases x
    simp only at h0
    subst h0
    rfl

/-- C32 on the word `ies`, which the stemmer cuts down to one letter. -/
theorem C32_stem_nonempty_witness :
    PorterStemmer.stem "ies" ≠ "" ∧ PorterStemmer.stem "ies" = "i" :=
  ⟨(C32_stem_nonempty "ies" (by decide)).1, by decide⟩

theorem skipWhile_ge (p : Nat → Bool) (n : Nat) : ∀ k i : Nat,
    i ≤ PorterStemmer.skipWhile p n k i := by
  intro k
  induction k with
  | zero => intro i; exact le_refl _
  | succ k ih =>
    intro i
    simp only [PorterStemmer.skipWhile]
    split
    · exact le_trans (Nat.le_succ i) (ih (i + 1))
    · exact le_refl _

/-- With at least `n - i` iterations the loop `while (i < n && p(i)) i++` has run to its end:
it stands at `n` or beyond, or on an index where `p` fails; more iterations change
nothing. -/
theorem skipWhile_fuel (p : Nat → Bool) (n : Nat) : ∀ k i : Nat, n - i ≤ k →
    (PorterStemmer.skipWhile p n k i < n → p (PorterStemmer.skipWhile p n k i) = false)
    ∧ ∀ k2, n - i ≤ k2 → PorterStemmer.skipWhile p n k2 i = PorterStemmer.skipWhile p n k i := by
  intro k
  induction k with
  | zero =>
    intro i hk
    have hi : ¬ i < n := by omega
    refine ⟨by intro h; simp only [PorterStemmer.skipWhile] at h; omega, ?_⟩
    intro k2 _
    cases k2 with
    | zero => rfl
    | succ k2 => simp [PorterStemmer.skipWhile, hi]
  | succ k ih =>
    intro i hk
    simp only [PorterStemmer.skipWhile]
    by_cases hc : (decide (i < n) && p i) = true
    · rw [if_pos hc]
      simp only [Bool.and_eq_true, decide_eq_true_eq] at hc
      obtain ⟨h1, h2⟩ := ih (i + 1) (by omega)
      refine ⟨h1, ?_⟩
      intro k2 hk2
      cases k2 with
      | zero => omega
      | succ k2 =>
        simp only [PorterStemmer.skipWhile, hc.1, hc.2, decide_True, Bool.and_self, if_true]
        exact h2 k2 (by omega)
    · rw [if_neg hc]
      refine ⟨?_, ?_⟩
      · intro h
        simp only [Bool.and_eq_true, decide_eq_true_eq, not_and] at hc
        simpa using hc h
      · intro k2 _
        cases k2 with
        | zero => rfl
        | succ k2 => simp only [PorterStemmer.skipWhile, hc, if_false]; rfl

theorem skipWhile_advance (p : Nat → Bool) (n k i : Nat) (hi : i < n) (hp : p i = true) :
    i + 1 ≤ PorterStemmer.skipWhile p n (k + 1) i := by
  simp only [PorterStemmer.skipWhile, hi, hp, decide_True, Bool.and_self, if_true]
  exact skipWhile_ge p n k (i + 1)

/-- The outer loop of `m` advances `i` in every iteration that goes on, so `n - i` iterations
are enough: with that many or more the result is the same. -/
theorem mLoop_fuel (w : List Char) : ∀ (f1 f2 i m : Nat),
    w.length - i ≤ f1 → w.length - i ≤ f2 →
    PorterStemmer.mLoop w f1 i m = PorterStemmer.mLoop w f2 i m := by
  intro f1
  induction f1 with
  | zero =>
    intro f2 i m h1 _
    have hi : ¬ i < w.length := by omega
    cases f2 with
    | zero => rfl
    | succ f2 => simp [PorterStemmer.mLoop, hi]
  | succ f1 ih =>
    intro f2 i m h1 h2
    cases f2 with
    | zero =>
      have hi : ¬ i < w.length := by omega
      simp [PorterStemmer.mLoop, hi]
    | succ f2 =>
      simp only [PorterStemmer.mLoop]
      by_cases hi : i < w.length
      · rw [if_pos hi, if_pos hi]
        by_cases h3 : PorterStemmer.skipWhile (fun j => !PorterStemmer.isC w j) w.length
            w.length i ≥ w.length
        · rw [if_pos h3, if_pos h3]
        · rw [if_neg h3, if_neg h3]
          have hlt : PorterStemmer.skipWhile (fun j => !PorterStemmer.isC w j) w.length
              w.length i < w.length := by omega
          have hge := skipWhile_ge (fun j => !PorterStemmer.isC w j) w.length w.length i
          have hstop := (skipWhile_fuel (fun j => !PorterStemmer.isC w j) w.length w.length i
            (by omega)).1 hlt
          have hisC : PorterStemmer.isC w (PorterStemmer.skipWhile
              (fun j => !PorterStemmer.isC w j) w.length w.length i) = true := by
            simpa using hstop
          obtain ⟨n', hn'⟩ : ∃ n', w.length = n' + 1 := ⟨w.length - 1, by omega⟩
          have hadv := skipWhile_advance (fun j => PorterStemmer.isC w j) w.length n' _ hlt hisC
          rw [← hn'] at hadv
          apply ih
          · omega
          · omega
      · rw [if_neg hi, if_neg hi]

/-- The bound `w.size()` on the iterations of the outer loop of `m` is never what ends the
loop: every larger bound gives the same value. -/
theorem m_fuel (w : List Char) (fuel : Nat) (h : w.length ≤ fuel) :
    PorterStemmer.mLoop w fuel
        (PorterStemmer.skipWhile (fun j => PorterStemmer.isC w j) w.length w.length 0) 0
      = PorterStemmer.m w := by
  unfold PorterStemmer.m
  apply mLoop_fuel <;> omega

/-! ## Snippets -/

/-- The set `foundTerms` after the loop over a window from the set `acc`: its elements are
the elements of `acc` and the `lowerWord`s of the window that are query terms, each once. -/
theorem foundTerms_spec (qTerms : List (List Nat)) (window : List (List Nat)) :
    ∀ acc : List (List Nat), acc.Nodup →
      (window.foldl (foundStep qTerms) acc).Nodup
      ∧ ∀ x, x ∈ window.foldl (foundStep qTerms) acc
          ↔ x ∈ acc ∨ (x ∈ qTerms ∧ ∃ w ∈ window, lowerWord w = x) := by
  induction window with
  | nil => intro acc h; simp [h]
  | cons w ws ih =>
    intro acc h
    have hstep : (foundStep qTerms acc w).Nodup
        ∧ ∀ x, x ∈ foundStep qTerms acc w ↔ x ∈ acc ∨ (x ∈ qTerms ∧ lowerWord w = x) := by
      unfold foundStep
      by_cases h1 : lowerWord w ∈ qTerms
      · by_cases h2 : lowerWord w ∈ acc
        · simp only [h1, h2, if_true]
          refine ⟨h, ?_⟩
          intro x
          constructor
          · intro hx; exact Or.inl hx
          · rintro (hx | ⟨_, hx⟩)
            · exact hx
            · rw [← hx]; exact h2
        · simp only [h1, h2, if_true, if_false]
          refine ⟨?_, ?_⟩
          · rw [List.nodup_append]
            refine ⟨h, by simp, ?_⟩
            intro a ha hb
            rw [List.mem_singleton] at hb
            rw [hb] at ha
            exact h2 ha
          · intro x
            simp only [List.mem_append, List.mem_singleton]
            constructor
            · rintro (hx | hx)
              · exact Or.inl hx
              · rw [hx]; exact Or.inr ⟨h1, rfl⟩
            · rintro (hx | ⟨_, hx⟩)
              · exact Or.inl hx
              · exact Or.inr hx.symm
      · simp only [h1, if_false]
        refine ⟨h, ?_⟩
        intro x
        constructor
        · intro hx; exact Or.inl hx
        · rintro (hx | ⟨hq, hx⟩)
          · exact hx
          · rw [← hx] at hq; exact absurd hq h1
    obtain ⟨hn, hm⟩ := ih (foundStep qTerms acc w) hstep.1
    rw [List.foldl_cons]
    refine ⟨hn, ?_⟩
    intro x
    rw [hm, hstep.2]
    simp only [List.mem_cons, exists_eq_or_imp]
    tauto

/-- What the window loop counts is the number of distinct query terms in the window. -/
theorem windowScore_eq (qTerms : List (List Nat)) (docWords : List (List Nat)) (i : Nat) :
    windowScore qTerms docWords i
      = distinctTerms qTerms ((docWords.drop i).take SNIPPET_WORDS) := by
  unfold windowScore distinctTerms
  obtain ⟨hn, hm⟩ := foundTerms_spec qTerms ((docWords.drop i).take SNIPPET_WORDS) []
    List.nodup_nil
  apply List.Perm.length_eq
  rw [List.perm_ext_iff_of_nodup hn (List.nodup_dedup _)]
  intro x
  rw [hm, List.mem_dedup, List.mem_filter, List.mem_map]
  simp only [List.not_mem_nil, false_or, decide_eq_true_eq]
  tauto

/-- The window loop keeps the first window with the highest score among the windows it has
visited. -/
theorem windowLoop_spec (qTerms : List (List Nat)) (docWords : List (List Nat)) :
    ∀ (k i best : Nat) (maxScore : Int),
      ((maxScore = -1 ∧ i = 0 ∧ best = 0)
        ∨ (best < i ∧ maxScore = (windowScore qTerms docWords best : Int)
            ∧ (∀ j < i, windowScore qTerms docWords j ≤ windowScore qTerms docWords best)
            ∧ ∀ j < best, windowScore qTerms docWords j < windowScore qTerms docWords best)) →
      0 < i + k →
      (windowLoop qTerms docWords k i best maxScore).1 < i + k
      ∧ (windowLoop qTerms docWords k i best maxScore).2
          = (windowScore qTerms docWords (windowLoop qTerms docWords k i best maxScore).1 : Int)
      ∧ (∀ j < i + k, windowScore qTerms docWords j
            ≤ windowScore qTerms docWords (windowLoop qTerms docWords k i best maxScore).1)
      ∧ ∀ j < (windowLoop qTerms docWords k i best maxScore).1,
          windowScore qTerms docWords j
            < windowScore qTerms docWords (windowLoop qTerms docWords k i best maxScore).1 := by
  intro k
  induction k with
  | zero =>
    intro i best maxScore hinv hpos
    rcases hinv with ⟨_, h2, _⟩ | ⟨h1, h2, h3, h4⟩
    · omega
    · exact ⟨h1, h2, h3, h4⟩
  | succ k ih =>
    intro i best maxScore hinv hpos
    simp only [windowLoop]
    have e : i + (k + 1) = (i + 1) + k := by omega
    rw [e]
    by_cases hgt : (windowScore qTerms docWords i : Int) > maxScore
    · rw [if_pos hgt]
      apply ih (i + 1) i _ _ (by omega)
      right
      refine ⟨by omega, rfl, ?_, ?_⟩
      · intro j hj
        rcases hinv with ⟨_, h2, _⟩ | ⟨_, h2, h3, _⟩
        · have : j = i := by omega
          rw [this]
        · by_cases hji : j = i
          · rw [hji]
          · have := h3 j (by omega)
            rw [h2] at hgt
            omega
      · intro j hj
        rcases hinv with ⟨_, h2, _⟩ | ⟨_, h2, h3, _⟩
        · omega
        · have := h3 j hj
          rw [h2] at hgt
          omega
    · rw [if_neg hgt]
      apply ih (i + 1) best _ _ (by omega)
      right
      rcases hinv with ⟨h1, _, _⟩ | ⟨h1, h2, h3, h4⟩
      · exfalso
        apply hgt
        rw [h1]
        have : (0 : Int) ≤ (windowScore qTerms docWords i : Int) := Int.natCast_nonneg _
        omega
      · refine ⟨by omega, h2, ?_, h4⟩
        intro j hj
        by_cases hji : j = i
        · rw [hji]
          rw [h2] at hgt
          omega
        · exact h3 j (by omega)

/-- With at least `SNIPPET_WORDS` words, `bestWindowStart` is the start of the first window
with the highest score. -/
theorem snippetStart_spec (qTerms : List (List Nat)) (docWords : List (List Nat))
    (hlen : SNIPPET_WORDS ≤ docWords.length) :
    snippetStart qTerms docWords + SNIPPET_WORDS ≤ docWords.length
    ∧ (∀ j, j + SNIPPET_WORDS ≤ docWords.length →
        windowScore qTerms docWords j
          ≤ windowScore qTerms docWords (snippetStart qTerms docWords))
    ∧ ∀ j < snippetStart qTerms docWords,
        windowScore qTerms docWords j
          < windowScore qTerms docWords (snippetStart qTerms docWords) := by
  obtain ⟨h1, h2, h3, h4⟩ := windowLoop_spec qTerms docWords
    (docWords.length + 1 - SNIPPET_WORDS) 0 0 (-1) (Or.inl ⟨rfl, rfl, rfl⟩)
    (by simp only [SNIPPET_WORDS] at hlen ⊢; omega)
  have hs : snippetStart qTerms docWords
      = (windowLoop qTerms docWords (docWords.length + 1 - SNIPPET_WORDS) 0 0 (-1)).1 := by
    unfold snippetStart
    simp only
    split
    · rename_i h0
      rw [h2] at h0
      by_contra hne
      have hpos : 0 < (windowLoop qTerms docWords (docWords.length + 1 - SNIPPET_WORDS)
          0 0 (-1)).1 := by omega
      have := h4 0 hpos
      omega
    · rfl
  rw [hs]
  refine ⟨?_, ?_, h4⟩
  · simp only [SNIPPET_WORDS] at hlen h1 ⊢; omega
  · intro j hj
    exact h3 j (by simp only [SNIPPET_WORDS] at hlen hj ⊢; omega)

theorem snippetStart_short (qTerms : List (List Nat)) (docWords : List (List Nat))
    (hlen : docWords.length < SNIPPET_WORDS) : snippetStart qTerms docWords = 0 := by
  have : docWords.length + 1 - SNIPPET_WORDS = 0 := by
    simp only [SNIPPET_WORDS] at hlen ⊢; omega
  simp [snippetStart, this, windowLoop]

/-- The words of `generateSnippet` are the maximal runs of bytes that are not whitespace. -/
theorem splitWordsLoop_spec (text : List Nat) : ∀ (acc : List Nat) (docWords : List (List Nat)),
    splitWordsLoop text acc.reverse docWords
      = docWords ++ (List.splitOnP.go isspace text acc).filter (fun r => r ≠ []) := by
  induction text with
  | nil =>
    intro acc docWords
    simp only [splitWordsLoop, List.splitOnP.go]
    by_cases h : acc.reverse = []
    · rw [if_neg (by simpa using h), List.filter_cons_of_neg (by simpa using h)]
      simp
    · rw [if_pos h, List.filter_cons_of_pos (by simpa using h)]
      simp
  | cons c text ih =>
    intro acc docWords
    simp only [splitWordsLoop, List.splitOnP.go]
    by_cases hc : isspace c = true
    · simp only [hc, if_true]
      have h0 := ih []
      simp only [List.reverse_nil] at h0
      by_cases h : acc.reverse = []
      · rw [if_neg (by simpa using h), h, h0, List.filter_cons_of_neg (by simp)]
      · rw [if_pos h, h0, List.filter_cons_of_pos (by simpa using h)]
        simp
    · simp only [hc, Bool.false_eq_true, if_false]
      have := ih (c :: acc) docWords
      simpa using this

/-- C33: the words of a text are its maximal runs of bytes that are not whitespace. For a
text with at least 30 such words, the window of 30 consecutive words that `generateSnippet`
writes starts at a word `b` such that the window is inside the text, holds at least as many
distinct query terms as every 30-word window of the text, and every window that starts
before `b` holds strictly fewer; the snippet is `"... "` if `b > 0`, the 30 words of the
window, and `"..."` if words follow the window. For a text with fewer than 30 words the
snippet is all the words, with no ellipsis before or after. -/
theorem C33_snippet_window (text : List Nat) (queryTerms : List (List Nat)) (forCli : Bool) :
    splitWords text = (text.splitOnP isspace).filter (fun r => r ≠ [])
    ∧ (SNIPPET_WORDS ≤ (splitWords text).length →
      snippetStart queryTerms (splitWords text) + SNIPPET_WORDS ≤ (splitWords text).length
      ∧ (∀ i, i + SNIPPET_WORDS ≤ (splitWords text).length →
          distinctTerms queryTerms (((splitWords text).drop i).take SNIPPET_WORDS)
            ≤ distinctTerms queryTerms
                (((splitWords text).drop (snippetStart queryTerms (splitWords text))).take
                  SNIPPET_WORDS))
      ∧ (∀ i < snippetStart queryTerms (splitWords text),
          distinctTerms queryTerms (((splitWords text).drop i).take SNIPPET_WORDS)
            < distinctTerms queryTerms
                (((splitWords text).drop (snippetStart queryTerms (splitWords text))).take
                  SNIPPET_WORDS))
      ∧ generateSnippet text queryTerms forCli
          = (if snippetStart queryTerms (splitWords text) > 0 then [46, 46, 46, 32] else [])
            ++ ((((splitWords text).drop (snippetStart queryTerms (splitWords text))).take
                  SNIPPET_WORDS).map (renderWord queryTerms forCli)).flatten
            ++ (if snippetStart queryTerms (splitWords text) + SNIPPET_WORDS
                  < (splitWords text).length then [46, 46, 46] else []))
    ∧ ((splitWords text).length < SNIPPET_WORDS →
        generateSnippet text queryTerms forCli
          = ((splitWords text).map (renderWord queryTerms forCli)).flatten) := by
  refine ⟨?_, ?_, ?_⟩
  · have := splitWordsLoop_spec text [] []
    simpa [splitWords, List.splitOnP] using this
  · intro hlen
    obtain ⟨h1, h2, h3⟩ := snippetStart_spec queryTerms (splitWords text) hlen
    refine ⟨h1, ?_, ?_, ?_⟩
    · intro i hi
      rw [← windowScore_eq, ← windowScore_eq]
      exact h2 i hi
    · intro i hi
      rw [← windowScore_eq, ← windowScore_eq]
      exact h3 i hi
    · have hne : splitWords text ≠ [] := by
        intro h0
        rw [h0] at hlen
        simp [SNIPPET_WORDS] at hlen
      have hmin : min (splitWords text).length
          (snippetStart queryTerms (splitWords text) + SNIPPET_WORDS)
          = snippetStart queryTerms (splitWords text) + SNIPPET_WORDS := by
        omega
      simp only [generateSnippet, hne, if_false, hmin]
      rw [List.drop_take]
      simp
  · intro hlen
    by_cases hne : splitWords text = []
    · simp [generateSnippet, hne]
    · have h0 := snippetStart_short queryTerms (splitWords text) hlen
      have hmin : min (splitWords text).length (0 + SNIPPET_WORDS)
          = (splitWords text).length := by
        omega
      simp only [generateSnippet, hne, if_false, h0, hmin, List.take_length, List.drop_zero,
        lt_irrefl, List.nil_append, List.append_nil]

/-- C33 on a text of 33 words in which only the word at position 30 is a query term: the
window that starts at word 1 is the first that holds it. -/
theorem C33_snippet_window_witness :
    SNIPPET_WORDS ≤ (splitWords snippetText).length
    ∧ snippetStart [bytesOf "fox"] (splitWords snippetText) = 1
    ∧ snippetStart [bytesOf "fox"] (splitWords snippetText) + SNIPPET_WORDS
        ≤ (splitWords snippetText).length :=
  ⟨by decide, by decide,
    ((C33_snippet_window snippetText [bytesOf "fox"] false).2.1 (by decide)).1⟩

theorem tolower_iswpunct (c : Nat) : iswpunct (tolower c) = iswpunct c := by
  unfold tolower
  split
  · rename_i h
    have h1 : iswpunct c = false := by
      simp only [iswpunct, Bool.or_eq_false_iff, Bool.and_eq_false_iff, decide_eq_false_iff_not]
      omega
    have h2 : iswpunct (c + 32) = false := by
      simp only [iswpunct, Bool.or_eq_false_iff, Bool.and_eq_false_iff, decide_eq_false_iff_not]
      omega
    rw [h1, h2]
  · rfl

theorem lowerWord_eq (w : List Nat) :
    lowerWord w = (w.filter (fun c => !iswpunct c)).map tolower := by
  unfold lowerWord
  induction w with
  | nil => rfl
  | cons c w ih =>
    simp only [List.map_cons, List.filter_cons, tolower_iswpunct]
    split
    · rw [List.map_cons, ih]
    · exact ih

theorem filter_dropWhile_not (p : Nat → Bool) (l : List Nat) :
    (l.dropWhile p).filter (fun c => !p c) = l.filter (fun c => !p c) := by
  induction l with
  | nil => rfl
  | cons c l ih =>
    by_cases h : p c = true
    · simp [List.dropWhile, h, ih]
    · have h' : p c = false := by simpa using h
      simp [List.dropWhile, h']

theorem filter_eq_self_of_all (p : Nat → Bool) (l : List Nat) (h : ∀ c ∈ l, p c = false) :
    l.filter (fun c => !p c) = l := by
  rw [List.filter_eq_self]
  intro c hc
  simp [h c hc]

/-- For a word whose punctuation stands only at its beginning and at its end, removing every
punctuation byte and stripping the surrounding punctuation give the same. -/
theorem lowerWord_eq_strip (w : List Nat) (h : ∀ c ∈ stripSurrounding w, iswpunct c = false) :
    lowerWord w = stripSurrounding w := by
  have h1 : (stripSurrounding w).filter (fun c => !iswpunct c) = lowerWord w := by
    unfold stripSurrounding lowerWord
    rw [List.filter_reverse, filter_dropWhile_not, List.filter_reverse, List.reverse_reverse,
      filter_dropWhile_not]
  rw [← h1]
  exact filter_eq_self_of_all iswpunct _ h

/-- C34 (amended): in `generateSnippet` a document word counts as a query-term match exactly
when the word, lowercased and with every punctuation byte removed wherever it stands in the
word (`lowerWord`), is equal to one of the query terms: such a word, and no other, is marked
in the output, and the set `foundTerms` whose size is the score of a window holds exactly
the `lowerWord`s of the words of the window that are query terms, each once. For a word
whose punctuation stands only at its beginning and end, `lowerWord` is the word lowercased
with the surrounding punctuation stripped. -/
theorem C34_match_without_punctuation (queryTerms : List (List Nat)) (forCli : Bool)
    (w : List Nat) :
    lowerWord w = (w.filter (fun c => !iswpunct c)).map tolower
    ∧ (lowerWord w ∈ queryTerms →
        renderWord queryTerms forCli w
          = if forCli then [27, 91, 49, 59, 51, 49, 109] ++ w ++ [27, 91, 48, 109, 32]
            else [39] ++ w ++ [39, 32])
    ∧ (lowerWord w ∉ queryTerms → renderWord queryTerms forCli w = w ++ [32])
    ∧ (∀ window : List (List Nat),
        (window.foldl (foundStep queryTerms) []).Nodup
        ∧ ∀ x, x ∈ window.foldl (foundStep queryTerms) []
            ↔ x ∈ queryTerms ∧ ∃ v ∈ window, lowerWord v = x)
    ∧ (∀ (docWords : List (List Nat)) (i : Nat),
        windowScore queryTerms docWords i
          = distinctTerms queryTerms ((docWords.drop i).take SNIPPET_WORDS))
    ∧ ((∀ c ∈ stripSurrounding w, iswpunct c = false) → lowerWord w = stripSurrounding w) := by
  refine ⟨lowerWord_eq w, ?_, ?_, ?_, windowScore_eq queryTerms, lowerWord_eq_strip w⟩
  · intro h
    simp only [renderWord, h, if_true]
  · intro h
    simp only [renderWord, h, if_false]
  · intro window
    obtain ⟨hn, hm⟩ := foundTerms_spec queryTerms window [] List.nodup_nil
    refine ⟨hn, ?_⟩
    intro x
    rw [hm]
    simp

/-- C34 (counterexample): the document word `fo-x` has no punctuation at its beginning or
end, so lowercasing it and stripping the surrounding punctuation leaves `fo-x`, which is not
the query term `fox`; but `generateSnippet` removes the hyphen, counts the word as a match
for `fox` in the window score and marks it in the output. -/
theorem C34_inner_punctuation_matches :
    stripSurrounding (bytesOf "fo-x") = bytesOf "fo-x"
    ∧ stripSurrounding (bytesOf "fo-x") ∉ [bytesOf "fox"]
    ∧ lowerWord (bytesOf "fo-x") = bytesOf "fox"
    ∧ windowScore [bytesOf "fox"] (splitWords (bytesOf "fo-x")) 0 = 1
    ∧ generateSnippet (bytesOf "fo-x") [bytesOf "fox"] false = bytesOf "\x27fo-x\x27 " := by
  refine ⟨?_, ?_, ?_, ?_, ?_⟩ <;> decide

end WSE
